import Mathlib


/-!
# BLaDE: Viterbi solver, UPC-A joint decoder and decoder resolution gate

A shallow embedding of `ski/viterbi.h`, `UPCASymbology.cpp` and the resolution gate of
`Decoder.cpp`, with the properties of their specification stated and proved over it.

Conventions of the embedding.

* Energies live in an exact ordered additive monoid `E` (`Int` for `Viterbi<int>`, the
  rationals extended by `⊤` for `Viterbi<double>`, where `⊤` is IEEE `+inf`).
* `ski::MaxValue<T>() / 2`, the energy given to the unused sub-states of the first variable,
  is the explicit parameter `halfMax`.
* A `SubState::prevState` pointer always targets a sub-state of the previous variable, which
  is never written again before the pointer is followed; the pointer is therefore embedded
  as `Link`, either `null` or the contents of the pointee.
* `std::partial_sort_copy` and `std::partial_sort` leave the relative order of equal
  elements unspecified.  They are embedded as the two functions of a `StdSort` record that
  carries exactly the guarantee of the C++ standard, so that every theorem quantified over
  `StdSort` holds for every conforming standard library.
-/

namespace Viterbi

/-- Embedding of a `const SubState*`: `null`, or the fields of the sub-state pointed to. -/
inductive Link (E : Type) where
  | null : Link E
  | ref (energy : E) (index : Int) (path : Nat) (prevState : Link E) : Link E

/-- Embedding of `Viterbi<T>::SubState`. -/
structure SubState (E : Type) where
  energy : E
  index : Int
  path : Nat
  prevState : Link E

/-- Embedding of `Viterbi<T>::State`. -/
structure State (E : Type) where
  index : Int
  nPaths : Nat
  substates : List (SubState E)

/-- Embedding of `Viterbi<T>::Variable`. -/
structure Variable (E : Type) where
  states : List (State E)
  index : Nat
  nPaths : Nat

/-- Embedding of `Viterbi<T>::Solution`. -/
structure Solution (E : Type) where
  energy : E
  sequence : List Int

/-- Embedding of `TMatrix_`: the shape and the element accessor `operator()(row, col)`. -/
structure TMatrix (E : Type) where
  rows : Nat
  cols : Nat
  get : Nat → Nat → E

/-- The ways in which a call can fail: the exceptions that leave the source
(`std::invalid_argument`, `std::logic_error`, and a plain `std::exception`, which is what a
handler `catch (exception &aErr) { throw aErr; }` throws), and the executions the C++
standard leaves undefined (null or out-of-range access). -/
inductive Err where
  | invalid_argument : Err
  | logic_error : Err
  | exception : Err
  | undefined_behaviour : Err
  deriving DecidableEq, Repr

/-- The handler `catch (exception &aErr) { throw aErr; }`: the operand of `throw` has the
static type `std::exception`, so the object thrown is a copy of that base part only,
whatever exception was caught.  An undefined execution is not an exception and is not
caught. -/
def rethrow {α : Type} : Except Err α → Except Err α
  | Except.error Err.undefined_behaviour => Except.error Err.undefined_behaviour
  | Except.error _ => Except.error Err.exception
  | Except.ok a => Except.ok a

/-- The comparison `SubState::operator<` induces: `a` may precede `b` in sorted output. -/
def SubState.le {E : Type} [LE E] (a b : SubState E) : Prop := a.energy ≤ b.energy

instance SubState.decLe {E : Type} [LE E] [DecidableRel (fun (a b : E) => a ≤ b)] :
    DecidableRel (SubState.le (E := E)) :=
  fun a b => inferInstanceAs (Decidable (a.energy ≤ b.energy))

/-- What the C++ standard promises of a partial sort of `l` keeping `k` elements: the result
is the first `k` elements of some ascending rearrangement of `l`. -/
def IsPartialSort {E : Type} [LE E] (l : List (SubState E)) (k : Nat)
    (r : List (SubState E)) : Prop :=
  ∃ l', List.Perm l' l ∧ List.Sorted SubState.le l' ∧ r = l'.take k

/-- The two standard-library algorithms the solver calls.  `partial_sort_copy l k` is the
content written to a destination range of length `k`; `partial_sort l k` is the content of
the first `k` slots after the in-place call. -/
structure StdSort (E : Type) [LE E] where
  partial_sort_copy : List (SubState E) → Nat → List (SubState E)
  partial_sort : List (SubState E) → Nat → List (SubState E)
  partial_sort_copy_spec : ∀ l k, IsPartialSort l k (partial_sort_copy l k)
  partial_sort_spec : ∀ l k, IsPartialSort l k (partial_sort l k)

/-- The address of a sub-state, `&(*pSS)`. -/
def SubState.addr {E : Type} (s : SubState E) : Link E :=
  Link.ref s.energy s.index s.path s.prevState

/-- Constructor `SubState(i)`: energy `(T) 0`, path `0`, `prevState = NULL`. -/
def SubState.init {E : Type} [Zero E] (i : Int) : SubState E :=
  { energy := 0, index := i, path := 0, prevState := Link.null }

/-- Constructor `State(i, n)`: `n` copies of `SubState(i)`. -/
def State.init {E : Type} [Zero E] (i : Int) (n : Nat) : State E :=
  { index := i, nPaths := n, substates := List.replicate n (SubState.init i) }

/-- Constructor `Variable(t, p)`: no states yet. -/
def Variable.init {E : Type} (t p : Nat) : Variable E :=
  { states := [], index := t, nPaths := p }

/-- Method `Variable::resize`: push `State(n, nPaths)` for `n = size .. nStates-1`, then erase
everything from position `nStates` on. -/
def Variable.resize {E : Type} [Zero E] (v : Variable E) (nStates : Nat) : Variable E :=
  { v with states :=
      (v.states ++ (List.range' v.states.length (nStates - v.states.length)).map
        (fun n => State.init (Int.ofNat n) v.nPaths)).take nStates }

/-- Inner loop of `calculate(prior)`: the first sub-state receives the prior, every other
one `MaxValue<T>() / 2`; `path` is numbered from `j`. -/
def seedSubstates {E : Type} (p halfMax : E) : Nat → List (SubState E) → List (SubState E)
  | _, [] => []
  | j, ss :: rest =>
    { ss with energy := (if j = 0 then p else halfMax), path := j } ::
      seedSubstates p halfMax (j + 1) rest

/-- Method `Variable::calculate(prior)`: the first variable. -/
def Variable.calculatePrior {E : Type} [Zero E] (halfMax : E) (v : Variable E)
    (prior : List E) : Variable E :=
  let v1 := v.resize prior.length
  let seeded := List.zipWith
    (fun s p => { s with substates := seedSubstates p halfMax 0 s.substates }) v1.states prior
  { v1 with states := seeded }

/-- The candidates written to `allPaths` for one target state `n`: for every previous state
`pN` and each of its sub-states, energy `(prior[n] + conditional(pN, n)) + pSS->energy` and
a back-pointer to that sub-state.  (`index` and `path` of an `allPaths` slot are stale and
are overwritten after the sort.) -/
def allPathsFrom {E : Type} [Add E] (cond : TMatrix E) (statePriorEnergy : E) (n : Nat) :
    Nat → List (State E) → List (SubState E)
  | _, [] => []
  | pN, pS :: rest =>
    pS.substates.map (fun pSS =>
      { energy := (statePriorEnergy + cond.get pN n) + pSS.energy,
        index := 0, path := 0, prevState := pSS.addr }) ++
      allPathsFrom cond statePriorEnergy n (pN + 1) rest

/-- The loop "Fix path numbers": `index = n`, `path = i++`. -/
def fixPaths {E : Type} (n : Nat) : Nat → List (SubState E) → List (SubState E)
  | _, [] => []
  | i, ss :: rest => { ss with index := Int.ofNat n, path := i } :: fixPaths n (i + 1) rest

/-- Body of the loop over the states of `calculate(prevVar, prior, conditional)`. -/
def State.calculate {E : Type} [LE E] [Add E] (S : StdSort E) (prevVar : Variable E)
    (cond : TMatrix E) (n : Nat) (s : State E) (statePriorEnergy : E) : State E :=
  let allPaths := allPathsFrom cond statePriorEnergy n 0 prevVar.states
  let sorted := S.partial_sort_copy allPaths s.substates.length
  { s with substates := fixPaths n 0 (sorted ++ s.substates.drop sorted.length) }

/-- The loop over the states, with the running state number `n`. -/
def calculateStates {E : Type} [LE E] [Add E] (S : StdSort E) (prevVar : Variable E)
    (cond : TMatrix E) : Nat → List (State E) → List E → List (State E)
  | n, s :: ss, p :: ps =>
    State.calculate S prevVar cond n s p :: calculateStates S prevVar cond (n + 1) ss ps
  | _, _, _ => []

/-- Method `Variable::calculate(prevVar, prior, conditional)`. -/
def Variable.calculate {E : Type} [LE E] [Add E] [Zero E] (S : StdSort E) (v : Variable E)
    (prevVar : Variable E) (prior : List E) (cond : TMatrix E) : Except Err (Variable E) :=
  let v1 := if prior.length ≠ v.states.length then v.resize prior.length else v
  if cond.rows ≠ prevVar.states.length ∨ cond.cols ≠ v1.states.length then
    Except.error Err.logic_error
  else
    Except.ok { v1 with states := calculateStates S prevVar cond 0 v1.states prior }

/-- Method `Variable::bestStates`: gather every sub-state, partially sort the first `nPaths`, keep
them.  With fewer than `nPaths` sub-states `begin() + nPaths` is past the end, which is
undefined. -/
def Variable.bestStates {E : Type} [LE E] [Zero E] (S : StdSort E) (v : Variable E) :
    Except Err (List (SubState E)) :=
  let beststates := v.states.flatMap (fun s => s.substates)
  if beststates.length < v.nPaths then Except.error Err.undefined_behaviour
  else
    let sorted := S.partial_sort beststates v.nPaths
    Except.ok (sorted ++ List.replicate (v.nPaths - sorted.length) (SubState.init (-1)))

/-- The checks of `Viterbi::initialize` on the matrices: `conditionals_[t-1]` must be
`priors_[t-1].size() x priors_[t].size()`. -/
def shapesOk {E : Type} : List (List E) → List (TMatrix E) → Bool
  | p0 :: p1 :: ps, c :: cs =>
    (c.rows == p0.length && c.cols == p1.length) && shapesOk (p1 :: ps) cs
  | _, _ => true

/-- Method `Viterbi::initialize`: the length check, then the shape checks. -/
def initialise {E : Type} (priors : List (List E)) (conditionals : List (TMatrix E)) :
    Except Err Unit :=
  if Int.ofNat conditionals.length ≠ Int.ofNat priors.length - 1 then
    Except.error Err.logic_error
  else if shapesOk priors conditionals then Except.ok ()
  else Except.error Err.logic_error

/-- The loop of `Viterbi::run` from variable `t` on: `vars_[t].calculate(vars_[t-1],
priors_[t], conditionals_[t-1])`.  Returns `vars_[t], vars_[t+1], ...`. -/
def runFrom {E : Type} [LE E] [Add E] [Zero E] (S : StdSort E) (nPaths : Nat) :
    Variable E → Nat → List (List E) → List (TMatrix E) → Except Err (List (Variable E))
  | _, _, [], _ => Except.ok []
  | _, _, _ :: _, [] => Except.error Err.undefined_behaviour
  | prev, t, p :: ps, c :: cs =>
    match (Variable.init t nPaths).calculate S prev p c with
    | Except.error e => Except.error e
    | Except.ok v =>
      match runFrom S nPaths v (t + 1) ps cs with
      | Except.error e => Except.error e
      | Except.ok vs => Except.ok (v :: vs)

/-- Method `Viterbi::run`: returns `vars_`. -/
def run {E : Type} [LE E] [Add E] [Zero E] (S : StdSort E) (halfMax : E) (nPaths : Nat)
    (priors : List (List E)) (conditionals : List (TMatrix E)) :
    Except Err (List (Variable E)) :=
  match priors with
  | [] => Except.error Err.undefined_behaviour
  | p0 :: ps =>
    let v0 := (Variable.init 0 nPaths).calculatePrior halfMax p0
    match runFrom S nPaths v0 1 ps conditionals with
    | Except.error e => Except.error e
    | Except.ok vs => Except.ok (v0 :: vs)

/-- The inner loop of `backtrack`: `time` times, record `aState->index` and move to
`aState->prevState`.  The sequence is filled from its last position down to position 0;
dereferencing `NULL` is undefined. -/
def walk {E : Type} : Nat → Link E → Option (List Int)
  | 0, _ => some []
  | _ + 1, Link.null => none
  | t + 1, Link.ref _ i _ prev => (walk t prev).map (fun s => s ++ [i])

/-- One turn of the outer loop of `backtrack`. -/
def backtrackOne {E : Type} (time : Nat) (aState : SubState E) : Except Err (Solution E) :=
  match walk time aState.addr with
  | none => Except.error Err.undefined_behaviour
  | some s => Except.ok { energy := aState.energy, sequence := s }

/-- The outer loop of `backtrack` over the final sub-states `finalStates[0 .. nPaths-1]`. -/
def backtrackAll {E : Type} (time : Nat) : List (SubState E) → Except Err (List (Solution E))
  | [] => Except.ok []
  | aState :: rest =>
    match backtrackOne time aState with
    | Except.error e => Except.error e
    | Except.ok sol =>
      match backtrackAll time rest with
      | Except.error e => Except.error e
      | Except.ok sols => Except.ok (sol :: sols)

/-- Method `Viterbi::backtrack`. -/
def backtrack {E : Type} [LE E] [Zero E] (S : StdSort E) (nPaths : Nat)
    (vars : List (Variable E)) (finalState : Int) : Except Err (List (Solution E)) :=
  match vars.getLast? with
  | none => Except.error Err.undefined_behaviour
  | some lastVar =>
    let finalStates : Except Err (List (SubState E)) :=
      if finalState = -1 then lastVar.bestStates S
      else match lastVar.states.get? finalState.toNat with
        | none => Except.error Err.undefined_behaviour
        | some st => Except.ok st.substates
    match finalStates with
    | Except.error e => Except.error e
    | Except.ok fs =>
      if fs.length < nPaths then Except.error Err.undefined_behaviour
      else backtrackAll vars.length (fs.take nPaths)

/-- Method `Viterbi::solve(finalState)` on a freshly constructed `Viterbi(priors, conditionals,
nPaths)`; the result is the member `solutions`.  The check of `finalState` throws
`invalid_argument` before the `try` block; what `initialize`, `run` or `backtrack` throw
inside it is caught and thrown again by value. -/
def solve {E : Type} [LE E] [Add E] [Zero E] (S : StdSort E) (halfMax : E) (nPaths : Nat)
    (priors : List (List E)) (conditionals : List (TMatrix E)) (finalState : Int) :
    Except Err (List (Solution E)) :=
  match priors.getLast? with
  | none => Except.error Err.undefined_behaviour
  | some last =>
    if finalState ≥ Int.ofNat last.length ∨ finalState < -1 then
      Except.error Err.invalid_argument
    else
      rethrow
        (match initialise priors conditionals with
        | Except.error e => Except.error e
        | Except.ok _ =>
          match run S halfMax nPaths priors conditionals with
          | Except.error e => Except.error e
          | Except.ok vars => backtrack S nPaths vars finalState)

/-- A conforming `StdSort`: stable insertion sort followed by truncation.  Used to run the
solver on concrete inputs. -/
def stableSort {E : Type} [LinearOrder E] : StdSort E where
  partial_sort_copy l k := (l.insertionSort SubState.le).take k
  partial_sort l k := (l.insertionSort SubState.le).take k
  partial_sort_copy_spec l _ :=
    ⟨l.insertionSort SubState.le, List.perm_insertionSort _ l,
      @List.sorted_insertionSort _ SubState.le _
        ⟨fun a b => le_total a.energy b.energy⟩
        ⟨fun a b c (h1 : a.energy ≤ b.energy) (h2 : b.energy ≤ c.energy) => le_trans h1 h2⟩ l,
      rfl⟩
  partial_sort_spec l _ :=
    ⟨l.insertionSort SubState.le, List.perm_insertionSort _ l,
      @List.sorted_insertionSort _ SubState.le _
        ⟨fun a b => le_total a.energy b.energy⟩
        ⟨fun a b c (h1 : a.energy ≤ b.energy) (h2 : b.energy ≤ c.energy) => le_trans h1 h2⟩ l,
      rfl⟩

/-! ### Specification-level notions for the solver -/

/-- The sum `Σ_t p_t[s_t]` along a state sequence. -/
def sumPriors {E : Type} [Add E] [Zero E] : List (List E) → List Nat → E
  | p :: ps, s :: ss => p.getD s 0 + sumPriors ps ss
  | _, _ => 0

/-- The sum `Σ_t c_t[s_t, s_{t+1}]` along a state sequence. -/
def sumConds {E : Type} [Add E] [Zero E] : List (TMatrix E) → List Nat → E
  | c :: cs, a :: b :: ss => c.get a b + sumConds cs (b :: ss)
  | _, _ => 0

/-- Total energy of a state sequence: `Σ_t p_t[s_t] + Σ_t c_t[s_t, s_{t+1}]`. -/
def totalEnergy {E : Type} [Add E] [Zero E] (priors : List (List E))
    (conditionals : List (TMatrix E)) (s : List Nat) : E :=
  sumPriors priors s + sumConds conditionals s

/-- Energy of the path that follows the sequence `s` but starts from an unused sub-state of
the first variable: the first prior is replaced by `halfMax`. -/
def fillerEnergy {E : Type} [Add E] [Zero E] (halfMax : E) (priors : List (List E))
    (conditionals : List (TMatrix E)) (s : List Nat) : E :=
  halfMax + (sumPriors priors.tail s.tail + sumConds conditionals s)

/-- Every state sequence `(s_0, ..., s_{T-1})` with `s_t < n_t`. -/
def allSequences {E : Type} : List (List E) → List (List Nat)
  | [] => [[]]
  | p :: ps => (List.range p.length).flatMap (fun i => (allSequences ps).map (fun s => i :: s))

/-- The state sequences that end in state `f`. -/
def sequencesEndingIn {E : Type} (priors : List (List E)) (f : Nat) : List (List Nat) :=
  (allSequences priors).filter (fun s => s.getLast? == some f)

/-- A consistent input: `T ≥ 1` layers, every layer with at least one state, `T - 1`
conditional matrices, `conditionals[t]` of shape `n_t × n_{t+1}`. -/
def Consistent {E : Type} (priors : List (List E)) (conditionals : List (TMatrix E)) : Prop :=
  priors ≠ [] ∧ (∀ p ∈ priors, p ≠ []) ∧ conditionals.length + 1 = priors.length ∧
    ∀ t c p q, conditionals.get? t = some c → priors.get? t = some p →
      priors.get? (t + 1) = some q → c.rows = p.length ∧ c.cols = q.length

/-- The sentinel `halfMax` is large enough for the input: no path seeded with `halfMax`
in place of its first prior has an energy below the total energy of a state sequence. -/
def SentinelDominates {E : Type} [LE E] [Add E] [Zero E] (halfMax : E)
    (priors : List (List E)) (conditionals : List (TMatrix E)) : Prop :=
  ∀ r ∈ allSequences priors, ∀ s ∈ allSequences priors,
    totalEnergy priors conditionals r ≤ fillerEnergy halfMax priors conditionals s

/-- The sentinel is strictly larger: every path seeded with `halfMax` has an energy above
the total energy of every state sequence. -/
def SentinelExceeds {E : Type} [LT E] [Add E] [Zero E] (halfMax : E)
    (priors : List (List E)) (conditionals : List (TMatrix E)) : Prop :=
  ∀ r ∈ allSequences priors, ∀ s ∈ allSequences priors,
    totalEnergy priors conditionals r < fillerEnergy halfMax priors conditionals s

/-- An input of `Viterbi<double>` all of whose energies are finite. -/
def FiniteInput (priors : List (List (WithTop ℚ))) (conditionals : List (TMatrix (WithTop ℚ))) :
    Prop :=
  (∀ p ∈ priors, ∀ x ∈ p, x ≠ ⊤) ∧ (∀ c ∈ conditionals, ∀ i j, c.get i j ≠ ⊤)

/-- A matrix given by its rows, as the test program fills it. -/
def TMatrix.ofRows {E : Type} [Zero E] (l : List (List E)) : TMatrix E :=
  { rows := l.length, cols := (l.headD []).length,
    get := fun i j => (l.getD i []).getD j 0 }

/-- The priors of `testViterbi`. -/
def testPriors : List (List Int) := [[1, 1, 2], [2, 1, 0], [1, 1, 2], [0, 1, 1]]

/-- The conditionals of `testViterbi`. -/
def testConditionals : List (TMatrix Int) :=
  [TMatrix.ofRows [[1, 0, 1], [0, 1, 2], [1, 2, 1]],
   TMatrix.ofRows [[0, 1, 1], [1, 2, 1], [3, 0, 1]],
   TMatrix.ofRows [[2, 2, 1], [3, 1, 0], [1, 0, 2]]]

/-- A conditional matrix with one row, one column and entry 0. -/
def zeroOneByOne : TMatrix Int := TMatrix.ofRows [[0]]

/-- The value of `ski::MaxValue<int>() / 2` for a 32-bit `int`. -/
def halfMaxInt : Int := 1073741823

/-! ### Reference objects of the correctness proof -/

/-- The state indices met when following a back-pointer chain, current state first. -/
def Link.indices {E : Type} : Link E → List Int
  | Link.null => []
  | Link.ref _ i _ prev => i :: Link.indices prev

/-- Reference enumeration for the forward pass.  `P` lists the priors of the variables
processed so far, latest first; the result lists every state sequence through them that
ends in state `n`, also latest state first. -/
def revSeqs {E : Type} : List (List E) → Nat → List (List Nat)
  | [], _ => []
  | [_], n => [[n]]
  | _ :: q :: P, n =>
    (List.range' 0 q.length).flatMap (fun pN => (revSeqs (q :: P) pN).map (fun r => n :: r))

/-- Energy accumulated along a reversed sequence in the order the forward pass adds it up:
`(prior[n] + conditional(pN, n)) + previous energy`, from `seed` at the first variable. -/
def accEnergy {E : Type} [Add E] [Zero E] (seed : Nat → E) :
    List (List E) → List (TMatrix E) → List Nat → E
  | _, _, [n] => seed n
  | p :: P, c :: C, n :: pN :: r => (p.getD n 0 + c.get pN n) + accEnergy seed P C (pN :: r)
  | _, _, _ => 0

/-- Seed of a genuine path: the prior of its first state. -/
def seedReal {E : Type} [Zero E] (P : List (List E)) : Nat → E :=
  fun n => (P.getLastD []).getD n 0

/-- Energies of all the paths, genuine or seeded with `halfMax`, that reach state `n` when
no path is ever discarded. -/
def extEnergies {E : Type} [Add E] [Zero E] (halfMax : E) (K : Nat) (P : List (List E))
    (C : List (TMatrix E)) (n : Nat) : List E :=
  (revSeqs P n).flatMap (fun r =>
    accEnergy (seedReal P) P C r :: List.replicate (K - 1) (accEnergy (fun _ => halfMax) P C r))

/-- The list `en` consists of smallest elements of `U`. -/
def SplitOf {E : Type} [LE E] (en U : List E) : Prop :=
  ∃ rest, List.Perm U (en ++ rest) ∧ ∀ x ∈ en, ∀ y ∈ rest, x ≤ y

/-- A sub-state of state `n` is well formed: its chain spells a state sequence ending in
`n`, and its energy is the energy of that sequence, genuine or seeded with `halfMax`. -/
def SubOK {E : Type} [Add E] [Zero E] (halfMax : E) (K : Nat) (P : List (List E))
    (C : List (TMatrix E)) (n : Nat) (ss : SubState E) : Prop :=
  ∃ r ∈ revSeqs P n, ss.addr.indices = r.map Int.ofNat ∧
    (ss.energy = accEnergy (seedReal P) P C r ∨
      (2 ≤ K ∧ ss.energy = accEnergy (fun _ => halfMax) P C r))

/-- Invariant of one state after the forward pass has processed the variables `P`. -/
def StateInv {E : Type} [LE E] [Add E] [Zero E] (halfMax : E) (K : Nat) (P : List (List E))
    (C : List (TMatrix E)) (n : Nat) (st : State E) : Prop :=
  st.substates.length = K ∧ (∀ ss ∈ st.substates, SubOK halfMax K P C n ss) ∧
    SplitOf (st.substates.map (fun ss => ss.energy)) (extEnergies halfMax K P C n) ∧
    (2 ≤ P.length → List.Sorted (fun a b => a ≤ b) (st.substates.map (fun ss => ss.energy))) ∧
    (P.length = 1 → (st.substates.map (fun ss => ss.energy)).head? = some (seedReal P n))

/-- Invariant of a variable after the forward pass has processed the variables `P`. -/
def VarInv {E : Type} [LE E] [Add E] [Zero E] (halfMax : E) (K : Nat) (P : List (List E))
    (C : List (TMatrix E)) (v : Variable E) : Prop :=
  v.nPaths = K ∧ ∃ p, P.head? = some p ∧
    List.Forall₂ (StateInv halfMax K P C) (List.range' 0 p.length) v.states

/-- The solution `backtrack` writes for a final sub-state whose chain is complete. -/
def solutionOf {E : Type} (ss : SubState E) : Solution E :=
  { energy := ss.energy, sequence := (Link.indices ss.addr).reverse }

/-- The input checks of `solve` in the form the forward pass consumes them. -/
def WellShaped {E : Type} (priors : List (List E)) (cs : List (TMatrix E)) : Prop :=
  priors ≠ [] ∧ (∀ p ∈ priors, p ≠ []) ∧ cs.length + 1 = priors.length ∧
    shapesOk priors cs = true

/-- The state sequences a call `solve(finalState)` chooses among: all of them for
`finalState = -1`, otherwise those that end in `finalState`. -/
def candidates {E : Type} (priors : List (List E)) (finalState : Int) : List (List Nat) :=
  if finalState = -1 then allSequences priors else sequencesEndingIn priors finalState.toNat

/-- The energies of the solutions of a completed call. -/
def energiesOf {E : Type} : Except Err (List (Solution E)) → Option (List E)
  | Except.ok sols => some (sols.map (fun sol => sol.energy))
  | Except.error _ => none

/-- The sequences of the solutions of a completed call. -/
def sequencesOf {E : Type} : Except Err (List (Solution E)) → Option (List (List Int))
  | Except.ok sols => some (sols.map (fun sol => sol.sequence))
  | Except.error _ => none

end Viterbi

/-! # UPC-A symbology: state maps and joint decoder (`UPCASymbology.cpp`) -/

/-! ### IEEE 754 binary64 on the rationals

The values of `double` that are finite are rationals; the operations below are those of
binary64 with rounding to nearest, ties to even. -/

namespace Double

/-- The number of binary digits of `n`, for `n` below `2 ^ fuel`. -/
def bitLength : Nat → Nat → Nat
  | 0, _ => 0
  | fuel + 1, n => if n = 0 then 0 else bitLength fuel (n / 2) + 1

/-- The binary exponent of the positive rational `n / d`: the `e` with
`2^e ≤ n / d < 2^(e+1)`. -/
def exponent (n d : Nat) : Int :=
  let e0 : Int := (bitLength 2200 n : Int) - (bitLength 2200 d : Int)
  if d * 2 ^ e0.toNat ≤ n * 2 ^ (-e0).toNat then e0 else e0 - 1

/-- The quotient `p / r` rounded to the nearest integer, ties to even. -/
def roundHalfEven (p r : Nat) : Nat :=
  let m := p / r
  if 2 * (p % r) < r then m else if r < 2 * (p % r) then m + 1
  else if m % 2 = 0 then m else m + 1

/-- The rational `m * 2^q`. -/
def scale (m : Nat) (q : Int) : ℚ := mkRat (Int.ofNat (m * 2 ^ q.toNat)) (2 ^ (-q).toNat)

/-- The `double` nearest to the rational `a`, ties to even: a significand of 53 binary
digits, or a multiple of `2^-1074` below `2^-1022`.  A result of `2^1024` or more stands
for an overflow to infinity. -/
def round (a : ℚ) : ℚ :=
  if a.num = 0 then 0
  else
    let q : Int := max (exponent a.num.natAbs a.den) (-1022) - 52
    let m := roundHalfEven (a.num.natAbs * 2 ^ (-q).toNat) (a.den * 2 ^ q.toNat)
    if 0 < a.num then scale m q else -scale m q

/-- The integer part of the square root of `n`, for `n` below `4 ^ k`, found one binary
digit at a time from digit `k - 1` down. -/
def isqrtBits : Nat → Nat → Nat → Nat
  | 0, _, r => r
  | k + 1, n, r => isqrtBits k n (if (r + 2 ^ k) * (r + 2 ^ k) ≤ n then r + 2 ^ k else r)

/-- The function `std::sqrt` on a `double` that is not negative: the `double` nearest to the
square root.  With `q` chosen so that the root lies between `2^52 * 2^q` and `2^53 * 2^q`,
the significand is the integer nearest to the root of `a / 4^q`. -/
def sqrt (a : ℚ) : ℚ :=
  if a.num ≤ 0 then 0
  else
    let q : Int := exponent a.num.natAbs a.den / 2 - 52
    let xn : Nat := a.num.natAbs * 4 ^ (-q).toNat
    let xd : Nat := a.den * 4 ^ q.toNat
    let m := isqrtBits 54 (xn / xd) 0
    let m1 : Nat :=
      if 4 * xn < (2 * m + 1) ^ 2 * xd then m
      else if (2 * m + 1) ^ 2 * xd < 4 * xn then m + 1
      else if m % 2 = 0 then m else m + 1
    scale m1 q

/-- The conversion `(int) x` of a `double` inside the range of `int`: truncation toward
zero. -/
def toInt (x : ℚ) : Int := Int.tdiv x.num x.den

/-- The sum `a + b` of two doubles that are not negative, each a rational or `+inf`: the
exact sum rounded to the nearest `double`, and `+inf` when the rounded sum reaches
`2^1024`. -/
def add (a b : WithTop ℚ) : WithTop ℚ :=
  match (a : Option ℚ), (b : Option ℚ) with
  | some x, some y =>
    if 2 ^ 1024 * (round (x + y)).den ≤ (round (x + y)).num.natAbs then ⊤
    else ((round (x + y) : ℚ) : WithTop ℚ)
  | _, _ => ⊤

end Double

namespace UpcaSymbology

open Viterbi

/-- The type `TEnergy` is `double`, embedded in exact arithmetic: the rationals, extended by
`⊤` for IEEE `+inf`.  Sums and quotients are the exact ones: the embedding describes the
source wherever no sum or quotient of the `double` computation is rounded or overflows. -/
abbrev TEnergy : Type := WithTop ℚ

/-- A freshly constructed `TMatrixUInt(10, 10)`: every element value-initialised to 0. -/
def zeroMap : TMatrix Nat := { rows := 10, cols := 10, get := fun _ _ => 0 }

/-- The assignment `m(r, c) = v`. -/
def setEntry (m : TMatrix Nat) (r c v : Nat) : TMatrix Nat :=
  { m with get := fun i j => if i = r ∧ j = c then v else m.get i j }

/-- The two nested loops of the constructor that set up the joint decoder.  The first
component is `stateDigitMapForOddSymbol_`, the second `stateDigitMapForEvenSymbol_`. -/
def buildMaps : TMatrix Nat × TMatrix Nat :=
  (List.range 10).foldl (fun maps prevState =>
    (List.range 10).foldl (fun maps digit =>
      (setEntry maps.1 prevState ((3 * digit + prevState) % 10) digit,
       setEntry maps.2 prevState ((digit + prevState) % 10) digit)) maps) (zeroMap, zeroMap)

/-- The member `stateDigitMapForOddSymbol_` after construction. -/
def stateDigitMapForOddSymbol : TMatrix Nat := buildMaps.1

/-- The member `stateDigitMapForEvenSymbol_` after construction. -/
def stateDigitMapForEvenSymbol : TMatrix Nat := buildMaps.2

/-- Method `UpcaSymbology::getDigitFromStates`. -/
def getDigitFromStates (prevState curState symbol : Nat) : Nat :=
  if symbol % 2 = 0 then stateDigitMapForOddSymbol.get prevState curState
  else stateDigitMapForEvenSymbol.get prevState curState

/-- The value of `nDataSymbols()` of the UPC-A symbology: the constructor adds six data symbols before
and six after the middle guard. -/
def nDataSymbols : Nat := 12

/-- The vector `priors` after the "single energies" loop of `estimate`: the first entry is
filled from the energy matrix, the others keep their initial zeros. -/
def priorsOf (energies : TMatrix ℚ) : List (List TEnergy) :=
  (List.range 10).map (fun curState =>
    ((energies.get (getDigitFromStates 0 curState 0) 0 : ℚ) : TEnergy)) ::
  List.replicate (nDataSymbols - 1) (List.replicate 10 0)

/-- The matrix `conditionals[t-1]` after the "conditionals" loop of `estimate`. -/
def conditionalAt (energies : TMatrix ℚ) (t : Nat) : TMatrix TEnergy :=
  { rows := 10, cols := 10,
    get := fun prevState curState =>
      ((energies.get (getDigitFromStates prevState curState t) t : ℚ) : TEnergy) }

/-- The vector `conditionals` after the "conditionals" loop, `t = 1 .. nSymbols - 1`. -/
def conditionalsOf (energies : TMatrix ℚ) : List (TMatrix TEnergy) :=
  (List.range' 1 (nDataSymbols - 1)).map (conditionalAt energies)

/-- The loop that turns the best state sequence into digits: `prevState = curState;
curState = bestseq[t]; upcaEstimate[t] = getDigitFromStates(prevState, curState, t)`. -/
def digitsFrom : Nat → Nat → List Int → List Nat
  | _, _, [] => []
  | curState, t, b :: rest =>
    getDigitFromStates curState b.toNat t :: digitsFrom b.toNat (t + 1) rest

/-- The test `margin < opts_.minMargin` with `margin = (e1 - e0) / e0` computed in
`double`: exact on finite values with `e0 ≠ 0`, and following IEEE 754 otherwise
(`x / 0` is `±inf` or NaN, `inf / a` is `±inf`, and every comparison with NaN is false). -/
def marginBelow (e0 e1 : TEnergy) (minMargin : ℚ) : Bool :=
  match (e0 : Option ℚ), (e1 : Option ℚ) with
  | some a, some b => if a = 0 then decide (b < 0) else decide ((b - a) / a < minMargin)
  | some a, none => decide (a < 0)
  | none, _ => false

/-- The loop "Individual most likely digits" from symbol `symbol` on, with the running
counter `nDifferentDigits`; `false` is the early `return upcaStr`. -/
def checkDigits (energies : TMatrix ℚ) : List Nat → Nat → Nat → Bool
  | [], _, _ => true
  | estimatedDigit :: rest, symbol, nDifferentDigits =>
    let counted :=
      if (List.range' 1 9).any (fun digit =>
          decide (digit ≠ estimatedDigit) &&
            decide (energies.get digit symbol < energies.get estimatedDigit symbol))
      then nDifferentDigits + 1 else nDifferentDigits
    if counted > 1 then false else checkDigits energies rest (symbol + 1) counted

/-- Method `BarcodeSymbology::convertEstimateToString`: appends `'0' + (char) digit`. -/
def convertEstimateToString (est : List Nat) : String :=
  String.mk (est.map (fun d => Char.ofNat ((48 + d) % 256)))

/-- Method `UpcaSymbology::estimate` for finite energies, in exact arithmetic.  The solver is
`Viterbi<double>` with two paths, so its sentinel `MaxValue<double>() / 2` is `+inf`.  What the
solver throws is caught and thrown again by value. -/
def estimate (S : StdSort TEnergy) (minMargin : ℚ) (energies : TMatrix ℚ) :
    Except Err String :=
  match rethrow (solve S ⊤ 2 (priorsOf energies) (conditionalsOf energies) 0) with
  | Except.error e => Except.error e
  | Except.ok (sol0 :: sol1 :: _) =>
    let upcaEstimate := digitsFrom 0 0 sol0.sequence
    if marginBelow sol0.energy sol1.energy minMargin then Except.ok ""
    else if checkDigits energies upcaEstimate 0 0 then
      Except.ok (convertEstimateToString upcaEstimate)
    else Except.ok ""
  | Except.ok _ => Except.error Err.undefined_behaviour

/-- Equality of results of `estimate` is decidable. -/
instance decEqResult : DecidableEq (Except Err String) := fun a b =>
  match a, b with
  | Except.ok x, Except.ok y =>
    if h : x = y then isTrue (by rw [h]) else isFalse (fun h' => h (Except.ok.inj h'))
  | Except.error x, Except.error y =>
    if h : x = y then isTrue (by rw [h]) else isFalse (fun h' => h (Except.error.inj h'))
  | Except.ok _, Except.error _ => isFalse (fun h => by cases h)
  | Except.error _, Except.ok _ => isFalse (fun h => by cases h)

/-! ### The joint decoder in `double` arithmetic -/

namespace Ieee

/-- The type `TEnergy`, which is `double`, for energies that are not negative and not NaN: a
rational that a `double` holds, or `+inf`. -/
structure TEnergy where
  val : WithTop ℚ
  deriving DecidableEq

instance instZero : Zero TEnergy := ⟨⟨0⟩⟩

/-- The operator `+` of `double`. -/
instance instAdd : Add TEnergy := ⟨fun a b => ⟨Double.add a.val b.val⟩⟩

/-- The order of `double`. -/
instance instLinearOrder : LinearOrder TEnergy :=
  LinearOrder.lift' TEnergy.val (fun a b h => by cases a; cases b; cases h; rfl)

/-- The vector `priors` after the "single energies" loop of `estimate`. -/
def priorsOf (energies : TMatrix TEnergy) : List (List TEnergy) :=
  (List.range 10).map (fun curState => energies.get (getDigitFromStates 0 curState 0) 0) ::
  List.replicate (nDataSymbols - 1) (List.replicate 10 0)

/-- The matrix `conditionals[t-1]` after the "conditionals" loop of `estimate`. -/
def conditionalAt (energies : TMatrix TEnergy) (t : Nat) : TMatrix TEnergy :=
  { rows := 10, cols := 10,
    get := fun prevState curState =>
      energies.get (getDigitFromStates prevState curState t) t }

/-- The vector `conditionals` after the "conditionals" loop, `t = 1 .. nSymbols - 1`. -/
def conditionalsOf (energies : TMatrix TEnergy) : List (TMatrix TEnergy) :=
  (List.range' 1 (nDataSymbols - 1)).map (conditionalAt energies)

/-- The test `margin < opts_.minMargin` with `margin = (e1 - e0) / e0`, the difference and
the quotient rounded to `double`; `minMargin` is a `double`.  Following IEEE 754, `x / 0` is
`±inf` or NaN, `inf - a` is `inf`, `inf - inf` and `inf / inf` are NaN, and every comparison
with NaN is false. -/
def marginBelow (e0 e1 : TEnergy) (minMargin : ℚ) : Bool :=
  match (e0.val : Option ℚ), (e1.val : Option ℚ) with
  | some a, some b =>
    if a = 0 then decide (b < 0)
    else decide (Double.round (Double.round (b - a) / a) < minMargin)
  | some a, none => decide (a < 0)
  | none, _ => false

/-- The loop "Individual most likely digits" from symbol `symbol` on, with the running
counter `nDifferentDigits`; `false` is the early `return upcaStr`. -/
def checkDigits (energies : TMatrix TEnergy) : List Nat → Nat → Nat → Bool
  | [], _, _ => true
  | estimatedDigit :: rest, symbol, nDifferentDigits =>
    let counted :=
      if (List.range' 1 9).any (fun digit =>
          decide (digit ≠ estimatedDigit) &&
            decide (energies.get digit symbol < energies.get estimatedDigit symbol))
      then nDifferentDigits + 1 else nDifferentDigits
    if counted > 1 then false else checkDigits energies rest (symbol + 1) counted

/-- Method `UpcaSymbology::estimate` in `double` arithmetic, for a matrix of energies that
are not negative: every sum of the solver is rounded to `double` and overflows to `+inf`. -/
def estimate (S : StdSort TEnergy) (minMargin : ℚ) (energies : TMatrix TEnergy) :
    Except Err String :=
  match rethrow (solve S ⟨⊤⟩ 2 (priorsOf energies) (conditionalsOf energies) 0) with
  | Except.error e => Except.error e
  | Except.ok (sol0 :: sol1 :: _) =>
    let upcaEstimate := digitsFrom 0 0 sol0.sequence
    if marginBelow sol0.energy sol1.energy minMargin then Except.ok ""
    else if checkDigits energies upcaEstimate 0 0 then
      Except.ok (convertEstimateToString upcaEstimate)
    else Except.ok ""
  | Except.ok _ => Except.error Err.undefined_behaviour

/-- The 10 x 12 matrix all of whose entries are the double `2^1023`, which is
`8.98846567431158e307`. -/
def hugeMatrix : TMatrix TEnergy :=
  { rows := 10, cols := 12, get := fun _ _ => ⟨(((2 ^ 1023 : Nat) : ℚ) : WithTop ℚ)⟩ }

/-- The 10 x 12 matrix all of whose entries are the double `1`. -/
def unitMatrix : TMatrix TEnergy :=
  { rows := 10, cols := 12, get := fun _ _ => ⟨((1 : ℚ) : WithTop ℚ)⟩ }

end Ieee

/-! ### Specification-level notions for the joint decoder -/

/-- The sum `Σ_t energies(d_t, t)` for the digits `d_t, d_{t+1}, ...` of the symbols from `t` on. -/
def sumEnergies (energies : TMatrix ℚ) : Nat → List Nat → ℚ
  | _, [] => 0
  | t, d :: ds => energies.get d t + sumEnergies energies (t + 1) ds

/-- The check sum `Σ_t w_t d_t` with weight 3 on the symbols of even index and 1 on those
of odd index, for the symbols from `t` on. -/
def weightedSum : Nat → List Nat → Nat
  | _, [] => 0
  | t, d :: ds => (if t % 2 = 0 then 3 else 1) * d + weightedSum (t + 1) ds

/-- A string of twelve decimal digits. -/
def IsDigitString (ds : List Nat) : Prop := ds.length = 12 ∧ ∀ d ∈ ds, d < 10

/-- The states the decoder passes through on the digits `ds`, from state `prevState` before
symbol `t`: `(3 * digit + prevState) mod 10` on an even symbol, `(digit + prevState) mod 10`
on an odd one. -/
def statesOf : Nat → Nat → List Nat → List Nat
  | _, _, [] => []
  | prevState, t, d :: ds =>
    ((if t % 2 = 0 then 3 else 1) * d + prevState) % 10 ::
      statesOf (((if t % 2 = 0 then 3 else 1) * d + prevState) % 10) (t + 1) ds

/-- The digits read off a state sequence, as `digitsFrom` on natural numbers. -/
def digitsOf : Nat → Nat → List Nat → List Nat
  | _, _, [] => []
  | curState, t, b :: rest => getDigitFromStates curState b t :: digitsOf b (t + 1) rest

/-- Every 12-digit string that satisfies the check equation
`3 (d_0 + d_2 + ...) + (d_1 + d_3 + ...) = 0 (mod 10)`. -/
def checkValidStrings : List (List Nat) :=
  (allSequences (List.replicate 12 (List.replicate 10 ()))).filter
    (fun ds => weightedSum 0 ds % 10 == 0)

/-- The summed digit energies of all joint decodes, i.e. of all 12-digit strings that
satisfy the check equation, in ascending order: entry 0 is the energy of the best joint
decode, entry 1 that of the second best. -/
def jointEnergies (energies : TMatrix ℚ) : List ℚ :=
  (checkValidStrings.map (sumEnergies energies 0)).insertionSort (fun a b => a ≤ b)

/-- An energy matrix given by its columns, one list of ten digit energies per symbol. -/
def ofColumns (cols : List (List ℚ)) : TMatrix ℚ :=
  { rows := 10, cols := cols.length, get := fun d t => (cols.getD t []).getD d 0 }

/-- Energies that favour the digits `0...01`, which violate the check equation. -/
def unconstrainedMatrix : TMatrix ℚ :=
  ofColumns (List.replicate 11 [2, 40, 40, 40, 40, 40, 40, 40, 40, 40] ++
    [[3, 2, 40, 40, 40, 40, 40, 40, 40, 40]])

/-- Energies for which the joint decode `141000000000` overrides digit 0 at symbols 0
and 1. -/
def overrideMatrix : TMatrix ℚ :=
  ofColumns ([[10, 11, 1000, 1000, 1000, 1000, 1000, 1000, 1000, 1000],
    [10, 1000, 1000, 1000, 11, 1000, 1000, 1000, 1000, 1000],
    [1000, 10, 1000, 1000, 1000, 1000, 1000, 1000, 1000, 1000]] ++
    List.replicate 9 [10, 1000, 1000, 1000, 1000, 1000, 1000, 1000, 1000, 1000])

/-- The all-zero energy matrix. -/
def zeroMatrix : TMatrix ℚ := ofColumns (List.replicate 12 (List.replicate 10 0))

end UpcaSymbology

/-! # Decoder: resolution gate and `read` (`Decoder.cpp`) -/

/-- The conversion to `int` of the result of 32-bit `unsigned` arithmetic: applied to the
exact value of an expression evaluated in `unsigned`, it gives the value congruent modulo
`2^32` that lies between `-2^31` and `2^31 - 1`. -/
def asInt32 (n : Int) : Int := (n + 2147483648) % 4294967296 - 2147483648

namespace BarcodeDecoder

/-- A `TPointInt`. -/
structure TPointInt where
  x : Int
  y : Int

/-- The struct `Barcode`. -/
structure Barcode where
  firstEdge : TPointInt
  lastEdge : TPointInt
  estimate : String
  symbology : String

/-- The enum `BarcodeDecoder::Result`. -/
inductive Result where
  | CANNOT_DECODE : Result
  | DECODING_FAILED : Result
  | DECODING_SUCCESSFUL : Result
  deriving DecidableEq, Repr

/-- Method `BarcodeDecoder::shouldAttemptDecoding` for an image of `M` rows and `N` columns
(both `TUInt`, below `2^32`) and a candidate with `int` coordinates.
The comparisons of the integers `w`, `h` with the doubles `.4 * N`, `.8 * N` are exact:
for 32-bit `N` the product rounds to `2N/5` (`4N/5`) whenever that is an integer and
otherwise stays at least `0.2 - 2^-20` away from every integer.  `N - max(...)` and
`M - max(...)` are computed in `unsigned` and stored in an `int`: the difference modulo
`2^32`, negative from `2^31` on. -/
def shouldAttemptDecoding (M N : Nat) (bc : Barcode) : Bool :=
  let dx : Int := bc.lastEdge.x - bc.firstEdge.x
  let dy : Int := bc.lastEdge.y - bc.firstEdge.y
  let w : Int := |dx|
  let h : Int := |dy|
  let isTooSmall : Bool := decide ((w : ℚ) < 0.4 * (N : ℚ)) && decide ((h : ℚ) < 0.4 * (M : ℚ))
  let isTooBig : Bool := decide ((w : ℚ) > 0.8 * (N : ℚ)) || decide ((h : ℚ) > 0.8 * (M : ℚ))
  let minDist : Int := ((min M N / 20 : Nat) : Int)
  let leftDist : Int := min bc.firstEdge.x bc.lastEdge.x
  let rightDist : Int := asInt32 ((N : Int) - max bc.firstEdge.x bc.lastEdge.x)
  let topDist : Int := min bc.firstEdge.y bc.lastEdge.y
  let botDist : Int := asInt32 ((M : Int) - max bc.firstEdge.y bc.lastEdge.y)
  let isTooCloseToEdges : Bool :=
    decide (leftDist < minDist) || decide (rightDist < minDist) ||
      decide (topDist < minDist) || decide (botDist < minDist)
  if isTooSmall then false
  else if isTooBig then false
  else if isTooCloseToEdges then false
  else true

/-- The loop of `read` over the sweep directions `dir, dir + 1, ... < FINISHED`:
`estimateOf dir` is the string `symbology_->estimate(energies_)` returns after
`getDigitEnergies(dir, boundaries)`. -/
def sweep (name : String) (estimateOf : Nat → String) (bc : Barcode) :
    List Nat → Result × Barcode
  | [] => (Result.DECODING_FAILED, bc)
  | dir :: rest =>
    if estimateOf dir ≠ "" then
      (Result.DECODING_SUCCESSFUL, { bc with estimate := estimateOf dir, symbology := name })
    else sweep name estimateOf bc rest

/-- Method `BarcodeDecoder::read` on an image of `M` rows and `N` columns, returning the result
and the barcode as it is left.  The stages after the gate enter through their outcomes:
`localized` is the value of `localizeFixedEdges(boundaries)` on the extracted slice,
`estimateOf dir` the estimate of the symbology named `name` in sweep direction `dir`
(`FORWARD = 0`, `BACKWARD = 1`). -/
def read (M N : Nat) (name : String) (localized : Bool) (estimateOf : Nat → String)
    (bc : Barcode) : Result × Barcode :=
  if !shouldAttemptDecoding M N bc then (Result.CANNOT_DECODE, bc)
  else if localized then sweep name estimateOf bc [0, 1]
  else (Result.DECODING_FAILED, bc)

/-! ### Specification-level notions for the gate -/

/-- Both endpoints lie inside the image and in the same quadrant of it. -/
def SameQuadrant (M N : Nat) (bc : Barcode) : Prop :=
  (0 ≤ bc.firstEdge.x ∧ bc.firstEdge.x < N) ∧ (0 ≤ bc.lastEdge.x ∧ bc.lastEdge.x < N) ∧
  (0 ≤ bc.firstEdge.y ∧ bc.firstEdge.y < M) ∧ (0 ≤ bc.lastEdge.y ∧ bc.lastEdge.y < M) ∧
  (2 * bc.firstEdge.x < N ↔ 2 * bc.lastEdge.x < N) ∧
  (2 * bc.firstEdge.y < M ↔ 2 * bc.lastEdge.y < M)

/-- The coordinates of the candidate are values of `int`. -/
def Barcode.InRange (bc : Barcode) : Prop :=
  (-2147483648 ≤ bc.firstEdge.x ∧ bc.firstEdge.x < 2147483648) ∧
  (-2147483648 ≤ bc.firstEdge.y ∧ bc.firstEdge.y < 2147483648) ∧
  (-2147483648 ≤ bc.lastEdge.x ∧ bc.lastEdge.x < 2147483648) ∧
  (-2147483648 ≤ bc.lastEdge.y ∧ bc.lastEdge.y < 2147483648)

/-- A candidate on the single row of an image of `2^32 - 1` columns, from column 0 to
column 1800000000. -/
def wideCandidate : Barcode :=
  { firstEdge := { x := 0, y := 0 }, lastEdge := { x := 1800000000, y := 0 },
    estimate := "", symbology := "" }

/-- A candidate inside the upper left quadrant of a 100 x 100 image, 44 pixels wide. -/
def quadrantCandidate : Barcode :=
  { firstEdge := { x := 5, y := 25 }, lastEdge := { x := 49, y := 25 },
    estimate := "", symbology := "" }

end BarcodeDecoder


/-! # Symbology catalog (`Symbology.h`, `Symbology.cpp`) -/

/-- The struct `BarcodeSymbology::Edge`: position `index` in the edge list and `location` in
modules from the start of the barcode, `-1` when the location is not known a priori. -/
structure BarcodeSymbology.Edge where
  index : Int
  location : Int
  deriving DecidableEq, Repr

/-- The struct `BarcodeSymbology::Bar`.  The members `leftEdge` and `rightEdge` point into the
`std::list` of edges, whose elements are never moved or written after their creation; a
pointer is embedded as the contents of the edge it points to.  Two such pointers are equal
exactly when the edges have the same `index`. -/
structure BarcodeSymbology.Bar where
  leftEdge : BarcodeSymbology.Edge
  rightEdge : BarcodeSymbology.Edge
  index : Int
  deriving DecidableEq, Repr

/-- The struct `BarcodeSymbology::Symbol`; `index` is `-1` for a special symbol. -/
structure BarcodeSymbology.Symbol where
  width : Nat
  index : Int
  bars : List BarcodeSymbology.Bar
  deriving DecidableEq, Repr

/-- The representation members of the class `BarcodeSymbology`. -/
structure BarcodeSymbology where
  edges_ : List BarcodeSymbology.Edge
  bars_ : List BarcodeSymbology.Bar
  symbols_ : List BarcodeSymbology.Symbol
  fixedEdges_ : List BarcodeSymbology.Edge
  dataSymbols_ : List BarcodeSymbology.Symbol
  deriving DecidableEq, Repr

namespace BarcodeSymbology

/-- Method `Edge::isFixed`. -/
def Edge.isFixed (e : Edge) : Bool := e.location != -1

/-- Method `Edge::polarity`: `index % 2 ? 1 : -1`. -/
def Edge.polarity (e : Edge) : Int := if e.index % 2 ≠ 0 then 1 else -1

/-- Method `Symbol::leftEdge`: `bars.front()->leftEdge`; `none` when there is no bar. -/
def Symbol.leftEdge (s : Symbol) : Option Edge := s.bars.head?.map (fun b => b.leftEdge)

/-- Method `Symbol::rightEdge`: `bars.back()->rightEdge`; `none` when there is no bar. -/
def Symbol.rightEdge (s : Symbol) : Option Edge := s.bars.getLast?.map (fun b => b.rightEdge)

/-- Method `Symbol::isDataSymbol`. -/
def Symbol.isDataSymbol (s : Symbol) : Bool := s.index != -1

/-- The state the constructor `BarcodeSymbology(name)` leaves: every list empty. -/
def empty : BarcodeSymbology :=
  { edges_ := [], bars_ := [], symbols_ := [], fixedEdges_ := [], dataSymbols_ := [] }

/-- Method `addEdge(loc)`: push `Edge(edges_.size(), loc)`, and register it as a fixed edge
when `loc != -1`.  Returns the new state and the edge added. -/
def addEdge (s : BarcodeSymbology) (loc : Int) : BarcodeSymbology × Edge :=
  let lastEdge : Edge := { index := Int.ofNat s.edges_.length, location := loc }
  let s1 : BarcodeSymbology := { s with edges_ := s.edges_ ++ [lastEdge] }
  if loc ≠ -1 then ({ s1 with fixedEdges_ := s1.fixedEdges_ ++ [lastEdge] }, lastEdge)
  else (s1, lastEdge)

/-- Method `addBar(rightEdgeLocation)`: the left edge is the last edge so far, or a new edge
at location 0 when there is no bar yet; then the right edge is added.  `none` stands for
`edges_.back()` on an empty list, which is undefined. -/
def addBar (s : BarcodeSymbology) (rightEdgeLocation : Int) : Option (BarcodeSymbology × Bar) :=
  let leftOf : Option (BarcodeSymbology × Edge) :=
    if s.bars_.length ≠ 0 then s.edges_.getLast?.map (fun e => (s, e))
    else some (addEdge s 0)
  match leftOf with
  | none => none
  | some (s1, left) =>
    let (s2, right) := addEdge s1 rightEdgeLocation
    let bar : Bar := { leftEdge := left, rightEdge := right, index := left.index }
    some ({ s2 with bars_ := s2.bars_ ++ [bar] }, bar)

/-- The calls `bars.push_back(addBar(l))` for the right-edge locations `l` in turn. -/
def addBars : BarcodeSymbology → List Int → Option (BarcodeSymbology × List Bar)
  | s, [] => some (s, [])
  | s, l :: ls =>
    match addBar s l with
    | none => none
    | some (s1, b) =>
      match addBars s1 ls with
      | none => none
      | some (s2, bs) => some (s2, b :: bs)

/-- The right-edge locations the loop `addBar(loc += pattern[iBar])` passes.  The sum of the
`int` and the `TUInt` is formed in `unsigned` and stored back in the `int`. -/
def patternLocations : Int → List Nat → List Int
  | _, [] => []
  | loc, p :: ps =>
    asInt32 (loc + Int.ofNat p) :: patternLocations (asInt32 (loc + Int.ofNat p)) ps

/-- The number of turns of `for (TUInt iBar = 0; iBar < nBars - 1; iBar++)`: the unsigned
`nBars - 1` is `2^32 - 1` for `nBars = 0`. -/
def leadingBars (nBars : Nat) : Nat := if nBars = 0 then 4294967295 else nBars - 1

/-- Method `addSymbol(width, nBars, pattern)`, `pattern = none` for `NULL`.  Widths and
pattern entries are `TUInt`, locations are `int`: the argument `loc + width` of `addBar` is
formed in `unsigned` and converted to `int`.  `none` stands for the undefined executions:
`edges_.back()` on an empty list and reading `pattern` past its end. -/
def addSymbol (s : BarcodeSymbology) (width nBars : Nat) (pattern : Option (List Nat)) :
    Option BarcodeSymbology :=
  let locOf : Option Int :=
    if s.symbols_.length > 0 then s.edges_.getLast?.map (fun e => e.location) else some 0
  match locOf with
  | none => none
  | some loc =>
    let isDataSymbol : Bool := pattern.isNone
    let added : Option (BarcodeSymbology × List Bar) :=
      match pattern with
      | none =>
        addBars s (List.replicate (leadingBars nBars) (-1) ++ [asInt32 (loc + Int.ofNat width)])
      | some pat =>
        if pat.length < nBars then none else addBars s (patternLocations loc (pat.take nBars))
    match added with
    | none => none
    | some (s1, bars) =>
      let lastSymbol : Symbol :=
        { width := width,
          index := if isDataSymbol then Int.ofNat s1.dataSymbols_.length else -1,
          bars := bars }
      let s2 : BarcodeSymbology := { s1 with symbols_ := s1.symbols_ ++ [lastSymbol] }
      some (if isDataSymbol then { s2 with dataSymbols_ := s2.dataSymbols_ ++ [lastSymbol] }
        else s2)

/-- Method `nDataSymbols`. -/
def nDataSymbols (s : BarcodeSymbology) : Nat := s.dataSymbols_.length

/-- Method `nFixedEdges`. -/
def nFixedEdges (s : BarcodeSymbology) : Nat := s.fixedEdges_.length

/-- Method `nTotalEdges`. -/
def nTotalEdges (s : BarcodeSymbology) : Nat := s.edges_.length

/-- Method `width`: `edges_.back().location`; `none` when there is no edge.  (The `int` is
returned as a `TUInt`; the two agree for a location that is not negative.) -/
def width (s : BarcodeSymbology) : Option Int := s.edges_.getLast?.map (fun e => e.location)

/-- One call of `addSymbol`. -/
structure SymbolCall where
  width : Nat
  nBars : Nat
  pattern : Option (List Nat)
  deriving DecidableEq, Repr

/-- A sequence of `addSymbol` calls, in order. -/
def build : BarcodeSymbology → List SymbolCall → Option BarcodeSymbology
  | s, [] => some s
  | s, c :: cs =>
    match addSymbol s c.width c.nBars c.pattern with
    | none => none
    | some s1 => build s1 cs

end BarcodeSymbology

namespace UpcaSymbology

/-- The `addSymbol` calls of the constructor `UpcaSymbology::UpcaSymbology`. -/
def symbolCalls : List BarcodeSymbology.SymbolCall :=
  [{ width := 3, nBars := 3, pattern := some [1, 1, 1] }] ++
  List.replicate 6 { width := 7, nBars := 4, pattern := none } ++
  [{ width := 5, nBars := 5, pattern := some [1, 1, 1, 1, 1] }] ++
  List.replicate 6 { width := 7, nBars := 4, pattern := none } ++
  [{ width := 3, nBars := 3, pattern := some [1, 1, 1] }]

/-- The symbology the constructor `UpcaSymbology::UpcaSymbology` sets up. -/
def symbology : Option BarcodeSymbology := BarcodeSymbology.build BarcodeSymbology.empty symbolCalls

end UpcaSymbology


namespace BarcodeSymbology

/-! ### Reference objects of the catalog proofs -/

/-- The edges that consecutive `addEdge` calls append for the locations `locs` when the edge
list already holds `start` edges. -/
def newEdges : Nat → List Int → List Edge
  | _, [] => []
  | start, l :: ls => { index := Int.ofNat start, location := l } :: newEdges (start + 1) ls

/-- A data symbol is bracketed by fixed edges of the list `fixed`: both its edges have a
known location, its left edge comes before its right edge in `fixed`, and the two locations
differ by the width of the symbol. -/
def Bracketed (fixed : List Edge) (sym : Symbol) : Prop :=
  ∃ l r, sym.leftEdge = some l ∧ sym.rightEdge = some r ∧ l.location ≠ -1 ∧
    r.location ≠ -1 ∧ List.Sublist [l, r] fixed ∧ r.location - l.location = Int.ofNat sym.width

/-- The loop `while (symbology_->getFixedEdge(e) != aEdge) e++;` of
`BarcodeDecoder::localizeFixedEdges`, run on the fixed edges from position `e` on: the
position at which it stops.  `none` when the edge sought is not met: the loop then calls
`getFixedEdge(nFixedEdges)`, which reads past the end of the list. -/
def seekFixedEdge (aEdge : Edge) : List Edge → Nat → Option Nat
  | [], _ => none
  | x :: rest, e => if x.index = aEdge.index then some e else seekFixedEdge aEdge rest (e + 1)

/-- The loop of `BarcodeDecoder::localizeFixedEdges` over the data symbols, with its running
position `e` in the fixed-edge list: for every data symbol the positions found for its
left and for its right edge, and the final value of `e`. -/
def symbolEdgePositions (fixed : List Edge) :
    List Symbol → Nat → Option (List (Nat × Nat) × Nat)
  | [], e => some ([], e)
  | sym :: rest, e =>
    match sym.leftEdge with
    | none => none
    | some l =>
      match seekFixedEdge l (fixed.drop e) e with
      | none => none
      | some e1 =>
        match sym.rightEdge with
        | none => none
        | some r =>
          match seekFixedEdge r (fixed.drop e1) e1 with
          | none => none
          | some e2 =>
            match symbolEdgePositions fixed rest e2 with
            | none => none
            | some (ps, e3) => some ((e1, e2) :: ps, e3)

/-- The positions found for a data symbol are those of its left and of its right edge. -/
def FoundAt (fixed : List Edge) (sym : Symbol) (p : Nat × Nat) : Prop :=
  p.1 < p.2 ∧ (∃ l, fixed.get? p.1 = some l ∧ sym.leftEdge = some l) ∧
    ∃ r, fixed.get? p.2 = some r ∧ sym.rightEdge = some r

/-- Invariant of the states reached by `addSymbol` calls with at least one bar each. -/
def Inv (s : BarcodeSymbology) : Prop :=
  (s.symbols_ = [] → s.bars_ = [] ∧ s.edges_ = [] ∧ s.fixedEdges_ = [] ∧ s.dataSymbols_ = []) ∧
  (s.symbols_ ≠ [] → s.bars_ ≠ [] ∧ ∃ e, s.edges_.getLast? = some e ∧
    s.fixedEdges_.getLast? = some e ∧ 0 ≤ e.location) ∧
  (∀ sym ∈ s.dataSymbols_, Bracketed s.fixedEdges_ sym) ∧
  s.fixedEdges_.Pairwise (fun a b => a.index < b.index) ∧
  (∀ e ∈ s.fixedEdges_, e.index < Int.ofNat s.edges_.length) ∧
  ∃ ps e, symbolEdgePositions s.fixedEdges_ s.dataSymbols_ 0 = some (ps, e) ∧
    e ≤ s.fixedEdges_.length - 1 ∧ List.Forall₂ (FoundAt s.fixedEdges_) s.dataSymbols_ ps

/-- The calls the catalog claims range over: at least one bar, and a pattern that has an
entry for every bar. -/
def SymbolCall.Valid (c : SymbolCall) : Prop :=
  1 ≤ c.nBars ∧ ∀ pat, c.pattern = some pat → c.nBars ≤ pat.length

/-- A special symbol is declared with the width its pattern adds up to. -/
def SymbolCall.WidthMatches (c : SymbolCall) : Prop :=
  ∀ pat, c.pattern = some pat → (pat.take c.nBars).sum = c.width

/-- The modules by which a call moves the last edge: the width of a data symbol, the sum of
the pattern entries of a special symbol. -/
def SymbolCall.advance (c : SymbolCall) : Nat :=
  match c.pattern with
  | none => c.width
  | some pat => (pat.take c.nBars).sum

/-- The edge locations of the calls stay inside the positive range of `int`: the modules
added by all the calls together are fewer than `2^31`. -/
def FitsInt (calls : List SymbolCall) : Prop := (calls.map SymbolCall.advance).sum < 2147483648

end BarcodeSymbology


namespace Viterbi

/-- A 1 x 0 conditional matrix, between a variable of one state and a variable of none. -/
def oneByZero : TMatrix Int := { rows := 1, cols := 0, get := fun _ _ => 0 }

/-- A second conforming `StdSort`: among elements that compare equal, the one that comes
later in the input range is put first.  On the inputs of the tie-break examples this is the
order in which the heap selection of GCC's `libstdc++` returns the elements. -/
def lastFirstSort {E : Type} [LinearOrder E] : StdSort E where
  partial_sort_copy l k := (l.reverse.insertionSort SubState.le).take k
  partial_sort l k := (l.reverse.insertionSort SubState.le).take k
  partial_sort_copy_spec l _ :=
    ⟨l.reverse.insertionSort SubState.le,
      (List.perm_insertionSort _ l.reverse).trans (List.reverse_perm l),
      @List.sorted_insertionSort _ SubState.le _
        ⟨fun a b => le_total a.energy b.energy⟩
        ⟨fun a b c (h1 : a.energy ≤ b.energy) (h2 : b.energy ≤ c.energy) => le_trans h1 h2⟩ _,
      rfl⟩
  partial_sort_spec l _ :=
    ⟨l.reverse.insertionSort SubState.le,
      (List.perm_insertionSort _ l.reverse).trans (List.reverse_perm l),
      @List.sorted_insertionSort _ SubState.le _
        ⟨fun a b => le_total a.energy b.energy⟩
        ⟨fun a b c (h1 : a.energy ≤ b.energy) (h2 : b.energy ≤ c.energy) => le_trans h1 h2⟩ _,
      rfl⟩

/-- Two states with prior 0 followed by one state with prior 0: the two state sequences have
the same total energy. -/
def tiePriors : List (List Int) := [[0, 0], [0]]

/-- The conditional matrix of the tie example: 2 x 1, all zero. -/
def tieConditionals : List (TMatrix Int) := [TMatrix.ofRows [[0], [0]]]

end Viterbi


/-! # Locator (`Locator.h`, `Locator.cpp`, `algorithms.h`)

Conventions of the embedding.

* A matrix is its row-major data, a function from the flat position to the element; the
  pointer walks of the source become the flat positions they visit.  Matrices created by the
  constructor are value-initialised, so they start all zero.
* `double` quantities whose computation is exact in the cases treated (`floor`, comparisons,
  products with small integers) are rationals.  The stages that evaluate `exp`, `log`,
  `atan2`, `cos` or `sin` enter through their outcomes, as the fields of a `Stages` record.
* The acceptance test of `scanSegment` multiplies a square root by a `double` option and
  truncates the product; there the operations are those of IEEE 754 binary64 with rounding
  to nearest, ties to even (namespace `Double`), on the rationals that are values of
  `double`.
* A function-local `static` of a member function is initialised by the first call of the
  process and keeps that value for every locator; its value is an explicit argument,
  `none` when the call at hand is the one that initialises it.
* The image is the one the gradients are computed on: the input itself at scale 0, its
  subsampled copy at a larger scale.
-/

namespace BarcodeLocator

open BarcodeDecoder (TPointInt Barcode)

/-- The struct `BarcodeLocator::Options`.  The members `maxEntropy` and
`minEdgeDensityInBarcode` are `double`: their values are rationals that a `double` holds. -/
structure Options where
  gradThresh : Nat
  cellSize : Nat
  maxEntropy : ℚ
  maxVotesPerBin : Nat
  minVotesPerOrientation : Nat
  minVotesPerMode : Nat
  minEdgesInBarcode : Int
  minEdgeDensityInBarcode : ℚ
  maxDistBtwEdges : Int
  nOrientations : Nat
  scale : Nat

/-- The values the constructor `Options()` sets; the `double` literal `0.2` is the `double`
nearest to one fifth, `3602879701896397 / 2^54`. -/
def defaultOptions : Options :=
  { gradThresh := 20, cellSize := 16, maxEntropy := 3 / 2, maxVotesPerBin := 20,
    minVotesPerOrientation := 300, minVotesPerMode := 50, minEdgesInBarcode := 20,
    minEdgeDensityInBarcode := 3602879701896397 / 18014398509481984, maxDistBtwEdges := 5,
    nOrientations := 18, scale := 0 }

/-- A `TMatrixUInt8` image: shape and row-major data. -/
structure Image where
  rows : Nat
  cols : Nat
  data : Nat → Nat

/-- The matrices `dI`, `dJ`, `tmp1`, `tmp2` of `ImageContainer`, row-major; `tmp1` and `tmp2`
are transposed, `cols` rows of `rows` entries. -/
structure Gradients where
  iGrad : Nat → Int
  jGrad : Nat → Int
  tmp1 : Nat → Int
  tmp2 : Nat → Int

/-- The matrices as the constructor of `ImageContainer` creates them. -/
def Gradients.zero : Gradients :=
  { iGrad := fun _ => 0, jGrad := fun _ => 0, tmp1 := fun _ => 0, tmp2 := fun _ => 0 }

/-- First border loop of `calculateScharrGradients`: rows `0` and `M-1` of the gradients,
columns `0` and `M-1` of the transposed scratch matrices. -/
def scharrBorderRows (M N : Nat) (g : Gradients) : Gradients :=
  (List.range N).foldl (fun g p =>
    { iGrad := Function.update (Function.update g.iGrad p 0) ((M - 1) * N + p) 0,
      jGrad := Function.update (Function.update g.jGrad p 0) ((M - 1) * N + p) 0,
      tmp1 := Function.update (Function.update g.tmp1 (p * M) 0) (M - 1 + p * M) 0,
      tmp2 := Function.update (Function.update g.tmp2 (p * M) 0) (M - 1 + p * M) 0 }) g

/-- Second border loop: columns `0` and `N-1` of the gradients, rows `0` and `N-1` of the
scratch matrices. -/
def scharrBorderCols (M N : Nat) (g : Gradients) : Gradients :=
  (List.range M).foldl (fun g q =>
    { iGrad := Function.update (Function.update g.iGrad (q * N) 0) (N - 1 + q * N) 0,
      jGrad := Function.update (Function.update g.jGrad (q * N) 0) (N - 1 + q * N) 0,
      tmp1 := Function.update (Function.update g.tmp1 q 0) ((N - 1) * M + q) 0,
      tmp2 := Function.update (Function.update g.tmp2 q 0) ((N - 1) * M + q) 0 }) g

/-- The horizontal pass: for every image row `i` and every column `j = 0 .. N-3`, the
difference and the smoothed sum of three neighbours in the row are stored transposed,
at `tmp[1] + i + j * M`. -/
def scharrHorizontal (img : Nat → Nat) (M N : Nat) (g : Gradients) : Gradients :=
  (List.range M).foldl (fun g i =>
    (List.range (N - 2)).foldl (fun g j =>
      { g with
        tmp1 := Function.update g.tmp1 (M + i + j * M)
          (Int.ofNat (img (i * N + j)) - Int.ofNat (img (i * N + j + 2))),
        tmp2 := Function.update g.tmp2 (M + i + j * M)
          (3 * Int.ofNat (img (i * N + j)) + 10 * Int.ofNat (img (i * N + j + 1)) +
            3 * Int.ofNat (img (i * N + j + 2))) }) g) g

/-- The expression `(3 * tmp1Data[0] + 10 * tmp1Data[1] + 3 * tmp1Data[2]) / 16` with
`tmp1Data` at flat position `p`; the division is the truncating division of C. -/
def smoothedDifference (t : Nat → Int) (p : Nat) : Int :=
  (3 * t p + 10 * t (p + 1) + 3 * t (p + 2)).tdiv 16

/-- The expression `(*tmp2Data - tmp2Data[2]) / 16` with `tmp2Data` at flat position `p`. -/
def differenceOfSmoothed (t : Nat → Int) (p : Nat) : Int := (t p - t (p + 2)).tdiv 16

/-- The vertical pass: for every scratch row `r = 0 .. N-1` and every `k = 0 .. M-3`, the
gradients are stored at `grad[0] + 1 + r + k * N`. -/
def scharrVertical (M N : Nat) (g : Gradients) : Gradients :=
  (List.range N).foldl (fun g r =>
    let g1 := (List.range (M - 2)).foldl (fun g k =>
      { g with jGrad := Function.update g.jGrad (1 + r + k * N)
                 (smoothedDifference g.tmp1 (r * M + k)) }) g
    (List.range (M - 2)).foldl (fun g k =>
      { g with iGrad := Function.update g.iGrad (1 + r + k * N)
                 (differenceOfSmoothed g.tmp2 (r * M + k)) }) g1) g

/-- Method `ImageContainer::calculateScharrGradients` for an image of at least 3 x 3
pixels. -/
def calculateScharrGradients (img : Image) (g : Gradients) : Gradients :=
  scharrVertical img.rows img.cols
    (scharrHorizontal img.data img.rows img.cols
      (scharrBorderCols img.rows img.cols (scharrBorderRows img.rows img.cols g)))

/-- The integer part of the square root, as `(TUInt8) sqrt((double) n)` and
`(int) sqrt(...)` compute it for the integers met here: the greatest `k` with `k * k ≤ n`. -/
def floorSqrt (n : Nat) : Nat := Nat.findGreatest (fun k => k * k ≤ n) n

/-- The magnitude table of `prepareGradientCalculator`, as a function of the gradient pair
`(di, dj)` that indexes it: `sqrt` of half the squared magnitude, truncated, above the
threshold and `0` otherwise. -/
def gradientMagnitudeMap (thresh : Nat) (di dj : Int) : Nat :=
  let mag : Nat := (di * di + dj * dj).toNat
  if mag > thresh * thresh then floorSqrt (mag / 2) else 0

/-- The orientation table of `prepareGradientCalculator` for `nOrientations` bins (the
caller passes twice the option): the bin of the angle where the magnitude entry is not zero,
the sentinel `nOrientations` otherwise.  `angleBin` is the value of
`(TUInt8) (atan2(di, dj) / dTheta + 0.5 + nOrientations)`. -/
def gradientOrientationMap (angleBin : Nat → Int → Int → Nat) (thresh nOrientations : Nat)
    (di dj : Int) : Nat :=
  if gradientMagnitudeMap thresh di dj ≠ 0 then angleBin nOrientations di dj % nOrientations
  else nOrientations

/-- The matrices `dMag` and `dAng`. -/
structure Polar where
  absGrad : Nat → Nat
  angGrad : Nat → Nat

/-- The polar matrices as the constructor creates them. -/
def Polar.zero : Polar := { absGrad := fun _ => 0, angGrad := fun _ => 0 }

/-- Method `ImageContainer::calculatePolarGradients`: rows `0 .. M-2` and columns
`0 .. N-2` are looked up in the two tables; the last row and the last column are not
visited. -/
def calculatePolarGradients (angleBin : Nat → Int → Int → Nat) (thresh nOrientations : Nat)
    (M N : Nat) (g : Gradients) (pol : Polar) : Polar :=
  (List.range (M - 1)).foldl (fun pol i =>
    (List.range (N - 1)).foldl (fun pol j =>
      { absGrad := Function.update pol.absGrad (i * N + j)
          (gradientMagnitudeMap thresh (g.iGrad (i * N + j)) (g.jGrad (i * N + j))),
        angGrad := Function.update pol.angGrad (i * N + j)
          (gradientOrientationMap angleBin thresh nOrientations (g.iGrad (i * N + j))
            (g.jGrad (i * N + j))) }) pol) pol

/-- A `TRectInt`. -/
structure TRectInt where
  x : Int
  y : Int
  width : Int
  height : Int

/-- The class `BarcodeLocator::Cell`.  The members `dominantOrientation_` and `entropy_`
cache values that are recomputed from the histograms after every `reset`; they are
embedded as the functions of the histograms they cache. -/
structure Cell where
  box : TRectInt
  orientationHistogram : List Nat
  weightedOrientationHistogram : List Nat
  nVoters : Nat

/-- Method `Cell::reset` for `nOrientations_` orientations. -/
def Cell.reset (nOrientations : Nat) (c : Cell) : Cell :=
  { c with orientationHistogram := List.replicate (2 * nOrientations) 0,
           weightedOrientationHistogram := List.replicate nOrientations 0,
           nVoters := 0 }

/-- The statement `l[i] += d` on a vector. -/
def addAt (l : List Nat) (i d : Nat) : List Nat :=
  l.mapIdx (fun k x => if k = i then x + d else x)

/-- Method `Cell::addVoter`. -/
def Cell.addVoter (nOrientations : Nat) (c : Cell) (orientation magnitude : Nat) : Cell :=
  { c with orientationHistogram := addAt c.orientationHistogram orientation 1,
           weightedOrientationHistogram :=
             addAt c.weightedOrientationHistogram (orientation % nOrientations) magnitude,
           nVoters := c.nVoters + 1 }

/-- Method `Cell::hasEnoughVoters`: `nVoters_ > ((TUInt) box.area() >> 2)`. -/
def Cell.hasEnoughVoters (c : Cell) : Bool :=
  decide (c.nVoters > (c.box.width * c.box.height).toNat / 4)

/-- Method `Cell::shouldBeConsidered`: low entropy and enough voters; `entropy` is the value
of `Cell::entropy` for the weighted histogram. -/
def Cell.shouldBeConsidered (entropy : List Nat → ℚ) (maxEntropy : ℚ) (c : Cell) : Bool :=
  decide (entropy c.weightedOrientationHistogram < maxEntropy) && c.hasEnoughVoters

/-- Method `prepareCells`: the grid of cells of side `cellSize` covering an `M x N` image,
the last row and column of cells taking what is left. -/
def prepareCells (opts : Options) (M N : Nat) : List (List Cell) :=
  let cs := opts.cellSize
  let MCell := if cs * (M / cs) < M then M / cs + 1 else M / cs
  let NCell := if cs * (N / cs) < N then N / cs + 1 else N / cs
  (List.range MCell).map (fun iCell =>
    (List.range NCell).map (fun jCell =>
      { box :=
          { x := Int.ofNat (jCell * cs), y := Int.ofNat (iCell * cs),
            width := if jCell + 1 < NCell then Int.ofNat cs else Int.ofNat N - Int.ofNat (jCell * cs),
            height := if iCell + 1 < MCell then Int.ofNat cs else Int.ofNat M - Int.ofNat (iCell * cs) },
        orientationHistogram := List.replicate (2 * opts.nOrientations) 0,
        weightedOrientationHistogram := List.replicate opts.nOrientations 0,
        nVoters := 0 }))

/-- The cell `mapPixelToCell_` points to for a pixel is changed by `f`. -/
def modifyCell (cells : List (List Cell)) (r c : Nat) (f : Cell → Cell) : List (List Cell) :=
  cells.mapIdx (fun a row =>
    if a = r then row.mapIdx (fun b cell => if b = c then f cell else cell) else row)

/-- Method `calculateCellHistograms`: every cell is reset, then every pixel with a non-zero
magnitude votes in the cell that contains it. -/
def calculateCellHistograms (opts : Options) (M N : Nat) (pol : Polar)
    (cells : List (List Cell)) : List (List Cell) :=
  (List.range M).foldl (fun cells i =>
    (List.range N).foldl (fun cells j =>
      if pol.absGrad (i * N + j) ≠ 0 then
        modifyCell cells (i / opts.cellSize) (j / opts.cellSize)
          (fun c => c.addVoter opts.nOrientations (pol.angGrad (i * N + j))
            (pol.absGrad (i * N + j)))
      else cells) cells)
    (cells.map (fun row => row.map (Cell.reset opts.nOrientations)))

/-- Method `calculateOrientationHistogram`: the histograms of the cells that should be
considered are added up. -/
def calculateOrientationHistogram (opts : Options) (entropy : List Nat → ℚ)
    (cells : List (List Cell)) : List Nat :=
  cells.foldl (fun h row =>
    row.foldl (fun h cell =>
      if cell.shouldBeConsidered entropy opts.maxEntropy then
        h.mapIdx (fun o x => x + cell.orientationHistogram.getD o 0)
      else h) h)
    (List.replicate (2 * opts.nOrientations) 0)

/-- The struct `Vote`: a location and a weight, both `double`. -/
structure Vote where
  loc : ℚ
  weight : ℚ

/-- The first loop of `findOrientationHistogramModes`: an orientation is kept as a seed when
the smaller of its two polarity counts exceeds `minVotesPerOrientation`. -/
def orientationVotes (opts : Options) (h : List Nat) : List Vote :=
  (List.range opts.nOrientations).filterMap (fun o =>
    let m := min (h.getD o 0) (h.getD (o + opts.nOrientations) 0)
    if m > opts.minVotesPerOrientation then
      some { loc := (o : ℚ), weight := (m : ℚ) }
    else none)

/-- Function `ascendModes`: the votes themselves when there is none; otherwise `ascend` is
what the steepest ascent leaves in `modes`. -/
def ascendModes (ascend : List Vote → List Vote) (votes : List Vote) : List Vote :=
  if votes.length = 0 then votes else ascend votes

/-- The inner loop of `findClusterCenters` and the update that follows it, for one data
point `v`: the first center closer than `radius` absorbs the point.  `none` when no center
matches. -/
def absorb (radius : ℚ) (v : Vote) : List Vote → Option (List Vote)
  | [] => none
  | v2 :: rest =>
    if |v.loc - v2.loc| < radius then
      some ({ loc := v2.loc * (v2.weight / (v.weight + v2.weight)) +
                v.loc * (v.weight / (v.weight + v2.weight)),
              weight := v.weight + v2.weight } :: rest)
    else (absorb radius v rest).map (fun r => v2 :: r)

/-- Function `findClusterCenters` on scalar votes, in exact arithmetic. -/
def findClusterCenters (data : List Vote) (radius : ℚ) : List Vote :=
  data.foldl (fun centers v =>
    match absorb radius v centers with
    | some merged => merged
    | none => centers ++ [v]) []

deriving instance DecidableEq for BarcodeDecoder.TPointInt

/-- The struct `BarcodeLocator::BarcodeCandidate`. -/
structure BarcodeCandidate where
  nEdges : Int
  orientation : Int
  firstEdge : TPointInt
  lastEdge : TPointInt
deriving DecidableEq

/-- Constructor `BarcodeCandidate(o)`. -/
def BarcodeCandidate.init (o : Int) : BarcodeCandidate :=
  { nEdges := 0, orientation := o, firstEdge := { x := 0, y := 0 },
    lastEdge := { x := 0, y := 0 } }

/-- Method `BarcodeCandidate::promote`: both endpoints are multiplied by `1 << scale`; the
`Barcode` constructor leaves `estimate` and `symbology` empty.  The shift is the power of
two for a scale below 31, where it is defined for an `int`. -/
def BarcodeCandidate.promote (c : BarcodeCandidate) (scale : Nat) : Barcode :=
  let multiplier : Int := 2 ^ scale
  { firstEdge := { x := c.firstEdge.x * multiplier, y := c.firstEdge.y * multiplier },
    lastEdge := { x := c.lastEdge.x * multiplier, y := c.lastEdge.y * multiplier },
    estimate := "", symbology := "" }

/-- The squared Euclidean distance between the endpoints of a candidate. -/
def BarcodeCandidate.squaredWidth (c : BarcodeCandidate) : Nat :=
  ((c.lastEdge.x - c.firstEdge.x) * (c.lastEdge.x - c.firstEdge.x) +
    (c.lastEdge.y - c.firstEdge.y) * (c.lastEdge.y - c.firstEdge.y)).toNat

/-- Method `BarcodeCandidate::width`: `norm(lastEdge - firstEdge)`, which is
`std::sqrt((double) x * (double) x + (double) y * (double) y)` for the coordinate
differences `x`, `y`, every operation rounded to `double`. -/
def BarcodeCandidate.width (c : BarcodeCandidate) : ℚ :=
  let x : ℚ := ((c.lastEdge.x - c.firstEdge.x : Int) : ℚ)
  let y : ℚ := ((c.lastEdge.y - c.firstEdge.y : Int) : ℚ)
  Double.sqrt (Double.round (Double.round (x * x) + Double.round (y * y)))

/-- The expression `(int) (aBC.width() * opts_.minEdgeDensityInBarcode)`: the product of the
two doubles, rounded to `double` and truncated toward zero. -/
def densityBound (c : BarcodeCandidate) (density : ℚ) : Int :=
  Double.toInt (Double.round (c.width * density))

/-- What the two sweeps of `scanSegment` leave: the edge tally, and for each direction the
endpoint assigned when the sweep stops for want of edges (`none` when the sweep leaves the
image first, the endpoint then keeping its previous value). -/
structure Trace where
  nEdges : Int
  lastEdge : Option TPointInt
  firstEdge : Option TPointInt

/-- The stages of the locator that compute in floating point: each field is the outcome of
the stage for its inputs. -/
structure Stages where
  angleBin : Nat → Int → Int → Nat
  entropy : List Nat → ℚ
  ascend : Options → List Vote → List Vote
  clusters : Options → List (List Cell) → ℚ → List TPointInt
  trace : Options → Image → Polar → Int → TPointInt → Trace

/-- Method `scanSegment`: the sweeps fill the candidate, which is accepted when its edge tally
exceeds both `minEdgesInBarcode` and the density bound.  Returns the verdict and the
candidate as it is left. -/
def scanSegment (opts : Options) (t : Trace) (aBC : BarcodeCandidate) :
    Bool × BarcodeCandidate :=
  let aBC1 : BarcodeCandidate :=
    { aBC with nEdges := t.nEdges,
               lastEdge := t.lastEdge.getD aBC.lastEdge,
               firstEdge := t.firstEdge.getD aBC.firstEdge }
  (decide (aBC1.nEdges >
      max opts.minEdgesInBarcode (densityBound aBC1 opts.minEdgeDensityInBarcode)), aBC1)

/-- The orientation bin `getBarcodeCandidates` derives from the location of a mode: the
nearest bin, modulo `nOrientations`. -/
def modeOrientation (opts : Options) (loc : ℚ) : Int :=
  let orientation : Nat := (Int.toNat (Int.floor loc)) % 256
  if loc ≥ (orientation : ℚ) + 1 / 2 then
    Int.ofNat (((orientation + 1) % opts.nOrientations) % 256)
  else Int.ofNat orientation

/-- Method `getBarcodeCandidates`: for every mode and every cluster center at its
orientation a candidate is scanned, and kept when `scanSegment` accepts it. -/
def getBarcodeCandidates (opts : Options) (T : Stages) (img : Image) (pol : Polar)
    (cells : List (List Cell)) (modes : List Vote) : List BarcodeCandidate :=
  modes.flatMap (fun m =>
    (T.clusters opts cells m.loc).filterMap (fun p =>
      let aBC := BarcodeCandidate.init (modeOrientation opts m.loc)
      let r := scanSegment opts (T.trace opts img pol aBC.orientation p) aBC
      if r.1 then some r.2 else none))

/-- Method `ImageContainer::update` at scale 0: the matrices `dMag` and `dAng` of the image. -/
def polarGradients (opts : Options) (angleBin : Nat → Int → Int → Nat) (img : Image) : Polar :=
  calculatePolarGradients angleBin opts.gradThresh (2 * opts.nOrientations) img.rows img.cols
    (calculateScharrGradients img Gradients.zero) Polar.zero

/-- The function-local statics of `calculateCellHistograms`: the bounds `M` and `N` of its
loops and the matrices `magnitude` and `orientation` it reads, which share the data of
`dMag` and `dAng` of the locator that made the first call of the process. -/
structure CellStatics where
  M : Nat
  N : Nat
  polar : Polar

/-- The values with which a call of `calculateCellHistograms` initialises its statics: the
size and the polar matrices of the image of the locator that makes the call. -/
def CellStatics.init (opts : Options) (angleBin : Nat → Int → Int → Nat) (img : Image) :
    CellStatics :=
  { M := img.rows, N := img.cols, polar := polarGradients opts angleBin img }

/-- The cells of a locator for `img` after `calculateCellHistograms`.  `statics` holds the
statics of the function as an earlier locator of the process left them, `none` when this
locator is the one that makes the first call.  The cells of this locator are reset, then
the pixels of the static matrices vote in them (through `mapPixelToCell_` of this locator,
which is read inside its bounds when the two images have the same size). -/
def votedCells (opts : Options) (angleBin : Nat → Int → Int → Nat)
    (statics : Option CellStatics) (img : Image) : List (List Cell) :=
  let st := statics.getD (CellStatics.init opts angleBin img)
  calculateCellHistograms opts st.M st.N st.polar (prepareCells opts img.rows img.cols)

/-- Method `findOrientationHistogramModes`: seeds, steepest ascent, clustering with
`maxInterModeDistance = .5`. -/
def findOrientationHistogramModes (opts : Options) (T : Stages) (h : List Nat) : List Vote :=
  findClusterCenters (ascendModes (T.ascend opts) (orientationVotes opts h)) (1 / 2)

/-- The member `barcodeCandidates_` after `getBarcodeCandidates`: the accepted candidates, in
the order in which they were accepted. -/
def acceptedCandidates (opts : Options) (T : Stages) (statics : Option CellStatics)
    (img : Image) : List BarcodeCandidate :=
  getBarcodeCandidates opts T img (polarGradients opts T.angleBin img)
    (votedCells opts T.angleBin statics img)
    (findOrientationHistogramModes opts T
      (calculateOrientationHistogram opts T.entropy (votedCells opts T.angleBin statics img)))

/-- The calls `barcodeCandidates_.sort()` and `barcodeCandidates_.reverse()`.
`std::list::sort` is stable and orders by `operator<`, which compares `nEdges`; the stable
ascending arrangement of a list is unique. -/
def sortedCandidates (l : List BarcodeCandidate) : List BarcodeCandidate :=
  (l.insertionSort (fun a b => a.nEdges ≤ b.nEdges)).reverse

/-- Method `locate` on a locator freshly constructed for the image: the list `barcodes`.
`statics` holds the statics of `calculateCellHistograms`, `none` when no locator of the
process has run before. -/
def locate (opts : Options) (T : Stages) (statics : Option CellStatics) (img : Image) :
    List Barcode :=
  let barcodeCandidates := acceptedCandidates opts T statics img
  if barcodeCandidates.length ≠ 0 then
    (sortedCandidates barcodeCandidates).map (fun c => c.promote opts.scale)
  else []

/-- A 240 x 320 image of uniform gray 128. -/
def uniformGray : Image := { rows := 240, cols := 320, data := fun _ => 128 }

/-- Stage outcomes for evaluating the locator on an example: one cluster center per mode,
and a trace of 30 edges between the points `(0, 4)` and `(40, 4)`. -/
def sampleStages : Stages :=
  { angleBin := fun _ _ _ => 0
    entropy := fun _ => 0
    ascend := fun _ votes => votes
    clusters := fun _ _ _ => [{ x := 20, y := 4 }]
    trace := fun _ _ _ _ _ =>
      { nEdges := 30, lastEdge := some { x := 40, y := 4 }, firstEdge := some { x := 0, y := 4 } } }

/-- The candidate the sample trace leaves at orientation 3. -/
def sampleCandidate : BarcodeCandidate :=
  { nEdges := 30, orientation := 3, firstEdge := { x := 0, y := 4 }, lastEdge := { x := 40, y := 4 } }

/-- Options with `minEdgesInBarcode = 7` and the density `0.4681645887845223`, which is
`527106466899509 / 2^50`. -/
def roundingOptions : Options :=
  { defaultOptions with minEdgesInBarcode := 7,
                        minEdgeDensityInBarcode := 527106466899509 / 1125899906842624 }

/-- What two sweeps at orientation 7 leave that count eight edges between the points
`(3, 12)` and `(9, 28)`, which are 6 columns and 16 rows apart. -/
def roundingTrace : Trace :=
  { nEdges := 8, lastEdge := some { x := 9, y := 28 }, firstEdge := some { x := 3, y := 12 } }

/-- The candidate the trace `roundingTrace` leaves at orientation 7. -/
def roundingCandidate : BarcodeCandidate :=
  { nEdges := 8, orientation := 7, firstEdge := { x := 3, y := 12 },
    lastEdge := { x := 9, y := 28 } }

/-! ### Reference objects of the locator proofs -/

/-- The three matrices that a uniform image leaves all zero. -/
def ZeroGrad (g : Gradients) : Prop := ∀ p, g.iGrad p = 0 ∧ g.jGrad p = 0 ∧ g.tmp1 p = 0

/-- Every pixel of the image has the value `v`. -/
def Image.Uniform (img : Image) (v : Nat) : Prop := ∀ k, k < img.rows * img.cols → img.data k = v

end BarcodeLocator


/-! # Decoder: edge extraction and fixed-edge candidates (`Decoder.h`, `Decoder.cpp`)

Conventions of the embedding.

* The integral slice `slice_` is a list of integers.  It holds running sums of at most
  `slice_.size()` pixel values, far inside the range of `int`, so the arithmetic of the edge
  filter is that of the integers.
* A pointer or iterator into `detectedEdges` is the list of the edges from its position on;
  a pointer to a detected edge stored in a candidate set is the edge it points to.
* `none` stands for an execution that reads outside the detected-edge list.
* A function-local `static` of a member function is initialised by the first call of the
  process and keeps that value for every decoder; its value is an explicit argument, `none`
  when the call at hand is the one that initialises it.
-/

namespace BarcodeSymbology

/-- Method `Edge::nPreviousPositiveEdges`: `index >> 1`. -/
def Edge.nPreviousPositiveEdges (e : Edge) : Int := e.index / 2

/-- Method `Edge::nPreviousNegativeEdges`: `index % 2 ? (index >> 1) + 1 : index >> 1`. -/
def Edge.nPreviousNegativeEdges (e : Edge) : Int :=
  if e.index % 2 ≠ 0 then e.index / 2 + 1 else e.index / 2

/-- What every state reached by `addSymbol` calls satisfies: edges come with bars, fixed edges
with edges, the indices of the fixed edges are not negative, and the first fixed edge is the
first edge. -/
def Layout (s : BarcodeSymbology) : Prop :=
  (s.bars_ = [] → s.edges_ = []) ∧ (s.edges_ = [] → s.fixedEdges_ = []) ∧
  (∀ n ∈ s.fixedEdges_, 0 ≤ n.index) ∧
  (s.edges_ ≠ [] → ∃ n, s.fixedEdges_.head? = some n ∧ n.index = 0)

/-- The part of `Layout` that concerns the fixed edges, once there is an edge. -/
def FixedFromFirst (s : BarcodeSymbology) : Prop :=
  s.edges_ ≠ [] ∧ (∀ n ∈ s.fixedEdges_, 0 ≤ n.index) ∧
    ∃ n, s.fixedEdges_.head? = some n ∧ n.index = 0

end BarcodeSymbology

namespace BarcodeDecoder

open BarcodeSymbology (Edge)

/-- The struct `BarcodeDecoder::Options`. -/
structure Options where
  edgeThresh : Int
  fundamentalWidth : Nat
  edgePowerCoefficient : ℚ
  maxEdgeMagnitude : Int
  edgeFixedLocationVar : ℚ
  edgeRelativeLocationVar : ℚ

/-- The values the constructor `Options()` sets. -/
def defaultOptions : Options :=
  { edgeThresh := 40, fundamentalWidth := 10, edgePowerCoefficient := 1,
    maxEdgeMagnitude := 200, edgeFixedLocationVar := 10000, edgeRelativeLocationVar := 1 }

/-- The struct `BarcodeDecoder::DetectedEdge`. -/
structure DetectedEdge where
  polarity : Int
  location : Int
  magnitude : Int
  nPreviousPositiveEdges : Int
  nPreviousNegativeEdges : Int
  deriving DecidableEq, Repr

/-- Method `DetectedEdge::index`. -/
def DetectedEdge.index (e : DetectedEdge) : Int :=
  e.nPreviousPositiveEdges + e.nPreviousNegativeEdges

/-- The expression `*(i + width) + *(i - width) - 2 * (*i)` with `i` at position `p` of the
slice. -/
def edgeFilter (width : Nat) (slice : List Int) (p : Nat) : Int :=
  slice.getD (p + width) 0 + slice.getD (p - width) 0 - 2 * slice.getD p 0

/-- The local variables of `extractEdges` together with the vector `edges`. -/
structure EdgeScan where
  edges : List DetectedEdge
  nPrevPos : Nat
  nPrevNeg : Nat
  ePrev : Int
  e : Int

/-- One turn of the loop of `extractEdges`, with the iterator `i` at position `i` of the
slice. -/
def scanStep (edgeThresh : Int) (width : Nat) (slice : List Int) (st : EdgeScan) (i : Nat) :
    EdgeScan :=
  let eNext := edgeFilter width slice i
  if st.e > edgeThresh ∧ st.e > st.ePrev ∧ st.e ≥ eNext then
    { edges := st.edges ++ [{ polarity := 1, location := Int.ofNat i - 1, magnitude := st.e,
                              nPreviousPositiveEdges := Int.ofNat st.nPrevPos,
                              nPreviousNegativeEdges := Int.ofNat st.nPrevNeg }],
      nPrevPos := st.nPrevPos + 1, nPrevNeg := st.nPrevNeg, ePrev := st.e, e := eNext }
  else if st.e < -edgeThresh ∧ st.e < st.ePrev ∧ st.e ≤ eNext then
    { edges := st.edges ++ [{ polarity := -1, location := Int.ofNat i - 1, magnitude := -st.e,
                              nPreviousPositiveEdges := Int.ofNat st.nPrevPos,
                              nPreviousNegativeEdges := Int.ofNat st.nPrevNeg }],
      nPrevPos := st.nPrevPos, nPrevNeg := st.nPrevNeg + 1, ePrev := st.e, e := eNext }
  else { st with ePrev := st.e, e := eNext }

/-- The state of `extractEdges` after the first `n` turns of its loop, which runs `i` from
`width + 1` on. -/
def scanEdges (edgeThresh : Int) (width : Nat) (slice : List Int) (n : Nat) : EdgeScan :=
  (List.range n).foldl (fun st j => scanStep edgeThresh width slice st (width + 1 + j))
    { edges := [], nPrevPos := 0, nPrevNeg := 0, ePrev := 0, e := edgeFilter width slice width }

/-- Method `extractEdges` on the slice `slice`: the vector `edges` it leaves.
`staticWidth` holds the function-local `static const TUInt width` as an earlier decoder of
the process left it, `none` when this call initialises it with
`opts_.fundamentalWidth / 2`.  The loop runs `i` from `width + 1` until it equals
`slice_.size() - width - 1`; for a slice shorter than `2 * width + 2` the iterator starts
beyond that position and the reads leave the slice. -/
def extractEdges (staticWidth : Option Nat) (opts : Options) (slice : List Int) :
    Option (List DetectedEdge) :=
  let width := staticWidth.getD (opts.fundamentalWidth / 2)
  if slice.length < 2 * width + 2 then none
  else some (scanEdges opts.edgeThresh width slice (slice.length - 2 * width - 2)).edges

/-- The loop `while (too few previous edges) pFirstCandidate++`, with `pFirstCandidate` at the
head of the list: the position it stops at.  Nothing bounds the loop, so when no edge from
`pFirstCandidate` on has enough previous edges it reads past the last detected edge. -/
def skipTooFew (minNegEdges minPosEdges : Int) : List DetectedEdge → Option (List DetectedEdge)
  | [] => none
  | e :: rest =>
    if e.nPreviousNegativeEdges < minNegEdges ∨ e.nPreviousPositiveEdges < minPosEdges then
      skipTooFew minNegEdges minPosEdges rest
    else some (e :: rest)

/-- The loop `for (pDetectedEdge = pFirstCandidate; pDetectedEdge != detectedEdges.end(); ...)`:
it stops at the first edge with too many previous edges and keeps the edges of the right
polarity met before. -/
def collectCandidates (maxNegEdges maxPosEdges polarity : Int) :
    List DetectedEdge → List DetectedEdge
  | [] => []
  | e :: rest =>
    if e.nPreviousNegativeEdges > maxNegEdges ∨ e.nPreviousPositiveEdges > maxPosEdges then []
    else if e.polarity = polarity then
      e :: collectCandidates maxNegEdges maxPosEdges polarity rest
    else collectCandidates maxNegEdges maxPosEdges polarity rest

/-- The loop of `getFixedEdgeCandidates` over the fixed edges still to be treated, with
`pFirstCandidate` at the head of the second list.  Returns the value returned and the
candidate sets filled, in the order of the fixed edges. -/
def candidateLoop (nRemainingNegativeEdges nRemainingPositiveEdges : Int) :
    List Edge → List DetectedEdge → Option (Bool × List (List DetectedEdge))
  | [], _ => some (true, [])
  | pEdge :: more, pFirstCandidate =>
    match skipTooFew pEdge.nPreviousNegativeEdges pEdge.nPreviousPositiveEdges
        pFirstCandidate with
    | none => none
    | some first =>
      let pCandidates := collectCandidates
        (pEdge.nPreviousNegativeEdges + nRemainingNegativeEdges)
        (pEdge.nPreviousPositiveEdges + nRemainingPositiveEdges) pEdge.polarity first
      if pCandidates.isEmpty then some (false, [pCandidates])
      else
        match candidateLoop nRemainingNegativeEdges nRemainingPositiveEdges more first with
        | none => none
        | some (r, sets) => some (r, pCandidates :: sets)

/-- The value `nDetectedPositiveEdges` computed from the last detected edge. -/
def nDetectedPositiveEdges (lastEdge : DetectedEdge) : Int :=
  if lastEdge.polarity = 1 then lastEdge.nPreviousPositiveEdges + 1
  else lastEdge.nPreviousPositiveEdges

/-- The value `nDetectedNegativeEdges` computed from the last detected edge. -/
def nDetectedNegativeEdges (lastEdge : DetectedEdge) : Int :=
  if lastEdge.polarity = -1 then lastEdge.nPreviousNegativeEdges + 1
  else lastEdge.nPreviousNegativeEdges

/-- The function-local statics of `getFixedEdgeCandidates`: the expected numbers of positive
and of negative edges and the number of fixed edges. -/
structure CandidateStatics where
  nPositiveEdges : Int
  nNegativeEdges : Int
  nFixedEdges : Nat
  deriving DecidableEq, Repr

/-- The values with which a call of `getFixedEdgeCandidates` initialises its statics, from
the symbology of the decoder that makes the call. -/
def CandidateStatics.init (s : BarcodeSymbology) : CandidateStatics :=
  { nPositiveEdges := Int.ofNat (s.nTotalEdges / 2),
    nNegativeEdges := Int.ofNat (s.nTotalEdges / 2),
    nFixedEdges := s.nFixedEdges }

/-- Method `getFixedEdgeCandidates` of a decoder for the symbology `s`.  `statics` holds the
statics of the function as an earlier decoder of the process left them, `none` when this
call initialises them.  Returns the value returned and the candidate sets filled.
`detectedEdges.back()` on an empty vector reads outside the vector; the loop asks for the
fixed edges `0 .. nFixedEdges - 1` of `s`, and `getFixedEdge(n)` reads outside the vector of
fixed edges when `n` is their number. -/
def getFixedEdgeCandidates (statics : Option CandidateStatics) (s : BarcodeSymbology)
    (detectedEdges : List DetectedEdge) : Option (Bool × List (List DetectedEdge)) :=
  let st := statics.getD (CandidateStatics.init s)
  match detectedEdges.getLast? with
  | none => none
  | some lastEdge =>
    match candidateLoop (nDetectedNegativeEdges lastEdge - st.nNegativeEdges)
      (nDetectedPositiveEdges lastEdge - st.nPositiveEdges)
      (s.fixedEdges_.take st.nFixedEdges) detectedEdges with
    | none => none
    | some (false, sets) => some (false, sets)
    | some (true, sets) =>
      if st.nFixedEdges ≤ s.fixedEdges_.length then some (true, sets) else none

/-- The start of `localizeFixedEdges` on the slice `slice`: the edges are extracted and
matched with the fixed edges.  The value is what `getFixedEdgeCandidates` returns, which is
the value of `localizeFixedEdges` when it is `false`. -/
def fixedEdgeCandidatesOfSlice (staticWidth : Option Nat) (statics : Option CandidateStatics)
    (s : BarcodeSymbology) (opts : Options) (slice : List Int) :
    Option (Bool × List (List DetectedEdge)) :=
  match extractEdges staticWidth opts slice with
  | none => none
  | some detectedEdges => getFixedEdgeCandidates statics s detectedEdges

/-! ### Reference objects of the decoder proofs -/

/-- The prefix counts of the edges are consistent, starting from `pos` positive and `neg`
negative edges: every edge has polarity `1` or `-1` and records the numbers of positive and
of negative edges before it. -/
def consistentFrom : Int → Int → List DetectedEdge → Bool
  | _, _, [] => true
  | pos, neg, e :: rest =>
    (decide (e.polarity = 1) || decide (e.polarity = -1)) &&
      decide (e.nPreviousPositiveEdges = pos) && decide (e.nPreviousNegativeEdges = neg) &&
      consistentFrom (if e.polarity = 1 then pos + 1 else pos)
        (if e.polarity = -1 then neg + 1 else neg) rest

/-- A detected-edge list with consistent prefix counts. -/
def ConsistentCounts (es : List DetectedEdge) : Prop := consistentFrom 0 0 es = true

instance decidableConsistentCounts (es : List DetectedEdge) : Decidable (ConsistentCounts es) :=
  inferInstanceAs (Decidable (consistentFrom 0 0 es = true))

/-- The candidate window of the fixed edge `n` for the given slacks: the polarity of `n`, and
between `⌈k/2⌉` and `⌈k/2⌉ + slackNeg` negative and between `⌊k/2⌋` and `⌊k/2⌋ + slackPos`
positive edges before, `k` being the index of `n` among the edges of the symbology. -/
def inWindow (slackNeg slackPos : Int) (n : Edge) (e : DetectedEdge) : Bool :=
  decide (e.polarity = n.polarity) &&
    decide ((n.index + 1) / 2 ≤ e.nPreviousNegativeEdges) &&
    decide (e.nPreviousNegativeEdges ≤ (n.index + 1) / 2 + slackNeg) &&
    decide (n.index / 2 ≤ e.nPreviousPositiveEdges) &&
    decide (e.nPreviousPositiveEdges ≤ n.index / 2 + slackPos)

/-- The number of detected edges of polarity `p`. -/
def countPolarity (p : Int) (es : List DetectedEdge) : Nat := es.countP (fun e => e.polarity = p)

/-- The condition under which position `p` of the slice is an edge, in the words of the
specification: the response `e(p)` of the filter of half-width `W` exceeds the threshold in
absolute value and is a local extremum, `e(W - 1)` being taken as `0`.  The value is the
polarity and the magnitude. -/
def classify (edgeThresh : Int) (W : Nat) (slice : List Int) (p : Nat) : Option (Int × Int) :=
  let e := edgeFilter W slice p
  let before := if p = W then 0 else edgeFilter W slice (p - 1)
  let after := edgeFilter W slice (p + 1)
  if e > edgeThresh ∧ e > before ∧ e ≥ after then some (1, e)
  else if e < -edgeThresh ∧ e < before ∧ e ≤ after then some (-1, -e)
  else none

/-- An edge comes before another in a list with consistent counts: the counts of the later
edge include the earlier one. -/
def StepLe (a b : DetectedEdge) : Prop :=
  a.nPreviousNegativeEdges + (if a.polarity = -1 then 1 else 0) ≤ b.nPreviousNegativeEdges ∧
  a.nPreviousPositiveEdges + (if a.polarity = 1 then 1 else 0) ≤ b.nPreviousPositiveEdges

/-- Polarity, location and magnitude of a detected edge. -/
def DetectedEdge.shape (e : DetectedEdge) : Int × Int × Int :=
  (e.polarity, e.location, e.magnitude)

/-- The edge the specification expects at position `W + j`, if any. -/
def expectedAt (edgeThresh : Int) (W : Nat) (slice : List Int) (j : Nat) :
    Option (Int × Int × Int) :=
  (classify edgeThresh W slice (W + j)).map (fun pm => (pm.1, Int.ofNat (W + j), pm.2))

/-- What holds of the state of `extractEdges` after `n` turns of its loop. -/
structure ScanInv (edgeThresh : Int) (W : Nat) (slice : List Int) (n : Nat) (st : EdgeScan) :
    Prop where
  he : st.e = edgeFilter W slice (W + n)
  hePrev : st.ePrev = if n = 0 then 0 else edgeFilter W slice (W + n - 1)
  hshape : st.edges.map DetectedEdge.shape =
    (List.range n).filterMap (expectedAt edgeThresh W slice)
  hcons : consistentFrom 0 0 st.edges = true
  hpos : st.nPrevPos = countPolarity 1 st.edges
  hneg : st.nPrevNeg = countPolarity (-1) st.edges
  hloc : st.edges.Pairwise (fun a b => a.location < b.location)
  hbound : ∀ e ∈ st.edges, e.location < Int.ofNat (W + n)

/-- The test of the loop that moves `pFirstCandidate`. -/
def tooFew (minNegEdges minPosEdges : Int) (e : DetectedEdge) : Bool :=
  decide (e.nPreviousNegativeEdges < minNegEdges ∨ e.nPreviousPositiveEdges < minPosEdges)

/-- The test that ends the loop over the candidates. -/
def tooMany (maxNegEdges maxPosEdges : Int) (e : DetectedEdge) : Bool :=
  decide (e.nPreviousNegativeEdges > maxNegEdges ∨ e.nPreviousPositiveEdges > maxPosEdges)

/-- The loop over the fixed edges cannot leave the list, for the bound `b` on the negative
edges before the last detected edge: every fixed edge asks for at most `b` negative and
at most `half - 1` positive edges, where a fixed edge of negative polarity that found a
candidate raises `b` to one more than it asked for. -/
def safeFrom (half : Int) : Int → List Edge → Bool
  | _, [] => true
  | b, n :: rest =>
    decide (n.nPreviousNegativeEdges ≤ b) && decide (n.nPreviousPositiveEdges ≤ half - 1) &&
      safeFrom half (if n.polarity = -1 then max b (n.nPreviousNegativeEdges + 1) else b) rest

/-- The integral slice of a row of `n` pixels of value `v`. -/
def uniformSlice (v : Int) (n : Nat) : List Int := (List.range n).map (fun i => v * (Int.ofNat i + 1))

/-- A slice of 16 samples with one bright bar: the integral of
`0 0 0 0 0 100 100 100 100 0 ...`. -/
def barSlice : List Int := [0, 0, 0, 0, 0, 100, 200, 300, 400, 400, 400, 400, 400, 400, 400, 400]

/-- Options with a filter of half-width 2. -/
def smallOptions : Options := { defaultOptions with fundamentalWidth := 4 }

/-- The detected edges `- + - + ...`, `n` of them, one slice position apart, with their
prefix counts. -/
def alternatingEdges (n : Nat) : List DetectedEdge :=
  (List.range n).map (fun i =>
    { polarity := if i % 2 = 0 then -1 else 1, location := Int.ofNat (10 * i), magnitude := 100,
      nPreviousPositiveEdges := Int.ofNat (i / 2),
      nPreviousNegativeEdges := Int.ofNat ((i + 1) / 2) })

/-- The catalog of a symbology that consists of one guard symbol of three bars: four edges,
all of them fixed. -/
def guardSymbology : BarcodeSymbology :=
  (BarcodeSymbology.build BarcodeSymbology.empty
    [{ width := 3, nBars := 3, pattern := some [1, 1, 1] }]).getD BarcodeSymbology.empty

/-- The catalog of a symbology that consists of one special symbol of eleven bars: twelve
edges, all of them fixed. -/
def ladderSymbology : BarcodeSymbology :=
  (BarcodeSymbology.build BarcodeSymbology.empty
    [{ width := 11, nBars := 11, pattern := some (List.replicate 11 1) }]).getD
      BarcodeSymbology.empty

/-- A candidate across the middle of a 240 x 320 image. -/
def middleCandidate : Barcode :=
  { firstEdge := { x := 60, y := 120 }, lastEdge := { x := 260, y := 120 },
    estimate := "", symbology := "" }

end BarcodeDecoder

/-! # UPC-A convolution patterns (`UPCASymbology.cpp`) -/

namespace UpcaSymbology

/-- The table `digitPatterns_`. -/
def digitPatterns : List (List Nat) :=
  [[3, 2, 1, 1], [2, 2, 2, 1], [2, 1, 2, 2], [1, 4, 1, 1], [1, 1, 3, 2],
   [1, 2, 3, 1], [1, 1, 1, 4], [1, 3, 1, 2], [1, 2, 1, 3], [3, 1, 1, 2]]

/-- The conversion `(TUInt) w` of a `double` that is not negative and below `2^32`: its
integer part. -/
def toTUInt (w : ℚ) : Nat := (Rat.floor w).toNat

/-- The loop of `getConvolutionPattern` over the bars `dP` still to be read, in exact
arithmetic: the entries written and the final value of `width`. -/
def patternEntries (x : ℚ) : ℚ → List Nat → List Nat × ℚ
  | width, [] => ([], width)
  | width, m :: dP =>
    let r := patternEntries x (width + (m : ℚ) * x) dP
    (toTUInt (width + (m : ℚ) * x) :: r.1, r.2)

/-- Method `getConvolutionPattern(digit, x, isFlipped, pattern)` in exact arithmetic: the
vector `pattern` it leaves.  When flipped, the row of the digit is read from its last entry
backwards. -/
def getConvolutionPattern (digit : Nat) (x : ℚ) (isFlipped : Bool) : List Nat :=
  let row := digitPatterns.getD digit []
  let dP := if isFlipped then row.reverse else row
  let r := patternEntries x x dP
  toTUInt x :: r.1 ++ [toTUInt (r.2 + x)]

end UpcaSymbology

/-! # Engine: registration of symbologies (`BLaDE_Impl.cpp`) -/

namespace BLaDE

open Viterbi (Err)

/-- A symbology as the engine sees it: its name and its catalog. -/
structure Symbology where
  name : String
  catalog : BarcodeSymbology

/-- A `BarcodeDecoder` as the engine sees it: it owns its symbology. -/
structure Decoder where
  symbology_ : Symbology

/-- Method `BarcodeDecoder::symbology`: the name of the symbology. -/
def Decoder.symbology (d : Decoder) : String := d.symbology_.name

/-- The loop of `addSymbology` over `decoders_`: whether a decoder with the name exists. -/
def isRegistered (name : String) : List Decoder → Bool
  | [] => false
  | d :: rest => if d.symbology = name then true else isRegistered name rest

/-- Method `_BLaDE::addSymbology(BarcodeSymbology*)` on the list `decoders_`: the outcome,
`std::logic_error` when it throws, and the list as it is left. -/
def addSymbology (decoders : List Decoder) (aSymbology : Symbology) :
    Except Err Unit × List Decoder :=
  if isRegistered aSymbology.name decoders then (Except.error Err.logic_error, decoders)
  else (Except.ok (), decoders ++ [{ symbology_ := aSymbology }])

/-- The enum `BLaDE::PredefinedSymbology`. -/
inductive PredefinedSymbology where
  | UPCA : PredefinedSymbology

/-- The symbology `new UpcaSymbology()` creates. -/
def upcaSymbology : Symbology :=
  { name := "UPC-A", catalog := UpcaSymbology.symbology.getD BarcodeSymbology.empty }

/-- Method `_BLaDE::addSymbology(PredefinedSymbology)`; a `logic_error` is thrown again. -/
def addPredefinedSymbology (decoders : List Decoder) (aSymbology : PredefinedSymbology) :
    Except Err Unit × List Decoder :=
  match aSymbology with
  | PredefinedSymbology.UPCA => addSymbology decoders upcaSymbology

end BLaDE


/-! # Locator: a small striped image -/

namespace BarcodeLocator

open BarcodeDecoder (TPointInt Barcode)

/-- An image of 4 rows and 8 columns with vertical stripes two pixels wide, of values 0 and
40. -/
def stripeImage : Image :=
  { rows := 4, cols := 8, data := fun k => if (k % 8) / 2 % 2 = 0 then 0 else 40 }

/-- The value of `(TUInt8) (atan2(di, dj) / dTheta + 0.5 + nOrientations)` for a gradient
along an axis and a number of bins divisible by four: the angle is `0`, `π`, `π/2` or
`-π/2`.  Other gradients do not occur in the striped image. -/
def axisBin (nOrientations : Nat) (di dj : Int) : Nat :=
  if di = 0 then (if dj ≥ 0 then nOrientations else nOrientations + nOrientations / 2)
  else if dj = 0 then
    (if di > 0 then nOrientations + nOrientations / 4 else nOrientations - nOrientations / 4)
  else nOrientations

/-- An image of 4 rows and 8 columns of uniform gray 128. -/
def flatImage : Image := { rows := 4, cols := 8, data := fun _ => 128 }

end BarcodeLocator


/-! # Matched filter, catalog access, subsampling and scan lines

Further parts of `Decoder.cpp`, `Symbology.cpp` and `Locator.cpp`.

* The pointer `data` of `dotProduct` is the list of the slice entries from its position on.
  The slice holds running sums of pixel values, far inside the range of `int`, and a pattern
  of increasing boundaries has non-negative differences, so the arithmetic is that of the
  integers; `/` is the truncating division of C.
* A read or a write outside a vector is `none` (or `Err.undefined_behaviour`).
* A scan line moves a point with `double` coordinates; they are rationals here, which is
  exact for a step with integer components.
-/

namespace BarcodeDecoder

/-- The loop of `dotProduct` over the boundaries after the first: `sgn *= -1;
c += sgn * (data[*j] - data[*(j-1)]); patternSum += sgn * (*j - *(j-1))`.  The arguments are
the current `sgn`, the previous boundary `*(j-1)`, the boundaries still to come, `c` and
`patternSum`; the result is the final `c` and `patternSum`. -/
def dotProductLoop (data : List Int) : Int → Nat → List Nat → Int → Int → Option (Int × Int)
  | _, _, [], c, patternSum => some (c, patternSum)
  | sgn, prev, j :: rest, c, patternSum =>
    match data.get? j, data.get? prev with
    | some dj, some dp =>
      dotProductLoop data (-1 * sgn) j rest (c + (-1 * sgn) * (dj - dp))
        (patternSum + (-1 * sgn) * (Int.ofNat j - Int.ofNat prev))
    | _, _ => none

/-- Method `BarcodeDecoder::dotProduct`.  `none` when the pattern is empty (`pattern.back()`
of an empty vector), when its last entry is 0 (division by zero) or when an entry of `data`
is read that does not exist. -/
def dotProduct (sgn : Int) (data : List Int) (pattern : List Nat) : Option Int :=
  match pattern.getLast?, pattern with
  | some width, first :: rest =>
    match data.get? width, data.get? 0, data.get? first with
    | some dw, some d0, some df =>
      if width = 0 then none
      else
        let dataMean := (dw - d0).tdiv (Int.ofNat width)
        match dotProductLoop data sgn first rest (sgn * (df - d0)) (sgn * Int.ofNat first) with
        | some (c, patternSum) => some ((c - patternSum * dataMean).tdiv (Int.ofNat width))
        | none => none
    | _, _, _ => none
  | _, _ => none

/-- The accumulation `*s = sample + *(s-1)` of `extractIntegralSlice`, for integer samples:
every entry is the sample added to the entry before it, `acc` being the entry before the
first. -/
def integrate : Int → List Int → List Int
  | _, [] => []
  | acc, a :: rest => (acc + a) :: integrate (acc + a) rest

/-- The running integral of a sample sequence: entry `k` is the sum of the samples
`0 .. k`. -/
def runningIntegral (a : List Int) : List Int := integrate 0 a

/-- Seven samples of a signal with a dark bar. -/
def barSamples : List Int := [200, 200, 50, 50, 200, 200, 200]

end BarcodeDecoder

namespace BarcodeSymbology

open Viterbi (Err)

/-- Method `getFixedEdge(i)`: `std::invalid_argument` when `i > fixedEdges_.size()`, the
element `fixedEdges_[i]` otherwise; `operator[]` of a vector at an index that is not below
its size is undefined. -/
def getFixedEdge (s : BarcodeSymbology) (i : Nat) : Except Err Edge :=
  if i > s.fixedEdges_.length then Except.error Err.invalid_argument
  else
    match s.fixedEdges_.get? i with
    | some e => Except.ok e
    | none => Except.error Err.undefined_behaviour

/-- Method `getDataSymbol(i)`: `std::invalid_argument` when `i > dataSymbols_.size()`, the
element `dataSymbols_[i]` otherwise. -/
def getDataSymbol (s : BarcodeSymbology) (i : Nat) : Except Err Symbol :=
  if i > s.dataSymbols_.length then Except.error Err.invalid_argument
  else
    match s.dataSymbols_.get? i with
    | some sym => Except.ok sym
    | none => Except.error Err.undefined_behaviour

end BarcodeSymbology

namespace UpcaSymbology

open Viterbi

/-- A 10 x 12 energy matrix with every entry equal to `e`. -/
def constantMatrix (e : ℚ) : TMatrix ℚ := { rows := 10, cols := 12, get := fun _ _ => e }

end UpcaSymbology

namespace BarcodeLocator

open BarcodeDecoder (TPointInt Barcode)

/-- The number of turns of a loop `for (i = 0; i < n; i += step)`: the multiples of `step`
below `n`, `step` being positive. -/
def strideCount (n step : Nat) : Nat := (n + step - 1) / step

/-- The writes `dataScaled[jj] = data[j]` of `ImageContainer::subsample`, in the order in
which they happen, for an output with `outCols` columns: the flat position written in the
output, which is `ii * outCols + jj`, and the value, which is the input pixel
`(ii * step, jj * step)`.  The outer loop turns while `i = ii * step` is below the number of
input rows, the inner one while `j = jj * step` is below the number of input columns. -/
def subsampleWrites (input : Image) (scale outCols : Nat) : List (Nat × Nat) :=
  let step := 2 ^ scale
  (List.range (strideCount input.rows step)).flatMap (fun ii =>
    (List.range (strideCount input.cols step)).map (fun jj =>
      (ii * outCols + jj, input.data (ii * step * input.cols + jj * step))))

/-- Method `ImageContainer::subsample` on the output matrix the constructor allocates, of
`rows >> scale` rows and `cols >> scale` columns, all zero.  `none` when a write falls
outside the data of the output. -/
def subsample (input : Image) (scale : Nat) : Option Image :=
  let rows := input.rows / 2 ^ scale
  let cols := input.cols / 2 ^ scale
  let writes := subsampleWrites input scale cols
  if writes.all (fun w => decide (w.1 < rows * cols)) then
    some { rows := rows, cols := cols,
           data := writes.foldl (fun d w => Function.update d w.1 w.2) (fun _ => 0) }
  else none

/-- The test `imageRect.contains(curPt)` of `scanSegment` for the rectangle of an image of
`M` rows and `N` columns and a point with `double` coordinates:
`(x <= aPt.x) && (x + width > aPt.x) && (y <= aPt.y) && (y + height > aPt.y)`. -/
def imageContains (M N : Nat) (p : ℚ × ℚ) : Bool :=
  decide ((0 : ℚ) ≤ p.1) && decide (((0 + N : Nat) : ℚ) > p.1) &&
    decide ((0 : ℚ) ≤ p.2) && decide (((0 + M : Nat) : ℚ) > p.2)

/-- The conversion of a `double` to an integer type: the fraction is dropped. -/
def truncate (d : ℚ) : Int := if 0 ≤ d then Rat.floor d else - Rat.floor (- d)

/-- The entry `isAcceptable_(n, o)` that `prepareScanLines` sets for a barcode orientation
`n` and a gradient orientation bin `o` below `2 * nOrientations`: the bins `m` and
`m + nOrientations` are acceptable when `abs(n - m) <= 2` or
`abs(n - m) >= nOrientations - 2`, there being at least two orientations. -/
def isAcceptable (nOrientations n o : Nat) : Bool :=
  let m := o % nOrientations
  let d := (Int.ofNat n - Int.ofNat m).natAbs
  decide (d ≤ 2) || decide (d ≥ nOrientations - 2)

/-- How a direction of `scanSegment` ends: by the `break` (too far from the last good edge),
by the loop condition (the point has left the image), by the conversion of a negative
coordinate to an unsigned pixel index, which is undefined, or not within the turns
granted. -/
inductive SweepEnd where
  | tooFar : SweepEnd
  | leftImage : SweepEnd
  | negativeIndex : SweepEnd
  | unfinished : SweepEnd
  deriving DecidableEq, Repr

/-- The variables of one direction of `scanSegment`, and the pixels `(x, y)` at which the
magnitude map has been read so far. -/
structure Sweep where
  nEdges : Int
  dist : Int
  curPt : ℚ × ℚ
  lastEdge : TPointInt
  reads : List TPointInt
  deriving DecidableEq

/-- The body of the `while` loop of `scanSegment` after the point has been moved to `curPt`,
which converts to the pixel `(x, y)`: the magnitude and orientation maps are read at the flat
position `y * N + x`, and the tally, the distance and the last good edge are updated. -/
def sweepStep (N : Nat) (pol : Polar) (acceptable : Nat → Bool) (s : Sweep) (curPt : ℚ × ℚ)
    (x y : Int) : Sweep :=
  let p := y.toNat * N + x.toNat
  let reads := s.reads ++ [{ x := x, y := y }]
  if pol.absGrad p ≠ 0 then
    if acceptable (pol.angGrad p) then
      { nEdges := s.nEdges + 1, dist := 0, curPt := curPt, lastEdge := { x := x, y := y },
        reads := reads }
    else if s.nEdges > 0 then
      { nEdges := s.nEdges - 1, dist := s.dist + 1, curPt := curPt, lastEdge := s.lastEdge,
        reads := reads }
    else { s with curPt := curPt, reads := reads }
  else if s.nEdges > 0 then { s with dist := s.dist + 1, curPt := curPt, reads := reads }
  else { s with curPt := curPt, reads := reads }

/-- The `while` loop of `scanSegment` for one direction, for at most `fuel` turns: while the
point is inside the image it is moved by `step` and the maps are read at the pixel it
converts to; the direction ends when the distance exceeds `maxDistBtwEdges`.  Returns how the
direction ends and the variables at that moment. -/
def sweep (opts : Options) (M N : Nat) (pol : Polar) (acceptable : Nat → Bool)
    (step : ℚ × ℚ) : Nat → Sweep → SweepEnd × Sweep
  | 0, s => (SweepEnd.unfinished, s)
  | fuel + 1, s =>
    if imageContains M N s.curPt then
      let curPt : ℚ × ℚ := (s.curPt.1 + step.1, s.curPt.2 + step.2)
      let x := truncate curPt.1
      let y := truncate curPt.2
      if x < 0 ∨ y < 0 then (SweepEnd.negativeIndex, { s with curPt := curPt })
      else
        let s1 := sweepStep N pol acceptable s curPt x y
        if s1.dist > opts.maxDistBtwEdges then (SweepEnd.tooFar, s1)
        else sweep opts M N pol acceptable step fuel s1
    else (SweepEnd.leftImage, s)

/-- The state in which a direction of `scanSegment` starts: `dist = 0`, `curPt = pt`, and a
default-constructed `lastEdge`, which is `(0, 0)`. -/
def Sweep.start (nEdges : Int) (pt : TPointInt) : Sweep :=
  { nEdges := nEdges, dist := 0, curPt := ((pt.x : ℚ), (pt.y : ℚ)),
    lastEdge := { x := 0, y := 0 }, reads := [] }

/-- The first direction of `scanSegment` from the point `pt`, the tally starting at 0. -/
def firstSweep (opts : Options) (M N : Nat) (pol : Polar) (acceptable : Nat → Bool)
    (step : ℚ × ℚ) (fuel : Nat) (pt : TPointInt) : SweepEnd × Sweep :=
  sweep opts M N pol acceptable step fuel (Sweep.start 0 pt)

/-- The second direction of `scanSegment`: the step is reversed and the tally goes on from
where the first direction left it. -/
def secondSweep (opts : Options) (M N : Nat) (pol : Polar) (acceptable : Nat → Bool)
    (step : ℚ × ℚ) (fuel : Nat) (pt : TPointInt) : SweepEnd × Sweep :=
  sweep opts M N pol acceptable (step.1 * (-1), step.2 * (-1)) fuel
    (Sweep.start (firstSweep opts M N pol acceptable step fuel pt).2.nEdges pt)

/-- The endpoint a direction assigns to the candidate: `lastEdge` when the direction ends by
the `break`, nothing when the point leaves the image. -/
def assignedEndpoint (r : SweepEnd × Sweep) : Option TPointInt :=
  if r.1 = SweepEnd.tooFar then some r.2.lastEdge else none

/-- The two directions of `scanSegment` as a `Trace`, when both end by the `break` or by
leaving the image. -/
def scanTrace (opts : Options) (M N : Nat) (pol : Polar) (acceptable : Nat → Bool)
    (step : ℚ × ℚ) (fuel : Nat) (pt : TPointInt) : Option Trace :=
  let r0 := firstSweep opts M N pol acceptable step fuel pt
  let r1 := secondSweep opts M N pol acceptable step fuel pt
  if (r0.1 = SweepEnd.tooFar ∨ r0.1 = SweepEnd.leftImage) ∧
      (r1.1 = SweepEnd.tooFar ∨ r1.1 = SweepEnd.leftImage) then
    some { nEdges := r1.2.nEdges, lastEdge := assignedEndpoint r0,
           firstEdge := assignedEndpoint r1 }
  else none

deriving instance DecidableEq for Trace

/-- Whether the maps hold a non-zero gradient of acceptable orientation at a pixel. -/
def goodEdge (N : Nat) (pol : Polar) (acceptable : Nat → Bool) (p : TPointInt) : Bool :=
  decide (pol.absGrad (p.y.toNat * N + p.x.toNat) ≠ 0) &&
    acceptable (pol.angGrad (p.y.toNat * N + p.x.toNat))

/-- The last of the pixels read at which a non-zero gradient of acceptable orientation was
found; `(0, 0)`, the default-constructed point, when there is none. -/
def lastGoodEdge (N : Nat) (pol : Polar) (acceptable : Nat → Bool) (reads : List TPointInt) :
    TPointInt :=
  ((reads.filter (goodEdge N pol acceptable)).getLast?).getD { x := 0, y := 0 }

/-- Whether a pixel lies in the rectangle of an image of `M` rows and `N` columns. -/
def insideImage (M N : Nat) (p : TPointInt) : Prop :=
  0 ≤ p.x ∧ p.x < Int.ofNat N ∧ 0 ≤ p.y ∧ p.y < Int.ofNat M

instance decidableInsideImage (M N : Nat) (p : TPointInt) : Decidable (insideImage M N p) :=
  inferInstanceAs (Decidable (_ ∧ _ ∧ _ ∧ _))

/-- The pixel of an image at row `r` and column `c`, as an integer. -/
def Image.pixel (img : Image) (r c : Nat) : Int := Int.ofNat (img.data (r * img.cols + c))

/-- The response of the separable 3 x 3 Scharr operator centred at the pixel `(r, c)` along
the rows, as the specification states it: the differences `D = img(., c-1) - img(., c+1)` of
the rows `r-1`, `r`, `r+1`, smoothed with the weights 3, 10, 3 and divided by 16, the
division truncating toward zero. -/
def scharrResponseJ (img : Image) (r c : Nat) : Int :=
  (3 * (img.pixel (r - 1) (c - 1) - img.pixel (r - 1) (c + 1)) +
    10 * (img.pixel r (c - 1) - img.pixel r (c + 1)) +
    3 * (img.pixel (r + 1) (c - 1) - img.pixel (r + 1) (c + 1))).tdiv 16

/-- The response of the separable 3 x 3 Scharr operator centred at the pixel `(r, c)` along
the columns, as the specification states it: the difference of the sums
`S = 3 img(., c-1) + 10 img(., c) + 3 img(., c+1)` of the rows `r-1` and `r+1`, divided by
16, the division truncating toward zero. -/
def scharrResponseI (img : Image) (r c : Nat) : Int :=
  ((3 * img.pixel (r - 1) (c - 1) + 10 * img.pixel (r - 1) c + 3 * img.pixel (r - 1) (c + 1)) -
    (3 * img.pixel (r + 1) (c - 1) + 10 * img.pixel (r + 1) c +
      3 * img.pixel (r + 1) (c + 1))).tdiv 16

/-- A 5 x 5 image with a single bright pixel, of value 160, at row 2 and column 2. -/
def dotImage : Image := { rows := 5, cols := 5, data := fun k => if k = 12 then 160 else 0 }

/-- A 3 x 3 image whose pixel at row `r` and column `c` has the value `3 r + c + 1`. -/
def countingImage : Image := { rows := 3, cols := 3, data := fun k => k + 1 }

/-- Polar gradients of an image of 3 rows and 40 columns with bars that reach the right
border: on row 1 the columns 8 to 19 and 21 to 39 hold an edge of magnitude 50 and
orientation bin 0; there is no other edge. -/
def borderBarsPolar : Polar :=
  { absGrad := fun k => if (48 ≤ k ∧ k ≤ 59) ∨ (61 ≤ k ∧ k ≤ 79) then 50 else 0,
    angGrad := fun k => if (48 ≤ k ∧ k ≤ 59) ∨ (61 ≤ k ∧ k ≤ 79) then 0 else 36 }

/-- Polar gradients without any edge: every magnitude is 0 and every orientation is the
sentinel for 18 orientations. -/
def noEdgePolar : Polar := { absGrad := fun _ => 0, angGrad := fun _ => 36 }

/-- The step of `scanSegment` at orientation 7 of 18: the doubles `cos(theta)` and
`sin(theta)` for `theta = (PI / 18) * 7`, which are `0.3420201433256688` and
`0.9396926207859083`. -/
def roundingStep : ℚ × ℚ :=
  (6161287160138743 / 18014398509481984, 8463998673628443 / 9007199254740992)

/-- Polar gradients of an image of 40 rows and 16 columns with eight edges of magnitude 50
and orientation bin 7, at the pixels `(x, y)` = `(3, 12)`, `(3, 14)`, `(4, 16)`, `(5, 18)`,
`(7, 22)`, `(7, 24)`, `(8, 26)` and `(9, 28)`; there is no other edge. -/
def roundingPolar : Polar :=
  { absGrad := fun k => if k ∈ [195, 227, 260, 293, 359, 391, 424, 457] then 50 else 0,
    angGrad := fun k => if k ∈ [195, 227, 260, 293, 359, 391, 424, 457] then 7 else 36 }

end BarcodeLocator

/-! # Locator: an image with two blocks of stripes -/

namespace BarcodeLocator

open BarcodeDecoder (TPointInt Barcode)

deriving instance DecidableEq for Vote

/-- An image of 12 rows and 20 columns of gray 20 with two blocks of six by six pixels in the
rows 4 to 9: the columns 2 to 7 hold vertical stripes two pixels wide of the values 0 and 40,
the columns 10 to 15 hold horizontal stripes two pixels wide of the same values. -/
def tieImage : Image :=
  { rows := 12, cols := 20,
    data := fun k =>
      if 4 ≤ k / 20 ∧ k / 20 ≤ 9 ∧ 2 ≤ k % 20 ∧ k % 20 ≤ 7 then
        (if (k % 20 - 2) / 2 % 2 = 0 then 0 else 40)
      else if 4 ≤ k / 20 ∧ k / 20 ≤ 9 ∧ 10 ≤ k % 20 ∧ k % 20 ≤ 15 then
        (if (k / 20 - 4) / 2 % 2 = 0 then 0 else 40)
      else 20 }

/-- Options for the image with two blocks: a gradient threshold of 39, which only the
responses to a full stripe edge exceed, cells of side 4, and thresholds in proportion. -/
def tieOptions : Options :=
  { defaultOptions with gradThresh := 39, cellSize := 4, minVotesPerOrientation := 1,
                        minEdgesInBarcode := 2, maxDistBtwEdges := 1 }

/-- The matrices `dMag` and `dAng` of `tieImage` under `tieOptions`, written out: the
magnitude 28 on the rows 4 to 7 of the columns 4 to 7 and 12 to 15, with the orientation bins
18 and 0 in the first block and 27 and 9 in the second; no magnitude and the sentinel 36
elsewhere; the last row and the last column are not visited and stay 0. -/
def tiePolar : Polar :=
  { absGrad := fun k =>
      if 4 ≤ k / 20 ∧ k / 20 ≤ 7 ∧
          ((4 ≤ k % 20 ∧ k % 20 ≤ 7) ∨ (12 ≤ k % 20 ∧ k % 20 ≤ 15)) ∧ k < 240 then 28
      else 0,
    angGrad := fun k =>
      if k < 220 ∧ k % 20 < 19 then
        if 4 ≤ k / 20 ∧ k / 20 ≤ 7 ∧ 4 ≤ k % 20 ∧ k % 20 ≤ 5 then 18
        else if 4 ≤ k / 20 ∧ k / 20 ≤ 7 ∧ 6 ≤ k % 20 ∧ k % 20 ≤ 7 then 0
        else if 4 ≤ k / 20 ∧ k / 20 ≤ 5 ∧ 12 ≤ k % 20 ∧ k % 20 ≤ 15 then 27
        else if 6 ≤ k / 20 ∧ k / 20 ≤ 7 ∧ 12 ≤ k % 20 ∧ k % 20 ≤ 15 then 9
        else 36
      else 0 }

/-- The cells of a first locator for `tieImage` after `calculateCellHistograms`. -/
def tieCells : List (List Cell) :=
  calculateCellHistograms tieOptions 12 20 tiePolar (prepareCells tieOptions 12 20)

/-- Method `Cell::dominantOrientation`: the first bin of `orientationHistogram` that holds
the largest count. -/
def Cell.dominantOrientation (c : Cell) : Nat :=
  (List.range c.orientationHistogram.length).foldl
    (fun best o =>
      if c.orientationHistogram.getD o 0 > c.orientationHistogram.getD best 0 then o else best) 0

/-- Method `Cell::center`: `(box.tl() + box.br()) * .5`, converted to a `TPointInt`, which
drops the fraction. -/
def Cell.center (c : Cell) : TPointInt :=
  { x := Int.tdiv (c.box.x + (c.box.x + c.box.width)) 2,
    y := Int.tdiv (c.box.y + (c.box.y + c.box.height)) 2 }

/-- The cells whose centers `getCandidateCellClusters` collects as votes for the quantised
orientation `thetaQuantFloor`: the cells that should be considered and whose dominant
orientation is that bin or the next one, modulo `nOrientations`. -/
def votingCells (entropy : List Nat → ℚ) (opts : Options) (cells : List (List Cell))
    (thetaQuantFloor : Nat) : List Cell :=
  cells.flatten.filter (fun c =>
    c.shouldBeConsidered entropy opts.maxEntropy &&
      (decide (c.dominantOrientation = thetaQuantFloor) ||
        decide (c.dominantOrientation = (thetaQuantFloor + 1) % opts.nOrientations)))

/-- Method `getCandidateCellClusters` while fewer than two cells vote: `meanShift` returns a
vector of fewer than two votes as it is and `findClusterCenters` makes a single vote a
center, so the candidates are the centers of the voting cells.  The mean shift of two or more
votes is not modelled; the list is then left empty. -/
def singleCellClusters (entropy : List Nat → ℚ) (opts : Options) (cells : List (List Cell))
    (theta : ℚ) : List TPointInt :=
  if (votingCells entropy opts cells ((Int.toNat (Int.floor theta)) % 256)).length < 2 then
    (votingCells entropy opts cells ((Int.toNat (Int.floor theta)) % 256)).map Cell.center
  else []

/-- The value of `Cell::entropy` for a weighted histogram with at most one bin that is not
zero: `log(tot) - (tot * log(tot)) / tot`, which is 0 (in `double` up to the last bit).
Histograms with more bins do not occur in the image with two blocks; the value 2 stands for
them. -/
def singleBinEntropy (h : List Nat) : ℚ :=
  if (h.filter (fun x => decide (x ≠ 0))).length ≤ 1 then 0 else 2

/-- The step `(cos(theta), sin(theta))` of `scanSegment` for `theta = (PI / 18) * o` at the
orientations 0 and 9.  At 0 it is `(1, 0)`.  At 9 the sine is 1 and the cosine is the double
`6.1e-17`: adding it to, or subtracting it from, a coordinate of 1 or more leaves the double
unchanged, so the scan visits the pixels of one column, as with the step `(0, 1)`. -/
def axisStep (o : Int) : ℚ × ℚ := if o = 0 then (1, 0) else (0, 1)

/-- The outcome of the two sweeps of `scanSegment` at the orientation 0 or 9; a scan that
does not end by the `break` or by leaving the image has no outcome (it does not occur for the
image with two blocks). -/
def axisTrace (opts : Options) (img : Image) (pol : Polar) (o : Int) (p : TPointInt) : Trace :=
  (scanTrace opts img.rows img.cols pol (isAcceptable opts.nOrientations o.toNat) (axisStep o)
    64 p).getD { nEdges := 0, lastEdge := none, firstEdge := none }

/-- Stage outcomes for the image with two blocks: the orientation bins of gradients along an
axis, the entropy of a histogram with one bin, the scans along a row or a column, the cluster
centers of single cells, and the two modes `a` and `b`, with the weights `wa` and `wb`, that
the steepest ascent leaves for the seeds 0 and 9. -/
def tieStagesWith (a b wa wb : ℚ) : Stages :=
  { angleBin := axisBin
    entropy := singleBinEntropy
    ascend := fun _ _ => [{ loc := a, weight := wa }, { loc := b, weight := wb }]
    clusters := singleCellClusters singleBinEntropy
    trace := axisTrace }

/-- Stage outcomes for the image with two blocks, with the modes of the steepest ascent in
`double` arithmetic: `4.650460003198306e-16` and `9.000451929634432`, with the weights
`40.10765925501243` and `40.10765986581604`.  (The ascent leaves the seeds by these amounts
because `-opts_.nOrientations / 2` is computed in `unsigned`, so every distance is taken
modulo the number of orientations.) -/
def tieStages : Stages :=
  tieStagesWith (4716126731513365 / 10141204801825835211973625643008)
    (5066803994558461 / 562949953421312) (5644651227361775 / 140737488355328)
    (5644651313324741 / 140737488355328)

/-- The candidate of the block of vertical stripes: three edges on row 6. -/
def verticalCandidate : BarcodeCandidate :=
  { nEdges := 3, orientation := 0, firstEdge := { x := 4, y := 6 },
    lastEdge := { x := 7, y := 6 } }

/-- The candidate of the block of horizontal stripes: three edges on column 14. -/
def horizontalCandidate : BarcodeCandidate :=
  { nEdges := 3, orientation := 9, firstEdge := { x := 14, y := 4 },
    lastEdge := { x := 14, y := 7 } }

end BarcodeLocator

/-! ## Correctness of the solver -/

open List

namespace Viterbi

section ListLemmas
variable {E : Type} [LinearOrder E]

theorem take_le_of_subperm {y : E} : ∀ (l : List E) (B : List E) (K : Nat),
    l.Sorted (· ≤ ·) → B <+~ l → K ≤ B.length → (∀ b ∈ B, b ≤ y) →
    ∀ x ∈ l.take K, x ≤ y := by
  intro l
  induction l with
  | nil => intro B K _ _ _ _ x hx; simp at hx
  | cons a l ih =>
    intro B K hs hB hK hy x hx
    cases K with
    | zero => simp at hx
    | succ K =>
      rw [List.take_succ_cons, List.mem_cons] at hx
      have hBne : B ≠ [] := by
        intro h; subst h; simp at hK
      rcases hx with rfl | hx
      · obtain ⟨b, hb⟩ := List.exists_mem_of_ne_nil B hBne
        have hbl : b ∈ x :: l := hB.subset hb
        rcases List.mem_cons.1 hbl with h | h
        · exact h ▸ hy b hb
        · exact le_trans (List.rel_of_sorted_cons hs b h) (hy b hb)
      · refine ih (B.erase a) K hs.of_cons ?_ ?_ ?_ x hx
        · have := hB.erase a
          simpa using this
        · have := List.le_length_erase a B
          omega
        · intro b hb
          exact hy b (List.mem_of_mem_erase hb)

theorem splitOf_take {A R U l' : List E} (K : Nat) (hl : l'.Sorted (· ≤ ·)) (hp : l' ~ A)
    (hU : U ~ A ++ R)
    (hR : ∀ y ∈ R, ∃ B, B <+~ A ∧ K ≤ B.length ∧ ∀ b ∈ B, b ≤ y) :
    SplitOf (l'.take K) U := by
  refine ⟨l'.drop K ++ R, ?_, ?_⟩
  · calc U ~ A ++ R := hU
      _ ~ l' ++ R := hp.symm.append_right R
      _ = (l'.take K ++ l'.drop K) ++ R := by rw [List.take_append_drop]
      _ = l'.take K ++ (l'.drop K ++ R) := by rw [List.append_assoc]
  · intro x hx y hy
    rcases List.mem_append.1 hy with hy | hy
    · exact hl.rel_of_mem_take_of_mem_drop hx hy
    · obtain ⟨B, hB, hK, hle⟩ := hR y hy
      exact take_le_of_subperm l' B K hl (hB.trans hp.symm.subperm) hK hle x hx

end ListLemmas
end Viterbi

namespace Viterbi

section Init
variable {E : Type}

theorem seedSubstates_replicate [Zero E] (p halfMax : E) (n : Int) :
    ∀ (m j : Nat), seedSubstates p halfMax j (List.replicate m (SubState.init n)) =
      (List.range' j m).map (fun i =>
        ({ energy := (if i = 0 then p else halfMax), index := n, path := i,
           prevState := Link.null } : SubState E)) := by
  intro m
  induction m with
  | zero => intro j; rfl
  | succ m ih =>
    intro j
    rw [List.replicate_succ, seedSubstates, ih (j + 1), List.range'_succ, List.map_cons]
    rfl

theorem map_ite_range'_one (p halfMax : E) (m : Nat) :
    (List.range' 1 m).map (fun i => if i = 0 then p else halfMax) = List.replicate m halfMax := by
  rw [List.eq_replicate_iff]
  refine ⟨by simp, ?_⟩
  intro b hb
  obtain ⟨i, hi, rfl⟩ := List.mem_map.1 hb
  have : 1 ≤ i := (List.mem_range'_1.1 hi).1
  have h0 : i ≠ 0 := by omega
  simp [h0]

theorem getD_of_drop_eq_cons [Zero E] {p0 : List E} {k : Nat} {p : E} {ps : List E}
    (h : p0.drop k = p :: ps) : p0.getD k 0 = p ∧ p0.drop (k + 1) = ps := by
  constructor
  · have h1 : (p0.drop k)[0]? = some p := by rw [h]; simp
    rw [List.getElem?_drop] at h1
    simp only [Nat.add_zero] at h1
    rw [List.getD_eq_getElem?_getD, h1]; rfl
  · have : p0.drop (k + 1) = (p0.drop k).drop 1 := by
      rw [List.drop_drop]
    rw [this, h]; rfl

end Init
end Viterbi

namespace Viterbi
section Init2
variable {E : Type} [LinearOrderedAddCommMonoid E]

theorem resize_init (t K m : Nat) :
    (Variable.init t K : Variable E).resize m =
      { states := (List.range' 0 m).map (fun n => State.init (Int.ofNat n) K),
        index := t, nPaths := K } := by
  simp [Variable.resize, Variable.init, List.take_of_length_le]

theorem stateInv_seed (halfMax : E) (K : Nat) (hK : 1 ≤ K) (p0 : List E) (k : Nat) (s : State E)
    (hs : s.substates = List.replicate K (SubState.init (Int.ofNat k))) :
    StateInv halfMax K [p0] [] k
      { s with substates := seedSubstates (p0.getD k 0) halfMax 0 s.substates } := by
  have hsub := seedSubstates_replicate (p0.getD k 0) halfMax (Int.ofNat k) K 0
  rw [← hs] at hsub
  refine ⟨?_, ?_, ?_, ?_, ?_⟩
  · show (seedSubstates (p0.getD k 0) halfMax 0 s.substates).length = K
    rw [hsub]; simp
  · intro ss hss
    simp only [hsub, List.mem_map] at hss
    obtain ⟨i, hi, rfl⟩ := hss
    refine ⟨[k], by simp [revSeqs], by simp [SubState.addr, Link.indices], ?_⟩
    by_cases h0 : i = 0
    · left; simp [h0, accEnergy, seedReal]
    · right
      have := (List.mem_range'_1.1 hi).2
      refine ⟨by omega, by simp [h0, accEnergy]⟩
  · refine ⟨[], ?_, by simp⟩
    obtain ⟨K', rfl⟩ : ∃ K', K = K' + 1 := ⟨K - 1, by omega⟩
    simp only [hsub, List.map_map, List.append_nil]
    rw [List.range'_succ, List.map_cons]
    have := map_ite_range'_one (p0.getD k 0) halfMax K'
    simp only [extEnergies, revSeqs, List.flatMap_cons, List.flatMap_nil, List.append_nil,
      accEnergy, seedReal, List.getLastD_cons, List.getLastD_nil, Nat.add_sub_cancel]
    simp only [Function.comp_def, Nat.zero_add, if_true, this]
    exact List.Perm.refl _
  · intro h; simp at h
  · intro _
    obtain ⟨K', rfl⟩ : ∃ K', K = K' + 1 := ⟨K - 1, by omega⟩
    simp only [hsub, List.map_map]
    rw [List.range'_succ, List.map_cons]
    simp [seedReal]

theorem forall₂_seed (halfMax : E) (K : Nat) (hK : 1 ≤ K) (p0 : List E) :
    ∀ (ps : List E) (k : Nat), p0.drop k = ps →
      List.Forall₂ (StateInv halfMax K [p0] []) (List.range' k ps.length)
        (List.zipWith
          (fun s p => { s with substates := seedSubstates p halfMax 0 s.substates })
          ((List.range' k ps.length).map (fun n => State.init (Int.ofNat n) K)) ps) := by
  intro ps
  induction ps with
  | nil => intro k _; simp
  | cons p ps ih =>
    intro k hk
    obtain ⟨hp, hd⟩ := getD_of_drop_eq_cons hk
    rw [List.length_cons, List.range'_succ, List.map_cons, List.zipWith_cons_cons]
    refine List.Forall₂.cons ?_ (ih (k + 1) hd)
    rw [← hp]
    exact stateInv_seed halfMax K hK p0 k _ rfl

theorem varInv_calculatePrior (halfMax : E) (K : Nat) (hK : 1 ≤ K) (p0 : List E) :
    VarInv halfMax K [p0] [] ((Variable.init 0 K).calculatePrior halfMax p0) := by
  refine ⟨?_, p0, rfl, ?_⟩
  · simp [Variable.calculatePrior, resize_init]
  · simp only [Variable.calculatePrior, resize_init]
    exact forall₂_seed halfMax K hK p0 p0 0 rfl

end Init2
end Viterbi

namespace Viterbi
section Step
variable {E : Type} [LinearOrderedAddCommMonoid E]

theorem revSeqs_head {P : List (List E)} {n : Nat} {r : List Nat} (h : r ∈ revSeqs P n) :
    ∃ r', r = n :: r' := by
  match P, h with
  | [_], h => simp [revSeqs] at h; exact ⟨[], h⟩
  | _ :: q :: P, h =>
    simp only [revSeqs, List.mem_flatMap, List.mem_map] at h
    obtain ⟨_, _, r', _, rfl⟩ := h
    exact ⟨r', rfl⟩

theorem seedReal_cons (p q : List E) (P : List (List E)) :
    seedReal (p :: q :: P) = seedReal (q :: P) := by
  funext n; simp [seedReal]

theorem extEnergies_cons (halfMax : E) (K : Nat) (p q : List E) (P : List (List E))
    (c : TMatrix E) (C : List (TMatrix E)) (n : Nat) :
    extEnergies halfMax K (p :: q :: P) (c :: C) n =
      (List.range' 0 q.length).flatMap (fun pN =>
        (extEnergies halfMax K (q :: P) C pN).map (fun e => (p.getD n 0 + c.get pN n) + e)) := by
  simp only [extEnergies, revSeqs, List.flatMap_assoc, seedReal_cons]
  refine List.flatMap_congr ?_
  intro pN _
  rw [List.flatMap_map, List.map_flatMap]
  refine List.flatMap_congr ?_
  intro r hr
  obtain ⟨r', rfl⟩ := revSeqs_head hr
  simp [accEnergy]

theorem allPathsFrom_length (halfMax : E) (K : Nat) (P : List (List E)) (C : List (TMatrix E))
    (c : TMatrix E) (spe : E) (n : Nat) :
    ∀ (idx : List Nat) (sts : List (State E)) (k : Nat),
      List.Forall₂ (StateInv halfMax K P C) idx sts →
      (allPathsFrom c spe n k sts).length = sts.length * K := by
  intro idx sts k h
  induction h generalizing k with
  | nil => simp [allPathsFrom]
  | cons h1 _ ih =>
    simp only [allPathsFrom, List.length_append, List.length_map, List.length_cons, ih, h1.1]
    ring

theorem allPathsFrom_mem (halfMax : E) (K : Nat) (P : List (List E)) (C : List (TMatrix E))
    (c : TMatrix E) (spe : E) (n : Nat) :
    ∀ (sts : List (State E)) (k m : Nat),
      List.Forall₂ (StateInv halfMax K P C) (List.range' k m) sts →
      ∀ a ∈ allPathsFrom c spe n k sts, ∃ pN pSS, pN ∈ List.range' k m ∧
        SubOK halfMax K P C pN pSS ∧ a.energy = (spe + c.get pN n) + pSS.energy ∧
        a.prevState = pSS.addr := by
  intro sts
  induction sts with
  | nil => intro k m _ a ha; simp [allPathsFrom] at ha
  | cons st sts ih =>
    intro k m h a ha
    cases m with
    | zero => simp at h
    | succ m =>
      rw [List.range'_succ] at h
      rw [List.forall₂_cons] at h
      simp only [allPathsFrom, List.mem_append, List.mem_map] at ha
      rcases ha with ⟨pSS, hp, rfl⟩ | ha
      · exact ⟨k, pSS, by simp [List.range'_succ], h.1.2.1 pSS hp, rfl, rfl⟩
      · obtain ⟨pN, pSS, h1, h2⟩ := ih (k + 1) m h.2 a ha
        exact ⟨pN, pSS, by rw [List.range'_succ]; exact List.mem_cons_of_mem _ h1, h2⟩

theorem allPathsFrom_split (halfMax : E) (K : Nat) (P : List (List E)) (C : List (TMatrix E))
    (c : TMatrix E) (spe : E) (n : Nat) :
    ∀ (sts : List (State E)) (k m : Nat),
      List.Forall₂ (StateInv halfMax K P C) (List.range' k m) sts →
      ∃ R, List.Perm
          ((List.range' k m).flatMap (fun pN =>
            (extEnergies halfMax K P C pN).map (fun e => (spe + c.get pN n) + e)))
          ((allPathsFrom c spe n k sts).map (fun a => a.energy) ++ R) ∧
        ∀ y ∈ R, ∃ B, List.Sublist B ((allPathsFrom c spe n k sts).map (fun a => a.energy)) ∧
          K ≤ B.length ∧ ∀ b ∈ B, b ≤ y := by
  intro sts
  induction sts with
  | nil =>
    intro k m h
    cases m with
    | zero => exact ⟨[], by simp [allPathsFrom], by simp⟩
    | succ m => rw [List.range'_succ] at h; cases h
  | cons st sts ih =>
    intro k m h
    cases m with
    | zero => simp at h
    | succ m =>
      rw [List.range'_succ, List.forall₂_cons] at h
      obtain ⟨R, hperm, hR⟩ := ih (k + 1) m h.2
      obtain ⟨hlen, _, ⟨rest, hrest, hle⟩, _⟩ := h.1
      let f : E → E := fun e => (spe + c.get k n) + e
      refine ⟨rest.map f ++ R, ?_, ?_⟩
      · rw [List.range'_succ, List.flatMap_cons]
        simp only [allPathsFrom, List.map_append, List.map_map]
        have h1 : List.Perm ((extEnergies halfMax K P C k).map f)
            ((st.substates.map (fun ss => ss.energy)).map f ++ rest.map f) := by
          rw [← List.map_append]; exact hrest.map f
        have h2 := h1.append hperm
        refine h2.trans ?_
        simp only [List.map_map, List.append_assoc]
        refine List.Perm.append_left _ ?_
        rw [← List.append_assoc, ← List.append_assoc]
        exact List.Perm.append_right _ List.perm_append_comm
      · intro y hy
        simp only [allPathsFrom, List.map_append, List.map_map]
        rcases List.mem_append.1 hy with hy | hy
        · obtain ⟨z, hz, rfl⟩ := List.mem_map.1 hy
          refine ⟨(st.substates.map (fun ss => ss.energy)).map f, ?_, by simp [hlen], ?_⟩
          · simp only [List.map_map]
            exact List.sublist_append_left _ _
          · intro b hb
            obtain ⟨e, he, rfl⟩ := List.mem_map.1 hb
            exact add_le_add_left (hle e he z hz) _
        · obtain ⟨B, hB, hK, hBle⟩ := hR y hy
          exact ⟨B, hB.trans (List.sublist_append_right _ _), hK, hBle⟩

end Step
end Viterbi

namespace Viterbi
section Step2
variable {E : Type} [LinearOrderedAddCommMonoid E]

theorem fixPaths_map_energy (n : Nat) :
    ∀ (l : List (SubState E)) (i : Nat),
      (fixPaths n i l).map (fun ss => ss.energy) = l.map (fun ss => ss.energy) := by
  intro l
  induction l with
  | nil => intro i; rfl
  | cons a l ih => intro i; simp [fixPaths, ih]

theorem fixPaths_length (n : Nat) (l : List (SubState E)) (i : Nat) :
    (fixPaths n i l).length = l.length := by
  have := congrArg List.length (fixPaths_map_energy n l i)
  simpa using this

theorem fixPaths_mem (n : Nat) :
    ∀ (l : List (SubState E)) (i : Nat), ∀ ss ∈ fixPaths n i l,
      ∃ a ∈ l, ss.energy = a.energy ∧ ss.prevState = a.prevState ∧ ss.index = Int.ofNat n := by
  intro l
  induction l with
  | nil => intro i ss h; simp [fixPaths] at h
  | cons a l ih =>
    intro i ss h
    simp only [fixPaths, List.mem_cons] at h
    rcases h with rfl | h
    · exact ⟨a, by simp, rfl, rfl, rfl⟩
    · obtain ⟨b, hb, h2⟩ := ih (i + 1) ss h
      exact ⟨b, List.mem_cons_of_mem _ hb, h2⟩

theorem subOK_step (halfMax : E) (K : Nat) (p q : List E) (P : List (List E))
    (c : TMatrix E) (C : List (TMatrix E)) (n pN : Nat) (pSS ss : SubState E)
    (hpN : pN ∈ List.range' 0 q.length)
    (hok : SubOK halfMax K (q :: P) C pN pSS)
    (he : ss.energy = (p.getD n 0 + c.get pN n) + pSS.energy)
    (hp : ss.prevState = pSS.addr) (hi : ss.index = Int.ofNat n) :
    SubOK halfMax K (p :: q :: P) (c :: C) n ss := by
  obtain ⟨r, hr, hidx, hen⟩ := hok
  obtain ⟨r', rfl⟩ := revSeqs_head hr
  refine ⟨n :: pN :: r', ?_, ?_, ?_⟩
  · simp only [revSeqs, List.mem_flatMap, List.mem_map]
    exact ⟨pN, hpN, pN :: r', hr, rfl⟩
  · simp only [SubState.addr, Link.indices, hp, hi, List.map_cons]
    rw [← List.map_cons, ← hidx]; rfl
  · rcases hen with h | ⟨h2, h⟩
    · left; rw [he, h, seedReal_cons]; simp [accEnergy]
    · right; refine ⟨h2, ?_⟩; rw [he, h]; simp [accEnergy]

theorem stateInv_calculate (S : StdSort E) (halfMax : E) (K : Nat) (p q : List E)
    (P : List (List E)) (c : TMatrix E) (C : List (TMatrix E)) (prev : Variable E)
    (hq : q ≠ []) (hprev : VarInv halfMax K (q :: P) C prev) (n : Nat) (s : State E)
    (hs : s.substates.length = K) :
    StateInv halfMax K (p :: q :: P) (c :: C) n
      (State.calculate S prev c n s (p.getD n 0)) := by
  obtain ⟨_, q', hq', hall⟩ := hprev
  simp only [List.head?_cons, Option.some.injEq] at hq'
  subst hq'
  have hlen := allPathsFrom_length halfMax K (q :: P) C c (p.getD n 0) n _ _ 0 hall
  have hstates : prev.states.length = q.length := by
    have := hall.length_eq; simpa using this.symm
  have hqpos : 1 ≤ q.length := by
    cases q with
    | nil => exact absurd rfl hq
    | cons _ _ => simp
  obtain ⟨l', hperm, hsorted, hsort⟩ :=
    S.partial_sort_copy_spec (allPathsFrom c (p.getD n 0) n 0 prev.states) s.substates.length
  have hl' : l'.length = q.length * K := by rw [hperm.length_eq, hlen, hstates]
  have hKle : K ≤ l'.length := by rw [hl']; exact Nat.le_mul_of_pos_left K hqpos
  have hsub : (State.calculate S prev c n s (p.getD n 0)).substates = fixPaths n 0 (l'.take K) := by
    rw [hs] at hsort
    have : (l'.take K).length = K := by simp [hKle]
    simp only [State.calculate, hs, hsort]
    rw [this, List.drop_of_length_le (by omega), List.append_nil]
  have hsortedE : List.Sorted (fun a b : E => a ≤ b) (l'.map (fun a => a.energy)) := by
    unfold List.Sorted
    rw [List.pairwise_map]
    exact hsorted
  refine ⟨?_, ?_, ?_, ?_, ?_⟩
  · rw [hsub, fixPaths_length]; simp [hKle]
  · intro ss hss
    rw [hsub] at hss
    obtain ⟨a, ha, he, hp, hi⟩ := fixPaths_mem n _ 0 ss hss
    have ha' : a ∈ allPathsFrom c (p.getD n 0) n 0 prev.states :=
      hperm.subset (List.mem_of_mem_take ha)
    obtain ⟨pN, pSS, hpN, hok, hae, hap⟩ :=
      allPathsFrom_mem halfMax K (q :: P) C c (p.getD n 0) n _ 0 q.length hall a ha'
    exact subOK_step halfMax K p q P c C n pN pSS ss hpN hok (he.trans hae) (hp.trans hap) hi
  · rw [hsub, fixPaths_map_energy, List.map_take]
    obtain ⟨R, hU, hR⟩ :=
      allPathsFrom_split halfMax K (q :: P) C c (p.getD n 0) n _ 0 q.length hall
    rw [← extEnergies_cons] at hU
    refine splitOf_take K hsortedE (hperm.map _) hU ?_
    intro y hy
    obtain ⟨B, hB, hK, hle⟩ := hR y hy
    exact ⟨B, hB.subperm, hK, hle⟩
  · intro _
    rw [hsub, fixPaths_map_energy, List.map_take]
    exact List.Pairwise.sublist (List.take_sublist _ _) hsortedE
  · intro h; simp at h

end Step2
end Viterbi

namespace Viterbi
section Run
variable {E : Type} [LinearOrderedAddCommMonoid E]

theorem forall₂_calculateStates (S : StdSort E) (halfMax : E) (K : Nat) (p q : List E)
    (P : List (List E)) (c : TMatrix E) (C : List (TMatrix E)) (prev : Variable E)
    (hq : q ≠ []) (hprev : VarInv halfMax K (q :: P) C prev) :
    ∀ (ps : List E) (k : Nat), p.drop k = ps →
      List.Forall₂ (StateInv halfMax K (p :: q :: P) (c :: C)) (List.range' k ps.length)
        (calculateStates S prev c k
          ((List.range' k ps.length).map (fun n => State.init (Int.ofNat n) K)) ps) := by
  intro ps
  induction ps with
  | nil => intro k _; simp [calculateStates]
  | cons x ps ih =>
    intro k hk
    obtain ⟨hp, hd⟩ := getD_of_drop_eq_cons hk
    rw [List.length_cons, List.range'_succ, List.map_cons, calculateStates]
    refine List.Forall₂.cons ?_ (ih (k + 1) hd)
    rw [← hp]
    exact stateInv_calculate S halfMax K p q P c C prev hq hprev k _ (by simp [State.init])

theorem varInv_calculate (S : StdSort E) (halfMax : E) (K : Nat) (p q : List E)
    (P : List (List E)) (c : TMatrix E) (C : List (TMatrix E)) (prev : Variable E) (t : Nat)
    (hq : q ≠ []) (hprev : VarInv halfMax K (q :: P) C prev)
    (hrows : c.rows = q.length) (hcols : c.cols = p.length) :
    ∃ v, (Variable.init t K).calculate S prev p c = Except.ok v ∧
      VarInv halfMax K (p :: q :: P) (c :: C) v := by
  have hstates : prev.states.length = q.length := by
    obtain ⟨_, q', hq', hall⟩ := hprev
    simp only [List.head?_cons, Option.some.injEq] at hq'
    subst hq'
    have := hall.length_eq; simpa using this.symm
  have hv1 : (if p.length ≠ (Variable.init t K : Variable E).states.length
      then (Variable.init t K : Variable E).resize p.length else Variable.init t K) =
      { states := (List.range' 0 p.length).map (fun n => State.init (Int.ofNat n) K),
        index := t, nPaths := K } := by
    by_cases h : p.length = 0
    · simp [Variable.init, h]
    · rw [if_pos (by simpa [Variable.init] using h), resize_init]
  refine ⟨Variable.mk (calculateStates S prev c 0
      ((List.range' 0 p.length).map (fun n => State.init (Int.ofNat n) K)) p) t K, ?_, ?_⟩
  · simp only [Variable.calculate, hv1]
    rw [if_neg]
    simp [hrows, hcols, hstates]
  · refine ⟨rfl, p, rfl, ?_⟩
    exact forall₂_calculateStates S halfMax K p q P c C prev hq hprev p 0 rfl

theorem runFrom_inv (S : StdSort E) (halfMax : E) (K : Nat) :
    ∀ (ps : List (List E)) (cs : List (TMatrix E)) (prev : Variable E) (t : Nat) (q : List E)
      (P : List (List E)) (C : List (TMatrix E)),
      VarInv halfMax K (q :: P) C prev → q ≠ [] → (∀ p ∈ ps, p ≠ []) →
      cs.length = ps.length → shapesOk (q :: ps) cs = true →
      ∃ vs, runFrom S K prev t ps cs = Except.ok vs ∧ vs.length = ps.length ∧
        ∃ v, (prev :: vs).getLast? = some v ∧
          VarInv halfMax K (ps.reverse ++ q :: P) (cs.reverse ++ C) v := by
  intro ps
  induction ps with
  | nil =>
    intro cs prev t q P C hprev _ _ hlen _
    cases cs with
    | nil => exact ⟨[], rfl, rfl, prev, rfl, hprev⟩
    | cons _ _ => simp at hlen
  | cons p ps ih =>
    intro cs prev t q P C hprev hq hne hlen hshape
    cases cs with
    | nil => simp at hlen
    | cons c cs =>
      simp only [shapesOk, Bool.and_eq_true, beq_iff_eq] at hshape
      obtain ⟨⟨hrows, hcols⟩, hshape'⟩ := hshape
      obtain ⟨v, hv, hinv⟩ := varInv_calculate S halfMax K p q P c C prev t hq hprev hrows hcols
      obtain ⟨vs, hvs, hvlen, w, hw, hwinv⟩ :=
        ih cs v (t + 1) p (q :: P) (c :: C) hinv (hne p (by simp))
          (fun x hx => hne x (List.mem_cons_of_mem _ hx)) (by simpa using hlen) hshape'
      refine ⟨v :: vs, ?_, by simp [hvlen], w, ?_, ?_⟩
      · simp only [runFrom, hv, hvs]
      · rw [List.getLast?_cons_cons]; exact hw
      · simpa [List.reverse_cons, List.append_assoc] using hwinv

theorem run_inv (S : StdSort E) (halfMax : E) (K : Nat) (hK : 1 ≤ K) (p0 : List E)
    (ps : List (List E)) (cs : List (TMatrix E)) (hne : ∀ p ∈ p0 :: ps, p ≠ [])
    (hlen : cs.length = ps.length) (hshape : shapesOk (p0 :: ps) cs = true) :
    ∃ vars, run S halfMax K (p0 :: ps) cs = Except.ok vars ∧ vars.length = ps.length + 1 ∧
      ∃ v, vars.getLast? = some v ∧
        VarInv halfMax K (p0 :: ps).reverse cs.reverse v := by
  obtain ⟨vs, hvs, hvlen, v, hv, hinv⟩ :=
    runFrom_inv S halfMax K ps cs _ 1 p0 [] [] (varInv_calculatePrior halfMax K hK p0)
      (hne p0 (by simp)) (fun x hx => hne x (List.mem_cons_of_mem _ hx)) hlen hshape
  refine ⟨_ :: vs, ?_, by simp [hvlen], v, hv, ?_⟩
  · simp only [run, hvs]
  · simpa [List.reverse_cons] using hinv

end Run
end Viterbi

namespace Viterbi
section Back
variable {E : Type} [LinearOrderedAddCommMonoid E]

theorem walk_indices : ∀ (l : Link E) (t : Nat), (Link.indices l).length = t →
    walk t l = some (Link.indices l).reverse := by
  intro l
  induction l with
  | null => intro t h; simp [Link.indices] at h; subst h; rfl
  | ref e i p prev ih =>
    intro t h
    cases t with
    | zero => simp [Link.indices] at h
    | succ t =>
      simp only [Link.indices, List.length_cons, Nat.add_right_cancel_iff] at h
      simp [walk, ih t h, Link.indices]

theorem revSeqs_length : ∀ (P : List (List E)) (n : Nat) (r : List Nat),
    r ∈ revSeqs P n → r.length = P.length := by
  intro P
  induction P with
  | nil => intro n r h; simp [revSeqs] at h
  | cons p P ih =>
    intro n r h
    cases P with
    | nil => simp [revSeqs] at h; simp [h]
    | cons q P =>
      simp only [revSeqs, List.mem_flatMap, List.mem_map] at h
      obtain ⟨pN, _, r', hr', rfl⟩ := h
      simp [ih pN r' hr']

theorem backtrackAll_eq (T : Nat) : ∀ (fs : List (SubState E)),
    (∀ ss ∈ fs, (Link.indices ss.addr).length = T) →
    backtrackAll T fs = Except.ok (fs.map solutionOf) := by
  intro fs
  induction fs with
  | nil => intro _; rfl
  | cons a fs ih =>
    intro h
    have h1 := walk_indices a.addr T (h a (by simp))
    simp only [backtrackAll, backtrackOne, h1, ih (fun ss hss => h ss (List.mem_cons_of_mem _ hss))]
    rfl

theorem subOK_length {halfMax : E} {K : Nat} {P : List (List E)} {C : List (TMatrix E)}
    {n : Nat} {ss : SubState E} (h : SubOK halfMax K P C n ss) :
    (Link.indices ss.addr).length = P.length := by
  obtain ⟨r, hr, hidx, _⟩ := h
  rw [hidx, List.length_map, revSeqs_length P n r hr]

theorem flatten_split (halfMax : E) (K : Nat) (P : List (List E)) (C : List (TMatrix E)) :
    ∀ (sts : List (State E)) (k m : Nat),
      List.Forall₂ (StateInv halfMax K P C) (List.range' k m) sts →
      ∃ R, List.Perm ((List.range' k m).flatMap (extEnergies halfMax K P C))
          ((sts.flatMap (fun s => s.substates)).map (fun a => a.energy) ++ R) ∧
        ∀ y ∈ R, ∃ B,
          List.Sublist B ((sts.flatMap (fun s => s.substates)).map (fun a => a.energy)) ∧
          K ≤ B.length ∧ ∀ b ∈ B, b ≤ y := by
  intro sts
  induction sts with
  | nil =>
    intro k m h
    cases m with
    | zero => exact ⟨[], by simp, by simp⟩
    | succ m => rw [List.range'_succ] at h; cases h
  | cons st sts ih =>
    intro k m h
    cases m with
    | zero => simp at h
    | succ m =>
      rw [List.range'_succ, List.forall₂_cons] at h
      obtain ⟨R, hperm, hR⟩ := ih (k + 1) m h.2
      obtain ⟨hlen, _, ⟨rest, hrest, hle⟩, _⟩ := h.1
      refine ⟨rest ++ R, ?_, ?_⟩
      · rw [List.range'_succ, List.flatMap_cons, List.flatMap_cons, List.map_append]
        refine (hrest.append hperm).trans ?_
        simp only [List.append_assoc]
        refine List.Perm.append_left _ ?_
        rw [← List.append_assoc, ← List.append_assoc]
        exact List.Perm.append_right _ List.perm_append_comm
      · intro y hy
        rw [List.flatMap_cons, List.map_append]
        rcases List.mem_append.1 hy with hy | hy
        · exact ⟨st.substates.map (fun ss => ss.energy), List.sublist_append_left _ _,
            by simp [hlen], fun b hb => hle b hb y hy⟩
        · obtain ⟨B, hB, hK, hBle⟩ := hR y hy
          exact ⟨B, hB.trans (List.sublist_append_right _ _), hK, hBle⟩

theorem flatten_mem (halfMax : E) (K : Nat) (P : List (List E)) (C : List (TMatrix E)) :
    ∀ (sts : List (State E)) (idx : List Nat),
      List.Forall₂ (StateInv halfMax K P C) idx sts →
      ∀ a ∈ sts.flatMap (fun s => s.substates), ∃ n ∈ idx, SubOK halfMax K P C n a := by
  intro sts idx h
  induction h with
  | nil => intro a ha; simp at ha
  | cons h1 _ ih =>
    intro a ha
    rw [List.flatMap_cons, List.mem_append] at ha
    rcases ha with ha | ha
    · exact ⟨_, by simp, h1.2.1 a ha⟩
    · obtain ⟨n, hn, hok⟩ := ih a ha
      exact ⟨n, List.mem_cons_of_mem _ hn, hok⟩

theorem flatten_length (halfMax : E) (K : Nat) (P : List (List E)) (C : List (TMatrix E)) :
    ∀ (sts : List (State E)) (idx : List Nat),
      List.Forall₂ (StateInv halfMax K P C) idx sts →
      (sts.flatMap (fun s => s.substates)).length = sts.length * K := by
  intro sts idx h
  induction h with
  | nil => simp
  | cons h1 _ ih =>
    rw [List.flatMap_cons, List.length_append, ih, h1.1, List.length_cons]
    ring

theorem bestStates_inv (S : StdSort E) (halfMax : E) (K : Nat) (p : List E) (P : List (List E))
    (C : List (TMatrix E)) (v : Variable E) (hp : p ≠ [])
    (hv : VarInv halfMax K (p :: P) C v) :
    ∃ fs, v.bestStates S = Except.ok fs ∧ fs.length = K ∧
      (∀ ss ∈ fs, ∃ n ∈ List.range' 0 p.length, SubOK halfMax K (p :: P) C n ss) ∧
      List.Sorted (fun a b : E => a ≤ b) (fs.map (fun ss => ss.energy)) ∧
      SplitOf (fs.map (fun ss => ss.energy))
        ((List.range' 0 p.length).flatMap (extEnergies halfMax K (p :: P) C)) := by
  obtain ⟨hn, p', hp', hall⟩ := hv
  simp only [List.head?_cons, Option.some.injEq] at hp'
  subst hp'
  have hstates : v.states.length = p.length := by
    have := hall.length_eq; simpa using this.symm
  have hppos : 1 ≤ p.length := by
    cases p with
    | nil => exact absurd rfl hp
    | cons _ _ => simp
  have hlen := flatten_length halfMax K (p :: P) C _ _ hall
  obtain ⟨l', hperm, hsorted, hsort⟩ :=
    S.partial_sort_spec (v.states.flatMap (fun s => s.substates)) v.nPaths
  have hl' : l'.length = p.length * K := by rw [hperm.length_eq, hlen, hstates]
  have hKle : K ≤ l'.length := by rw [hl']; exact Nat.le_mul_of_pos_left K hppos
  have hsortedE : List.Sorted (fun a b : E => a ≤ b) (l'.map (fun a => a.energy)) := by
    unfold List.Sorted
    rw [List.pairwise_map]
    exact hsorted
  have htk : (l'.take K).length = K := by simp [hKle]
  refine ⟨l'.take K, ?_, htk, ?_, ?_, ?_⟩
  · simp only [Variable.bestStates]
    rw [if_neg (by rw [hlen, hstates, hn]; exact Nat.not_lt.2 (Nat.le_mul_of_pos_left K hppos))]
    rw [hsort, hn, htk]
    simp
  · intro ss hss
    exact flatten_mem halfMax K (p :: P) C _ _ hall ss (hperm.subset (List.mem_of_mem_take hss))
  · rw [List.map_take]
    exact List.Pairwise.sublist (List.take_sublist _ _) hsortedE
  · rw [List.map_take]
    obtain ⟨R, hU, hR⟩ := flatten_split halfMax K (p :: P) C _ 0 p.length hall
    refine splitOf_take K hsortedE (hperm.map _) hU ?_
    intro y hy
    obtain ⟨B, hB, hK, hle⟩ := hR y hy
    exact ⟨B, hB.subperm, hK, hle⟩

theorem forall₂_range'_get? {R : Nat → State E → Prop} :
    ∀ (sts : List (State E)) (k m : Nat), List.Forall₂ R (List.range' k m) sts →
      ∀ f, f < m → ∃ st, sts.get? f = some st ∧ R (k + f) st := by
  intro sts
  induction sts with
  | nil =>
    intro k m h f hf
    cases m with
    | zero => omega
    | succ m => rw [List.range'_succ] at h; cases h
  | cons st sts ih =>
    intro k m h f hf
    cases m with
    | zero => omega
    | succ m =>
      rw [List.range'_succ, List.forall₂_cons] at h
      cases f with
      | zero => exact ⟨st, rfl, h.1⟩
      | succ f =>
        obtain ⟨st', h1, h2⟩ := ih (k + 1) m h.2 f (by omega)
        refine ⟨st', by simpa using h1, ?_⟩
        have : k + (f + 1) = k + 1 + f := by omega
        rw [this]; exact h2

end Back
end Viterbi

namespace Viterbi
section Core
variable {E : Type} [LinearOrderedAddCommMonoid E]

theorem solve_core (S : StdSort E) (halfMax : E) (K : Nat) (hK : 1 ≤ K)
    (priors : List (List E)) (cs : List (TMatrix E)) (hw : WellShaped priors cs)
    (finalState : Int) (plast : List E) (P : List (List E))
    (hrev : priors.reverse = plast :: P)
    (hf : finalState = -1 ∨ (0 ≤ finalState ∧ finalState < Int.ofNat plast.length)) :
    ∃ fs : List (SubState E), solve S halfMax K priors cs finalState = Except.ok (fs.map solutionOf) ∧
      fs.length = K ∧
      (∀ ss ∈ fs, ∃ n ∈ List.range' 0 plast.length,
        (finalState ≠ -1 → Int.ofNat n = finalState) ∧
        SubOK halfMax K (plast :: P) cs.reverse n ss) ∧
      (finalState = -1 ∨ 2 ≤ priors.length →
        List.Sorted (fun a b : E => a ≤ b) (fs.map (fun ss => ss.energy))) ∧
      (finalState ≠ -1 → priors.length = 1 →
        (fs.map (fun ss => ss.energy)).head? = some (seedReal (plast :: P) finalState.toNat)) ∧
      SplitOf (fs.map (fun ss => ss.energy))
        (if finalState = -1 then
          (List.range' 0 plast.length).flatMap (extEnergies halfMax K (plast :: P) cs.reverse)
         else extEnergies halfMax K (plast :: P) cs.reverse finalState.toNat) := by
  obtain ⟨hne, hall, hlen, hshape⟩ := hw
  obtain ⟨p0, ps, rfl⟩ : ∃ p0 ps, priors = p0 :: ps := by
    cases priors with
    | nil => exact absurd rfl hne
    | cons a l => exact ⟨a, l, rfl⟩
  have hlast : (p0 :: ps).getLast? = some plast := by
    rw [← List.head?_reverse, hrev]; rfl
  have hpl : plast ≠ [] := by
    apply hall
    have : plast ∈ (p0 :: ps).reverse := by rw [hrev]; simp
    exact List.mem_reverse.1 this
  obtain ⟨vars, hrun, hvl, v, hvlast, hinv⟩ :=
    run_inv S halfMax K hK p0 ps cs hall (by simpa using hlen) hshape
  rw [hrev] at hinv
  have hTlen : (plast :: P).length = vars.length := by
    rw [← hrev, List.length_reverse, hvl]; simp
  have hvalid : ¬ (finalState ≥ Int.ofNat plast.length ∨ finalState < -1) := by
    have : (0 : Int) ≤ Int.ofNat plast.length := Int.ofNat_nonneg _
    rcases hf with h | h <;> omega
  have hinit : initialise (p0 :: ps) cs = Except.ok () := by
    simp only [initialise, hshape, if_true]
    rw [if_neg]
    simp only [List.length_cons, ne_eq, not_not]
    have : cs.length = ps.length := by simpa using hlen
    rw [this]; simp
  by_cases hm : finalState = -1
  · obtain ⟨fs, hbs, hfl, hok, hsorted, hsplit⟩ :=
      bestStates_inv S halfMax K plast P cs.reverse v hpl hinv
    refine ⟨fs, ?_, hfl, ?_, fun _ => hsorted, fun h => absurd hm h,
      by rw [if_pos hm]; exact hsplit⟩
    · simp only [solve, hlast, if_neg hvalid, hinit, hrun, backtrack, hvlast, if_pos hm, hbs]
      rw [if_neg (by omega), ← hfl, List.take_length]
      have hb : backtrackAll vars.length fs = Except.ok (fs.map solutionOf) := by
        refine backtrackAll_eq _ fs ?_
        intro ss hss
        obtain ⟨n, _, h⟩ := hok ss hss
        rw [subOK_length h, hTlen]
      rw [hb]
      rfl
    · intro ss hss
      obtain ⟨n, hn, h⟩ := hok ss hss
      exact ⟨n, hn, fun h' => absurd hm h', h⟩
  · have hf' : 0 ≤ finalState ∧ finalState < Int.ofNat plast.length := by
      rcases hf with h | h
      · exact absurd h hm
      · exact h
    have hfn : finalState.toNat < plast.length := by
      have h1 := hf'.2
      have h0 := hf'.1
      rw [Int.ofNat_eq_coe] at h1
      omega
    obtain ⟨_, p', hp', hstates⟩ := hinv
    simp only [List.head?_cons, Option.some.injEq] at hp'
    subst hp'
    obtain ⟨st, hst, hsinv⟩ := forall₂_range'_get? v.states 0 _ hstates finalState.toNat hfn
    rw [Nat.zero_add] at hsinv
    obtain ⟨hsl, hsok, hssplit, hssorted, hshead⟩ := hsinv
    refine ⟨st.substates, ?_, hsl, ?_, ?_, ?_, by rw [if_neg hm]; exact hssplit⟩
    · simp only [solve, hlast, if_neg hvalid, hinit, hrun, backtrack, hvlast, if_neg hm, hst]
      rw [if_neg (by omega), ← hsl, List.take_length]
      have hb : backtrackAll vars.length st.substates =
          Except.ok (st.substates.map solutionOf) := by
        refine backtrackAll_eq _ st.substates ?_
        intro ss hss
        rw [subOK_length (hsok ss hss), hTlen]
      rw [hb]
      rfl
    · intro ss hss
      refine ⟨finalState.toNat, ?_, fun _ => ?_, hsok ss hss⟩
      · exact List.mem_range'_1.2 ⟨Nat.zero_le _, by omega⟩
      · have := hf'.1
        show ((finalState.toNat : Nat) : Int) = finalState
        omega
    · intro h
      rcases h with h | h
      · exact absurd h hm
      · apply hssorted
        rw [← hrev, List.length_reverse]; exact h
    · intro _ h1
      apply hshead
      rw [← hrev, List.length_reverse]; exact h1

end Core
end Viterbi

namespace Viterbi
section Seqs
variable {E : Type}

theorem mem_allSequences : ∀ (P : List (List E)) (s : List Nat),
    s ∈ allSequences P ↔ List.Forall₂ (fun i p => i < List.length p) s P := by
  intro P
  induction P with
  | nil => intro s; simp [allSequences]
  | cons p P ih =>
    intro s
    simp only [allSequences, List.mem_flatMap, List.mem_range, List.mem_map]
    constructor
    · rintro ⟨i, hi, s', hs', rfl⟩
      exact List.Forall₂.cons hi ((ih s').1 hs')
    · intro h
      cases h with
      | cons h1 h2 => exact ⟨_, h1, _, (ih _).2 h2, rfl⟩

theorem nodup_allSequences : ∀ (P : List (List E)), (allSequences P).Nodup := by
  intro P
  induction P with
  | nil => simp [allSequences]
  | cons p P ih =>
    simp only [allSequences]
    rw [List.nodup_flatMap]
    refine ⟨fun i _ => ih.map (fun a b h => (List.cons.inj h).2), ?_⟩
    refine List.Pairwise.imp_of_mem ?_ (List.nodup_range p.length)
    intro a b _ _ hab
    simp only [Function.onFun, List.disjoint_left, List.mem_map]
    rintro x ⟨s, _, rfl⟩ ⟨s', _, h⟩
    exact hab (List.cons.inj h).1.symm

theorem allSequences_reverse_perm (P : List (List E)) :
    List.Perm ((allSequences P).map List.reverse) (allSequences P.reverse) := by
  rw [List.perm_ext_iff_of_nodup ((nodup_allSequences P).map List.reverse_injective)
    (nodup_allSequences _)]
  intro s
  rw [mem_allSequences, List.mem_map]
  constructor
  · rintro ⟨r, hr, rfl⟩
    exact List.forall₂_reverse_iff.2 ((mem_allSequences P r).1 hr)
  · intro h
    refine ⟨s.reverse, (mem_allSequences P _).2 ?_, List.reverse_reverse s⟩
    rw [← List.forall₂_reverse_iff, List.reverse_reverse]; exact h

theorem revSeqs_eq : ∀ (P : List (List E)) (p : List E) (n : Nat),
    revSeqs (p :: P) n = (allSequences P).map (fun r => n :: r) := by
  intro P
  induction P with
  | nil => intro p n; simp [revSeqs, allSequences]
  | cons q P ih =>
    intro p n
    simp only [revSeqs, allSequences, List.map_flatMap, ← List.range_eq_range']
    refine List.flatMap_congr ?_
    intro pN _
    rw [ih q pN]

theorem flatMap_revSeqs (P : List (List E)) (p : List E) :
    (List.range' 0 p.length).flatMap (revSeqs (p :: P)) = allSequences (p :: P) := by
  simp only [allSequences, ← List.range_eq_range']
  refine List.flatMap_congr ?_
  intro n _
  exact revSeqs_eq P p n

theorem endingIn_perm (P : List (List E)) (p : List E) (f : Nat) (hf : f < p.length) :
    List.Perm ((revSeqs (p :: P) f).map List.reverse)
      (sequencesEndingIn (p :: P).reverse f) := by
  rw [revSeqs_eq]
  have hnd : ((allSequences P).map (fun r => f :: r)).Nodup :=
    (nodup_allSequences P).map (fun a b h => (List.cons.inj h).2)
  unfold sequencesEndingIn
  rw [List.perm_ext_iff_of_nodup (hnd.map List.reverse_injective)
    ((nodup_allSequences _).filter _)]
  intro s
  simp only [List.mem_filter, List.mem_map, mem_allSequences,
    beq_iff_eq]
  constructor
  · rintro ⟨r, ⟨r', hr', rfl⟩, rfl⟩
    refine ⟨?_, by simp⟩
    rw [List.forall₂_reverse_iff]
    exact List.Forall₂.cons hf hr'
  · rintro ⟨h1, h2⟩
    rw [← List.forall₂_reverse_iff, List.reverse_reverse] at h1
    rw [← List.head?_reverse] at h2
    generalize hs : s.reverse = sr at h1 h2
    cases h1 with
    | cons ha hb =>
      rename_i a r'
      simp only [List.head?_cons, Option.some.injEq] at h2
      subst h2
      exact ⟨a :: r', ⟨r', hb, rfl⟩, by rw [← hs, List.reverse_reverse]⟩

end Seqs
end Viterbi

namespace Viterbi
section Energy
variable {E : Type} [LinearOrderedAddCommMonoid E]

theorem sumPriors_snoc (p : List E) (n : Nat) : ∀ (A : List (List E)) (s : List Nat),
    A.length = s.length → sumPriors (A ++ [p]) (s ++ [n]) = sumPriors A s + p.getD n 0 := by
  intro A
  induction A with
  | nil =>
    intro s h
    cases s with
    | nil => simp [sumPriors]
    | cons _ _ => simp at h
  | cons a A ih =>
    intro s h
    cases s with
    | nil => simp at h
    | cons x s =>
      rw [List.cons_append, List.cons_append, sumPriors, sumPriors, ih s (by simpa using h),
        add_assoc]

theorem sumConds_snoc (c : TMatrix E) (a n : Nat) : ∀ (Cs : List (TMatrix E)) (s : List Nat),
    Cs.length = s.length →
    sumConds (Cs ++ [c]) (s ++ [a, n]) = sumConds Cs (s ++ [a]) + c.get a n := by
  have hcc : ∀ (d : TMatrix E) (ds : List (TMatrix E)) (u v : Nat) (ss : List Nat),
      sumConds (d :: ds) (u :: v :: ss) = d.get u v + sumConds ds (v :: ss) :=
    fun _ _ _ _ _ => rfl
  intro Cs
  induction Cs with
  | nil =>
    intro s h
    cases s with
    | nil => simp [sumConds]
    | cons _ _ => simp at h
  | cons c' Cs ih =>
    intro s h
    cases s with
    | nil => simp at h
    | cons x s =>
      have h' : Cs.length = s.length := by simpa using h
      cases s with
      | nil =>
        have := ih [] h'
        simp only [List.nil_append] at this
        show sumConds (c' :: (Cs ++ [c])) (x :: a :: [n]) =
          sumConds (c' :: Cs) (x :: a :: []) + c.get a n
        rw [hcc, hcc, this, add_assoc]
      | cons y s =>
        have := ih (y :: s) h'
        show sumConds (c' :: (Cs ++ [c])) (x :: y :: (s ++ [a, n])) =
          sumConds (c' :: Cs) (x :: y :: (s ++ [a])) + c.get a n
        rw [hcc, hcc, add_assoc]
        exact congrArg _ this

theorem accEnergy_eq (seed : Nat → E) : ∀ (P : List (List E)) (C : List (TMatrix E))
    (r : List Nat), r.length = P.length → C.length + 1 = P.length →
    accEnergy seed P C r = seed (r.reverse.headD 0) +
      (sumPriors P.reverse.tail r.reverse.tail + sumConds C.reverse r.reverse) := by
  intro P
  induction P with
  | nil => intro C r _ h; simp at h
  | cons p P ih =>
    intro C r hr hC
    cases P with
    | nil =>
      have hC0 : C = [] := by
        cases C with
        | nil => rfl
        | cons _ _ => simp at hC
      subst hC0
      match r, hr with
      | [n], _ => simp [accEnergy, sumPriors, sumConds]
    | cons q P =>
      match r, hr, C, hC with
      | n :: pN :: r', hr, c :: C', hC =>
        have hr' : (pN :: r').length = (q :: P).length := by simpa using hr
        have hC' : C'.length + 1 = (q :: P).length := by simpa using hC
        have hih := ih C' (pN :: r') hr' hC'
        have hne1 : (q :: P).reverse ≠ [] := by simp
        have hne2 : (pN :: r').reverse ≠ [] := by simp
        have e1 : (p :: q :: P).reverse.tail = (q :: P).reverse.tail ++ [p] := by
          rw [List.reverse_cons, List.tail_append_of_ne_nil hne1]
        have e2 : (n :: pN :: r').reverse.tail = (pN :: r').reverse.tail ++ [n] := by
          rw [List.reverse_cons, List.tail_append_of_ne_nil hne2]
        have e3 : (n :: pN :: r').reverse.headD 0 = (pN :: r').reverse.headD 0 := by
          rw [List.reverse_cons (a := n)]
          cases hx : (pN :: r').reverse with
          | nil => exact absurd hx hne2
          | cons _ _ => rfl
        have e4 : (n :: pN :: r').reverse = r'.reverse ++ [pN, n] := by simp
        have e5 : (pN :: r').reverse = r'.reverse ++ [pN] := by simp
        have hl1 : (q :: P).reverse.tail.length = (pN :: r').reverse.tail.length := by
          simp only [List.length_tail, List.length_reverse, hr']
        have hl2 : C'.reverse.length = r'.reverse.length := by
          simp only [List.length_reverse]
          simp only [List.length_cons] at hr' hC'
          omega
        rw [accEnergy, hih, e1, e2, e3, sumPriors_snoc p n _ _ hl1, List.reverse_cons (a := c),
          e4, sumConds_snoc c pN n _ _ hl2, ← e5]
        abel

theorem accEnergy_real (P : List (List E)) (C : List (TMatrix E)) (r : List Nat)
    (hr : r.length = P.length) (hC : C.length + 1 = P.length) :
    accEnergy (seedReal P) P C r = totalEnergy P.reverse C.reverse r.reverse := by
  rw [accEnergy_eq _ P C r hr hC, totalEnergy]
  have hP : P.reverse ≠ [] := by
    intro h; rw [List.reverse_eq_nil_iff] at h; subst h; simp at hC
  have hR : r.reverse ≠ [] := by
    intro h; rw [List.reverse_eq_nil_iff] at h; subst h
    simp only [List.length_nil] at hr
    omega
  obtain ⟨p0, Pt, hPt⟩ := List.exists_cons_of_ne_nil hP
  obtain ⟨s0, rt, hrt⟩ := List.exists_cons_of_ne_nil hR
  have hseed : seedReal P s0 = p0.getD s0 0 := by
    have : P.getLastD [] = p0 := by
      have h1 : P.getLast? = some p0 := by rw [← List.head?_reverse, hPt]; rfl
      rw [List.getLastD_eq_getLast?, h1]; rfl
    unfold seedReal
    rw [this]
  rw [hPt, hrt]
  simp only [List.headD_cons, List.tail_cons, sumPriors, hseed, add_assoc]

theorem accEnergy_filler (halfMax : E) (P : List (List E)) (C : List (TMatrix E))
    (r : List Nat) (hr : r.length = P.length) (hC : C.length + 1 = P.length) :
    accEnergy (fun _ => halfMax) P C r = fillerEnergy halfMax P.reverse C.reverse r.reverse := by
  rw [accEnergy_eq _ P C r hr hC, fillerEnergy]

end Energy
end Viterbi

namespace Viterbi
section Forward
variable {E : Type} [LinearOrderedAddCommMonoid E]

theorem shapesOk_of_get? : ∀ (priors : List (List E)) (cs : List (TMatrix E)),
    (∀ t c p q, cs.get? t = some c → priors.get? t = some p →
      priors.get? (t + 1) = some q → c.rows = p.length ∧ c.cols = q.length) →
    shapesOk priors cs = true := by
  intro priors
  induction priors with
  | nil => intro cs _; rfl
  | cons p0 ps ih =>
    intro cs h
    cases ps with
    | nil => rfl
    | cons p1 ps =>
      cases cs with
      | nil => rfl
      | cons c cs =>
        have h0 := h 0 c p0 p1 rfl rfl rfl
        simp only [shapesOk, h0.1, h0.2, beq_self_eq_true, Bool.and_self, Bool.true_and]
        exact ih cs (fun t c' p q hc hp hq => h (t + 1) c' p q hc hp hq)

theorem wellShaped_of_consistent {priors : List (List E)} {cs : List (TMatrix E)}
    (h : Consistent priors cs) : WellShaped priors cs :=
  ⟨h.1, h.2.1, h.2.2.1, shapesOk_of_get? priors cs h.2.2.2⟩

theorem SplitOf.congr {en U U' : List E} (h : SplitOf en U) (hp : List.Perm U U') :
    SplitOf en U' := by
  obtain ⟨rest, h1, h2⟩ := h
  exact ⟨rest, hp.symm.trans h1, h2⟩

theorem flatMap_cons_perm {α : Type} (l : List α) (a : α → E) (g : α → List E) :
    List.Perm (l.flatMap (fun x => a x :: g x)) (l.map a ++ l.flatMap g) := by
  induction l with
  | nil => simp
  | cons x l ih =>
    simp only [List.flatMap_cons, List.map_cons, List.cons_append]
    refine List.Perm.cons _ ?_
    refine (List.Perm.append_left (g x) ih).trans ?_
    rw [← List.append_assoc, ← List.append_assoc]
    exact List.Perm.append_right _ List.perm_append_comm

theorem ext_perm (halfMax : E) (K : Nat) (priors : List (List E)) (cs : List (TMatrix E))
    (plast : List E) (P : List (List E)) (hrev : priors.reverse = plast :: P)
    (hlen : cs.length + 1 = priors.length) (L seqs : List (List Nat))
    (hL : ∀ r ∈ L, ∃ n, r ∈ revSeqs (plast :: P) n)
    (hperm : List.Perm (L.map List.reverse) seqs) :
    List.Perm
      (L.flatMap (fun r => accEnergy (seedReal (plast :: P)) (plast :: P) cs.reverse r ::
        List.replicate (K - 1) (accEnergy (fun _ => halfMax) (plast :: P) cs.reverse r)))
      (seqs.map (totalEnergy priors cs) ++
        seqs.flatMap (fun s => List.replicate (K - 1) (fillerEnergy halfMax priors cs s))) := by
  have hpr : (plast :: P).reverse = priors := by rw [← hrev, List.reverse_reverse]
  have hC : cs.reverse.length + 1 = (plast :: P).length := by
    rw [← hrev]; simpa using hlen
  have h1 : L.flatMap (fun r => accEnergy (seedReal (plast :: P)) (plast :: P) cs.reverse r ::
        List.replicate (K - 1) (accEnergy (fun _ => halfMax) (plast :: P) cs.reverse r)) =
      (L.map List.reverse).flatMap (fun s => totalEnergy priors cs s ::
        List.replicate (K - 1) (fillerEnergy halfMax priors cs s)) := by
    rw [List.flatMap_map]
    refine List.flatMap_congr ?_
    intro r hr
    obtain ⟨n, hn⟩ := hL r hr
    have hrl := revSeqs_length _ n r hn
    rw [accEnergy_real _ _ r hrl hC, accEnergy_filler halfMax _ _ r hrl hC, hpr,
      List.reverse_reverse]
  rw [h1]
  exact (List.Perm.flatMap_right _ hperm).trans (flatMap_cons_perm _ _ _)

theorem solve_structure (S : StdSort E) (halfMax : E) (K : Nat) (hK : 1 ≤ K)
    (priors : List (List E)) (cs : List (TMatrix E)) (hcons : Consistent priors cs)
    (finalState : Int)
    (hf : finalState = -1 ∨ (0 ≤ finalState ∧
      ∃ last, priors.getLast? = some last ∧ finalState < Int.ofNat (List.length last))) :
    ∃ sols : List (Solution E), solve S halfMax K priors cs finalState = Except.ok sols ∧
      sols.length = K ∧
      (∀ sol ∈ sols, ∃ s ∈ candidates priors finalState,
        sol.sequence = s.map Int.ofNat ∧
        (sol.energy = totalEnergy priors cs s ∨
          (2 ≤ K ∧ sol.energy = fillerEnergy halfMax priors cs s))) ∧
      (finalState = -1 ∨ 2 ≤ priors.length →
        List.Sorted (fun a b : E => a ≤ b) (sols.map (fun sol => sol.energy))) ∧
      (finalState ≠ -1 → priors.length = 1 →
        (sols.map (fun sol => sol.energy)).head? =
          some (totalEnergy priors cs [finalState.toNat])) ∧
      SplitOf (sols.map (fun sol => sol.energy))
        ((candidates priors finalState).map (totalEnergy priors cs) ++
          (candidates priors finalState).flatMap
            (fun s => List.replicate (K - 1) (fillerEnergy halfMax priors cs s))) := by
  have hw := wellShaped_of_consistent hcons
  obtain ⟨plast, P, hrev⟩ : ∃ plast P, priors.reverse = plast :: P := by
    cases h : priors.reverse with
    | nil => rw [List.reverse_eq_nil_iff] at h; exact absurd h hcons.1
    | cons a l => exact ⟨a, l, rfl⟩
  have hpr : (plast :: P).reverse = priors := by rw [← hrev, List.reverse_reverse]
  have hlast : priors.getLast? = some plast := by rw [← List.head?_reverse, hrev]; rfl
  have hf' : finalState = -1 ∨ (0 ≤ finalState ∧ finalState < Int.ofNat plast.length) := by
    rcases hf with h | ⟨h0, last, hl, h1⟩
    · exact Or.inl h
    · rw [hlast] at hl; cases hl; exact Or.inr ⟨h0, h1⟩
  have hC : cs.reverse.length + 1 = (plast :: P).length := by
    rw [← hrev]; simpa using hcons.2.2.1
  obtain ⟨fs, hsolve, hfl, hok, hsorted, hhead, hsplit⟩ :=
    solve_core S halfMax K hK priors cs hw finalState plast P hrev hf'
  have hen : (fs.map solutionOf).map (fun sol => sol.energy) = fs.map (fun ss => ss.energy) := by
    rw [List.map_map]; rfl
  refine ⟨fs.map solutionOf, hsolve, by simpa using hfl, ?_, ?_, ?_, ?_⟩
  · intro sol hsol
    obtain ⟨ss, hss, rfl⟩ := List.mem_map.1 hsol
    obtain ⟨n, hn, hnf, r, hr, hidx, hE⟩ := hok ss hss
    have hrl := revSeqs_length _ n r hr
    refine ⟨r.reverse, ?_, ?_, ?_⟩
    · unfold candidates
      by_cases hm : finalState = -1
      · rw [if_pos hm, ← hpr]
        refine (allSequences_reverse_perm (plast :: P)).subset (List.mem_map_of_mem _ ?_)
        rw [← flatMap_revSeqs]
        exact List.mem_flatMap.2 ⟨n, hn, hr⟩
      · rw [if_neg hm, ← hpr]
        have hnf' := hnf hm
        have hnn : finalState.toNat = n := by rw [← hnf']; rfl
        rw [hnn]
        have hnl : n < plast.length := by
          have := (List.mem_range'_1.1 hn).2; omega
        exact (endingIn_perm P plast n hnl).subset (List.mem_map_of_mem _ hr)
    · show (Link.indices ss.addr).reverse = _
      rw [hidx, List.map_reverse]
    · show ss.energy = _ ∨ (2 ≤ K ∧ ss.energy = _)
      rw [← hpr, ← List.reverse_reverse cs, ← accEnergy_real _ _ r hrl hC,
        ← accEnergy_filler halfMax _ _ r hrl hC]
      exact hE
  · rw [hen]; exact hsorted
  · intro hm h1
    rw [hen, hhead hm h1]
    have hP : P = [] := by
      have : (plast :: P).length = 1 := by rw [← hrev, List.length_reverse]; exact h1
      simpa using this
    subst hP
    have hcs : cs = [] := by
      have := hcons.2.2.1
      rw [h1] at this
      exact List.eq_nil_of_length_eq_zero (by omega)
    subst hcs
    have hp1 : priors = [plast] := by rw [← hpr]; rfl
    subst hp1
    simp [seedReal, totalEnergy, sumPriors, sumConds]
  · rw [hen]
    refine hsplit.congr ?_
    unfold candidates
    by_cases hm : finalState = -1
    · rw [if_pos hm, if_pos hm]
      have e : (List.range' 0 plast.length).flatMap
          (extEnergies halfMax K (plast :: P) cs.reverse) =
          ((List.range' 0 plast.length).flatMap (revSeqs (plast :: P))).flatMap
            (fun r => accEnergy (seedReal (plast :: P)) (plast :: P) cs.reverse r ::
              List.replicate (K - 1)
                (accEnergy (fun _ => halfMax) (plast :: P) cs.reverse r)) := by
        rw [List.flatMap_assoc]; rfl
      rw [e]
      refine ext_perm halfMax K priors cs plast P hrev hcons.2.2.1 _ _ ?_ ?_
      · intro r hr
        obtain ⟨n, _, h⟩ := List.mem_flatMap.1 hr
        exact ⟨n, h⟩
      · rw [flatMap_revSeqs, ← hpr]
        exact allSequences_reverse_perm _
    · rw [if_neg hm, if_neg hm]
      have hfn : finalState.toNat < plast.length := by
        rcases hf' with h | ⟨h0, h1⟩
        · exact absurd h hm
        · rw [Int.ofNat_eq_coe] at h1; omega
      refine ext_perm halfMax K priors cs plast P hrev hcons.2.2.1 _ _
        (fun r hr => ⟨_, hr⟩) ?_
      rw [← hpr]
      exact endingIn_perm P plast _ hfn

end Forward
end Viterbi

namespace Viterbi
section Derive
variable {E : Type} [LinearOrder E]

theorem topK_of_split {en R F : List E} {K : Nat} (hs : en.Sorted (· ≤ ·))
    (hsplit : SplitOf en (R ++ F)) (hlen : en.length = K) (hK : K ≤ R.length)
    (hdom : ∀ r ∈ R, ∀ f ∈ F, r ≤ f) :
    en = (R.insertionSort (· ≤ ·)).take K := by
  obtain ⟨rest, hperm, hle⟩ := hsplit
  have h1 : (en ++ rest.insertionSort (· ≤ ·)).Sorted (· ≤ ·) := by
    unfold List.Sorted
    rw [List.pairwise_append]
    refine ⟨hs, List.sorted_insertionSort _ _, ?_⟩
    intro a ha b hb
    exact hle a ha b ((List.mem_insertionSort _).1 hb)
  have h2 : (R.insertionSort (· ≤ ·) ++ F.insertionSort (· ≤ ·)).Sorted (· ≤ ·) := by
    unfold List.Sorted
    rw [List.pairwise_append]
    refine ⟨List.sorted_insertionSort _ _, List.sorted_insertionSort _ _, ?_⟩
    intro a ha b hb
    exact hdom a ((List.mem_insertionSort _).1 ha) b ((List.mem_insertionSort _).1 hb)
  have h3 : List.Perm (en ++ rest.insertionSort (· ≤ ·))
      (R.insertionSort (· ≤ ·) ++ F.insertionSort (· ≤ ·)) := by
    refine (List.Perm.append_left en (List.perm_insertionSort _ rest)).trans ?_
    refine hperm.symm.trans ?_
    exact ((List.perm_insertionSort _ R).append (List.perm_insertionSort _ F)).symm
  have h4 := List.eq_of_perm_of_sorted h3 h1 h2
  have h5 := congrArg (List.take K) h4
  rw [List.take_append_of_le_length (by rw [hlen]), List.take_of_length_le (by rw [hlen]),
    List.take_append_of_le_length (by rw [List.length_insertionSort]; exact hK)] at h5
  exact h5

theorem not_mem_of_gt {en R F : List E} {x : E} (hsplit : SplitOf en (R ++ F))
    (hlen : en.length ≤ R.length) (hx : x ∈ en) (hgt : ∀ r ∈ R, r < x) : False := by
  obtain ⟨rest, hperm, hle⟩ := hsplit
  have h1 : (R.filter (fun r => decide (r < x))).length = R.length := by
    rw [List.filter_eq_self.2 (fun r hr => by simpa using hgt r hr)]
  have h2 : List.Subperm (R.filter (fun r => decide (r < x)))
      ((en ++ rest).filter (fun r => decide (r < x))) :=
    ((List.sublist_append_left R F).subperm.trans hperm.subperm).filter _
  have h3 : rest.filter (fun r => decide (r < x)) = [] := by
    rw [List.filter_eq_nil_iff]
    intro r hr
    simpa using hle x hx r hr
  have h4 : (en.filter (fun r => decide (r < x))).length < en.length := by
    rw [List.length_filter_lt_length_iff_exists]
    exact ⟨x, hx, by simp⟩
  have h5 := h2.length_le
  rw [List.filter_append, h3, List.append_nil, h1] at h5
  omega

theorem head_le_of_split {en U : List E} (hs : en.Sorted (· ≤ ·)) (hsplit : SplitOf en U)
    {x : E} (hx : en.head? = some x) : ∀ u ∈ U, x ≤ u := by
  obtain ⟨rest, hperm, hle⟩ := hsplit
  cases en with
  | nil => simp at hx
  | cons a en =>
    simp only [List.head?_cons, Option.some.injEq] at hx
    subst hx
    intro u hu
    have := hperm.subset hu
    rcases List.mem_append.1 this with h | h
    · rcases List.mem_cons.1 h with h | h
      · exact h ▸ le_refl _
      · exact List.rel_of_sorted_cons hs u h
    · exact hle a (by simp) u h

end Derive
end Viterbi

namespace Viterbi
section Main
variable {E : Type} [LinearOrderedAddCommMonoid E]

theorem candidates_subset (priors : List (List E)) (finalState : Int) :
    ∀ s ∈ candidates priors finalState, s ∈ allSequences priors := by
  intro s hs
  unfold candidates at hs
  by_cases hm : finalState = -1
  · rw [if_pos hm] at hs; exact hs
  · rw [if_neg hm] at hs; exact (List.mem_filter.1 hs).1

theorem filler_dominated (halfMax : E) (K : Nat) (priors : List (List E))
    (cs : List (TMatrix E)) (finalState : Int)
    (hdom : 2 ≤ K → SentinelDominates halfMax priors cs) :
    ∀ r ∈ (candidates priors finalState).map (totalEnergy priors cs),
      ∀ f ∈ (candidates priors finalState).flatMap
        (fun s => List.replicate (K - 1) (fillerEnergy halfMax priors cs s)), r ≤ f := by
  intro r hr f hf
  obtain ⟨s, hs, rfl⟩ := List.mem_map.1 hr
  obtain ⟨s', hs', hf'⟩ := List.mem_flatMap.1 hf
  have hK : 2 ≤ K := by
    rcases Nat.lt_or_ge K 2 with h | h
    · have : K - 1 = 0 := by omega
      rw [this] at hf'; simp at hf'
    · exact h
  rw [List.eq_of_mem_replicate hf']
  exact hdom hK s (candidates_subset priors finalState s hs) s'
    (candidates_subset priors finalState s' hs')

/-- Energies of the solutions: the `K` smallest total energies of the candidate sequences,
in ascending order. -/
theorem solve_sorted_energies (S : StdSort E) (halfMax : E) (K : Nat) (hK : 1 ≤ K)
    (priors : List (List E)) (cs : List (TMatrix E)) (hcons : Consistent priors cs)
    (finalState : Int)
    (hf : finalState = -1 ∨ (0 ≤ finalState ∧
      ∃ last, priors.getLast? = some last ∧ finalState < Int.ofNat (List.length last)))
    (hsorted : finalState = -1 ∨ 2 ≤ priors.length)
    (hKle : K ≤ (candidates priors finalState).length)
    (hdom : 2 ≤ K → SentinelDominates halfMax priors cs) :
    ∃ sols : List (Solution E), solve S halfMax K priors cs finalState = Except.ok sols ∧
      sols.map (fun sol => sol.energy) =
        (((candidates priors finalState).map (totalEnergy priors cs)).insertionSort
          (fun a b => a ≤ b)).take K := by
  obtain ⟨sols, hsolve, hlen, _, hs, _, hsplit⟩ :=
    solve_structure S halfMax K hK priors cs hcons finalState hf
  refine ⟨sols, hsolve, ?_⟩
  exact topK_of_split (hs hsorted) hsplit (by simpa using hlen) (by simpa using hKle)
    (filler_dominated halfMax K priors cs finalState hdom)

/-- The first solution is a candidate sequence of minimum total energy. -/
theorem solve_head (S : StdSort E) (halfMax : E) (K : Nat) (hK : 1 ≤ K)
    (priors : List (List E)) (cs : List (TMatrix E)) (hcons : Consistent priors cs)
    (finalState : Int)
    (hf : finalState = -1 ∨ (0 ≤ finalState ∧
      ∃ last, priors.getLast? = some last ∧ finalState < Int.ofNat (List.length last)))
    (hdom : 2 ≤ K → SentinelDominates halfMax priors cs) :
    ∃ sols : List (Solution E), solve S halfMax K priors cs finalState = Except.ok sols ∧
      sols.length = K ∧
      ∃ sol, sols.head? = some sol ∧
        (∃ s ∈ candidates priors finalState, sol.sequence = s.map Int.ofNat ∧
          totalEnergy priors cs s = sol.energy) ∧
        ∀ s ∈ candidates priors finalState, sol.energy ≤ totalEnergy priors cs s := by
  obtain ⟨sols, hsolve, hlen, hvalid, hs, hhead, hsplit⟩ :=
    solve_structure S halfMax K hK priors cs hcons finalState hf
  refine ⟨sols, hsolve, hlen, ?_⟩
  obtain ⟨sol, rest, rfl⟩ : ∃ sol rest, sols = sol :: rest := by
    cases sols with
    | nil => simp at hlen; omega
    | cons a l => exact ⟨a, l, rfl⟩
  refine ⟨sol, rfl, ?_⟩
  obtain ⟨s, hsc, hseq, hen⟩ := hvalid sol (by simp)
  by_cases hcase : finalState = -1 ∨ 2 ≤ priors.length
  · have hmin : ∀ u ∈ (candidates priors finalState).map (totalEnergy priors cs) ++
          (candidates priors finalState).flatMap
            (fun s => List.replicate (K - 1) (fillerEnergy halfMax priors cs s)),
          sol.energy ≤ u :=
      head_le_of_split (hs hcase) hsplit rfl
    have hmin' : ∀ s' ∈ candidates priors finalState,
        sol.energy ≤ totalEnergy priors cs s' := fun s' hs' =>
      hmin _ (List.mem_append_left _ (List.mem_map_of_mem _ hs'))
    refine ⟨⟨s, hsc, hseq, ?_⟩, hmin'⟩
    rcases hen with h | ⟨h2, h⟩
    · exact h.symm
    · refine le_antisymm ?_ (hmin' s hsc)
      rw [h]
      exact hdom h2 s (candidates_subset _ _ s hsc) s (candidates_subset _ _ s hsc)
  · have hm : finalState ≠ -1 := fun h => hcase (Or.inl h)
    have h1 : priors.length = 1 := by
      have : priors.length ≠ 0 := fun h => hcons.1 (List.eq_nil_of_length_eq_zero h)
      have : ¬ 2 ≤ priors.length := fun h => hcase (Or.inr h)
      omega
    have hh := hhead hm h1
    simp only [List.map_cons, List.head?_cons, Option.some.injEq] at hh
    obtain ⟨p0, hp0⟩ : ∃ p0, priors = [p0] := by
      match priors, h1 with
      | [p0], _ => exact ⟨p0, rfl⟩
    have hall : ∀ s' ∈ candidates priors finalState, s' = [finalState.toNat] := by
      intro s' hs'
      unfold candidates at hs'
      rw [if_neg hm, hp0] at hs'
      simp only [sequencesEndingIn, List.mem_filter, mem_allSequences, beq_iff_eq] at hs'
      obtain ⟨h3, h4⟩ := hs'
      cases h3 with
      | cons _ h5 =>
        cases h5
        simpa using h4
    refine ⟨⟨s, hsc, hseq, ?_⟩, ?_⟩
    · rw [hall s hsc, hh]
    · intro s' hs'
      rw [hall s' hs', hh]

/-- With a strictly larger sentinel every solution is a genuine path: its energy is the
total energy of its own sequence. -/
theorem solve_genuine (S : StdSort E) (halfMax : E) (K : Nat) (hK : 1 ≤ K)
    (priors : List (List E)) (cs : List (TMatrix E)) (hcons : Consistent priors cs)
    (finalState : Int)
    (hf : finalState = -1 ∨ (0 ≤ finalState ∧
      ∃ last, priors.getLast? = some last ∧ finalState < Int.ofNat (List.length last)))
    (hKle : K ≤ (candidates priors finalState).length)
    (hdom : 2 ≤ K → SentinelExceeds halfMax priors cs) :
    ∃ sols : List (Solution E), solve S halfMax K priors cs finalState = Except.ok sols ∧
      sols.length = K ∧
      ∀ sol ∈ sols, ∃ s ∈ candidates priors finalState,
        sol.sequence = s.map Int.ofNat ∧ sol.energy = totalEnergy priors cs s := by
  obtain ⟨sols, hsolve, hlen, hvalid, _, _, hsplit⟩ :=
    solve_structure S halfMax K hK priors cs hcons finalState hf
  refine ⟨sols, hsolve, hlen, ?_⟩
  intro sol hsol
  obtain ⟨s, hsc, hseq, hen⟩ := hvalid sol hsol
  refine ⟨s, hsc, hseq, ?_⟩
  rcases hen with h | ⟨h2, h⟩
  · exact h
  · exfalso
    refine not_mem_of_gt hsplit (by simpa [hlen] using hKle)
      (List.mem_map_of_mem (fun sol => sol.energy) hsol) ?_
    intro r hr
    obtain ⟨s', hs', rfl⟩ := List.mem_map.1 hr
    rw [h]
    exact hdom h2 s' (candidates_subset _ _ s' hs') s (candidates_subset _ _ s hsc)

end Main
end Viterbi

/-! ## The solver: claims C1 to C3 -/

namespace Viterbi

theorem get?_of_shapesOk {E : Type} : ∀ (priors : List (List E)) (cs : List (TMatrix E)),
    shapesOk priors cs = true →
    ∀ t c p q, cs.get? t = some c → priors.get? t = some p →
      priors.get? (t + 1) = some q → c.rows = p.length ∧ c.cols = q.length := by
  intro priors
  induction priors with
  | nil => intro cs _ t c p q _ hp; simp at hp
  | cons p0 ps ih =>
    intro cs h t c p q hc hp hq
    cases ps with
    | nil => simp at hq
    | cons p1 ps =>
      cases cs with
      | nil => simp at hc
      | cons c0 cs =>
        simp only [shapesOk, Bool.and_eq_true, beq_iff_eq] at h
        cases t with
        | zero =>
          simp only [List.get?_cons_zero, Option.some.injEq] at hc hp
          simp only [Nat.zero_add, List.get?_cons_succ, List.get?_cons_zero,
            Option.some.injEq] at hq
          subst hc; subst hp; subst hq
          exact h.1
        | succ t =>
          exact ih cs h.2 t c p q (by simpa using hc) (by simpa using hp) (by simpa using hq)

theorem consistent_of_shapesOk {E : Type} {priors : List (List E)} {cs : List (TMatrix E)}
    (h1 : priors ≠ []) (h2 : ∀ p ∈ priors, p ≠ []) (h3 : cs.length + 1 = priors.length)
    (h4 : shapesOk priors cs = true) : Consistent priors cs :=
  ⟨h1, h2, h3, get?_of_shapesOk priors cs h4⟩

theorem testInput_consistent : Consistent testPriors testConditionals :=
  consistent_of_shapesOk (by decide) (by decide) (by decide) (by decide)

theorem testInput_exceeds : SentinelExceeds halfMaxInt testPriors testConditionals := by
  have h1 : ∀ r ∈ allSequences testPriors, totalEnergy testPriors testConditionals r < 100 := by
    decide
  have h2 : ∀ s ∈ allSequences testPriors,
      100 < fillerEnergy halfMaxInt testPriors testConditionals s := by
    decide
  intro r hr s hs
  exact lt_trans (h1 r hr) (h2 s hs)

theorem testInput_dominates : SentinelDominates halfMaxInt testPriors testConditionals :=
  fun r hr s hs => le_of_lt (testInput_exceeds r hr s hs)

theorem sentinelDominates_top (priors : List (List (WithTop ℚ)))
    (conditionals : List (TMatrix (WithTop ℚ))) :
    SentinelDominates (⊤ : WithTop ℚ) priors conditionals := by
  intro r _ s _
  unfold fillerEnergy
  rw [top_add]
  exact le_top

theorem sumPriors_ne_top : ∀ (priors : List (List (WithTop ℚ))) (s : List Nat),
    (∀ p ∈ priors, ∀ x ∈ p, x ≠ ⊤) → sumPriors priors s ≠ ⊤ := by
  intro priors
  induction priors with
  | nil => intro s _; cases s <;> exact WithTop.zero_ne_top
  | cons p ps ih =>
    intro s h
    cases s with
    | nil => exact WithTop.zero_ne_top
    | cons a ss =>
      rw [sumPriors, WithTop.add_ne_top]
      refine ⟨?_, ih ss (fun q hq => h q (List.mem_cons_of_mem _ hq))⟩
      rw [List.getD_eq_getElem?_getD]
      cases hx : p[a]? with
      | none => exact WithTop.zero_ne_top
      | some x => exact h p (by simp) x (List.getElem?_mem hx)

theorem sumConds_ne_top : ∀ (cs : List (TMatrix (WithTop ℚ))) (s : List Nat),
    (∀ c ∈ cs, ∀ i j, c.get i j ≠ ⊤) → sumConds cs s ≠ ⊤ := by
  intro cs
  induction cs with
  | nil => intro s _; cases s <;> exact WithTop.zero_ne_top
  | cons c cs ih =>
    intro s h
    match s with
    | [] => exact WithTop.zero_ne_top
    | [_] => exact WithTop.zero_ne_top
    | a :: b :: ss =>
      rw [sumConds, WithTop.add_ne_top]
      exact ⟨h c (by simp) a b, ih (b :: ss) (fun d hd => h d (List.mem_cons_of_mem _ hd))⟩

theorem sentinelExceeds_top (priors : List (List (WithTop ℚ)))
    (conditionals : List (TMatrix (WithTop ℚ))) (hfin : FiniteInput priors conditionals) :
    SentinelExceeds (⊤ : WithTop ℚ) priors conditionals := by
  intro r _ s _
  unfold fillerEnergy totalEnergy
  rw [top_add, lt_top_iff_ne_top, WithTop.add_ne_top]
  exact ⟨sumPriors_ne_top priors r hfin.1, sumConds_ne_top conditionals r hfin.2⟩

/-- C1, refuted as stated: with `Viterbi<int>`, one variable with priors `[0, 2^30]` and
`K = 2`, the second solution has energy `MaxValue<int>() / 2 = 1073741823`, whereas the
second smallest total energy over the two state sequences is `1073741824`. -/
theorem c1_sentinel_counterexample :
    Consistent [[(0 : Int), 1073741824]] [] ∧
    2 ≤ (allSequences [[(0 : Int), 1073741824]]).length ∧
    energiesOf (solve stableSort halfMaxInt 2 [[0, 1073741824]] [] (-1)) =
      some [0, 1073741823] ∧
    (((allSequences [[(0 : Int), 1073741824]]).map
      (totalEnergy [[0, 1073741824]] [])).insertionSort (fun a b => a ≤ b)).take 2 =
      [0, 1073741824] :=
  ⟨consistent_of_shapesOk (by decide) (by decide) (by decide) (by decide), by decide,
    by decide, by decide⟩

/-- C1, amended: for every consistent input over exact arithmetic and every `K ≥ 1` not
exceeding the number of state sequences, provided (when `K ≥ 2`) that no path seeded with
the sentinel `MaxValue<T>() / 2` is cheaper than a state sequence, `solve(-1)` completes
and the energies of its `K` solutions are the `K` smallest total energies over all state
sequences, counted with multiplicity and in ascending order; the sequence of `solutions[0]`
is a state sequence of minimum total energy.  For `Viterbi<double>`, whose sentinel is
`+inf`, the proviso always holds.  For the input of `testViterbi` (`K = 4`) the
energies are `[4, 5, 5, 5]` and the best path is `0, 2, 1, 2`, whatever the tie order of
the standard library's partial sort. -/
theorem solve_returns_k_smallest_energies :
    (∀ (E : Type) [LinearOrderedAddCommMonoid E] (S : StdSort E) (halfMax : E) (K : Nat)
      (priors : List (List E)) (conditionals : List (TMatrix E)),
      Consistent priors conditionals → 1 ≤ K → K ≤ (allSequences priors).length →
      (2 ≤ K → SentinelDominates halfMax priors conditionals) →
      ∃ sols : List (Solution E),
        solve S halfMax K priors conditionals (-1) = Except.ok sols ∧
        sols.map (fun sol => sol.energy) =
          (((allSequences priors).map (totalEnergy priors conditionals)).insertionSort
            (fun a b => a ≤ b)).take K ∧
        ∀ sol, sols.head? = some sol →
          ∃ s ∈ allSequences priors, sol.sequence = s.map Int.ofNat ∧
            totalEnergy priors conditionals s = sol.energy ∧
            ∀ s' ∈ allSequences priors, sol.energy ≤ totalEnergy priors conditionals s') ∧
    (∀ (S : StdSort (WithTop ℚ)) (K : Nat) (priors : List (List (WithTop ℚ)))
      (conditionals : List (TMatrix (WithTop ℚ))),
      Consistent priors conditionals → 1 ≤ K → K ≤ (allSequences priors).length →
      ∃ sols : List (Solution (WithTop ℚ)),
        solve S ⊤ K priors conditionals (-1) = Except.ok sols ∧
        sols.map (fun sol => sol.energy) =
          (((allSequences priors).map (totalEnergy priors conditionals)).insertionSort
            (fun a b => a ≤ b)).take K) ∧
    (∀ S : StdSort Int, ∃ sols : List (Solution Int),
      solve S halfMaxInt 4 testPriors testConditionals (-1) = Except.ok sols ∧
      sols.map (fun sol => sol.energy) = [4, 5, 5, 5] ∧
      (sols.head?).map (fun sol => sol.sequence) = some [0, 2, 1, 2]) := by
  have general : ∀ (E : Type) [LinearOrderedAddCommMonoid E] (S : StdSort E) (halfMax : E)
      (K : Nat) (priors : List (List E)) (conditionals : List (TMatrix E)),
      Consistent priors conditionals → 1 ≤ K → K ≤ (allSequences priors).length →
      (2 ≤ K → SentinelDominates halfMax priors conditionals) →
      ∃ sols : List (Solution E),
        solve S halfMax K priors conditionals (-1) = Except.ok sols ∧
        sols.map (fun sol => sol.energy) =
          (((allSequences priors).map (totalEnergy priors conditionals)).insertionSort
            (fun a b => a ≤ b)).take K ∧
        ∀ sol, sols.head? = some sol →
          ∃ s ∈ allSequences priors, sol.sequence = s.map Int.ofNat ∧
            totalEnergy priors conditionals s = sol.energy ∧
            ∀ s' ∈ allSequences priors, sol.energy ≤ totalEnergy priors conditionals s' := by
    intro E _ S halfMax K priors cs hcons hK hKle hdom
    have hc : candidates priors (-1) = allSequences priors := by simp [candidates]
    obtain ⟨sols, hsolve, hen⟩ :=
      solve_sorted_energies S halfMax K hK priors cs hcons (-1) (Or.inl rfl) (Or.inl rfl)
        (by rw [hc]; exact hKle) hdom
    obtain ⟨sols', hsolve', _, sol', hhead, ⟨s, hs, hseq, htot⟩, hmin⟩ :=
      solve_head S halfMax K hK priors cs hcons (-1) (Or.inl rfl) hdom
    rw [hsolve] at hsolve'
    cases hsolve'
    rw [hc] at hen hs hmin
    refine ⟨sols, hsolve, hen, ?_⟩
    intro sol hsol
    rw [hhead] at hsol
    cases hsol
    exact ⟨s, hs, hseq, htot, hmin⟩
  refine ⟨general, ?_, ?_⟩
  · intro S K priors cs hcons hK hKle
    obtain ⟨sols, hsolve, hen, _⟩ :=
      general (WithTop ℚ) S ⊤ K priors cs hcons hK hKle
        (fun _ => sentinelDominates_top priors cs)
    exact ⟨sols, hsolve, hen⟩
  intro S
  obtain ⟨sols, hsolve, hen, hhead⟩ :=
    general Int S halfMaxInt 4 testPriors testConditionals testInput_consistent (by decide)
      (by decide) (fun _ => testInput_dominates)
  have hval : (((allSequences testPriors).map
      (totalEnergy testPriors testConditionals)).insertionSort (fun a b => a ≤ b)).take 4 =
      [4, 5, 5, 5] := by decide
  rw [hval] at hen
  refine ⟨sols, hsolve, hen, ?_⟩
  cases sols with
  | nil => simp at hen
  | cons sol rest =>
    obtain ⟨s, hs, hseq, htot, _⟩ := hhead sol rfl
    have he : sol.energy = 4 := by
      simp only [List.map_cons, List.cons.injEq] at hen
      exact hen.1
    have huniq : ∀ s ∈ allSequences testPriors,
        totalEnergy testPriors testConditionals s = 4 → s = [0, 2, 1, 2] := by decide
    have hs4 := huniq s hs (htot.trans he)
    subst hs4
    simp only [List.head?_cons, Option.map_some', hseq]
    rfl

/-- C1, witness: the amended statement applied to `Viterbi<int>` with priors `[1, 2]`,
`K = 2` and the stable reference sort. -/
theorem solve_returns_k_smallest_energies_witness :
    ∃ sols : List (Solution Int),
      solve stableSort halfMaxInt 2 [[1, 2]] [] (-1) = Except.ok sols ∧
      sols.map (fun sol => sol.energy) =
        (((allSequences [[(1 : Int), 2]]).map (totalEnergy [[1, 2]] [])).insertionSort
          (fun a b => a ≤ b)).take 2 ∧
      ∀ sol, sols.head? = some sol →
        ∃ s ∈ allSequences [[(1 : Int), 2]], sol.sequence = s.map Int.ofNat ∧
          totalEnergy [[1, 2]] [] s = sol.energy ∧
          ∀ s' ∈ allSequences [[(1 : Int), 2]], sol.energy ≤ totalEnergy [[1, 2]] [] s' :=
  solve_returns_k_smallest_energies.1 Int stableSort halfMaxInt 2 [[1, 2]] []
    (consistent_of_shapesOk (by decide) (by decide) (by decide) (by decide))
    (by decide) (by decide) (fun _ => by unfold SentinelDominates; decide)

/-- C2, refuted as stated: with one variable of one state, prior `5` and `K = 2`, the
second solution is the unused sub-state: energy `MaxValue<int>() / 2`, sequence `[0]`,
whereas the priors along `[0]` sum to `5`. -/
theorem c2_filler_counterexample :
    Consistent [[(5 : Int)]] [] ∧
    energiesOf (solve stableSort halfMaxInt 2 [[5]] [] (-1)) = some [5, 1073741823] ∧
    sequencesOf (solve stableSort halfMaxInt 2 [[5]] [] (-1)) = some [[0], [0]] ∧
    totalEnergy [[(5 : Int)]] [] [0] = 5 :=
  ⟨consistent_of_shapesOk (by decide) (by decide) (by decide) (by decide), by decide,
    by decide, by decide⟩

/-- C2, amended: for every consistent input, every call `solve(-1)` or `solve(f)` with a
valid `f`, and every `K ≥ 1` not exceeding the number of state sequences the call chooses
among (all of them, respectively those ending in `f`), provided (when `K ≥ 2`) that every
path seeded with the sentinel `MaxValue<T>() / 2` is strictly more expensive than every
state sequence, each of the `K` solutions carries a state sequence of the input and its
energy is the sum of the priors and conditionals along that sequence.  For
`Viterbi<double>`, whose sentinel is `+inf`, the proviso holds whenever all energies are
finite. -/
theorem solve_energy_is_sum_along_sequence :
    (∀ (E : Type) [LinearOrderedAddCommMonoid E] (S : StdSort E) (halfMax : E) (K : Nat)
      (priors : List (List E)) (conditionals : List (TMatrix E)) (finalState : Int),
      Consistent priors conditionals → 1 ≤ K →
      (finalState = -1 ∨ (0 ≤ finalState ∧
        ∃ last, priors.getLast? = some last ∧ finalState < Int.ofNat (List.length last))) →
      K ≤ (candidates priors finalState).length →
      (2 ≤ K → SentinelExceeds halfMax priors conditionals) →
      ∃ sols : List (Solution E),
        solve S halfMax K priors conditionals finalState = Except.ok sols ∧
        sols.length = K ∧
        ∀ sol ∈ sols, sol.sequence.map Int.toNat ∈ candidates priors finalState ∧
          sol.sequence = (sol.sequence.map Int.toNat).map Int.ofNat ∧
          sol.energy = totalEnergy priors conditionals (sol.sequence.map Int.toNat)) ∧
    (∀ (S : StdSort (WithTop ℚ)) (K : Nat) (priors : List (List (WithTop ℚ)))
      (conditionals : List (TMatrix (WithTop ℚ))) (finalState : Int),
      Consistent priors conditionals → FiniteInput priors conditionals → 1 ≤ K →
      (finalState = -1 ∨ (0 ≤ finalState ∧
        ∃ last, priors.getLast? = some last ∧ finalState < Int.ofNat (List.length last))) →
      K ≤ (candidates priors finalState).length →
      ∃ sols : List (Solution (WithTop ℚ)),
        solve S ⊤ K priors conditionals finalState = Except.ok sols ∧
        sols.length = K ∧
        ∀ sol ∈ sols, sol.sequence.map Int.toNat ∈ candidates priors finalState ∧
          sol.energy = totalEnergy priors conditionals (sol.sequence.map Int.toNat)) := by
  have general : ∀ (E : Type) [LinearOrderedAddCommMonoid E] (S : StdSort E) (halfMax : E)
      (K : Nat) (priors : List (List E)) (conditionals : List (TMatrix E))
      (finalState : Int),
      Consistent priors conditionals → 1 ≤ K →
      (finalState = -1 ∨ (0 ≤ finalState ∧
        ∃ last, priors.getLast? = some last ∧ finalState < Int.ofNat (List.length last))) →
      K ≤ (candidates priors finalState).length →
      (2 ≤ K → SentinelExceeds halfMax priors conditionals) →
      ∃ sols : List (Solution E),
        solve S halfMax K priors conditionals finalState = Except.ok sols ∧
        sols.length = K ∧
        ∀ sol ∈ sols, sol.sequence.map Int.toNat ∈ candidates priors finalState ∧
          sol.sequence = (sol.sequence.map Int.toNat).map Int.ofNat ∧
          sol.energy = totalEnergy priors conditionals (sol.sequence.map Int.toNat) := by
    intro E _ S halfMax K priors conditionals finalState hcons hK hf hKle hdom
    obtain ⟨sols, hsolve, hlen, hall⟩ :=
      solve_genuine S halfMax K hK priors conditionals hcons finalState hf hKle hdom
    refine ⟨sols, hsolve, hlen, ?_⟩
    intro sol hsol
    obtain ⟨s, hs, hseq, hen⟩ := hall sol hsol
    have hback : sol.sequence.map Int.toNat = s := by
      rw [hseq, List.map_map]
      have : (Int.toNat ∘ Int.ofNat) = id := by funext n; simp
      rw [this, List.map_id]
    rw [hback]
    exact ⟨hs, hseq, hen⟩
  refine ⟨general, ?_⟩
  intro S K priors cs finalState hcons hfin hK hf hKle
  obtain ⟨sols, hsolve, hlen, hall⟩ :=
    general (WithTop ℚ) S ⊤ K priors cs finalState hcons hK hf hKle
      (fun _ => sentinelExceeds_top priors cs hfin)
  exact ⟨sols, hsolve, hlen, fun sol hsol => ⟨(hall sol hsol).1, (hall sol hsol).2.2⟩⟩

/-- C2, witness: the amended statement applied to the input of `testViterbi` with
`K = 4` and `solve(-1)`. -/
theorem solve_energy_is_sum_along_sequence_witness :
    ∃ sols : List (Solution Int),
      solve stableSort halfMaxInt 4 testPriors testConditionals (-1) = Except.ok sols ∧
      sols.length = 4 ∧
      ∀ sol ∈ sols, sol.sequence.map Int.toNat ∈ candidates testPriors (-1) ∧
        sol.sequence = (sol.sequence.map Int.toNat).map Int.ofNat ∧
        sol.energy = totalEnergy testPriors testConditionals (sol.sequence.map Int.toNat) :=
  solve_energy_is_sum_along_sequence.1 Int stableSort halfMaxInt 4 testPriors
    testConditionals (-1) testInput_consistent (by decide) (Or.inl rfl) (by decide)
    (fun _ => testInput_exceeds)

/-- C3, refuted as stated: with `Viterbi<int>`, two variables of one state each, priors
`2^30` and `0`, a zero conditional and `K = 2`, `solve(0)` puts first the path seeded with
`MaxValue<int>() / 2`: `solutions[0].energy = 1073741823`, whereas the only state sequence
ending in state 0 has total energy `1073741824`. -/
theorem c3_sentinel_counterexample :
    Consistent [[(1073741824 : Int)], [0]] [zeroOneByOne] ∧
    energiesOf (solve stableSort halfMaxInt 2 [[1073741824], [0]] [zeroOneByOne] 0) =
      some [1073741823, 1073741824] ∧
    (sequencesEndingIn [[(1073741824 : Int)], [0]] 0).map
      (totalEnergy [[1073741824], [0]] [zeroOneByOne]) = [1073741824] :=
  ⟨consistent_of_shapesOk (by decide) (by decide) (by decide) (by decide), by decide,
    by decide⟩

theorem candidates_ofNat {E : Type} (priors : List (List E)) (f : Nat) :
    candidates priors (Int.ofNat f) = sequencesEndingIn priors f := by
  have h : Int.ofNat f ≠ -1 := by
    intro h
    have h0 : (0 : Int) ≤ Int.ofNat f := Int.ofNat_nonneg f
    rw [h] at h0
    exact absurd h0 (by decide)
  simp [candidates, h]

/-- C3, amended: for every consistent input and every final state `f` below the size of
the last variable, `solve(f)` completes with `K` solutions and every returned sequence ends
in state `f`; provided (when `K ≥ 2`) that no path seeded with the sentinel
`MaxValue<T>() / 2` is cheaper than a state sequence, `solutions[0]` is a state sequence
ending in `f` whose energy is the minimum total energy over all state sequences that end in
`f`.  For `Viterbi<double>`, whose sentinel is `+inf`, the proviso always holds.  For the
input of `testViterbi` with `f = 1` and `K = 4` the energies are `[5, 6, 6, 6]` and the best
path is `0, 2, 1, 1`, whatever the tie order of the standard library's partial sort.
Energies are added exactly. -/
theorem solve_final_state_restricts_paths :
    (∀ (E : Type) [LinearOrderedAddCommMonoid E] (S : StdSort E) (halfMax : E) (K : Nat)
      (priors : List (List E)) (conditionals : List (TMatrix E)) (f : Nat),
      Consistent priors conditionals → 1 ≤ K →
      (∃ last, priors.getLast? = some last ∧ f < List.length last) →
      ∃ sols : List (Solution E),
        solve S halfMax K priors conditionals (Int.ofNat f) = Except.ok sols ∧
        sols.length = K ∧
        (∀ sol ∈ sols, sol.sequence.getLast? = some (Int.ofNat f)) ∧
        ((2 ≤ K → SentinelDominates halfMax priors conditionals) →
          ∃ sol, sols.head? = some sol ∧
            (∃ s ∈ sequencesEndingIn priors f, sol.sequence = s.map Int.ofNat ∧
              totalEnergy priors conditionals s = sol.energy) ∧
            ∀ s ∈ sequencesEndingIn priors f,
              sol.energy ≤ totalEnergy priors conditionals s)) ∧
    (∀ (S : StdSort (WithTop ℚ)) (K : Nat) (priors : List (List (WithTop ℚ)))
      (conditionals : List (TMatrix (WithTop ℚ))) (f : Nat),
      Consistent priors conditionals → 1 ≤ K →
      (∃ last, priors.getLast? = some last ∧ f < List.length last) →
      ∃ sols : List (Solution (WithTop ℚ)),
        solve S ⊤ K priors conditionals (Int.ofNat f) = Except.ok sols ∧
        sols.length = K ∧
        (∀ sol ∈ sols, sol.sequence.getLast? = some (Int.ofNat f)) ∧
        ∃ sol, sols.head? = some sol ∧
          (∃ s ∈ sequencesEndingIn priors f, sol.sequence = s.map Int.ofNat ∧
            totalEnergy priors conditionals s = sol.energy) ∧
          ∀ s ∈ sequencesEndingIn priors f, sol.energy ≤ totalEnergy priors conditionals s) ∧
    (∀ S : StdSort Int, ∃ sols : List (Solution Int),
      solve S halfMaxInt 4 testPriors testConditionals 1 = Except.ok sols ∧
      sols.map (fun sol => sol.energy) = [5, 6, 6, 6] ∧
      (sols.head?).map (fun sol => sol.sequence) = some [0, 2, 1, 1]) ∧
    (∃ sols : List (Solution Int),
      solve stableSort halfMaxInt 2 [[1073741824], [0]] [zeroOneByOne] (Int.ofNat 0) =
        Except.ok sols ∧
      sols.length = 2 ∧ ∀ sol ∈ sols, sol.sequence.getLast? = some (Int.ofNat 0)) := by
  have hfin : ∀ (E : Type) (priors : List (List E)) (f : Nat),
      (∃ last, priors.getLast? = some last ∧ f < List.length last) →
      (Int.ofNat f = -1 ∨ (0 ≤ Int.ofNat f ∧
        ∃ last, priors.getLast? = some last ∧ Int.ofNat f < Int.ofNat (List.length last))) := by
    intro E priors f h
    obtain ⟨last, h1, h2⟩ := h
    exact Or.inr ⟨Int.ofNat_nonneg f, last, h1, Int.ofNat_lt.2 h2⟩
  have general : ∀ (E : Type) [LinearOrderedAddCommMonoid E] (S : StdSort E) (halfMax : E)
      (K : Nat) (priors : List (List E)) (conditionals : List (TMatrix E)) (f : Nat),
      Consistent priors conditionals → 1 ≤ K →
      (∃ last, priors.getLast? = some last ∧ f < List.length last) →
      ∃ sols : List (Solution E),
        solve S halfMax K priors conditionals (Int.ofNat f) = Except.ok sols ∧
        sols.length = K ∧
        (∀ sol ∈ sols, sol.sequence.getLast? = some (Int.ofNat f)) ∧
        ((2 ≤ K → SentinelDominates halfMax priors conditionals) →
          ∃ sol, sols.head? = some sol ∧
            (∃ s ∈ sequencesEndingIn priors f, sol.sequence = s.map Int.ofNat ∧
              totalEnergy priors conditionals s = sol.energy) ∧
            ∀ s ∈ sequencesEndingIn priors f,
              sol.energy ≤ totalEnergy priors conditionals s) := by
    intro E _ S halfMax K priors cs f hcons hK hf
    obtain ⟨sols, hsolve, hlen, hvalid, _⟩ :=
      solve_structure S halfMax K hK priors cs hcons (Int.ofNat f) (hfin E priors f hf)
    refine ⟨sols, hsolve, hlen, ?_, ?_⟩
    · intro sol hsol
      obtain ⟨s, hs, hseq, _⟩ := hvalid sol hsol
      rw [candidates_ofNat] at hs
      have hl : s.getLast? = some f := by
        have := (List.mem_filter.1 hs).2
        simpa using this
      rw [hseq, List.getLast?_map, hl]
      rfl
    · intro hdom
      obtain ⟨sols', hsolve', _, sol', hhead, hex, hmin⟩ :=
        solve_head S halfMax K hK priors cs hcons (Int.ofNat f) (hfin E priors f hf) hdom
      rw [hsolve] at hsolve'
      cases hsolve'
      rw [candidates_ofNat] at hex hmin
      exact ⟨sol', hhead, hex, hmin⟩
  refine ⟨general, ?_, ?_, ?_⟩
  · intro S K priors cs f hcons hK hf
    obtain ⟨sols, hsolve, hlen, hends, hbest⟩ :=
      general (WithTop ℚ) S ⊤ K priors cs f hcons hK hf
    exact ⟨sols, hsolve, hlen, hends, hbest (fun _ => sentinelDominates_top priors cs)⟩
  · intro S
    have hf1 : (1 : Int) = -1 ∨ (0 ≤ (1 : Int) ∧
        ∃ last, testPriors.getLast? = some last ∧ (1 : Int) < Int.ofNat (List.length last)) :=
      Or.inr ⟨by decide, [0, 1, 1], rfl, by decide⟩
    obtain ⟨sols, hsolve, hen⟩ :=
      solve_sorted_energies S halfMaxInt 4 (by decide) testPriors testConditionals
        testInput_consistent 1 hf1 (Or.inr (by decide)) (by decide)
        (fun _ => testInput_dominates)
    obtain ⟨sols', hsolve', _, sol', hhead, ⟨s, hs, hseq, htot⟩, _⟩ :=
      solve_head S halfMaxInt 4 (by decide) testPriors testConditionals
        testInput_consistent 1 hf1 (fun _ => testInput_dominates)
    rw [hsolve] at hsolve'
    cases hsolve'
    have hval : (((candidates testPriors 1).map
        (totalEnergy testPriors testConditionals)).insertionSort (fun a b => a ≤ b)).take 4 =
        [5, 6, 6, 6] := by decide
    rw [hval] at hen
    refine ⟨sols, hsolve, hen, ?_⟩
    cases sols with
    | nil => simp at hen
    | cons sol rest =>
      simp only [List.head?_cons, Option.some.injEq] at hhead
      subst hhead
      have he : sol.energy = 5 := by
        simp only [List.map_cons, List.cons.injEq] at hen
        exact hen.1
      have huniq : ∀ s ∈ candidates testPriors 1,
          totalEnergy testPriors testConditionals s = 5 → s = [0, 2, 1, 1] := by decide
      have hs5 := huniq s hs (htot.trans he)
      subst hs5
      simp only [List.head?_cons, Option.map_some', hseq]
      rfl
  · obtain ⟨sols, hsolve, hlen, hends, _⟩ :=
      general Int stableSort halfMaxInt 2 [[1073741824], [0]] [zeroOneByOne] 0
        (consistent_of_shapesOk (by decide) (by decide) (by decide) (by decide)) (by decide)
        ⟨[0], rfl, by decide⟩
    exact ⟨sols, hsolve, hlen, hends⟩

/-- C3, witness: the amended statement applied to the input of `testViterbi` with final
state 1 and `K = 4`, where the sentinel dominates. -/
theorem solve_final_state_restricts_paths_witness :
    ∃ sols : List (Solution Int),
      solve stableSort halfMaxInt 4 testPriors testConditionals (Int.ofNat 1) =
        Except.ok sols ∧
      sols.length = 4 ∧
      (∀ sol ∈ sols, sol.sequence.getLast? = some (Int.ofNat 1)) ∧
      ∃ sol, sols.head? = some sol ∧
        (∃ s ∈ sequencesEndingIn testPriors 1, sol.sequence = s.map Int.ofNat ∧
          totalEnergy testPriors testConditionals s = sol.energy) ∧
        ∀ s ∈ sequencesEndingIn testPriors 1,
          sol.energy ≤ totalEnergy testPriors testConditionals s := by
  obtain ⟨sols, hsolve, hlen, hends, hbest⟩ :=
    solve_final_state_restricts_paths.1 Int stableSort halfMaxInt 4 testPriors
      testConditionals 1 testInput_consistent (by decide) ⟨[0, 1, 1], rfl, by decide⟩
  exact ⟨sols, hsolve, hlen, hends, hbest (fun _ => testInput_dominates)⟩

end Viterbi

/-! ## The UPC-A joint decoder: state maps and the solver input -/

namespace UpcaSymbology

open Viterbi

theorem oddMap_spec : ∀ p c : Fin 10,
    stateDigitMapForOddSymbol.get p c < 10 ∧
      (3 * stateDigitMapForOddSymbol.get p c + p) % 10 = c := by decide

theorem evenMap_spec : ∀ p c : Fin 10,
    stateDigitMapForEvenSymbol.get p c < 10 ∧
      (stateDigitMapForEvenSymbol.get p c + p) % 10 = c := by decide

theorem oddMap_inv : ∀ p d : Fin 10,
    stateDigitMapForOddSymbol.get p ((3 * d + p) % 10) = d := by decide

theorem evenMap_inv : ∀ p d : Fin 10,
    stateDigitMapForEvenSymbol.get p ((d + p) % 10) = d := by decide

theorem getDigit_spec (p c t : Nat) (hp : p < 10) (hc : c < 10) :
    getDigitFromStates p c t < 10 ∧
      ((if t % 2 = 0 then 3 else 1) * getDigitFromStates p c t + p) % 10 = c := by
  unfold getDigitFromStates
  by_cases h : t % 2 = 0
  · simp only [h, if_true]
    exact oddMap_spec ⟨p, hp⟩ ⟨c, hc⟩
  · simp only [h, if_false, Nat.one_mul]
    exact evenMap_spec ⟨p, hp⟩ ⟨c, hc⟩

theorem getDigit_inv (p d t : Nat) (hp : p < 10) (hd : d < 10) :
    getDigitFromStates p (((if t % 2 = 0 then 3 else 1) * d + p) % 10) t = d := by
  unfold getDigitFromStates
  by_cases h : t % 2 = 0
  · simp only [h, if_true]
    exact oddMap_inv ⟨p, hp⟩ ⟨d, hd⟩
  · simp only [h, if_false, Nat.one_mul]
    exact evenMap_inv ⟨p, hp⟩ ⟨d, hd⟩

theorem digitsFrom_ofNat : ∀ (s : List Nat) (p t : Nat),
    digitsFrom p t (s.map Int.ofNat) = digitsOf p t s := by
  intro s
  induction s with
  | nil => intro p t; rfl
  | cons b s ih =>
    intro p t
    have hb : (Int.ofNat b).toNat = b := rfl
    simp only [List.map_cons, digitsFrom, digitsOf, hb, ih]

theorem digitsOf_length : ∀ (s : List Nat) (p t : Nat), (digitsOf p t s).length = s.length := by
  intro s
  induction s with
  | nil => intro p t; rfl
  | cons b s ih => intro p t; simp [digitsOf, ih]

theorem digitsOf_lt : ∀ (s : List Nat) (p t : Nat), p < 10 → (∀ b ∈ s, b < 10) →
    ∀ d ∈ digitsOf p t s, d < 10 := by
  intro s
  induction s with
  | nil => intro p t _ _ d hd; simp [digitsOf] at hd
  | cons b s ih =>
    intro p t hp hs d hd
    simp only [digitsOf, List.mem_cons] at hd
    have hb : b < 10 := hs b (by simp)
    rcases hd with rfl | hd
    · exact (getDigit_spec p b t hp hb).1
    · exact ih b (t + 1) hb (fun x hx => hs x (List.mem_cons_of_mem _ hx)) d hd

theorem getLast?_getD_cons (p b : Nat) (l : List Nat) :
    (b :: l).getLast?.getD p = l.getLast?.getD b := by
  cases l with
  | nil => rfl
  | cons c l =>
    rw [List.getLast?_cons_cons]
    cases h : (c :: l).getLast? with
    | none => simp at h
    | some x => rfl

theorem weightedSum_digitsOf : ∀ (s : List Nat) (p t : Nat), p < 10 → (∀ b ∈ s, b < 10) →
    (weightedSum t (digitsOf p t s) + p) % 10 = s.getLast?.getD p := by
  intro s
  induction s with
  | nil => intro p t hp _; simp [digitsOf, weightedSum]; omega
  | cons b s ih =>
    intro p t hp hs
    have hb : b < 10 := hs b (by simp)
    have h1 := (getDigit_spec p b t hp hb).2
    have h2 := ih b (t + 1) hb (fun x hx => hs x (List.mem_cons_of_mem _ hx))
    rw [getLast?_getD_cons, ← h2]
    simp only [digitsOf, weightedSum]
    omega

theorem statesOf_length : ∀ (ds : List Nat) (p t : Nat), (statesOf p t ds).length = ds.length := by
  intro ds
  induction ds with
  | nil => intro p t; rfl
  | cons d ds ih => intro p t; simp [statesOf, ih]

theorem statesOf_lt : ∀ (ds : List Nat) (p t : Nat), ∀ b ∈ statesOf p t ds, b < 10 := by
  intro ds
  induction ds with
  | nil => intro p t b hb; simp [statesOf] at hb
  | cons d ds ih =>
    intro p t b hb
    simp only [statesOf, List.mem_cons] at hb
    rcases hb with rfl | hb
    · exact Nat.mod_lt _ (by decide)
    · exact ih _ _ b hb

theorem digitsOf_statesOf : ∀ (ds : List Nat) (p t : Nat), p < 10 → (∀ d ∈ ds, d < 10) →
    digitsOf p t (statesOf p t ds) = ds := by
  intro ds
  induction ds with
  | nil => intro p t _ _; rfl
  | cons d ds ih =>
    intro p t hp hds
    have hd : d < 10 := hds d (by simp)
    simp only [statesOf, digitsOf]
    rw [getDigit_inv p d t hp hd,
      ih _ (t + 1) (Nat.mod_lt _ (by decide)) (fun x hx => hds x (List.mem_cons_of_mem _ hx))]

theorem statesOf_last : ∀ (ds : List Nat) (p t : Nat), p < 10 →
    (statesOf p t ds).getLast?.getD p = (weightedSum t ds + p) % 10 := by
  intro ds
  induction ds with
  | nil => intro p t hp; simp [statesOf, weightedSum]; omega
  | cons d ds ih =>
    intro p t hp
    have h2 := ih (((if t % 2 = 0 then 3 else 1) * d + p) % 10) (t + 1)
      (Nat.mod_lt _ (by decide))
    simp only [statesOf, weightedSum]
    rw [getLast?_getD_cons, h2]
    omega

theorem input_consistent (energies : TMatrix ℚ) :
    Consistent (priorsOf energies) (conditionalsOf energies) := by
  refine consistent_of_shapesOk ?_ ?_ ?_ ?_
  · simp [priorsOf]
  · intro p hp
    simp only [priorsOf, List.mem_cons, List.mem_replicate] at hp
    rcases hp with rfl | ⟨_, rfl⟩
    · simp
    · simp
  · simp [priorsOf, conditionalsOf, nDataSymbols]
  · rfl

theorem input_last (energies : TMatrix ℚ) :
    (priorsOf energies).getLast? = some (List.replicate 10 0) := by
  simp [priorsOf, nDataSymbols, List.getLast?_eq_getLast, List.replicate]

theorem mem_allSequences_uniform {E : Type} (n : Nat) : ∀ (P : List (List E)),
    (∀ p ∈ P, List.length p = n) → ∀ s : List Nat,
    (s ∈ allSequences P ↔ s.length = P.length ∧ ∀ b ∈ s, b < n) := by
  intro P
  induction P with
  | nil =>
    intro _ s
    simp only [allSequences, List.mem_singleton, List.length_nil]
    constructor
    · rintro rfl; simp
    · rintro ⟨h, _⟩; exact List.eq_nil_of_length_eq_zero h
  | cons q P ih =>
    intro hP s
    have hq : q.length = n := hP q (by simp)
    have ih' := ih (fun p hp => hP p (List.mem_cons_of_mem _ hp))
    simp only [allSequences, List.mem_flatMap, List.mem_range, List.mem_map, hq]
    constructor
    · rintro ⟨i, hi, s', hs', rfl⟩
      obtain ⟨h1, h2⟩ := (ih' s').1 hs'
      refine ⟨by simp [h1], ?_⟩
      intro b hb
      rcases List.mem_cons.1 hb with rfl | hb
      · exact hi
      · exact h2 b hb
    · rintro ⟨h1, h2⟩
      cases s with
      | nil => simp at h1
      | cons b s' =>
        exact ⟨b, h2 b (by simp), s',
          (ih' s').2 ⟨by simpa using h1, fun x hx => h2 x (List.mem_cons_of_mem _ hx)⟩, rfl⟩

theorem mem_input_sequences (energies : TMatrix ℚ) (s : List Nat) :
    s ∈ allSequences (priorsOf energies) ↔ s.length = 12 ∧ ∀ b ∈ s, b < 10 := by
  have hp : ∀ p ∈ priorsOf energies, List.length p = 10 := by
    intro p hp
    simp only [priorsOf, List.mem_cons, List.mem_replicate] at hp
    rcases hp with rfl | ⟨_, rfl⟩
    · simp
    · simp
  have hl : (priorsOf energies).length = 12 := by simp [priorsOf, nDataSymbols]
  rw [mem_allSequences_uniform 10 _ hp s, hl]

theorem sumPriors_zeros : ∀ (n : Nat) (rest : List Nat),
    sumPriors (List.replicate n (List.replicate 10 (0 : TEnergy))) rest = 0 := by
  intro n
  induction n with
  | zero => intro rest; cases rest <;> rfl
  | succ n ih =>
    intro rest
    cases rest with
    | nil => rfl
    | cons b rest =>
      rw [List.replicate_succ, sumPriors, ih rest, add_zero]
      rw [List.getD_eq_getElem?_getD, List.getElem?_replicate]
      split <;> rfl

theorem sumConds_conditionals (energies : TMatrix ℚ) : ∀ (rest : List Nat) (p t : Nat),
    sumConds ((List.range' t rest.length).map (conditionalAt energies)) (p :: rest) =
      ((sumEnergies energies t (digitsOf p t rest) : ℚ) : TEnergy) := by
  intro rest
  induction rest with
  | nil => intro p t; rfl
  | cons b rest ih =>
    intro p t
    rw [List.length_cons, List.range'_succ, List.map_cons]
    show (conditionalAt energies t).get p b + sumConds _ (b :: rest) = _
    rw [ih b (t + 1)]
    simp only [digitsOf, sumEnergies, conditionalAt, WithTop.coe_add]

theorem totalEnergy_input (energies : TMatrix ℚ) (s : List Nat)
    (hs : s ∈ allSequences (priorsOf energies)) :
    totalEnergy (priorsOf energies) (conditionalsOf energies) s =
      ((sumEnergies energies 0 (digitsOf 0 0 s) : ℚ) : TEnergy) := by
  obtain ⟨hlen, hlt⟩ := (mem_input_sequences energies s).1 hs
  cases s with
  | nil => simp at hlen
  | cons s0 rest =>
    have hrest : rest.length = 11 := by simpa using hlen
    have h0 : s0 < 10 := hlt s0 (by simp)
    have hc : conditionalsOf energies =
        (List.range' 1 rest.length).map (conditionalAt energies) := by
      rw [hrest]; rfl
    have hp0 : ((List.range 10).map (fun curState =>
        ((energies.get (getDigitFromStates 0 curState 0) 0 : ℚ) : TEnergy))).getD s0 0 =
        ((energies.get (getDigitFromStates 0 s0 0) 0 : ℚ) : TEnergy) := by
      rw [List.getD_eq_getElem?_getD, List.getElem?_map, List.getElem?_range h0]
      rfl
    unfold totalEnergy
    rw [hc, sumConds_conditionals energies rest s0 1]
    unfold priorsOf
    rw [sumPriors, sumPriors_zeros, hp0, add_zero]
    simp only [digitsOf, sumEnergies, WithTop.coe_add]

theorem input_exceeds (energies : TMatrix ℚ) :
    SentinelExceeds (⊤ : TEnergy) (priorsOf energies) (conditionalsOf energies) := by
  intro r hr s _
  rw [totalEnergy_input energies r hr]
  unfold fillerEnergy
  rw [top_add]
  exact WithTop.coe_lt_top _

theorem input_dominates (energies : TMatrix ℚ) :
    SentinelDominates (⊤ : TEnergy) (priorsOf energies) (conditionalsOf energies) :=
  fun r hr s hs => le_of_lt (input_exceeds energies r hr s hs)

theorem input_final :
    ∀ energies : TMatrix ℚ, ((0 : Int) = -1 ∨ (0 ≤ (0 : Int) ∧
      ∃ last, (priorsOf energies).getLast? = some last ∧
        (0 : Int) < Int.ofNat (List.length last))) := by
  intro energies
  exact Or.inr ⟨le_refl _, _, input_last energies, by simp⟩

theorem mem_candidates_input (energies : TMatrix ℚ) (s : List Nat) :
    s ∈ candidates (priorsOf energies) 0 ↔
      (s.length = 12 ∧ ∀ b ∈ s, b < 10) ∧ s.getLast? = some 0 := by
  have h : candidates (priorsOf energies) 0 = sequencesEndingIn (priorsOf energies) 0 := by
    simp [candidates]
  rw [h, sequencesEndingIn, List.mem_filter, mem_input_sequences]
  simp

theorem statesOf_digitsOf : ∀ (s : List Nat) (p t : Nat), p < 10 → (∀ b ∈ s, b < 10) →
    statesOf p t (digitsOf p t s) = s := by
  intro s
  induction s with
  | nil => intro p t _ _; rfl
  | cons b s ih =>
    intro p t hp hs
    have hb : b < 10 := hs b (by simp)
    have h1 := (getDigit_spec p b t hp hb).2
    simp only [digitsOf, statesOf]
    rw [h1, ih b (t + 1) hb (fun x hx => hs x (List.mem_cons_of_mem _ hx))]

theorem mem_checkValidStrings (ds : List Nat) :
    ds ∈ checkValidStrings ↔ IsDigitString ds ∧ weightedSum 0 ds % 10 = 0 := by
  unfold checkValidStrings IsDigitString
  rw [List.mem_filter, mem_allSequences_uniform 10 _ (by
    intro p hp
    rw [List.eq_of_mem_replicate hp]; rfl)]
  simp

theorem digits_perm (energies : TMatrix ℚ) :
    List.Perm ((candidates (priorsOf energies) 0).map (digitsOf 0 0)) checkValidStrings := by
  have hnd : (candidates (priorsOf energies) 0).Nodup := by
    have h : candidates (priorsOf energies) 0 = sequencesEndingIn (priorsOf energies) 0 := by
      simp [candidates]
    rw [h]
    exact (nodup_allSequences _).filter _
  have hinj : ∀ x ∈ candidates (priorsOf energies) 0, ∀ y ∈ candidates (priorsOf energies) 0,
      digitsOf 0 0 x = digitsOf 0 0 y → x = y := by
    intro x hx y hy hxy
    have h1 := statesOf_digitsOf x 0 0 (by decide) ((mem_candidates_input energies x).1 hx).1.2
    have h2 := statesOf_digitsOf y 0 0 (by decide) ((mem_candidates_input energies y).1 hy).1.2
    rw [← h1, ← h2, hxy]
  have hnd2 : checkValidStrings.Nodup := by
    unfold checkValidStrings
    exact (nodup_allSequences _).filter _
  rw [List.perm_ext_iff_of_nodup (List.Nodup.map_on hinj hnd) hnd2]
  intro ds
  rw [mem_checkValidStrings, List.mem_map]
  constructor
  · rintro ⟨s, hs, rfl⟩
    obtain ⟨⟨hlen, hlt⟩, hlast⟩ := (mem_candidates_input energies s).1 hs
    refine ⟨⟨by rw [digitsOf_length, hlen], digitsOf_lt s 0 0 (by decide) hlt⟩, ?_⟩
    have := weightedSum_digitsOf s 0 0 (by decide) hlt
    rw [hlast] at this
    simpa using this
  · rintro ⟨hds, hcheck⟩
    refine ⟨statesOf 0 0 ds, ?_, digitsOf_statesOf ds 0 0 (by decide) hds.2⟩
    rw [mem_candidates_input]
    refine ⟨⟨by rw [statesOf_length, hds.1], statesOf_lt ds 0 0⟩, ?_⟩
    have h1 := statesOf_last ds 0 0 (by decide)
    rw [Nat.add_zero, hcheck] at h1
    cases hl : (statesOf 0 0 ds).getLast? with
    | none =>
      rw [List.getLast?_eq_none_iff] at hl
      have := statesOf_length ds 0 0
      rw [hl, hds.1] at this
      simp at this
    | some x => rw [hl] at h1; simpa using h1

theorem sorted_totals_eq (energies : TMatrix ℚ) :
    ((candidates (priorsOf energies) 0).map
      (totalEnergy (priorsOf energies) (conditionalsOf energies))).insertionSort
        (fun a b => a ≤ b) =
      (jointEnergies energies).map (fun q : ℚ => (q : TEnergy)) := by
  have h1 : (candidates (priorsOf energies) 0).map
      (totalEnergy (priorsOf energies) (conditionalsOf energies)) =
      (((candidates (priorsOf energies) 0).map (digitsOf 0 0)).map
        (sumEnergies energies 0)).map (fun q : ℚ => (q : TEnergy)) := by
    rw [List.map_map, List.map_map]
    refine List.map_congr_left ?_
    intro s hs
    exact totalEnergy_input energies s (candidates_subset _ _ s hs)
  rw [h1]
  refine List.eq_of_perm_of_sorted (r := fun a b : TEnergy => a ≤ b) ?_
    (List.sorted_insertionSort _ _) ?_
  · refine (List.perm_insertionSort _ _).trans ?_
    refine List.Perm.map _ ?_
    unfold jointEnergies
    exact (((digits_perm energies).map _).trans (List.perm_insertionSort _ _).symm)
  · unfold List.Sorted
    rw [List.pairwise_map]
    have hs : List.Sorted (fun a b : ℚ => a ≤ b) (jointEnergies energies) :=
      List.sorted_insertionSort _ _
    exact List.Pairwise.imp (fun h => WithTop.coe_le_coe.2 h) hs

end UpcaSymbology

/-! ## The UPC-A joint decoder: claims C4 to C8 -/

namespace UpcaSymbology

open Viterbi

theorem two_le_length_of_mem {α : Type} {l : List α} {a b : α} (ha : a ∈ l) (hb : b ∈ l)
    (hab : a ≠ b) : 2 ≤ l.length := by
  match l, ha, hb with
  | [x], ha, hb =>
    simp only [List.mem_singleton] at ha hb
    exact absurd (ha.trans hb.symm) hab
  | _ :: _ :: _, _, _ => simp

theorem two_le_candidates (energies : TMatrix ℚ) :
    2 ≤ (candidates (priorsOf energies) 0).length := by
  have h1 : List.replicate 12 0 ∈ candidates (priorsOf energies) 0 := by
    rw [mem_candidates_input]; decide
  have h2 : (5 :: List.replicate 11 0) ∈ candidates (priorsOf energies) 0 := by
    rw [mem_candidates_input]; decide
  exact two_le_length_of_mem h1 h2 (by decide)

/-- What the solver returns inside `estimate`: two solutions, the first of which is a state
sequence ending in state 0 of minimum total energy, with energies the two smallest total
energies over those sequences. -/
theorem solver_result (S : StdSort TEnergy) (energies : TMatrix ℚ) :
    ∃ sol0 sol1 : Solution TEnergy,
      solve S ⊤ 2 (priorsOf energies) (conditionalsOf energies) 0 = Except.ok [sol0, sol1] ∧
      (∃ s ∈ candidates (priorsOf energies) 0, sol0.sequence = s.map Int.ofNat ∧
        sol0.energy = ((sumEnergies energies 0 (digitsOf 0 0 s) : ℚ) : TEnergy)) ∧
      (∀ s ∈ candidates (priorsOf energies) 0,
        sol0.energy ≤ ((sumEnergies energies 0 (digitsOf 0 0 s) : ℚ) : TEnergy)) ∧
      [sol0.energy, sol1.energy] =
        (((candidates (priorsOf energies) 0).map
          (totalEnergy (priorsOf energies) (conditionalsOf energies))).insertionSort
            (fun a b => a ≤ b)).take 2 := by
  obtain ⟨sols, hsolve, hen⟩ :=
    solve_sorted_energies S ⊤ 2 (by decide) (priorsOf energies) (conditionalsOf energies)
      (input_consistent energies) 0 (input_final energies)
      (Or.inr (by simp [priorsOf, nDataSymbols])) (two_le_candidates energies)
      (fun _ => input_dominates energies)
  obtain ⟨sols', hsolve', hlen, sol, hhead, ⟨s, hs, hseq, htot⟩, hmin⟩ :=
    solve_head S ⊤ 2 (by decide) (priorsOf energies) (conditionalsOf energies)
      (input_consistent energies) 0 (input_final energies) (fun _ => input_dominates energies)
  rw [hsolve] at hsolve'
  cases hsolve'
  match sols, hlen, hhead with
  | [sol0, sol1], _, hhead =>
    simp only [List.head?_cons, Option.some.injEq] at hhead
    subst hhead
    refine ⟨sol0, sol1, hsolve, ⟨s, hs, hseq, ?_⟩, ?_, ?_⟩
    · rw [← htot, totalEnergy_input energies s (candidates_subset _ _ s hs)]
    · intro s' hs'
      rw [← totalEnergy_input energies s' (candidates_subset _ _ s' hs')]
      exact hmin s' hs'
    · rw [← hen]; rfl

theorem convert_ne_empty (est : List Nat) (h : est ≠ []) :
    convertEstimateToString est ≠ "" := by
  cases est with
  | nil => exact absurd rfl h
  | cons d ds =>
    unfold convertEstimateToString
    intro hc
    have := congrArg String.data hc
    simp at this

/-- Unfolding of `estimate` once the solver's result is known. -/
theorem estimate_eq (S : StdSort TEnergy) (minMargin : ℚ) (energies : TMatrix ℚ)
    (sol0 sol1 : Solution TEnergy)
    (h : solve S ⊤ 2 (priorsOf energies) (conditionalsOf energies) 0 =
      Except.ok [sol0, sol1]) :
    estimate S minMargin energies =
      if marginBelow sol0.energy sol1.energy minMargin then Except.ok ""
      else if checkDigits energies (digitsFrom 0 0 sol0.sequence) 0 0 then
        Except.ok (convertEstimateToString (digitsFrom 0 0 sol0.sequence))
      else Except.ok "" := by
  unfold estimate
  rw [h]
  rfl

/-- A non-empty result of `estimate` is the string of the digits read off the best state
sequence, and both tests were passed. -/
theorem estimate_nonempty (S : StdSort TEnergy) (minMargin : ℚ) (energies : TMatrix ℚ)
    (sol0 sol1 : Solution TEnergy)
    (h : solve S ⊤ 2 (priorsOf energies) (conditionalsOf energies) 0 =
      Except.ok [sol0, sol1])
    (str : String) (hstr : estimate S minMargin energies = Except.ok str) (hne : str ≠ "") :
    marginBelow sol0.energy sol1.energy minMargin = false ∧
      checkDigits energies (digitsFrom 0 0 sol0.sequence) 0 0 = true ∧
      str = convertEstimateToString (digitsFrom 0 0 sol0.sequence) := by
  rw [estimate_eq S minMargin energies sol0 sol1 h] at hstr
  cases hm : marginBelow sol0.energy sol1.energy minMargin with
  | true =>
    rw [hm] at hstr
    simp only [if_true, Except.ok.injEq] at hstr
    exact absurd hstr.symm hne
  | false =>
    rw [hm] at hstr
    cases hc : checkDigits energies (digitsFrom 0 0 sol0.sequence) 0 0 with
    | false =>
      rw [hc] at hstr
      simp only [Bool.false_eq_true, if_false, Except.ok.injEq] at hstr
      exact absurd hstr.symm hne
    | true =>
      rw [hc] at hstr
      simp only [Bool.false_eq_true, if_false, if_true, Except.ok.injEq] at hstr
      exact ⟨rfl, rfl, hstr.symm⟩

set_option maxRecDepth 1000000 in
theorem estimate_unconstrainedMatrix :
    estimate stableSort (1 / 50) unconstrainedMatrix = Except.ok "000000000000" := by
  decide!

set_option maxRecDepth 1000000 in
theorem estimate_overrideMatrix :
    estimate stableSort (1 / 50) overrideMatrix = Except.ok "141000000000" := by
  decide!

set_option maxRecDepth 1000000 in
theorem estimate_zeroMatrix :
    estimate stableSort (1 / 50) zeroMatrix = Except.ok "000000000000" := by
  decide!

/-- C4, refuted as stated: for energies whose individually best digits are `000000000001`
(sum 24) `estimate` returns `000000000000` (sum 25): the cheaper string violates the check
equation and is not among the paths that end in state 0. -/
theorem c4_final_state_counterexample :
    estimate stableSort (1 / 50) unconstrainedMatrix = Except.ok "000000000000" ∧
    convertEstimateToString (List.replicate 12 0) = "000000000000" ∧
    IsDigitString (List.replicate 11 0 ++ [1]) ∧
    sumEnergies unconstrainedMatrix 0 (List.replicate 11 0 ++ [1]) <
      sumEnergies unconstrainedMatrix 0 (List.replicate 12 0) := by
  refine ⟨estimate_unconstrainedMatrix, by decide, ?_, ?_⟩
  · unfold IsDigitString; decide
  · decide!

/-- C4, amended: `estimate` runs its joint Viterbi from state 0 before symbol 0 and
backtracks from final state 0 (`V.solve(0)`): in exact arithmetic on finite energies (no
sum of the solver rounded or overflowing), whenever it returns a non-empty string, that
string spells twelve digits that satisfy the check equation
`3 (d_0 + d_2 + ...) + (d_1 + d_3 + ...) = 0 (mod 10)` and minimise the summed per-symbol
digit energies `Σ_t energies(d_t, t)` over all 12-digit strings satisfying that
equation. -/
theorem estimate_minimises_over_check_valid (S : StdSort TEnergy) (minMargin : ℚ)
    (energies : TMatrix ℚ) (str : String)
    (hstr : estimate S minMargin energies = Except.ok str) (hne : str ≠ "") :
    ∃ est : List Nat, IsDigitString est ∧ str = convertEstimateToString est ∧
      weightedSum 0 est % 10 = 0 ∧
      ∀ ds : List Nat, IsDigitString ds → weightedSum 0 ds % 10 = 0 →
        sumEnergies energies 0 est ≤ sumEnergies energies 0 ds := by
  obtain ⟨sol0, sol1, hsolve, ⟨s, hs, hseq, hen⟩, hmin, _⟩ := solver_result S energies
  obtain ⟨_, _, hconv⟩ := estimate_nonempty S minMargin energies sol0 sol1 hsolve str hstr hne
  rw [hseq, digitsFrom_ofNat] at hconv
  obtain ⟨⟨hlen, hlt⟩, hlast⟩ := (mem_candidates_input energies s).1 hs
  refine ⟨digitsOf 0 0 s, ⟨?_, ?_⟩, hconv, ?_, ?_⟩
  · rw [digitsOf_length, hlen]
  · exact digitsOf_lt s 0 0 (by decide) hlt
  · have := weightedSum_digitsOf s 0 0 (by decide) hlt
    rw [hlast] at this
    simpa using this
  · intro ds hds hcheck
    have hmem : statesOf 0 0 ds ∈ candidates (priorsOf energies) 0 := by
      rw [mem_candidates_input]
      refine ⟨⟨by rw [statesOf_length, hds.1], statesOf_lt ds 0 0⟩, ?_⟩
      have h1 := statesOf_last ds 0 0 (by decide)
      rw [Nat.add_zero, hcheck] at h1
      cases hl : (statesOf 0 0 ds).getLast? with
      | none =>
        rw [List.getLast?_eq_none_iff] at hl
        have := statesOf_length ds 0 0
        rw [hl, hds.1] at this
        simp at this
      | some x => rw [hl] at h1; simpa using h1
    have h2 := hmin _ hmem
    rw [hen, digitsOf_statesOf ds 0 0 (by decide) hds.2] at h2
    exact WithTop.coe_le_coe.1 h2

/-- C4, witness: the amended statement at the energies of the counterexample. -/
theorem estimate_minimises_over_check_valid_witness :
    ∃ est : List Nat, IsDigitString est ∧ "000000000000" = convertEstimateToString est ∧
      weightedSum 0 est % 10 = 0 ∧
      ∀ ds : List Nat, IsDigitString ds → weightedSum 0 ds % 10 = 0 →
        sumEnergies unconstrainedMatrix 0 est ≤ sumEnergies unconstrainedMatrix 0 ds :=
  estimate_minimises_over_check_valid stableSort (1 / 50) unconstrainedMatrix "000000000000"
    estimate_unconstrainedMatrix (by decide)

theorem marginBelow_coe (a b minMargin : ℚ) :
    marginBelow (a : TEnergy) (b : TEnergy) minMargin =
      if a = 0 then decide (b < 0) else decide ((b - a) / a < minMargin) := rfl

set_option maxRecDepth 1000000 in
theorem solver_energies_zeroMatrix :
    energiesOf (solve stableSort ⊤ 2 (priorsOf zeroMatrix) (conditionalsOf zeroMatrix) 0) =
      some [0, 0] := by
  decide!

/-- C5, refuted as stated: for the all-zero energy matrix the best and the second-best
joint decode both have energy 0, the quotient `(e1 - e0) / e0` is `0 / 0` (NaN in
`double`, so that `margin < minMargin` is false) and `estimate` returns a non-empty
string, although the relative gap is not at least `minMargin = 0.02`. -/
theorem c5_zero_energy_counterexample :
    estimate stableSort (1 / 50) zeroMatrix = Except.ok "000000000000" ∧
    energiesOf (solve stableSort ⊤ 2 (priorsOf zeroMatrix) (conditionalsOf zeroMatrix) 0) =
      some [0, 0] ∧
    ¬ (((0 : ℚ) - 0) / 0 ≥ 1 / 50) :=
  ⟨estimate_zeroMatrix, solver_energies_zeroMatrix, by norm_num⟩

/-- C5, amended: in exact arithmetic (no sum of the solver and no difference or quotient
of the margin rounded or overflowing), for every 10 x 12 matrix of finite energies for
which `estimate` returns a non-empty string, the joint decodes (the 12-digit strings
satisfying the check equation) have a best energy `e0` and a second-best energy `e1`, and
if `e0 ≠ 0` the relative gap satisfies `(e1 - e0) / e0 ≥ minMargin`; equivalently, whenever
`e0 ≠ 0` and `(e1 - e0) / e0 < minMargin` the result is the empty string. -/
theorem estimate_margin_test (S : StdSort TEnergy) (minMargin : ℚ) (energies : TMatrix ℚ)
    (str : String) (hstr : estimate S minMargin energies = Except.ok str) (hne : str ≠ "") :
    ∃ (e0 e1 : ℚ) (rest : List ℚ), jointEnergies energies = e0 :: e1 :: rest ∧
      (e0 ≠ 0 → (e1 - e0) / e0 ≥ minMargin) := by
  obtain ⟨sol0, sol1, hsolve, _, _, hen⟩ := solver_result S energies
  obtain ⟨hmargin, _, _⟩ := estimate_nonempty S minMargin energies sol0 sol1 hsolve str hstr hne
  rw [sorted_totals_eq, ← List.map_take] at hen
  match hj : jointEnergies energies, hen with
  | [], hen => simp at hen
  | [_], hen => simp at hen
  | e0 :: e1 :: rest, hen =>
    simp only [List.take_succ_cons, List.take_zero, List.map_cons, List.map_nil,
      List.cons.injEq, and_true] at hen
    refine ⟨e0, e1, rest, rfl, ?_⟩
    intro h0
    rw [hen.1, hen.2, marginBelow_coe, if_neg h0] at hmargin
    simpa using hmargin

/-- C5, witness: the amended statement at the energies that favour `000000000001`, for
which `estimate` returns `000000000000`. -/
theorem estimate_margin_test_witness :
    ∃ (e0 e1 : ℚ) (rest : List ℚ), jointEnergies unconstrainedMatrix = e0 :: e1 :: rest ∧
      (e0 ≠ 0 → (e1 - e0) / e0 ≥ 1 / 50) :=
  estimate_margin_test stableSort (1 / 50) unconstrainedMatrix "000000000000"
    estimate_unconstrainedMatrix (by decide)

/-- C6, the code at the failing input: `estimate` returns `141000000000` although both at
symbol 0 and at symbol 1 digit 0 has a strictly smaller energy than the digit chosen (the
loop over the alternative digits starts at 1 and never looks at digit 0). -/
theorem estimate_overrides_two_zero_digits :
    estimate stableSort (1 / 50) overrideMatrix = Except.ok "141000000000" ∧
    overrideMatrix.get 0 0 < overrideMatrix.get 1 0 ∧
    overrideMatrix.get 0 1 < overrideMatrix.get 4 1 :=
  ⟨estimate_overrideMatrix, by decide, by decide⟩

/-- C7, refuted as stated: at symbol 1, in the left half, `getDigitFromStates` does not
invert `(3 * digit + prevState) mod 10` (digit 1 from state 0 leads to state 3, which is
read back as digit 3), and at symbol 6, in the right half, it does not invert
`(digit + prevState) mod 10` (digit 1 from state 0 leads to state 1, read back as 7). -/
theorem c7_half_counterexample :
    getDigitFromStates 0 ((3 * 1 + 0) % 10) 1 = 3 ∧
    getDigitFromStates 0 ((1 + 0) % 10) 6 = 7 := by decide

/-- C7, amended: the state transition depends on the parity of the symbol index, not on
the half of the barcode: on the symbols of even index (0, 2, ..., 10) a digit moves the
state from `prevState` to `(3 * digit + prevState) mod 10`, on those of odd index to
`(digit + prevState) mod 10`, and `getDigitFromStates(prev, cur, t)` inverts exactly that
transition for every `t` in `0..11`. -/
theorem getDigitFromStates_inverts_parity_transition :
    ∀ (t : Fin 12) (prevState digit : Fin 10),
      getDigitFromStates prevState
        ((if (t : Nat) % 2 = 0 then 3 * (digit : Nat) + prevState
          else (digit : Nat) + prevState) % 10) t = digit := by
  decide

/-- C8: both 10 x 10 state-to-digit tables are total inverses of their transitions: for
every `prevState` and `digit`, `oddMap[prevState][(3 * digit + prevState) mod 10] = digit`
and `evenMap[prevState][(digit + prevState) mod 10] = digit`; for every
`(prevState, curState)` exactly one digit of the constructor's loop writes the cell, so no
entry is left unset, and every row is a permutation of `0..9`. -/
theorem state_maps_are_total_inverses :
    (∀ prevState digit : Fin 10,
      stateDigitMapForOddSymbol.get prevState ((3 * digit + prevState) % 10) = digit ∧
      stateDigitMapForEvenSymbol.get prevState ((digit + prevState) % 10) = digit) ∧
    (∀ prevState curState : Fin 10,
      ((List.range 10).filter
        (fun digit => (3 * digit + prevState) % 10 = curState)).length = 1 ∧
      ((List.range 10).filter
        (fun digit => (digit + prevState) % 10 = curState)).length = 1) ∧
    (∀ prevState : Fin 10,
      List.Perm ((List.range 10).map (stateDigitMapForOddSymbol.get prevState))
        (List.range 10) ∧
      List.Perm ((List.range 10).map (stateDigitMapForEvenSymbol.get prevState))
        (List.range 10)) := by
  refine ⟨by decide, by decide, by decide⟩

end UpcaSymbology

/-! ## The resolution gate: claims C9 and C10 -/

namespace BarcodeDecoder

theorem sweep_ne_cannot_decode (name : String) (estimateOf : Nat → String) (bc : Barcode) :
    ∀ dirs : List Nat, (sweep name estimateOf bc dirs).1 ≠ Result.CANNOT_DECODE := by
  intro dirs
  induction dirs with
  | nil => simp [sweep]
  | cons d rest ih =>
    unfold sweep
    split
    · simp
    · exact ih

theorem read_cannot_decode_iff_gate (M N : Nat) (name : String) (localized : Bool)
    (estimateOf : Nat → String) (bc : Barcode) :
    (read M N name localized estimateOf bc).1 = Result.CANNOT_DECODE ↔
      shouldAttemptDecoding M N bc = false := by
  unfold read
  cases hg : shouldAttemptDecoding M N bc with
  | false => simp
  | true =>
    cases localized with
    | false => simp
    | true => simpa using sweep_ne_cannot_decode name estimateOf bc [0, 1]

/-- Inside the range of `int` the conversion changes nothing. -/
theorem asInt32_of_range {v : Int} (h1 : -2147483648 ≤ v) (h2 : v < 2147483648) :
    asInt32 v = v := by
  unfold asInt32
  omega

/-- The test of `shouldAttemptDecoding` in terms of the distances as the code holds them. -/
theorem shouldAttemptDecoding_eq_false_iff (M N : Nat) (bc : Barcode) :
    shouldAttemptDecoding M N bc = false ↔
      (((|bc.lastEdge.x - bc.firstEdge.x| : Int) : ℚ) < 0.4 * (N : ℚ) ∧
        ((|bc.lastEdge.y - bc.firstEdge.y| : Int) : ℚ) < 0.4 * (M : ℚ)) ∨
      (((|bc.lastEdge.x - bc.firstEdge.x| : Int) : ℚ) > 0.8 * (N : ℚ) ∨
        ((|bc.lastEdge.y - bc.firstEdge.y| : Int) : ℚ) > 0.8 * (M : ℚ)) ∨
      (min bc.firstEdge.x bc.lastEdge.x < ((min M N / 20 : Nat) : Int) ∨
        asInt32 ((N : Int) - max bc.firstEdge.x bc.lastEdge.x) < ((min M N / 20 : Nat) : Int) ∨
        min bc.firstEdge.y bc.lastEdge.y < ((min M N / 20 : Nat) : Int) ∨
        asInt32 ((M : Int) - max bc.firstEdge.y bc.lastEdge.y) <
          ((min M N / 20 : Nat) : Int)) := by
  unfold shouldAttemptDecoding
  simp only []
  split_ifs with h1 h2 h3
  · simp only [Bool.and_eq_true, decide_eq_true_eq] at h1
    simp only [true_iff]
    exact Or.inl h1
  · simp only [Bool.or_eq_true, decide_eq_true_eq] at h2
    simp only [true_iff]
    exact Or.inr (Or.inl h2)
  · simp only [Bool.or_eq_true, decide_eq_true_eq] at h3
    simp only [true_iff]
    refine Or.inr (Or.inr ?_)
    tauto
  · simp only [Bool.and_eq_true, decide_eq_true_eq] at h1
    simp only [Bool.or_eq_true, decide_eq_true_eq] at h2 h3
    simp only [Bool.true_eq_false, false_iff]
    tauto

/-- For an image dimension below `2^31` the wrapped distance to the far border is below the
margin exactly when the integer difference is, unless the near distance is below it
already. -/
theorem far_distance_iff (n : Nat) (hn : n < 2147483648) (a b d : Int) (hd : 0 ≤ d)
    (ha : a < 2147483648) (hb : b < 2147483648) :
    (min a b < d ∨ asInt32 ((n : Int) - max a b) < d) ↔
      (min a b < d ∨ (n : Int) - max a b < d) := by
  by_cases hneg : max a b < 0
  · have hmin : min a b < d := lt_of_le_of_lt (min_le_max) (lt_of_lt_of_le hneg hd)
    exact ⟨fun _ => Or.inl hmin, fun _ => Or.inl hmin⟩
  · have hmax : max a b < 2147483648 := max_lt ha hb
    have hn' : ((n : Nat) : Int) < 2147483648 := by exact_mod_cast hn
    have hn0 : (0 : Int) ≤ (n : Int) := Int.natCast_nonneg n
    rw [asInt32_of_range (by omega) (by omega)]

/-- C9, refuted as stated: an image of one row and `2^32 - 1` columns with the candidate
from column 0 to column 1800000000.  The candidate is neither too small nor too big, and
none of the four distances `0`, `2494967295`, `0`, `1` is below `floor(min(M, N) / 20) = 0`;
but the code holds `N - max(x)`, computed in `unsigned`, in an `int`, where it is
`-1800000001`, and `read` returns `CannotDecode`. -/
theorem c9_unsigned_wrap_counterexample :
    (read 1 4294967295 "UPC-A" true (fun _ => "") wideCandidate).1 = Result.CANNOT_DECODE ∧
    asInt32 (((4294967295 : Nat) : Int) -
      max wideCandidate.firstEdge.x wideCandidate.lastEdge.x) = -1800000001 ∧
    ¬ ((((|wideCandidate.lastEdge.x - wideCandidate.firstEdge.x| : Int) : ℚ) <
          0.4 * ((4294967295 : Nat) : ℚ) ∧
        ((|wideCandidate.lastEdge.y - wideCandidate.firstEdge.y| : Int) : ℚ) <
          0.4 * ((1 : Nat) : ℚ)) ∨
      (((|wideCandidate.lastEdge.x - wideCandidate.firstEdge.x| : Int) : ℚ) >
          0.8 * ((4294967295 : Nat) : ℚ) ∨
        ((|wideCandidate.lastEdge.y - wideCandidate.firstEdge.y| : Int) : ℚ) >
          0.8 * ((1 : Nat) : ℚ)) ∨
      (min wideCandidate.firstEdge.x wideCandidate.lastEdge.x <
          ((min 1 4294967295 / 20 : Nat) : Int) ∨
        ((4294967295 : Nat) : Int) - max wideCandidate.firstEdge.x wideCandidate.lastEdge.x <
          ((min 1 4294967295 / 20 : Nat) : Int) ∨
        min wideCandidate.firstEdge.y wideCandidate.lastEdge.y <
          ((min 1 4294967295 / 20 : Nat) : Int) ∨
        ((1 : Nat) : Int) - max wideCandidate.firstEdge.y wideCandidate.lastEdge.y <
          ((min 1 4294967295 / 20 : Nat) : Int))) := by
  refine ⟨?_, ?_, ?_⟩
  · rw [read_cannot_decode_iff_gate, shouldAttemptDecoding_eq_false_iff]
    refine Or.inr (Or.inr (Or.inr (Or.inl ?_)))
    unfold wideCandidate asInt32
    norm_num
  · unfold wideCandidate asInt32
    norm_num
  · unfold wideCandidate
    norm_num

/-- The gate in terms of the integer distances, for an image with fewer than `2^31` rows and
columns. -/
theorem gate_iff_distances (M N : Nat) (name : String) (localized : Bool)
    (estimateOf : Nat → String) (bc : Barcode) (hM : M < 2147483648) (hN : N < 2147483648)
    (hbc : bc.InRange) :
    (read M N name localized estimateOf bc).1 = Result.CANNOT_DECODE ↔
      (((|bc.lastEdge.x - bc.firstEdge.x| : Int) : ℚ) < 0.4 * (N : ℚ) ∧
        ((|bc.lastEdge.y - bc.firstEdge.y| : Int) : ℚ) < 0.4 * (M : ℚ)) ∨
      (((|bc.lastEdge.x - bc.firstEdge.x| : Int) : ℚ) > 0.8 * (N : ℚ) ∨
        ((|bc.lastEdge.y - bc.firstEdge.y| : Int) : ℚ) > 0.8 * (M : ℚ)) ∨
      (min bc.firstEdge.x bc.lastEdge.x < ((min M N / 20 : Nat) : Int) ∨
        (N : Int) - max bc.firstEdge.x bc.lastEdge.x < ((min M N / 20 : Nat) : Int) ∨
        min bc.firstEdge.y bc.lastEdge.y < ((min M N / 20 : Nat) : Int) ∨
        (M : Int) - max bc.firstEdge.y bc.lastEdge.y < ((min M N / 20 : Nat) : Int)) := by
  obtain ⟨⟨_, hx1⟩, ⟨_, hy1⟩, ⟨_, hx2⟩, ⟨_, hy2⟩⟩ := hbc
  have hd : (0 : Int) ≤ ((min M N / 20 : Nat) : Int) := Int.natCast_nonneg _
  have hx := far_distance_iff N hN bc.firstEdge.x bc.lastEdge.x _ hd hx1 hx2
  have hy := far_distance_iff M hM bc.firstEdge.y bc.lastEdge.y _ hd hy1 hy2
  rw [read_cannot_decode_iff_gate, shouldAttemptDecoding_eq_false_iff]
  refine or_congr Iff.rfl (or_congr Iff.rfl ?_)
  constructor
  · rintro (h | h | h | h)
    · exact Or.inl h
    · rcases hx.1 (Or.inr h) with h' | h'
      · exact Or.inl h'
      · exact Or.inr (Or.inl h')
    · exact Or.inr (Or.inr (Or.inl h))
    · rcases hy.1 (Or.inr h) with h' | h'
      · exact Or.inr (Or.inr (Or.inl h'))
      · exact Or.inr (Or.inr (Or.inr h'))
  · rintro (h | h | h | h)
    · exact Or.inl h
    · rcases hx.2 (Or.inr h) with h' | h'
      · exact Or.inl h'
      · exact Or.inr (Or.inl h')
    · exact Or.inr (Or.inr (Or.inl h))
    · rcases hy.2 (Or.inr h) with h' | h'
      · exact Or.inr (Or.inr (Or.inl h'))
      · exact Or.inr (Or.inr (Or.inr h'))

/-- C9, amended: for every `M x N` image with fewer than `2^31` rows and columns and every
candidate (with `int` coordinates), `read` returns `CannotDecode` if and only if, with
`w = |last.x - first.x|` and `h = |last.y - first.y|`, the candidate is too small
(`w < 0.4 N` and `h < 0.4 M`), or too big (`w > 0.8 N` or `h > 0.8 M`), or too close to an
edge (one of `min(x)`, `N - max(x)`, `min(y)`, `M - max(y)` is below
`floor(min(M, N) / 20)`), whatever the later stages would produce. -/
theorem read_cannot_decode_iff (M N : Nat) (name : String) (localized : Bool)
    (estimateOf : Nat → String) (bc : Barcode) (hM : M < 2147483648) (hN : N < 2147483648)
    (hbc : bc.InRange) :
    (read M N name localized estimateOf bc).1 = Result.CANNOT_DECODE ↔
      (((|bc.lastEdge.x - bc.firstEdge.x| : Int) : ℚ) < 0.4 * (N : ℚ) ∧
        ((|bc.lastEdge.y - bc.firstEdge.y| : Int) : ℚ) < 0.4 * (M : ℚ)) ∨
      (((|bc.lastEdge.x - bc.firstEdge.x| : Int) : ℚ) > 0.8 * (N : ℚ) ∨
        ((|bc.lastEdge.y - bc.firstEdge.y| : Int) : ℚ) > 0.8 * (M : ℚ)) ∨
      (min bc.firstEdge.x bc.lastEdge.x < ((min M N / 20 : Nat) : Int) ∨
        (N : Int) - max bc.firstEdge.x bc.lastEdge.x < ((min M N / 20 : Nat) : Int) ∨
        min bc.firstEdge.y bc.lastEdge.y < ((min M N / 20 : Nat) : Int) ∨
        (M : Int) - max bc.firstEdge.y bc.lastEdge.y < ((min M N / 20 : Nat) : Int)) :=
  gate_iff_distances M N name localized estimateOf bc hM hN hbc

/-- C9, witness: the amended statement at the candidate from (5, 25) to (49, 25) of a
100 x 100 image. -/
theorem read_cannot_decode_iff_witness :
    quadrantCandidate.InRange ∧
    ((read 100 100 "UPC-A" false (fun _ => "") quadrantCandidate).1 = Result.CANNOT_DECODE ↔
      (((|quadrantCandidate.lastEdge.x - quadrantCandidate.firstEdge.x| : Int) : ℚ) <
          0.4 * ((100 : Nat) : ℚ) ∧
        ((|quadrantCandidate.lastEdge.y - quadrantCandidate.firstEdge.y| : Int) : ℚ) <
          0.4 * ((100 : Nat) : ℚ)) ∨
      (((|quadrantCandidate.lastEdge.x - quadrantCandidate.firstEdge.x| : Int) : ℚ) >
          0.8 * ((100 : Nat) : ℚ) ∨
        ((|quadrantCandidate.lastEdge.y - quadrantCandidate.firstEdge.y| : Int) : ℚ) >
          0.8 * ((100 : Nat) : ℚ)) ∨
      (min quadrantCandidate.firstEdge.x quadrantCandidate.lastEdge.x <
          ((min 100 100 / 20 : Nat) : Int) ∨
        ((100 : Nat) : Int) - max quadrantCandidate.firstEdge.x quadrantCandidate.lastEdge.x <
          ((min 100 100 / 20 : Nat) : Int) ∨
        min quadrantCandidate.firstEdge.y quadrantCandidate.lastEdge.y <
          ((min 100 100 / 20 : Nat) : Int) ∨
        ((100 : Nat) : Int) - max quadrantCandidate.firstEdge.y quadrantCandidate.lastEdge.y <
          ((min 100 100 / 20 : Nat) : Int))) :=
  have hr : quadrantCandidate.InRange := by
    unfold Barcode.InRange quadrantCandidate
    decide
  ⟨hr, read_cannot_decode_iff 100 100 "UPC-A" false (fun _ => "") quadrantCandidate
    (by decide) (by decide) hr⟩

theorem abs_sub_lt_half {a b n : Int} (ha : 0 ≤ a ∧ a < n) (hb : 0 ≤ b ∧ b < n)
    (hside : 2 * a < n ↔ 2 * b < n) : 2 * |b - a| < n := by
  rcases abs_cases (b - a) with ⟨h, _⟩ | ⟨h, _⟩ <;> rw [h]
  · by_cases hc : 2 * a < n
    · have := hside.1 hc; omega
    · have : ¬ 2 * b < n := fun hb' => hc (hside.2 hb'); omega
  · by_cases hc : 2 * a < n
    · have := hside.1 hc; omega
    · have : ¬ 2 * b < n := fun hb' => hc (hside.2 hb'); omega

theorem not_gt_of_half {w : Int} {n : Nat} (h : 2 * w < (n : Int)) :
    ¬ ((w : ℚ) > 0.8 * (n : ℚ)) := by
  have h1 : (2 * (w : ℚ)) < (n : ℚ) := by exact_mod_cast h
  have h2 : (0 : ℚ) ≤ (n : ℚ) := Nat.cast_nonneg n
  intro h3
  norm_num at h3
  linarith

/-- C10, refuted as stated: in a 100 x 100 image the candidate from (5, 25) to (49, 25)
lies inside the upper left quadrant, yet it passes the gate (it is 44 wide, not below
`0.4 * 100`; not above `0.8 * 100`; at least 5 from every border), so `read` goes on to
decode and returns `Failed` when the fixed edges cannot be localised. -/
theorem c10_quadrant_counterexample :
    SameQuadrant 100 100 quadrantCandidate ∧
    shouldAttemptDecoding 100 100 quadrantCandidate = true ∧
    (read 100 100 "UPC-A" false (fun _ => "") quadrantCandidate).1 =
      Result.DECODING_FAILED := by
  have hg : shouldAttemptDecoding 100 100 quadrantCandidate = true := by
    unfold shouldAttemptDecoding quadrantCandidate asInt32
    norm_num
  refine ⟨?_, hg, ?_⟩
  · unfold SameQuadrant quadrantCandidate
    norm_num
  · unfold read
    rw [hg]
    rfl

/-- C10, amended: for every image with fewer than `2^31` rows and columns and every
candidate whose two endpoints both lie inside the same quadrant of the image, the candidate
is never too big, and `read` returns `CannotDecode` if and only if the candidate is too
small (`w < 0.4 N` and `h < 0.4 M`) or too close to an edge; in particular it is rejected
whenever it spans less than 0.4 of the image in both directions. -/
theorem read_same_quadrant (M N : Nat) (name : String) (localized : Bool)
    (estimateOf : Nat → String) (bc : Barcode) (hM : M < 2147483648) (hN : N < 2147483648)
    (hq : SameQuadrant M N bc) :
    ¬ (((|bc.lastEdge.x - bc.firstEdge.x| : Int) : ℚ) > 0.8 * (N : ℚ) ∨
        ((|bc.lastEdge.y - bc.firstEdge.y| : Int) : ℚ) > 0.8 * (M : ℚ)) ∧
    ((read M N name localized estimateOf bc).1 = Result.CANNOT_DECODE ↔
      (((|bc.lastEdge.x - bc.firstEdge.x| : Int) : ℚ) < 0.4 * (N : ℚ) ∧
        ((|bc.lastEdge.y - bc.firstEdge.y| : Int) : ℚ) < 0.4 * (M : ℚ)) ∨
      (min bc.firstEdge.x bc.lastEdge.x < ((min M N / 20 : Nat) : Int) ∨
        (N : Int) - max bc.firstEdge.x bc.lastEdge.x < ((min M N / 20 : Nat) : Int) ∨
        min bc.firstEdge.y bc.lastEdge.y < ((min M N / 20 : Nat) : Int) ∨
        (M : Int) - max bc.firstEdge.y bc.lastEdge.y < ((min M N / 20 : Nat) : Int))) := by
  have hrange : bc.InRange := by
    obtain ⟨hx1, hx2, hy1, hy2, _, _⟩ := hq
    have hM' : ((M : Nat) : Int) < 2147483648 := by exact_mod_cast hM
    have hN' : ((N : Nat) : Int) < 2147483648 := by exact_mod_cast hN
    unfold Barcode.InRange
    omega
  obtain ⟨hx1, hx2, hy1, hy2, hsx, hsy⟩ := hq
  have hbig : ¬ (((|bc.lastEdge.x - bc.firstEdge.x| : Int) : ℚ) > 0.8 * (N : ℚ) ∨
      ((|bc.lastEdge.y - bc.firstEdge.y| : Int) : ℚ) > 0.8 * (M : ℚ)) := by
    rintro (h | h)
    · exact not_gt_of_half (abs_sub_lt_half hx1 hx2 hsx) h
    · exact not_gt_of_half (abs_sub_lt_half hy1 hy2 hsy) h
  refine ⟨hbig, ?_⟩
  rw [gate_iff_distances M N name localized estimateOf bc hM hN hrange]
  constructor
  · rintro (h | h | h)
    · exact Or.inl h
    · exact absurd h hbig
    · exact Or.inr h
  · rintro (h | h)
    · exact Or.inl h
    · exact Or.inr (Or.inr h)

/-- C10, witness: the amended statement at the candidate from (5, 25) to (49, 25) of a
100 x 100 image. -/
theorem read_same_quadrant_witness :
    SameQuadrant 100 100 quadrantCandidate ∧
    ¬ (((|quadrantCandidate.lastEdge.x - quadrantCandidate.firstEdge.x| : Int) : ℚ) >
          0.8 * ((100 : Nat) : ℚ) ∨
        ((|quadrantCandidate.lastEdge.y - quadrantCandidate.firstEdge.y| : Int) : ℚ) >
          0.8 * ((100 : Nat) : ℚ)) :=
  have hq : SameQuadrant 100 100 quadrantCandidate := by
    unfold SameQuadrant quadrantCandidate
    norm_num
  ⟨hq, (read_same_quadrant 100 100 "UPC-A" false (fun _ => "") quadrantCandidate
    (by decide) (by decide) hq).1⟩

end BarcodeDecoder


/-! ## The frame of `read`: claim C11 -/

namespace BarcodeDecoder

theorem sweep_outcome (name : String) (estimateOf : Nat → String) (bc : Barcode) :
    ∀ dirs : List Nat,
      ((sweep name estimateOf bc dirs).1 = Result.DECODING_FAILED ∧
        (sweep name estimateOf bc dirs).2 = bc) ∨
      ((sweep name estimateOf bc dirs).1 = Result.DECODING_SUCCESSFUL ∧
        ∃ pre dir post, dirs = pre ++ dir :: post ∧ (∀ d ∈ pre, estimateOf d = "") ∧
          estimateOf dir ≠ "" ∧
          (sweep name estimateOf bc dirs).2 =
            { bc with estimate := estimateOf dir, symbology := name }) := by
  intro dirs
  induction dirs with
  | nil => left; simp [sweep]
  | cons d rest ih =>
    unfold sweep
    by_cases h : estimateOf d ≠ ""
    · right
      rw [if_pos h]
      exact ⟨rfl, [], d, rest, rfl, by simp, h, rfl⟩
    · rw [if_neg h]
      rcases ih with ih | ⟨h1, pre, dir, post, hd, hpre, hne, h2⟩
      · left; exact ih
      · right
        refine ⟨h1, d :: pre, dir, post, by rw [hd]; rfl, ?_, hne, h2⟩
        intro d' hd'
        rcases List.mem_cons.1 hd' with rfl | hd'
        · exact not_not.1 h
        · exact hpre d' hd'

/-- C11: `read` changes the barcode only on success.  Whatever the later stages produce,
`firstEdge` and `lastEdge` are never modified; when the result is `CANNOT_DECODE` or
`DECODING_FAILED` the whole barcode, so also `estimate` and `symbology`, is as it was; when
the result is `DECODING_SUCCESSFUL`, `estimate` is the non-empty string that the symbology's
`estimate` returned in the first sweep direction (forward, then backward) in which it was
non-empty, and `symbology` is the symbology's name. -/
theorem read_changes_barcode_only_on_success (M N : Nat) (name : String) (localized : Bool)
    (estimateOf : Nat → String) (bc : Barcode) :
    (read M N name localized estimateOf bc).2.firstEdge = bc.firstEdge ∧
    (read M N name localized estimateOf bc).2.lastEdge = bc.lastEdge ∧
    ((read M N name localized estimateOf bc).1 = Result.CANNOT_DECODE ∨
      (read M N name localized estimateOf bc).1 = Result.DECODING_FAILED →
        (read M N name localized estimateOf bc).2 = bc) ∧
    ((read M N name localized estimateOf bc).1 = Result.DECODING_SUCCESSFUL →
      (read M N name localized estimateOf bc).2.estimate ≠ "" ∧
      (read M N name localized estimateOf bc).2.symbology = name ∧
      ((read M N name localized estimateOf bc).2.estimate = estimateOf 0 ∨
        (estimateOf 0 = "" ∧
          (read M N name localized estimateOf bc).2.estimate = estimateOf 1))) := by
  unfold read
  cases hg : shouldAttemptDecoding M N bc with
  | false => simp
  | true =>
    cases localized with
    | false => simp
    | true =>
      simp only [Bool.not_true, Bool.false_eq_true, if_false, if_true]
      rcases sweep_outcome name estimateOf bc [0, 1] with ⟨h1, h2⟩ | ⟨h1, pre, dir, post, hd, hpre, hne, h2⟩
      · rw [h1, h2]; simp
      · rw [h1, h2]
        refine ⟨rfl, rfl, by simp, fun _ => ⟨hne, rfl, ?_⟩⟩
        show estimateOf dir = estimateOf 0 ∨ (estimateOf 0 = "" ∧ estimateOf dir = estimateOf 1)
        rcases pre with _ | ⟨a, pre⟩
        · simp only [List.nil_append, List.cons.injEq] at hd
          left; rw [← hd.1]
        · simp only [List.cons_append, List.cons.injEq] at hd
          obtain ⟨ha, hrest⟩ := hd
          right
          refine ⟨by rw [ha]; exact hpre a (List.mem_cons_self _ _), ?_⟩
          rcases pre with _ | ⟨b, pre⟩
          · simp only [List.nil_append, List.cons.injEq] at hrest
            rw [← hrest.1]
          · simp only [List.cons_append, List.cons.injEq] at hrest
            exact absurd hrest.2 (by simp)

end BarcodeDecoder


/-! ## The symbology catalog: claims C18 to C20 -/

namespace BarcodeSymbology

theorem addBar_of_bars {s : BarcodeSymbology} (l : Int) (e : Edge) (hb : s.bars_ ≠ [])
    (he : s.edges_.getLast? = some e) :
    ∃ s1 b, addBar s l = some (s1, b) ∧ b.leftEdge = e ∧
      b.rightEdge = { index := Int.ofNat s.edges_.length, location := l } ∧
      s1.edges_ = s.edges_ ++ [b.rightEdge] ∧ s1.bars_ = s.bars_ ++ [b] ∧
      s1.fixedEdges_ = s.fixedEdges_ ++ (if l ≠ -1 then [b.rightEdge] else []) ∧
      s1.symbols_ = s.symbols_ ∧ s1.dataSymbols_ = s.dataSymbols_ := by
  have hlen : s.bars_.length ≠ 0 := by
    intro h; exact hb (List.length_eq_zero.1 h)
  unfold addBar
  simp only [hlen, ne_eq, not_false_eq_true, if_true, he, Option.map_some']
  unfold addEdge
  by_cases hl : l = -1
  · simp only [hl, ne_eq, not_true_eq_false, if_false, Option.some.injEq, Prod.mk.injEq]
    exact ⟨_, _, ⟨rfl, rfl⟩, rfl, rfl, rfl, rfl, by simp, rfl, rfl⟩
  · simp only [hl, ne_eq, not_false_eq_true, if_true, Option.some.injEq, Prod.mk.injEq]
    exact ⟨_, _, ⟨rfl, rfl⟩, rfl, rfl, rfl, rfl, rfl, rfl, rfl⟩

theorem addBar_of_no_bars {s : BarcodeSymbology} (l : Int) (hb : s.bars_ = []) :
    ∃ s1 b, addBar s l = some (s1, b) ∧
      b.leftEdge = { index := Int.ofNat s.edges_.length, location := 0 } ∧
      b.rightEdge = { index := Int.ofNat (s.edges_.length + 1), location := l } ∧
      s1.edges_ = s.edges_ ++ [b.leftEdge, b.rightEdge] ∧ s1.bars_ = s.bars_ ++ [b] ∧
      s1.fixedEdges_ = s.fixedEdges_ ++ [b.leftEdge] ++ (if l ≠ -1 then [b.rightEdge] else []) ∧
      s1.symbols_ = s.symbols_ ∧ s1.dataSymbols_ = s.dataSymbols_ := by
  unfold addBar
  simp only [hb, List.length_nil, ne_eq, not_true_eq_false, if_false]
  unfold addEdge
  by_cases hl : l = -1
  · simp only [hl, ne_eq, not_true_eq_false, if_false, if_true, not_false_eq_true,
      Option.some.injEq, Prod.mk.injEq]
    exact ⟨_, _, ⟨rfl, rfl⟩, rfl, by simp, by simp, by simp [hb], by simp, rfl, rfl⟩
  · simp only [hl, ne_eq, not_true_eq_false, if_false, if_true, not_false_eq_true,
      Option.some.injEq, Prod.mk.injEq]
    exact ⟨_, _, ⟨rfl, rfl⟩, rfl, by simp, by simp, by simp [hb], by simp, rfl, rfl⟩

end BarcodeSymbology

namespace BarcodeSymbology

theorem addBars_of_bars : ∀ (locs : List Int) (s : BarcodeSymbology) (e : Edge),
    s.bars_ ≠ [] → s.edges_.getLast? = some e →
    ∃ s1 bs, addBars s locs = some (s1, bs) ∧ s1.bars_ ≠ [] ∧ s1.symbols_ = s.symbols_ ∧
      s1.dataSymbols_ = s.dataSymbols_ ∧
      bs.map (fun b => b.rightEdge) = newEdges s.edges_.length locs ∧
      (∀ b, bs.head? = some b → b.leftEdge = e) ∧
      s1.edges_ = s.edges_ ++ newEdges s.edges_.length locs ∧
      s1.fixedEdges_ =
        s.fixedEdges_ ++ (newEdges s.edges_.length locs).filter (fun x => x.isFixed) := by
  intro locs
  induction locs with
  | nil =>
    intro s e hb _
    exact ⟨s, [], rfl, hb, rfl, rfl, rfl, by simp, by simp [newEdges], by simp [newEdges]⟩
  | cons l ls ih =>
    intro s e hb he
    obtain ⟨s1, b, h1, hleft, hright, hedges, hbars, hfixed, hsym, hdata⟩ :=
      addBar_of_bars l e hb he
    have hb1 : s1.bars_ ≠ [] := by rw [hbars]; simp
    have he1 : s1.edges_.getLast? = some b.rightEdge := by rw [hedges]; simp
    obtain ⟨s2, bs, h2, hb2, hsym2, hdata2, hmap, _, hedges2, hfixed2⟩ :=
      ih s1 b.rightEdge hb1 he1
    have hlen : s1.edges_.length = s.edges_.length + 1 := by rw [hedges]; simp
    rw [hlen] at hmap hedges2 hfixed2
    refine ⟨s2, b :: bs, ?_, hb2, hsym2.trans hsym, hdata2.trans hdata, ?_, ?_, ?_, ?_⟩
    · unfold addBars
      rw [h1]
      simp only [h2]
    · simp only [List.map_cons, newEdges, hmap, hright]
    · intro b' hb'
      simp only [List.head?_cons, Option.some.injEq] at hb'
      rw [← hb']; exact hleft
    · rw [hedges2, hedges, hright]
      simp [newEdges]
    · rw [hfixed2, hfixed, hright]
      by_cases hl : l = -1
      · simp [hl, newEdges, Edge.isFixed]
      · simp [hl, newEdges, Edge.isFixed]

/-- The effect of the bar loop of `addSymbol` on a state in which bars imply edges. -/
theorem addBars_spec (s : BarcodeSymbology) (l : Int) (ls : List Int)
    (h : s.bars_ ≠ [] → ∃ e, s.edges_.getLast? = some e) :
    ∃ s1 bs left pre, addBars s (l :: ls) = some (s1, bs) ∧ s1.bars_ ≠ [] ∧
      s1.symbols_ = s.symbols_ ∧ s1.dataSymbols_ = s.dataSymbols_ ∧
      bs.map (fun b => b.rightEdge) = newEdges (s.edges_ ++ pre).length (l :: ls) ∧
      (∃ b, bs.head? = some b ∧ b.leftEdge = left) ∧
      s1.edges_ = s.edges_ ++ pre ++ newEdges (s.edges_ ++ pre).length (l :: ls) ∧
      s1.fixedEdges_ = s.fixedEdges_ ++ pre ++
        (newEdges (s.edges_ ++ pre).length (l :: ls)).filter (fun x => x.isFixed) ∧
      ((s.bars_ ≠ [] ∧ pre = [] ∧ s.edges_.getLast? = some left) ∨
        (s.bars_ = [] ∧ pre = [left] ∧
          left = { index := Int.ofNat s.edges_.length, location := 0 })) := by
  by_cases hb : s.bars_ = []
  · obtain ⟨s1, b, h1, hleft, hright, hedges, hbars, hfixed, hsym, hdata⟩ :=
      addBar_of_no_bars l hb
    have hb1 : s1.bars_ ≠ [] := by rw [hbars]; simp
    have he1 : s1.edges_.getLast? = some b.rightEdge := by rw [hedges]; simp
    obtain ⟨s2, bs, h2, hb2, hsym2, hdata2, hmap, _, hedges2, hfixed2⟩ :=
      addBars_of_bars ls s1 b.rightEdge hb1 he1
    have hlen : s1.edges_.length = s.edges_.length + 1 + 1 := by rw [hedges]; simp
    rw [hlen] at hmap hedges2 hfixed2
    refine ⟨s2, b :: bs, b.leftEdge, [b.leftEdge], ?_, hb2, hsym2.trans hsym,
      hdata2.trans hdata, ?_, ⟨b, rfl, rfl⟩, ?_, ?_, Or.inr ⟨hb, rfl, hleft⟩⟩
    · unfold addBars
      rw [h1]
      simp only [h2]
    · simp only [List.map_cons, newEdges, hmap, hright, List.length_append,
        List.length_singleton]
    · rw [hedges2, hedges]
      simp only [newEdges, List.length_append, List.length_singleton, hright]
      simp
    · rw [hfixed2, hfixed]
      simp only [newEdges, List.length_append, List.length_singleton, hright]
      by_cases hl : l = -1
      · simp [hl, Edge.isFixed]
      · simp [hl, Edge.isFixed]
  · obtain ⟨e, he⟩ := h hb
    obtain ⟨s1, bs, h1, hb1, hsym, hdata, hmap, hleft, hedges, hfixed⟩ :=
      addBars_of_bars (l :: ls) s e hb he
    have hne : bs ≠ [] := by
      intro h0
      rw [h0] at hmap
      simp [newEdges] at hmap
    obtain ⟨b, bs', rfl⟩ := List.exists_cons_of_ne_nil hne
    refine ⟨s1, b :: bs', e, [], h1, hb1, hsym, hdata, by simpa using hmap,
      ⟨b, rfl, hleft b rfl⟩, by simpa using hedges, by simpa using hfixed,
      Or.inl ⟨hb, rfl, he⟩⟩

end BarcodeSymbology


namespace BarcodeSymbology

theorem newEdges_append : ∀ (a b : List Int) (k : Nat),
    newEdges k (a ++ b) = newEdges k a ++ newEdges (k + a.length) b := by
  intro a
  induction a with
  | nil => intro b k; simp [newEdges]
  | cons x xs ih =>
    intro b k
    have h1 : k + 1 + xs.length = k + (xs.length + 1) := by omega
    show { index := Int.ofNat k, location := x } :: newEdges (k + 1) (xs ++ b) = _
    rw [ih b (k + 1), h1]
    rfl

theorem map_location_newEdges : ∀ (locs : List Int) (k : Nat),
    (newEdges k locs).map (fun e => e.location) = locs := by
  intro locs
  induction locs with
  | nil => intro k; rfl
  | cons x xs ih => intro k; simp [newEdges, ih]

theorem newEdges_ne_nil {locs : List Int} (k : Nat) (h : locs ≠ []) : newEdges k locs ≠ [] := by
  cases locs with
  | nil => exact absurd rfl h
  | cons x xs => simp [newEdges]

theorem filter_newEdges_unknown : ∀ (m k : Nat),
    (newEdges k (List.replicate m (-1))).filter (fun x => x.isFixed) = [] := by
  intro m
  induction m with
  | zero => intro k; rfl
  | succ m ih =>
    intro k
    simp only [List.replicate_succ, newEdges]
    rw [List.filter_cons_of_neg (by simp [Edge.isFixed]), ih]

theorem filter_newEdges_known : ∀ (locs : List Int) (k : Nat), (∀ x ∈ locs, x ≠ -1) →
    (newEdges k locs).filter (fun x => x.isFixed) = newEdges k locs := by
  intro locs
  induction locs with
  | nil => intro k _; rfl
  | cons x xs ih =>
    intro k h
    have hx : x ≠ -1 := h x (List.mem_cons_self _ _)
    simp only [newEdges]
    rw [List.filter_cons_of_pos (by simp [Edge.isFixed, hx]),
      ih (k + 1) (fun y hy => h y (List.mem_cons_of_mem _ hy))]

/-- Inside the range of `int` the conversion changes nothing. -/
theorem asInt32_eq_self {v : Int} (h1 : -2147483648 ≤ v) (h2 : v < 2147483648) :
    asInt32 v = v := by
  unfold asInt32
  omega

theorem patternLocations_ge : ∀ (pat : List Nat) (loc : Int), 0 ≤ loc →
    loc + Int.ofNat pat.sum < 2147483648 →
    ∀ x ∈ patternLocations loc pat, loc ≤ x := by
  intro pat
  induction pat with
  | nil => intro loc _ _ x hx; simp [patternLocations] at hx
  | cons p ps ih =>
    intro loc h0 hfit x hx
    have hp : (0 : Int) ≤ Int.ofNat p := Int.ofNat_nonneg p
    have hs : (0 : Int) ≤ Int.ofNat ps.sum := Int.ofNat_nonneg _
    simp only [List.sum_cons, Int.ofNat_eq_coe, Nat.cast_add] at hfit hp hs
    have hw : asInt32 (loc + Int.ofNat p) = loc + Int.ofNat p :=
      asInt32_eq_self (by simp only [Int.ofNat_eq_coe]; omega)
        (by simp only [Int.ofNat_eq_coe]; omega)
    simp only [patternLocations, hw, List.mem_cons] at hx
    rcases hx with rfl | hx
    · simp only [Int.ofNat_eq_coe]; omega
    · have h1 := ih (loc + Int.ofNat p) (by simp only [Int.ofNat_eq_coe]; omega)
        (by simp only [Int.ofNat_eq_coe]; omega) x hx
      simp only [Int.ofNat_eq_coe] at h1
      omega

theorem patternLocations_getLast : ∀ (pat : List Nat) (loc : Int), pat ≠ [] → 0 ≤ loc →
    loc + Int.ofNat pat.sum < 2147483648 →
    (patternLocations loc pat).getLast? = some (loc + Int.ofNat pat.sum) := by
  intro pat
  induction pat with
  | nil => intro loc h; exact absurd rfl h
  | cons p ps ih =>
    intro loc _ h0 hfit
    have hp : (0 : Int) ≤ Int.ofNat p := Int.ofNat_nonneg p
    have hs : (0 : Int) ≤ Int.ofNat ps.sum := Int.ofNat_nonneg _
    simp only [List.sum_cons, Int.ofNat_eq_coe, Nat.cast_add] at hfit hp hs
    have hw : asInt32 (loc + Int.ofNat p) = loc + Int.ofNat p :=
      asInt32_eq_self (by simp only [Int.ofNat_eq_coe]; omega)
        (by simp only [Int.ofNat_eq_coe]; omega)
    cases ps with
    | nil =>
      rw [patternLocations, hw]
      simp [patternLocations]
    | cons q qs =>
      have h2 := ih (loc + Int.ofNat p) (by simp) (by simp only [Int.ofNat_eq_coe]; omega)
        (by simp only [Int.ofNat_eq_coe]; omega)
      rw [patternLocations, hw]
      rw [patternLocations] at h2 ⊢
      rw [List.getLast?_cons_cons, h2]
      simp only [List.sum_cons, Int.ofNat_eq_coe, Nat.cast_add]
      congr 1
      ring

theorem patternLocations_ne_nil {pat : List Nat} (loc : Int) (h : pat ≠ []) :
    patternLocations loc pat ≠ [] := by
  cases pat with
  | nil => exact absurd rfl h
  | cons x xs => simp [patternLocations]

/-- The right-edge locations `addSymbol` passes to `addBar` for a call, from the location
`loc` of the last edge so far, when the last edge of the symbol stays inside the range of
`int`. -/
theorem locations_spec (c : SymbolCall) (hv : c.Valid) (loc : Int) (hloc : 0 ≤ loc)
    (hfit : loc + Int.ofNat c.advance < 2147483648) :
    ∃ locs : List Int, locs ≠ [] ∧
      (match c.pattern with
        | none =>
          List.replicate (leadingBars c.nBars) (-1) ++ [asInt32 (loc + Int.ofNat c.width)]
        | some pat => patternLocations loc (pat.take c.nBars)) = locs ∧
      (∃ last, locs.getLast? = some last ∧ 0 ≤ last ∧
        last = loc + Int.ofNat c.advance) ∧
      (c.pattern = none → ∀ k, (newEdges k locs).filter (fun x => x.isFixed) =
        [{ index := Int.ofNat (k + leadingBars c.nBars), location := loc + Int.ofNat c.width }]) ∧
      (c.pattern ≠ none → ∀ k, (newEdges k locs).filter (fun x => x.isFixed) = newEdges k locs) := by
  obtain ⟨hn, hp⟩ := hv
  cases hpat : c.pattern with
  | none =>
    have hadv : c.advance = c.width := by
      unfold SymbolCall.advance
      rw [hpat]
    rw [hadv] at hfit ⊢
    have hw : (0 : Int) ≤ Int.ofNat c.width := Int.ofNat_nonneg _
    have hwrap : asInt32 (loc + Int.ofNat c.width) = loc + Int.ofNat c.width :=
      asInt32_eq_self (by omega) hfit
    simp only [hwrap]
    refine ⟨_, by simp, rfl, ⟨loc + Int.ofNat c.width, by simp, by omega, rfl⟩, ?_, by simp⟩
    intro _ k
    rw [newEdges_append, List.filter_append, filter_newEdges_unknown]
    have : loc + Int.ofNat c.width ≠ -1 := by omega
    simp only [newEdges, List.length_replicate]
    rw [List.filter_cons_of_pos (by simp only [Edge.isFixed, bne_iff_ne]; exact this)]
    simp
  | some pat =>
    have hadv : c.advance = (pat.take c.nBars).sum := by
      unfold SymbolCall.advance
      rw [hpat]
    rw [hadv] at hfit ⊢
    have hlen := hp pat hpat
    have hne : pat.take c.nBars ≠ [] := by
      intro h0
      have := congrArg List.length h0
      simp only [List.length_take, List.length_nil] at this
      omega
    refine ⟨_, patternLocations_ne_nil loc hne, rfl,
      ⟨_, patternLocations_getLast _ loc hne hloc hfit, ?_, rfl⟩, by simp, ?_⟩
    · have : (0 : Int) ≤ Int.ofNat (pat.take c.nBars).sum := Int.ofNat_nonneg _
      omega
    · intro _ k
      apply filter_newEdges_known
      intro x hx
      have := patternLocations_ge _ loc hloc hfit x hx
      omega

end BarcodeSymbology

namespace BarcodeSymbology

theorem newEdges_index : ∀ (locs : List Int) (k : Nat), ∀ x ∈ newEdges k locs,
    Int.ofNat k ≤ x.index ∧ x.index < Int.ofNat (k + locs.length) := by
  intro locs
  induction locs with
  | nil => intro k x hx; simp [newEdges] at hx
  | cons l ls ih =>
    intro k x hx
    simp only [newEdges, List.mem_cons] at hx
    rcases hx with rfl | hx
    · simp only [Int.ofNat_eq_coe, List.length_cons, Nat.cast_add, Nat.cast_one]
      omega
    · have := ih (k + 1) x hx
      simp only [Int.ofNat_eq_coe, List.length_cons, Nat.cast_add, Nat.cast_one] at this ⊢
      omega

theorem pairwise_newEdges : ∀ (locs : List Int) (k : Nat),
    (newEdges k locs).Pairwise (fun a b => a.index < b.index) := by
  intro locs
  induction locs with
  | nil => intro k; exact List.Pairwise.nil
  | cons l ls ih =>
    intro k
    simp only [newEdges]
    refine List.Pairwise.cons ?_ (ih (k + 1))
    intro b hb
    have := (newEdges_index ls (k + 1) b hb).1
    simp only [Int.ofNat_eq_coe, Nat.cast_add, Nat.cast_one] at this ⊢
    omega

theorem length_newEdges : ∀ (locs : List Int) (k : Nat), (newEdges k locs).length = locs.length := by
  intro locs
  induction locs with
  | nil => intro k; rfl
  | cons l ls ih => intro k; simp [newEdges, ih]

theorem seekFixedEdge_append (a : Edge) (G : List Edge) : ∀ (L : List Edge) (e p : Nat),
    seekFixedEdge a L e = some p → seekFixedEdge a (L ++ G) e = some p := by
  intro L
  induction L with
  | nil => intro e p h; simp [seekFixedEdge] at h
  | cons x rest ih =>
    intro e p h
    simp only [List.cons_append, seekFixedEdge] at h ⊢
    split_ifs at h ⊢ with hx
    · exact h
    · exact ih _ _ h

theorem seekFixedEdge_lt (a : Edge) : ∀ (L : List Edge) (e p : Nat),
    seekFixedEdge a L e = some p → e ≤ p ∧ p < e + L.length := by
  intro L
  induction L with
  | nil => intro e p h; simp [seekFixedEdge] at h
  | cons x rest ih =>
    intro e p h
    simp only [seekFixedEdge] at h
    split_ifs at h with hx
    · simp only [Option.some.injEq] at h
      subst h
      simp
    · have := ih _ _ h
      simp only [List.length_cons]
      omega

theorem seekFixedEdge_drop_append (a : Edge) (F G : List Edge) (e p : Nat)
    (h : seekFixedEdge a (F.drop e) e = some p) :
    seekFixedEdge a ((F ++ G).drop e) e = some p := by
  have hlt := seekFixedEdge_lt a _ e p h
  have he : e ≤ F.length := by
    by_contra hc
    rw [List.drop_eq_nil_of_le (by omega)] at h
    simp [seekFixedEdge] at h
  rw [List.drop_append_of_le_length he]
  exact seekFixedEdge_append a G _ e p h

/-- In a list with strictly increasing indices the loop stops exactly at the edge sought. -/
theorem seekFixedEdge_found (a : Edge) : ∀ (L : List Edge) (e i : Nat),
    L.Pairwise (fun x y => x.index < y.index) → L.get? i = some a →
    seekFixedEdge a L e = some (e + i) := by
  intro L
  induction L with
  | nil => intro e i _ h; simp at h
  | cons x rest ih =>
    intro e i hp h
    cases i with
    | zero =>
      simp only [List.get?_cons_zero, Option.some.injEq] at h
      simp [seekFixedEdge, h]
    | succ i =>
      simp only [List.get?_cons_succ] at h
      have hmem : a ∈ rest := List.get?_mem h
      have hlt : x.index < a.index := (List.pairwise_cons.1 hp).1 a hmem
      have hne : ¬ x.index = a.index := by omega
      simp only [seekFixedEdge, hne, if_false]
      rw [ih (e + 1) i (List.pairwise_cons.1 hp).2 h]
      congr 1
      omega

theorem seekFixedEdge_at (a : Edge) (F : List Edge) (e j : Nat)
    (hp : F.Pairwise (fun x y => x.index < y.index)) (hj : F.get? j = some a) (hej : e ≤ j) :
    seekFixedEdge a (F.drop e) e = some j := by
  have h := seekFixedEdge_found a (F.drop e) e (j - e) (List.Pairwise.sublist (List.drop_sublist e F) hp)
    (by rw [List.get?_drop]; rw [show e + (j - e) = j by omega]; exact hj)
  rw [h]
  congr 1
  omega

theorem symbolEdgePositions_append_fixed (F G : List Edge) : ∀ (syms : List Symbol) (e : Nat)
    (r : List (Nat × Nat) × Nat), symbolEdgePositions F syms e = some r →
    symbolEdgePositions (F ++ G) syms e = some r := by
  intro syms
  induction syms with
  | nil => intro e r h; exact h
  | cons sym rest ih =>
    intro e r h
    unfold symbolEdgePositions at h ⊢
    cases hl : sym.leftEdge with
    | none => rw [hl] at h; simp at h
    | some l =>
      rw [hl] at h
      simp only [] at h ⊢
      cases h1 : seekFixedEdge l (F.drop e) e with
      | none => rw [h1] at h; simp at h
      | some e1 =>
        rw [h1] at h
        rw [seekFixedEdge_drop_append l F G e e1 h1]
        simp only [] at h ⊢
        cases hr : sym.rightEdge with
        | none => rw [hr] at h; simp at h
        | some r' =>
          rw [hr] at h
          simp only [] at h ⊢
          cases h2 : seekFixedEdge r' (F.drop e1) e1 with
          | none => rw [h2] at h; simp at h
          | some e2 =>
            rw [h2] at h
            rw [seekFixedEdge_drop_append r' F G e1 e2 h2]
            simp only [] at h ⊢
            cases h3 : symbolEdgePositions F rest e2 with
            | none => rw [h3] at h; simp at h
            | some r3 =>
              rw [h3] at h
              rw [ih e2 r3 h3]
              exact h

theorem symbolEdgePositions_snoc (F : List Edge) (sym : Symbol) : ∀ (syms : List Symbol)
    (e : Nat) (ps : List (Nat × Nat)) (e1 : Nat) (q : List (Nat × Nat) × Nat),
    symbolEdgePositions F syms e = some (ps, e1) →
    symbolEdgePositions F [sym] e1 = some q →
    symbolEdgePositions F (syms ++ [sym]) e = some (ps ++ q.1, q.2) := by
  intro syms
  induction syms with
  | nil =>
    intro e ps e1 q h hq
    simp only [symbolEdgePositions, Option.some.injEq, Prod.mk.injEq] at h
    obtain ⟨rfl, rfl⟩ := h
    simpa using hq
  | cons s0 rest ih =>
    intro e ps e1 q h hq
    unfold symbolEdgePositions at h
    simp only [List.cons_append]
    unfold symbolEdgePositions
    cases hl : s0.leftEdge with
    | none => rw [hl] at h; simp at h
    | some l =>
      rw [hl] at h
      simp only [] at h ⊢
      cases h1 : seekFixedEdge l (F.drop e) e with
      | none => rw [h1] at h; simp at h
      | some p1 =>
        rw [h1] at h
        simp only [] at h ⊢
        cases hr : s0.rightEdge with
        | none => rw [hr] at h; simp at h
        | some r' =>
          rw [hr] at h
          simp only [] at h ⊢
          cases h2 : seekFixedEdge r' (F.drop p1) p1 with
          | none => rw [h2] at h; simp at h
          | some p2 =>
            rw [h2] at h
            simp only [] at h ⊢
            cases h3 : symbolEdgePositions F rest p2 with
            | none => rw [h3] at h; simp at h
            | some r3 =>
              rw [h3] at h
              simp only [Option.some.injEq, Prod.mk.injEq] at h
              obtain ⟨rfl, rfl⟩ := h
              rw [ih p2 r3.1 r3.2 q h3 hq]
              simp

theorem foundAt_append {F : List Edge} (G : List Edge) {sym : Symbol} {p : Nat × Nat}
    (h : FoundAt F sym p) : FoundAt (F ++ G) sym p := by
  obtain ⟨hlt, ⟨l, hl, hl'⟩, r, hr, hr'⟩ := h
  have hget : ∀ (i : Nat) (x : Edge), F.get? i = some x → (F ++ G).get? i = some x := by
    intro i x hx
    have hi : i < F.length := by
      by_contra hc
      rw [List.get?_eq_none.2 (by omega)] at hx
      simp at hx
    rw [List.get?_append hi]
    exact hx
  exact ⟨hlt, ⟨l, hget _ _ hl, hl'⟩, r, hget _ _ hr, hr'⟩

end BarcodeSymbology


namespace BarcodeSymbology

/-- The state `addSymbol` returns, in terms of what its bar loop produced. -/
theorem addSymbol_eq (s : BarcodeSymbology) (c : SymbolCall) (hv : c.Valid) (loc : Int)
    (locs : List Int) (s1 : BarcodeSymbology) (bs : List Bar)
    (hlocOf : (if s.symbols_.length > 0 then s.edges_.getLast?.map (fun e => e.location)
      else some 0) = some loc)
    (hlocs : (match c.pattern with
        | none =>
          List.replicate (leadingBars c.nBars) (-1) ++ [asInt32 (loc + Int.ofNat c.width)]
        | some pat => patternLocations loc (pat.take c.nBars)) = locs)
    (hadd : addBars s locs = some (s1, bs)) :
    ∃ s2, addSymbol s c.width c.nBars c.pattern = some s2 ∧ s2.edges_ = s1.edges_ ∧
      s2.bars_ = s1.bars_ ∧ s2.fixedEdges_ = s1.fixedEdges_ ∧
      (∃ sym : Symbol, sym.width = c.width ∧ sym.bars = bs ∧
        s2.symbols_ = s1.symbols_ ++ [sym] ∧
        s2.dataSymbols_ = s1.dataSymbols_ ++ (if c.pattern = none then [sym] else [])) := by
  unfold addSymbol
  rw [hlocOf]
  cases hpat : c.pattern with
  | none =>
    rw [hpat] at hlocs
    simp only [] at hlocs
    simp only [hlocs, hadd, Option.isNone_none, if_true]
    exact ⟨_, rfl, rfl, rfl, rfl, _, rfl, rfl, rfl, by simp⟩
  | some pat =>
    rw [hpat] at hlocs
    simp only [] at hlocs
    have hlen : ¬ pat.length < c.nBars := by
      have := hv.2 pat hpat
      omega
    simp only [hlen, if_false, hlocs, hadd, Option.isNone_some, Bool.false_eq_true]
    exact ⟨_, rfl, rfl, rfl, rfl, _, rfl, rfl, rfl, by simp⟩

end BarcodeSymbology

namespace BarcodeSymbology

theorem bracketed_append {fixed : List Edge} {sym : Symbol} (extra : List Edge)
    (h : Bracketed fixed sym) : Bracketed (fixed ++ extra) sym := by
  obtain ⟨l, r, hl, hr, hl1, hr1, hsub, hw⟩ := h
  exact ⟨l, r, hl, hr, hl1, hr1, hsub.trans (List.sublist_append_left _ _), hw⟩

/-- One valid `addSymbol` call on a state satisfying the invariant, when the last edge stays
inside the range of `int`: it completes, keeps the invariant, appends one symbol of the
declared width, and moves the last edge on by the width of a data symbol or by the sum of
the pattern of a special symbol. -/
theorem addSymbol_step (s : BarcodeSymbology) (c : SymbolCall) (hinv : Inv s) (hv : c.Valid)
    (hfit : (width s).getD 0 + Int.ofNat c.advance < 2147483648) :
    ∃ s2, addSymbol s c.width c.nBars c.pattern = some s2 ∧ Inv s2 ∧
      s2.symbols_.map (fun sym => sym.width) = s.symbols_.map (fun sym => sym.width) ++ [c.width] ∧
      s2.dataSymbols_.length = s.dataSymbols_.length + (if c.pattern = none then 1 else 0) ∧
      width s2 = some ((width s).getD 0 + Int.ofNat c.advance) := by
  obtain ⟨hfresh, hlast, hdata, hpw, hidx, ps, epos, hpos, hposle, hfound⟩ := hinv
  -- the location of the last edge so far, and the state of the bar list
  obtain ⟨loc, hloc0, hlocOf, hwidth, hcase⟩ : ∃ loc : Int, 0 ≤ loc ∧
      (if s.symbols_.length > 0 then s.edges_.getLast?.map (fun e => e.location)
        else some 0) = some loc ∧ (width s).getD 0 = loc ∧
      ((s.bars_ ≠ [] ∧ ∃ e, s.edges_.getLast? = some e ∧ s.fixedEdges_.getLast? = some e ∧
          e.location = loc) ∨
        (s.bars_ = [] ∧ s.edges_ = [] ∧ s.fixedEdges_ = [] ∧ loc = 0)) := by
    by_cases hs : s.symbols_ = []
    · obtain ⟨hb, he, hf, _⟩ := hfresh hs
      exact ⟨0, le_refl _, by simp [hs], by simp [width, he], Or.inr ⟨hb, he, hf, rfl⟩⟩
    · obtain ⟨hb, e, he, hfe, hloc⟩ := hlast hs
      have hpos : s.symbols_.length > 0 := List.length_pos.2 hs
      exact ⟨e.location, hloc, by simp [hpos, he], by simp [width, he],
        Or.inl ⟨hb, e, he, hfe, rfl⟩⟩
  have hcond : s.bars_ ≠ [] → ∃ e, s.edges_.getLast? = some e := by
    intro hb
    rcases hcase with ⟨_, e, he, _⟩ | ⟨hb', _⟩
    · exact ⟨e, he⟩
    · exact absurd hb' hb
  obtain ⟨locs, hne, hlocs, ⟨last, hlastq, hlast0, hlasteq⟩, hfd, hfs⟩ :=
    locations_spec c hv loc hloc0 (by rw [← hwidth]; exact hfit)
  obtain ⟨l, ls, rfl⟩ := List.exists_cons_of_ne_nil hne
  obtain ⟨s1, bs, left, pre, hadd, hb1, hsym1, hdata1, hmap, ⟨b0, hb0, hb0l⟩, hedges1, hfixed1,
    hpre⟩ := addBars_spec s l ls hcond
  obtain ⟨s2, hs2, he2, hbars2, hf2, sym, hsw, hsb, hsyms2, hdata2⟩ :=
    addSymbol_eq s c hv loc (l :: ls) s1 bs hlocOf hlocs hadd
  -- the edge list before the bars of this symbol, with the left edge of its first bar last
  obtain ⟨hpreIdx, hF1last, hleftLoc⟩ : (∀ x ∈ pre, x.index = Int.ofNat s.edges_.length) ∧
      (s.fixedEdges_ ++ pre).getLast? = some left ∧ left.location = loc := by
    rcases hpre with ⟨hb, hpre0, hel⟩ | ⟨hb, hpre1, hleft0⟩
    · rcases hcase with ⟨_, e, he, hfe, heloc⟩ | ⟨hb', _⟩
      · have hle : left = e := by
          rw [he] at hel
          exact (Option.some.inj hel).symm
        rw [hpre0, hle]
        exact ⟨by simp, by simpa using hfe, heloc⟩
      · exact absurd hb' hb
    · rcases hcase with ⟨hb', _⟩ | ⟨_, _, hf0, hl0⟩
      · exact absurd hb hb'
      · rw [hpre1, hf0, hl0, hleft0]
        exact ⟨by simp, by simp, rfl⟩
  have hpreLen : pre.length ≤ 1 := by
    rcases hpre with ⟨_, h, _⟩ | ⟨_, h, _⟩ <;> rw [h] <;> simp
  -- the last edge added
  have hlastEdge : (newEdges (s.edges_ ++ pre).length (l :: ls)).getLast? =
      some { index := Int.ofNat ((s.edges_ ++ pre).length + ls.length), location := last } := by
    obtain ⟨init, hinit⟩ : ∃ init, l :: ls = init ++ [last] := List.getLast?_eq_some_iff.1 hlastq
    have hlen : ls.length = init.length := by
      have := congrArg List.length hinit
      simp only [List.length_cons, List.length_append, List.length_singleton,
        List.length_nil] at this
      omega
    rw [hinit, newEdges_append, hlen]
    simp [newEdges]
  have hedgeLast : s2.edges_.getLast? =
      some { index := Int.ofNat ((s.edges_ ++ pre).length + ls.length), location := last } := by
    rw [he2, hedges1, List.getLast?_append, hlastEdge]
    rfl
  -- the fixed edges of a data symbol: its last edge only
  have hdataFixed : c.pattern = none →
      last = loc + Int.ofNat c.width ∧
      (newEdges (s.edges_ ++ pre).length (l :: ls)).filter (fun x => x.isFixed) =
        [{ index := Int.ofNat ((s.edges_ ++ pre).length + ls.length), location := last }] := by
    intro hpat
    have hlead : leadingBars c.nBars = ls.length := by
      rw [hpat] at hlocs
      have := congrArg List.length hlocs
      simp only [List.length_append, List.length_replicate, List.length_singleton,
        List.length_cons, List.length_nil] at this
      omega
    have hadv : c.advance = c.width := by
      unfold SymbolCall.advance
      rw [hpat]
    rw [hadv] at hlasteq
    rw [hfd hpat, hlead, hlasteq]
    exact ⟨rfl, rfl⟩
  have hfixedLast : s2.fixedEdges_.getLast? =
      some { index := Int.ofNat ((s.edges_ ++ pre).length + ls.length), location := last } := by
    rw [hf2, hfixed1]
    cases hpat : c.pattern with
    | none =>
      rw [(hdataFixed hpat).2, List.getLast?_append]
      rfl
    | some pat =>
      rw [hfs (by rw [hpat]; simp), List.getLast?_append, hlastEdge]
      rfl
  -- the edges of a new data symbol
  have hnewLeft : sym.leftEdge = some left := by
    unfold Symbol.leftEdge
    rw [hsb, hb0, Option.map_some', hb0l]
  have hnewRight : sym.rightEdge =
      some { index := Int.ofNat ((s.edges_ ++ pre).length + ls.length), location := last } := by
    unfold Symbol.rightEdge
    rw [hsb]
    have h3 := congrArg List.getLast? hmap
    rw [List.getLast?_map, hlastEdge] at h3
    exact h3
  -- indices of the fixed edges
  have hpw2 : s2.fixedEdges_.Pairwise (fun a b => a.index < b.index) := by
    rw [hf2, hfixed1, List.append_assoc]
    refine List.pairwise_append.2 ⟨hpw, List.pairwise_append.2 ⟨?_, ?_, ?_⟩, ?_⟩
    · rcases hpre with ⟨_, h, _⟩ | ⟨_, h, _⟩ <;> rw [h] <;> simp
    · exact List.Pairwise.sublist (List.filter_sublist _) (pairwise_newEdges _ _)
    · intro a ha b hb
      have h1 := hpreIdx a ha
      have h2 := (newEdges_index _ _ b (List.mem_of_mem_filter hb)).1
      have h3 : pre.length = 1 := by
        cases pre with
        | nil => simp at ha
        | cons x xs => simp only [List.length_cons] at hpreLen ⊢; omega
      simp only [Int.ofNat_eq_coe, List.length_append, Nat.cast_add, h3, Nat.cast_one] at h1 h2
      omega
    · intro a ha b hb
      have h1 := hidx a ha
      rcases List.mem_append.1 hb with hb | hb
      · rw [hpreIdx b hb]; exact h1
      · have h2 := (newEdges_index _ _ b (List.mem_of_mem_filter hb)).1
        simp only [Int.ofNat_eq_coe, List.length_append, Nat.cast_add] at h1 h2
        omega
  have hidx2 : ∀ e ∈ s2.fixedEdges_, e.index < Int.ofNat s2.edges_.length := by
    intro e he
    rw [he2, hedges1]
    rw [hf2, hfixed1] at he
    simp only [List.length_append, length_newEdges, List.length_cons, Int.ofNat_eq_coe,
      Nat.cast_add, Nat.cast_one]
    rcases List.mem_append.1 he with he | he
    · rcases List.mem_append.1 he with he | he
      · have := hidx e he
        simp only [Int.ofNat_eq_coe] at this
        omega
      · have := hpreIdx e he
        simp only [Int.ofNat_eq_coe] at this
        omega
    · have := (newEdges_index _ _ e (List.mem_of_mem_filter he)).2
      simp only [List.length_append, List.length_cons, Int.ofNat_eq_coe,
        Nat.cast_add, Nat.cast_one] at this
      omega
  refine ⟨s2, hs2, ⟨?_, ?_, ?_, hpw2, hidx2, ?_⟩, ?_, ?_, ?_⟩
  · intro h
    rw [hsyms2] at h
    simp at h
  · intro _
    rw [hbars2]
    exact ⟨hb1, _, hedgeLast, hfixedLast, hlast0⟩
  · intro sym' hsym'
    rw [hdata2, hdata1, List.mem_append] at hsym'
    rw [hf2, hfixed1]
    rcases hsym' with hold | hnew
    · rw [List.append_assoc]
      exact bracketed_append _ (hdata sym' hold)
    · cases hpat : c.pattern with
      | some pat => rw [hpat] at hnew; simp at hnew
      | none =>
        rw [hpat] at hnew
        simp only [if_true, List.mem_singleton] at hnew
        subst hnew
        obtain ⟨hlastw, hfilter⟩ := hdataFixed hpat
        rw [hfilter]
        have hw0 : (0 : Int) ≤ Int.ofNat c.width := Int.ofNat_nonneg _
        obtain ⟨init, hinit⟩ := List.getLast?_eq_some_iff.1 hF1last
        refine ⟨left, _, hnewLeft, hnewRight, ?_, ?_, ?_, ?_⟩
        · rw [hleftLoc]; omega
        · show last ≠ -1
          omega
        · rw [hinit, List.append_assoc]
          exact List.sublist_append_right _ _
        · show last - left.location = Int.ofNat sym'.width
          rw [hleftLoc, hsw, hlastw]
          omega
  · -- the search of `localizeFixedEdges`
    cases hpat : c.pattern with
    | some pat =>
      have hd : s2.dataSymbols_ = s.dataSymbols_ := by
        rw [hdata2, hdata1, hpat]; simp
      rw [hd, hf2, hfixed1, List.append_assoc]
      refine ⟨ps, epos, symbolEdgePositions_append_fixed _ _ _ _ _ hpos, ?_,
        hfound.imp (fun _ _ h => foundAt_append _ h)⟩
      rw [List.length_append]
      exact Nat.le_trans hposle (Nat.sub_le_sub_right (Nat.le_add_right _ _) 1)
    | none =>
      obtain ⟨_, hfilter⟩ := hdataFixed hpat
      obtain ⟨init, hinit⟩ := List.getLast?_eq_some_iff.1 hF1last
      have hF2 : s2.fixedEdges_ = init ++ [left] ++
          [{ index := Int.ofNat ((s.edges_ ++ pre).length + ls.length), location := last }] := by
        rw [hf2, hfixed1, hfilter, hinit]
      have hlenF : (s.fixedEdges_ ++ pre).length = init.length + 1 := by
        rw [hinit]; simp
      have hget1 : s2.fixedEdges_.get? init.length = some left := by
        rw [hF2, List.append_assoc, List.get?_eq_getElem?,
          List.getElem?_append_right (le_refl _)]
        simp
      have hget2 : s2.fixedEdges_.get? (init.length + 1) = some
          { index := Int.ofNat ((s.edges_ ++ pre).length + ls.length), location := last } := by
        rw [hF2]
        rw [List.get?_eq_getElem?, List.getElem?_append_right (by simp)]
        simp
      have hepos : epos ≤ init.length := by
        have : s.fixedEdges_.length ≤ init.length + 1 := by
          rw [← hlenF]; simp
        omega
      have hold : symbolEdgePositions s2.fixedEdges_ s.dataSymbols_ 0 = some (ps, epos) := by
        rw [hf2, hfixed1, List.append_assoc]
        exact symbolEdgePositions_append_fixed _ _ _ _ _ hpos
      have hnew : symbolEdgePositions s2.fixedEdges_ [sym] epos =
          some ([(init.length, init.length + 1)], init.length + 1) := by
        unfold symbolEdgePositions
        rw [hnewLeft]
        simp only []
        rw [seekFixedEdge_at left _ epos init.length hpw2 hget1 hepos]
        simp only []
        rw [hnewRight]
        simp only []
        rw [seekFixedEdge_at _ _ init.length (init.length + 1) hpw2 hget2 (by omega)]
        simp [symbolEdgePositions]
      refine ⟨ps ++ [(init.length, init.length + 1)], init.length + 1, ?_, ?_, ?_⟩
      · rw [hdata2, hdata1, hpat, if_pos rfl]
        exact symbolEdgePositions_snoc _ sym _ 0 ps epos _ hold hnew
      · rw [hF2]; simp
      · rw [hdata2, hdata1, hpat, if_pos rfl]
        refine List.rel_append ?_ ?_
        · have : s2.fixedEdges_ = s.fixedEdges_ ++ (pre ++
              (newEdges (s.edges_ ++ pre).length (l :: ls)).filter (fun x => x.isFixed)) := by
            rw [hf2, hfixed1, List.append_assoc]
          rw [this]
          exact hfound.imp (fun _ _ h => foundAt_append _ h)
        · exact List.Forall₂.cons
            ⟨Nat.lt_succ_self _, ⟨left, hget1, hnewLeft⟩, _, hget2, hnewRight⟩ List.Forall₂.nil
  · rw [hsyms2, hsym1]
    simp [hsw]
  · rw [hdata2, hdata1]
    by_cases hpat : c.pattern = none
    · simp [hpat]
    · simp [hpat]
  · unfold width at hwidth ⊢
    rw [hedgeLast, hwidth, Option.map_some']
    exact congrArg some hlasteq

end BarcodeSymbology


namespace BarcodeSymbology

theorem inv_empty : Inv empty := by
  refine ⟨fun _ => ⟨rfl, rfl, rfl, rfl⟩, fun h => absurd rfl h, ?_, List.Pairwise.nil, ?_,
    [], 0, rfl, Nat.zero_le _, List.Forall₂.nil⟩
  · intro sym hsym
    simp [empty] at hsym
  · intro e he
    simp [empty] at he

/-- Calls whose special symbols are declared with the width of their pattern add the widths
of their symbols. -/
theorem sum_advance_of_widthMatches : ∀ (calls : List SymbolCall),
    (∀ c ∈ calls, c.WidthMatches) →
    (calls.map SymbolCall.advance).sum = (calls.map (fun c => c.width)).sum := by
  intro calls
  induction calls with
  | nil => intro _; rfl
  | cons c cs ih =>
    intro hw
    have hc := hw c (List.mem_cons_self _ _)
    have h1 : c.advance = c.width := by
      unfold SymbolCall.advance
      cases hpat : c.pattern with
      | none => rfl
      | some pat => exact hc pat hpat
    simp only [List.map_cons, List.sum_cons, h1,
      ih (fun c' hc' => hw c' (List.mem_cons_of_mem _ hc'))]

/-- A sequence of valid calls that keeps the last edge inside the range of `int` completes
and keeps the invariant; the last edge moves on by the modules the calls add. -/
theorem build_inv : ∀ (calls : List SymbolCall) (s : BarcodeSymbology), Inv s →
    (∀ c ∈ calls, c.Valid) →
    (width s).getD 0 + Int.ofNat (calls.map SymbolCall.advance).sum < 2147483648 →
    ∃ s2, build s calls = some s2 ∧ Inv s2 ∧
      s2.symbols_.map (fun sym => sym.width) =
        s.symbols_.map (fun sym => sym.width) ++ calls.map (fun c => c.width) ∧
      s2.dataSymbols_.length =
        s.dataSymbols_.length + (calls.filter (fun c => c.pattern.isNone)).length ∧
      (width s2).getD 0 =
        (width s).getD 0 + Int.ofNat (calls.map SymbolCall.advance).sum := by
  intro calls
  induction calls with
  | nil =>
    intro s hinv _ _
    exact ⟨s, rfl, hinv, by simp, by simp, by simp⟩
  | cons c cs ih =>
    intro s hinv hv hfit
    have hrest : (0 : Int) ≤ Int.ofNat (cs.map SymbolCall.advance).sum := Int.ofNat_nonneg _
    have hsum : Int.ofNat ((c :: cs).map SymbolCall.advance).sum =
        Int.ofNat c.advance + Int.ofNat (cs.map SymbolCall.advance).sum := by
      simp only [List.map_cons, List.sum_cons, Int.ofNat_eq_coe, Nat.cast_add]
    rw [hsum] at hfit
    obtain ⟨s1, h1, hinv1, hsym1, hdata1, hwidth1⟩ :=
      addSymbol_step s c hinv (hv c (List.mem_cons_self _ _)) (by omega)
    have hw1 : (width s1).getD 0 = (width s).getD 0 + Int.ofNat c.advance := by
      rw [hwidth1]; rfl
    obtain ⟨s2, h2, hinv2, hsym2, hdata2, hwidth2⟩ :=
      ih s1 hinv1 (fun c' hc' => hv c' (List.mem_cons_of_mem _ hc')) (by rw [hw1]; omega)
    refine ⟨s2, ?_, hinv2, ?_, ?_, ?_⟩
    · unfold build
      rw [h1]
      exact h2
    · rw [hsym2, hsym1]
      simp
    · rw [hdata2, hdata1]
      cases hpat : c.pattern with
      | none => simp [List.filter_cons, hpat]; omega
      | some pat => simp [List.filter_cons, hpat]
    · rw [hwidth2, hw1, hsum]
      ring

/-- C18: the symbology set up by the constructor of `UpcaSymbology` has 60 edges, 12 data
symbols and total module width 95; its fixed edges are the 24 edges at the module locations
0, 1, 2, 3 (left guard), 10, 17, 24, 31, 38, 45 (ends of the left data symbols), 46, 47, 48,
49, 50 (mid guard), 57, 64, 71, 78, 85, 92 (ends of the right data symbols) and 93, 94, 95
(right guard), and every other edge has location `-1`. -/
theorem upca_symbology_layout :
    ∃ s, UpcaSymbology.symbology = some s ∧ nTotalEdges s = 60 ∧
      nDataSymbols s = UpcaSymbology.nDataSymbols ∧ nDataSymbols s = 12 ∧
      width s = some 95 ∧ nFixedEdges s = 24 ∧
      s.fixedEdges_.map (fun e => e.location) =
        [0, 1, 2, 3, 10, 17, 24, 31, 38, 45, 46, 47, 48, 49, 50, 57, 64, 71, 78, 85, 92,
          93, 94, 95] ∧
      s.fixedEdges_ = s.edges_.filter (fun e => e.isFixed) ∧
      (∀ e ∈ s.edges_, e ∉ s.fixedEdges_ → e.location = -1) := by
  refine ⟨(UpcaSymbology.symbology).getD empty, by decide, by decide, by decide, by decide,
    by decide, by decide, by decide, by decide, by decide⟩

/-- C19, refuted as stated: one special symbol declared 3 modules wide with three bars of
widths 1, 1 and 2.  The widths of the symbols add up to 3, the last edge is at module 4. -/
theorem c19_width_counterexample :
    ∃ s, build empty [{ width := 3, nBars := 3, pattern := some [1, 1, 2] }] = some s ∧
      (s.symbols_.map (fun sym => sym.width)).sum = 3 ∧ width s = some 4 := by
  refine ⟨(build empty [{ width := 3, nBars := 3, pattern := some [1, 1, 2] }]).getD empty,
    by decide, by decide, by decide⟩

/-- C19, amended: for every symbology built by a non-empty sequence of `addSymbol` calls with
at least one bar each, in which every special symbol is declared with the width its pattern
adds up to and the widths of the symbols add up to less than `2^31` (so that no edge
location leaves the range of `int`), the construction completes and the sum of the widths of
all its symbols equals its total module width, the location of its last edge. -/
theorem symbol_widths_sum_to_total_width (calls : List SymbolCall) (hne : calls ≠ [])
    (hv : ∀ c ∈ calls, c.Valid) (hw : ∀ c ∈ calls, c.WidthMatches)
    (hfit : (calls.map (fun c => c.width)).sum < 2147483648) :
    ∃ s, build empty calls = some s ∧
      width s = some (Int.ofNat (s.symbols_.map (fun sym => sym.width)).sum) := by
  have hadv := sum_advance_of_widthMatches calls hw
  have hfit' : (width empty).getD 0 + Int.ofNat (calls.map SymbolCall.advance).sum <
      2147483648 := by
    have hw0 : (width empty).getD 0 = 0 := rfl
    have h := Int.ofNat_lt.2 hfit
    rw [hw0, hadv, zero_add]
    exact h
  obtain ⟨s, hs, hinv, hsym, _, hwidth⟩ := build_inv calls empty inv_empty hv hfit'
  refine ⟨s, hs, ?_⟩
  have hsne : s.symbols_ ≠ [] := by
    intro h0
    rw [h0] at hsym
    obtain ⟨c, cs, rfl⟩ := List.exists_cons_of_ne_nil hne
    simp [empty] at hsym
  obtain ⟨_, e, he, _, _⟩ := hinv.2.1 hsne
  rw [hadv] at hwidth
  rw [hsym]
  simp only [width, he, Option.map_some', Option.getD_some] at hwidth ⊢
  rw [hwidth]
  simp [empty]

/-- C19, witness: the amended statement at the calls of the `UpcaSymbology` constructor. -/
theorem symbol_widths_sum_to_total_width_witness :
    ∃ s, build empty UpcaSymbology.symbolCalls = some s ∧
      width s = some (Int.ofNat (s.symbols_.map (fun sym => sym.width)).sum) :=
  symbol_widths_sum_to_total_width UpcaSymbology.symbolCalls (by decide)
    (by unfold SymbolCall.Valid; decide) (by unfold SymbolCall.WidthMatches; decide)
    (by decide)

/-- C20, refuted as stated: the single call `addSymbol(4294967295, 1)` adds a data symbol of
one bar.  The location `0 + 4294967295` of its right edge, formed in `unsigned` and passed
to `addBar` as an `int`, is `-1`, the mark of an edge without a known location: the right
edge of the data symbol is not a fixed edge. -/
theorem c20_sentinel_location_counterexample :
    ∃ s sym r, build empty [{ width := 4294967295, nBars := 1, pattern := none }] = some s ∧
      s.dataSymbols_ = [sym] ∧ sym.rightEdge = some r ∧ r.location = -1 ∧
      r ∉ s.fixedEdges_ ∧ s.fixedEdges_.length = 1 := by
  refine ⟨(build empty [{ width := 4294967295, nBars := 1, pattern := none }]).getD empty,
    { width := 4294967295, index := 0,
      bars := [{ leftEdge := { index := 0, location := 0 },
                 rightEdge := { index := 1, location := -1 }, index := 0 }] },
    { index := 1, location := -1 }, by decide, by decide, by decide, by decide, by decide,
    by decide⟩

/-- C20, amended: for every symbology built by a sequence of `addSymbol` calls with at least
one bar each (a pattern, when given, having an entry for every bar) whose edge locations
stay inside the range of `int` (the widths of the data symbols and the pattern entries of
the special symbols add up to less than `2^31`), the construction completes and every data
symbol is bracketed by fixed edges: its left and its right edge both have a known location
(not `-1`), the left edge comes before the right edge in the fixed-edge list, and the two
locations differ by the width of the symbol.  Hence the search of `localizeFixedEdges`
through the fixed-edge list finds, for every data symbol in turn, first its left and then
its right edge, without reaching the end of the list. -/
theorem data_symbols_bracketed_by_fixed_edges (calls : List SymbolCall)
    (hv : ∀ c ∈ calls, c.Valid) (hfit : FitsInt calls) :
    ∃ s, build empty calls = some s ∧
      (∀ sym ∈ s.dataSymbols_, ∃ l r, sym.leftEdge = some l ∧ sym.rightEdge = some r ∧
        l.location ≠ -1 ∧ r.location ≠ -1 ∧ List.Sublist [l, r] s.fixedEdges_ ∧
        r.location - l.location = Int.ofNat sym.width) ∧
      ∃ ps e, symbolEdgePositions s.fixedEdges_ s.dataSymbols_ 0 = some (ps, e) ∧
        List.Forall₂ (FoundAt s.fixedEdges_) s.dataSymbols_ ps := by
  have hfit' : (width empty).getD 0 + Int.ofNat (calls.map SymbolCall.advance).sum <
      2147483648 := by
    have hw0 : (width empty).getD 0 = 0 := rfl
    have h := Int.ofNat_lt.2 hfit
    rw [hw0, zero_add]
    exact h
  obtain ⟨s, hs, hinv, _⟩ := build_inv calls empty inv_empty hv hfit'
  obtain ⟨_, _, hdata, _, _, ps, e, hpos, _, hfound⟩ := hinv
  exact ⟨s, hs, hdata, ps, e, hpos, hfound⟩

/-- C20, witness: the statement at the calls of the `UpcaSymbology` constructor. -/
theorem data_symbols_bracketed_by_fixed_edges_witness :
    ∃ s, build empty UpcaSymbology.symbolCalls = some s ∧
      (∀ sym ∈ s.dataSymbols_, ∃ l r, sym.leftEdge = some l ∧ sym.rightEdge = some r ∧
        l.location ≠ -1 ∧ r.location ≠ -1 ∧ List.Sublist [l, r] s.fixedEdges_ ∧
        r.location - l.location = Int.ofNat sym.width) ∧
      ∃ ps e, symbolEdgePositions s.fixedEdges_ s.dataSymbols_ 0 = some (ps, e) ∧
        List.Forall₂ (FoundAt s.fixedEdges_) s.dataSymbols_ ps :=
  data_symbols_bracketed_by_fixed_edges UpcaSymbology.symbolCalls
    (by unfold SymbolCall.Valid; decide) (by unfold FitsInt; decide)

end BarcodeSymbology


/-! ## The solver: claims C15 to C17 -/

open List

namespace Viterbi

section Padding
variable {E : Type} [LinearOrderedAddCommMonoid E]

theorem allSequences_ne_nil : ∀ (priors : List (List E)), (∀ p ∈ priors, p ≠ []) →
    allSequences priors ≠ [] := by
  intro priors
  induction priors with
  | nil => intro _; simp [allSequences]
  | cons p ps ih =>
    intro h
    have hp : p ≠ [] := h p (List.mem_cons_self _ _)
    have hps := ih (fun q hq => h q (List.mem_cons_of_mem _ hq))
    obtain ⟨s, hs⟩ := List.exists_mem_of_ne_nil _ hps
    have h0 : 0 < p.length := List.length_pos.2 hp
    intro hnil
    have hmem : (0 :: s) ∈ allSequences (p :: ps) := by
      simp only [allSequences, List.mem_flatMap, List.mem_range, List.mem_map]
      exact ⟨0, h0, s, hs, rfl⟩
    rw [hnil] at hmem
    simp at hmem

/-- In an ascending list that consists of smallest elements of `R ++ F`, where every element
of `F` is above every element of `R`, no element of `R` stands at a position from `R.length`
on. -/
theorem not_genuine_beyond {en R F : List E} {g : E} {j : Nat} (hs : en.Sorted (· ≤ ·))
    (hsplit : SplitOf en (R ++ F)) (hj : R.length ≤ j) (hg : en.get? j = some g)
    (hF : ∀ f ∈ F, g < f) : False := by
  obtain ⟨rest, hperm, _⟩ := hsplit
  have hjlt : j < en.length := by
    by_contra hc
    rw [List.get?_eq_none.2 (by omega)] at hg
    simp at hg
  have htake : en.take (j + 1) = en.take j ++ [g] := by
    rw [List.take_succ, ← List.get?_eq_getElem?, hg]
    rfl
  have hle : ∀ x ∈ en.take (j + 1), x ≤ g := by
    intro x hx
    rw [htake] at hx
    rcases List.mem_append.1 hx with hx | hx
    · have hsplit2 : en = en.take j ++ g :: en.drop (j + 1) := by
        conv_lhs => rw [← List.take_append_drop j en]
        congr 1
        rw [List.drop_eq_getElem_cons hjlt]
        congr 1
        have := List.get?_eq_getElem?  en j
        rw [hg, List.getElem?_eq_getElem hjlt] at this
        exact (Option.some.inj this).symm
      have hp : (en.take j ++ g :: en.drop (j + 1)).Pairwise (· ≤ ·) := by
        rw [← hsplit2]; exact hs
      exact (List.pairwise_append.1 hp).2.2 x hx g (List.mem_cons_self _ _)
    · rw [List.mem_singleton.1 hx]
  have hsub : (en.take (j + 1)).Subperm (R ++ F) :=
    ((List.take_sublist _ _).trans (List.sublist_append_left en rest)).subperm.trans
      hperm.symm.subperm
  have hfil := (hsub.filter (fun x => decide (x ≤ g))).length_le
  have h1 : (en.take (j + 1)).filter (fun x => decide (x ≤ g)) = en.take (j + 1) :=
    List.filter_eq_self.2 (fun x hx => by simpa using hle x hx)
  have h2 : F.filter (fun x => decide (x ≤ g)) = [] :=
    List.filter_eq_nil_iff.2 (fun f hf => by simpa using hF f hf)
  rw [h1, List.filter_append, h2, List.append_nil, List.length_take] at hfil
  have h3 := List.length_filter_le (fun x => decide (x ≤ g)) R
  omega

end Padding

/-- C15, refuted as stated: two variables of one state each, so a single state sequence, and
`K = 3`.  The slots 1 and 2 hold the state sequence `[0, 0]` again, with an energy in which
`MaxValue<int>() / 2` stands for the first prior, and no state index `-1`. -/
theorem c15_padding_counterexample :
    Consistent [[(1 : Int)], [2]] [TMatrix.ofRows [[3]]] ∧
    (allSequences [[(1 : Int)], [2]]).length = 1 ∧
    sequencesOf (solve stableSort halfMaxInt 3 [[1], [2]] [TMatrix.ofRows [[3]]] (-1)) =
      some [[0, 0], [0, 0], [0, 0]] ∧
    energiesOf (solve stableSort halfMaxInt 3 [[1], [2]] [TMatrix.ofRows [[3]]] (-1)) =
      some [6, 1073741828, 1073741828] :=
  ⟨consistent_of_shapesOk (by decide) (by decide) (by decide) (by decide), by decide,
    by decide, by decide⟩

/-- C15, amended: for every consistent input with `P < K` state sequences, `solve(-1)`
completes with `K` solutions, and every one of them, also in the slots `P .. K-1`, holds a
state sequence of the input: every entry is a valid state index and none is `-1`.  When
every path seeded with the sentinel `MaxValue<T>() / 2` is more expensive than every state
sequence, the solutions in the slots `P .. K-1` are such seeded paths: the energy is that of
the sequence in the slot with `MaxValue<T>() / 2` in place of its first prior. -/
theorem solve_pads_with_seeded_paths {E : Type} [LinearOrderedAddCommMonoid E]
    (S : StdSort E) (halfMax : E) (K : Nat) (priors : List (List E))
    (conditionals : List (TMatrix E)) (hcons : Consistent priors conditionals)
    (hP : (allSequences priors).length < K) :
    ∃ sols : List (Solution E),
      solve S halfMax K priors conditionals (-1) = Except.ok sols ∧ sols.length = K ∧
      (∀ sol ∈ sols, (-1 : Int) ∉ sol.sequence ∧
        sol.sequence.map Int.toNat ∈ allSequences priors ∧
        sol.sequence = (sol.sequence.map Int.toNat).map Int.ofNat) ∧
      (SentinelExceeds halfMax priors conditionals →
        ∀ (j : Nat) (sol : Solution E), (allSequences priors).length ≤ j →
          sols.get? j = some sol →
          sol.energy = fillerEnergy halfMax priors conditionals (sol.sequence.map Int.toNat)) := by
  have hP1 : 1 ≤ (allSequences priors).length :=
    List.length_pos.2 (allSequences_ne_nil priors hcons.2.1)
  have hK : 1 ≤ K := by omega
  obtain ⟨sols, hsolve, hlen, hvalid, hs, _, hsplit⟩ :=
    solve_structure S halfMax K hK priors conditionals hcons (-1) (Or.inl rfl)
  have hcand : candidates priors (-1) = allSequences priors := by simp [candidates]
  rw [hcand] at hvalid hsplit
  have hback : ∀ s : List Nat, (s.map Int.ofNat).map Int.toNat = s := by
    intro s
    rw [List.map_map]
    have : (Int.toNat ∘ Int.ofNat) = id := by
      funext n
      simp
    rw [this, List.map_id]
  refine ⟨sols, hsolve, hlen, ?_, ?_⟩
  · intro sol hsol
    obtain ⟨s, hsc, hseq, _⟩ := hvalid sol hsol
    rw [hseq, hback]
    refine ⟨?_, hsc, rfl⟩
    intro hmem
    obtain ⟨n, _, hn⟩ := List.mem_map.1 hmem
    have h0 : (0 : Int) ≤ Int.ofNat n := Int.ofNat_nonneg n
    rw [hn] at h0
    exact absurd h0 (by decide)
  · intro hex j sol hj hget
    have hsol : sol ∈ sols := List.get?_mem hget
    obtain ⟨s, hsc, hseq, hen⟩ := hvalid sol hsol
    rw [hseq, hback]
    rcases hen with hgen | ⟨_, hfill⟩
    · exfalso
      have hg : (sols.map (fun sol => sol.energy)).get? j = some (totalEnergy priors conditionals s) := by
        rw [List.get?_map, hget, Option.map_some', hgen]
      refine not_genuine_beyond (hs (Or.inl rfl)) hsplit (by simpa using hj) hg ?_
      intro f hf
      obtain ⟨s', hs', hf'⟩ := List.mem_flatMap.1 hf
      rw [List.eq_of_mem_replicate hf']
      exact hex s hsc s' hs'
    · exact hfill

/-- C15, witness: the amended statement at one variable of two states followed by one of one
state, so `P = 2`, with `K = 3`. -/
theorem solve_pads_with_seeded_paths_witness :
    ∃ sols : List (Solution Int),
      solve stableSort halfMaxInt 3 [[1, 4], [2]] [TMatrix.ofRows [[3], [0]]] (-1) =
        Except.ok sols ∧ sols.length = 3 ∧
      (∀ sol ∈ sols, (-1 : Int) ∉ sol.sequence ∧
        sol.sequence.map Int.toNat ∈ allSequences [[(1 : Int), 4], [2]] ∧
        sol.sequence = (sol.sequence.map Int.toNat).map Int.ofNat) ∧
      (SentinelExceeds halfMaxInt [[1, 4], [2]] [TMatrix.ofRows [[3], [0]]] →
        ∀ (j : Nat) (sol : Solution Int), (allSequences [[(1 : Int), 4], [2]]).length ≤ j →
          sols.get? j = some sol →
          sol.energy = fillerEnergy halfMaxInt [[1, 4], [2]] [TMatrix.ofRows [[3], [0]]]
            (sol.sequence.map Int.toNat)) :=
  solve_pads_with_seeded_paths stableSort halfMaxInt 3 [[1, 4], [2]]
    [TMatrix.ofRows [[3], [0]]]
    (consistent_of_shapesOk (by decide) (by decide) (by decide) (by decide)) (by decide)

end Viterbi


open List

namespace Viterbi

section NoPaths
variable {E : Type} [LinearOrderedAddCommMonoid E]
set_option linter.unusedSectionVars false

/-- With `nPaths = 0` a partial sort keeps nothing. -/
theorem partial_sort_copy_zero (S : StdSort E) (l : List (SubState E)) :
    S.partial_sort_copy l 0 = [] := by
  obtain ⟨l', _, _, h⟩ := S.partial_sort_copy_spec l 0
  rw [h]; rfl

theorem partial_sort_zero (S : StdSort E) (l : List (SubState E)) :
    S.partial_sort l 0 = [] := by
  obtain ⟨l', _, _, h⟩ := S.partial_sort_spec l 0
  rw [h]; rfl

theorem seed_no_substates (halfMax : E) : ∀ (states : List (State E)) (prior : List E),
    states.length = prior.length → (∀ s ∈ states, s.substates = []) →
    List.zipWith (fun (s : State E) p =>
      { s with substates := seedSubstates p halfMax 0 s.substates }) states prior = states := by
  intro states
  induction states with
  | nil => intro prior _ _; rfl
  | cons s ss ih =>
    intro prior hlen hall
    cases prior with
    | nil => simp at hlen
    | cons p ps =>
      have hs : s.substates = [] := hall s (List.mem_cons_self _ _)
      simp only [List.zipWith_cons_cons]
      rw [ih ps (by simpa using hlen) (fun x hx => hall x (List.mem_cons_of_mem _ hx))]
      congr 1
      cases s with
      | mk i n sub =>
        simp only [] at hs
        subst hs
        rfl

theorem calculateStates_no_substates (S : StdSort E) (prev : Variable E) (c : TMatrix E) :
    ∀ (states : List (State E)) (prior : List E) (n : Nat),
    states.length = prior.length → (∀ s ∈ states, s.substates = []) →
    calculateStates S prev c n states prior = states := by
  intro states
  induction states with
  | nil => intro prior n _ _; cases prior <;> rfl
  | cons s ss ih =>
    intro prior n hlen hall
    cases prior with
    | nil => simp at hlen
    | cons p ps =>
      have hs : s.substates = [] := hall s (List.mem_cons_self _ _)
      simp only [calculateStates]
      rw [ih ps (n + 1) (by simpa using hlen) (fun x hx => hall x (List.mem_cons_of_mem _ hx))]
      congr 1
      cases s with
      | mk i k sub =>
        simp only [] at hs
        subst hs
        simp [State.calculate, partial_sort_copy_zero, fixPaths]

theorem resize_zero_states (t m : Nat) :
    ∀ s ∈ ((Variable.init t 0 : Variable E).resize m).states, s.substates = [] := by
  intro s hs
  rw [resize_init] at hs
  simp only [List.mem_map] at hs
  obtain ⟨n, _, rfl⟩ := hs
  rfl

theorem resize_zero_length (t m : Nat) :
    ((Variable.init t 0 : Variable E).resize m).states.length = m := by
  rw [resize_init]
  simp

theorem calculatePrior_zero (halfMax : E) (p0 : List E) :
    (Variable.init 0 0 : Variable E).calculatePrior halfMax p0 =
      (Variable.init 0 0 : Variable E).resize p0.length := by
  unfold Variable.calculatePrior
  simp only []
  rw [seed_no_substates halfMax _ p0 (resize_zero_length 0 p0.length)
    (resize_zero_states 0 p0.length)]

theorem calculate_zero (S : StdSort E) (t u m : Nat) (p : List E) (c : TMatrix E)
    (hrows : c.rows = m) (hcols : c.cols = p.length) :
    (Variable.init t 0 : Variable E).calculate S ((Variable.init u 0 : Variable E).resize m) p c =
      Except.ok ((Variable.init t 0 : Variable E).resize p.length) := by
  have hv1 : (if p.length ≠ (Variable.init t 0 : Variable E).states.length then
      (Variable.init t 0 : Variable E).resize p.length else Variable.init t 0) =
      (Variable.init t 0 : Variable E).resize p.length := by
    by_cases h : p.length = 0
    · simp [h, Variable.init, Variable.resize]
    · simp [h, Variable.init]
  unfold Variable.calculate
  simp only [hv1, resize_zero_length, hrows, hcols, ne_eq, not_true_eq_false, or_self, if_false]
  rw [calculateStates_no_substates S _ c _ p 0 (resize_zero_length t p.length)
    (resize_zero_states t p.length)]

theorem runFrom_zero (S : StdSort E) : ∀ (ps : List (List E)) (cs : List (TMatrix E))
    (u t : Nat) (q : List E), cs.length = ps.length → shapesOk (q :: ps) cs = true →
    ∃ vs, runFrom S 0 ((Variable.init u 0 : Variable E).resize q.length) t ps cs = Except.ok vs ∧
      vs.length = ps.length ∧
      ∃ w last, (q :: ps).getLast? = some last ∧
        (((Variable.init u 0 : Variable E).resize q.length) :: vs).getLast? =
          some ((Variable.init w 0 : Variable E).resize last.length) := by
  intro ps
  induction ps with
  | nil =>
    intro cs u t q hlen _
    cases cs with
    | nil => exact ⟨[], rfl, rfl, u, q, rfl, rfl⟩
    | cons _ _ => simp at hlen
  | cons p ps ih =>
    intro cs u t q hlen hshape
    cases cs with
    | nil => simp at hlen
    | cons c cs =>
      simp only [shapesOk, Bool.and_eq_true, beq_iff_eq] at hshape
      obtain ⟨⟨hrows, hcols⟩, hshape'⟩ := hshape
      obtain ⟨vs, hvs, hvlen, w, last, hlast, hw⟩ :=
        ih cs t (t + 1) p (by simpa using hlen) hshape'
      refine ⟨(Variable.init t 0 : Variable E).resize p.length :: vs, ?_, by simp [hvlen],
        w, last, ?_, ?_⟩
      · simp only [runFrom, calculate_zero S t u q.length p c hrows hcols, hvs]
      · rw [List.getLast?_cons_cons]; exact hlast
      · rw [List.getLast?_cons_cons]; exact hw

/-- With `nPaths = 0` a well-shaped call completes and has no solution to fill. -/
theorem solve_zero (S : StdSort E) (halfMax : E) (priors : List (List E))
    (cs : List (TMatrix E)) (finalState : Int) (last : List E)
    (hlast : priors.getLast? = some last) (hlen : cs.length + 1 = priors.length)
    (hshape : shapesOk priors cs = true)
    (hf : finalState = -1 ∨ (0 ≤ finalState ∧ finalState < Int.ofNat last.length)) :
    solve S halfMax 0 priors cs finalState = Except.ok [] := by
  cases priors with
  | nil => simp at hlast
  | cons p0 ps =>
    obtain ⟨vs, hvs, hvlen, w, last', hlast', hw⟩ :=
      runFrom_zero S ps cs 0 1 p0 (by simpa using hlen) hshape
    rw [hlast] at hlast'
    obtain rfl : last = last' := Option.some.inj hlast'
    have hnot : ¬ (finalState ≥ Int.ofNat last.length ∨ finalState < -1) := by
      rcases hf with h | ⟨h1, h2⟩
      · have h0 : (0 : Int) ≤ Int.ofNat last.length := Int.ofNat_nonneg _
        omega
      · omega
    have hinit : initialise (p0 :: ps) cs = Except.ok () := by
      unfold initialise
      have : ¬ (Int.ofNat cs.length ≠ Int.ofNat (p0 :: ps).length - 1) := by
        simp only [List.length_cons, Int.ofNat_eq_coe, Nat.cast_add, Nat.cast_one] at hlen ⊢
        omega
      rw [if_neg this, if_pos hshape]
    have hrun : run S halfMax 0 (p0 :: ps) cs =
        Except.ok ((Variable.init 0 0 : Variable E).resize p0.length :: vs) := by
      simp only [run, calculatePrior_zero, hvs]
    unfold solve
    simp only [hlast, hnot, if_false, hinit, hrun]
    unfold backtrack
    simp only [hw]
    have hsub : ((Variable.init w 0 : Variable E).resize last.length).states.flatMap
        (fun s => s.substates) = [] := by
      rw [List.flatMap_eq_nil_iff]
      exact resize_zero_states w last.length
    rcases hf with h | ⟨h1, h2⟩
    · simp only [h, if_true, Variable.bestStates, hsub]
      have hn : ((Variable.init w 0 : Variable E).resize last.length).nPaths = 0 := rfl
      simp [hn, partial_sort_zero, backtrackAll, rethrow]
    · have hne : finalState ≠ -1 := by omega
      have hlt : finalState.toNat < ((Variable.init w 0 : Variable E).resize last.length).states.length := by
        rw [resize_zero_length]
        have := Int.toNat_of_nonneg h1
        simp only [Int.ofNat_eq_coe] at h2
        omega
      obtain ⟨st, hst⟩ : ∃ st, ((Variable.init w 0 : Variable E).resize last.length).states.get?
          finalState.toNat = some st := by
        rw [List.get?_eq_getElem?]
        exact ⟨_, List.getElem?_eq_getElem hlt⟩
      have hst0 : st.substates = [] := resize_zero_states w last.length st (List.get?_mem hst)
      rw [List.get?_eq_getElem?] at hst
      simp [hne, hst, hst0, backtrackAll, rethrow]

end NoPaths

end Viterbi


open List

namespace Viterbi

/-- C16, refuted as stated: two prior vectors, the second one empty, with a conditional
matrix of the matching shape `1 x 0`, `K = 1` and `solve(-1)`.  None of the four conditions
holds, so no check of `solve` or `initialize` throws; but the last variable has no state,
`bestStates` asks `partial_sort` for one element of an empty range, and the call neither
fails with an error nor fills the solution. -/
theorem c16_empty_layer_counterexample :
    ¬ ((-1 : Int) < -1) ∧ ¬ ((-1 : Int) ≥ Int.ofNat ([] : List Int).length) ∧
    [oneByZero].length + 1 = [[(1 : Int)], []].length ∧
    shapesOk [[(1 : Int)], []] [oneByZero] = true ∧
    solve stableSort halfMaxInt 1 [[1], []] [oneByZero] (-1) =
      Except.error Err.undefined_behaviour :=
  ⟨by decide, by decide, by decide, by decide, by rfl⟩

/-- C16, amended: for every input with `T ≥ 1` prior vectors none of which is empty,
`solve(f)` fails with an error if and only if `f < -1`, or `f ≥ n_{T-1}`, or the number of
conditional matrices differs from `T - 1`, or some `conditionals[t]` does not have `n_t` rows
and `n_{t+1}` columns.  For a bad `f` the error is the `invalid_argument` thrown before the
`try` block; otherwise it is a plain `std::exception`, because the `logic_error` of
`initialize` is caught by reference and thrown again by value.  In every other case the call
completes and fills its `K` solutions, each with a sequence of length `T`. -/
theorem solve_fails_iff_input_inconsistent {E : Type} [LinearOrderedAddCommMonoid E]
    (S : StdSort E) (halfMax : E) (K : Nat) (priors : List (List E))
    (conditionals : List (TMatrix E)) (f : Int) (last : List E)
    (hlast : priors.getLast? = some last) (hne : ∀ p ∈ priors, p ≠ []) :
    ((∃ e, solve S halfMax K priors conditionals f = Except.error e) ↔
      (f < -1 ∨ f ≥ Int.ofNat last.length ∨ conditionals.length + 1 ≠ priors.length ∨
        ∃ t c p q, conditionals.get? t = some c ∧ priors.get? t = some p ∧
          priors.get? (t + 1) = some q ∧ ¬ (c.rows = p.length ∧ c.cols = q.length))) ∧
    (f < -1 ∨ f ≥ Int.ofNat last.length →
      solve S halfMax K priors conditionals f = Except.error Err.invalid_argument) ∧
    (¬ (f < -1 ∨ f ≥ Int.ofNat last.length) →
      (conditionals.length + 1 ≠ priors.length ∨
        ∃ t c p q, conditionals.get? t = some c ∧ priors.get? t = some p ∧
          priors.get? (t + 1) = some q ∧ ¬ (c.rows = p.length ∧ c.cols = q.length)) →
      solve S halfMax K priors conditionals f = Except.error Err.exception) ∧
    (¬ (f < -1 ∨ f ≥ Int.ofNat last.length ∨ conditionals.length + 1 ≠ priors.length ∨
        ∃ t c p q, conditionals.get? t = some c ∧ priors.get? t = some p ∧
          priors.get? (t + 1) = some q ∧ ¬ (c.rows = p.length ∧ c.cols = q.length)) →
      ∃ sols : List (Solution E), solve S halfMax K priors conditionals f = Except.ok sols ∧
        sols.length = K ∧ ∀ sol ∈ sols, sol.sequence.length = priors.length) := by
  have hpne : priors ≠ [] := by
    intro h; rw [h] at hlast; simp at hlast
  -- the two kinds of failure
  have hbad : f < -1 ∨ f ≥ Int.ofNat last.length →
      solve S halfMax K priors conditionals f = Except.error Err.invalid_argument := by
    intro h
    unfold solve
    simp only [hlast]
    rw [if_pos (by tauto)]
  have hshape : ¬ (f < -1 ∨ f ≥ Int.ofNat last.length) →
      (conditionals.length + 1 ≠ priors.length ∨
        ∃ t c p q, conditionals.get? t = some c ∧ priors.get? t = some p ∧
          priors.get? (t + 1) = some q ∧ ¬ (c.rows = p.length ∧ c.cols = q.length)) →
      solve S halfMax K priors conditionals f = Except.error Err.exception := by
    intro hf h
    have hinit : initialise priors conditionals = Except.error Err.logic_error := by
      unfold initialise
      by_cases hl : Int.ofNat conditionals.length ≠ Int.ofNat priors.length - 1
      · rw [if_pos hl]
      · rw [if_neg hl]
        have hl' : conditionals.length + 1 = priors.length := by
          simp only [Int.ofNat_eq_coe, ne_eq, not_not] at hl
          omega
        rcases h with h | ⟨t, c, p, q, hc, hp, hq, hno⟩
        · exact absurd hl' h
        · have : ¬ shapesOk priors conditionals = true :=
            fun hs => hno (get?_of_shapesOk priors conditionals hs t c p q hc hp hq)
          rw [if_neg this]
    unfold solve
    simp only [hlast]
    rw [if_neg (by tauto)]
    simp only [hinit, rethrow]
  -- the calls that complete
  have hgood : ¬ (f < -1 ∨ f ≥ Int.ofNat last.length ∨ conditionals.length + 1 ≠ priors.length ∨
        ∃ t c p q, conditionals.get? t = some c ∧ priors.get? t = some p ∧
          priors.get? (t + 1) = some q ∧ ¬ (c.rows = p.length ∧ c.cols = q.length)) →
      ∃ sols : List (Solution E), solve S halfMax K priors conditionals f = Except.ok sols ∧
        sols.length = K ∧ ∀ sol ∈ sols, sol.sequence.length = priors.length := by
    intro h
    have h1 : ¬ f < -1 := fun x => h (Or.inl x)
    have h2 : ¬ f ≥ Int.ofNat last.length := fun x => h (Or.inr (Or.inl x))
    have h3 : conditionals.length + 1 = priors.length :=
      not_not.1 (fun x => h (Or.inr (Or.inr (Or.inl x))))
    have h4 : ∀ t c p q, conditionals.get? t = some c → priors.get? t = some p →
        priors.get? (t + 1) = some q → c.rows = p.length ∧ c.cols = q.length :=
      fun t c p q hc hp hq =>
        not_not.1 (fun x => h (Or.inr (Or.inr (Or.inr ⟨t, c, p, q, hc, hp, hq, x⟩))))
    have hcons : Consistent priors conditionals := ⟨hpne, hne, h3, h4⟩
    have hf : f = -1 ∨ (0 ≤ f ∧ f < Int.ofNat last.length) := by omega
    rcases Nat.eq_zero_or_pos K with hK | hK
    · subst hK
      refine ⟨[], solve_zero S halfMax priors conditionals f last hlast h3
        (shapesOk_of_get? priors conditionals hcons.2.2.2) hf, rfl, ?_⟩
      intro sol hsol
      simp at hsol
    · obtain ⟨sols, hsolve, hlen, hvalid, _⟩ :=
        solve_structure S halfMax K hK priors conditionals hcons f
          (hf.imp id (fun h => ⟨h.1, last, hlast, h.2⟩))
      refine ⟨sols, hsolve, hlen, ?_⟩
      intro sol hsol
      obtain ⟨s, hs, hseq, _⟩ := hvalid sol hsol
      rw [hseq, List.length_map]
      exact ((mem_allSequences priors s).1 (candidates_subset priors f s hs)).length_eq
  refine ⟨⟨?_, ?_⟩, hbad, hshape, hgood⟩
  · rintro ⟨e, he⟩
    by_contra hno
    obtain ⟨sols, hs, _⟩ := hgood hno
    rw [hs] at he
    cases he
  · intro h
    by_cases hf : f < -1 ∨ f ≥ Int.ofNat last.length
    · exact ⟨_, hbad hf⟩
    · refine ⟨_, hshape hf ?_⟩
      rcases h with h | h | h | h
      · exact absurd (Or.inl h) hf
      · exact absurd (Or.inr h) hf
      · exact Or.inl h
      · exact Or.inr h

/-- C16, witness: the amended statement at the input of `testViterbi`, with `K = 2` and
`solve(1)`. -/
theorem solve_fails_iff_input_inconsistent_witness :
    ((∃ e, solve stableSort halfMaxInt 2 testPriors testConditionals 1 = Except.error e) ↔
      ((1 : Int) < -1 ∨ (1 : Int) ≥ Int.ofNat [(0 : Int), 1, 1].length ∨
        testConditionals.length + 1 ≠ testPriors.length ∨
        ∃ t c p q, testConditionals.get? t = some c ∧ testPriors.get? t = some p ∧
          testPriors.get? (t + 1) = some q ∧ ¬ (c.rows = p.length ∧ c.cols = q.length))) ∧
    ((1 : Int) < -1 ∨ (1 : Int) ≥ Int.ofNat [(0 : Int), 1, 1].length →
      solve stableSort halfMaxInt 2 testPriors testConditionals 1 =
        Except.error Err.invalid_argument) ∧
    (¬ ((1 : Int) < -1 ∨ (1 : Int) ≥ Int.ofNat [(0 : Int), 1, 1].length) →
      (testConditionals.length + 1 ≠ testPriors.length ∨
        ∃ t c p q, testConditionals.get? t = some c ∧ testPriors.get? t = some p ∧
          testPriors.get? (t + 1) = some q ∧ ¬ (c.rows = p.length ∧ c.cols = q.length)) →
      solve stableSort halfMaxInt 2 testPriors testConditionals 1 =
        Except.error Err.exception) ∧
    (¬ ((1 : Int) < -1 ∨ (1 : Int) ≥ Int.ofNat [(0 : Int), 1, 1].length ∨
        testConditionals.length + 1 ≠ testPriors.length ∨
        ∃ t c p q, testConditionals.get? t = some c ∧ testPriors.get? t = some p ∧
          testPriors.get? (t + 1) = some q ∧ ¬ (c.rows = p.length ∧ c.cols = q.length)) →
      ∃ sols : List (Solution Int),
        solve stableSort halfMaxInt 2 testPriors testConditionals 1 = Except.ok sols ∧
        sols.length = 2 ∧ ∀ sol ∈ sols, sol.sequence.length = testPriors.length) :=
  solve_fails_iff_input_inconsistent stableSort halfMaxInt 2 testPriors testConditionals 1
    [0, 1, 1] (by decide) (by decide)

end Viterbi


open List

namespace Viterbi

section Ties
variable {E : Type} [LinearOrderedAddCommMonoid E]

/-- A list that is ascending and consists of smallest elements of `U` is the start of the
sorted `U`. -/
theorem eq_take_sort_of_split {en U : List E} (hs : en.Sorted (· ≤ ·)) (hsplit : SplitOf en U) :
    en = (U.insertionSort (· ≤ ·)).take en.length := by
  obtain ⟨rest, hperm, hle⟩ := hsplit
  have h1 : (en ++ rest.insertionSort (· ≤ ·)).Sorted (· ≤ ·) := by
    unfold List.Sorted
    rw [List.pairwise_append]
    refine ⟨hs, List.sorted_insertionSort _ _, ?_⟩
    intro a ha b hb
    exact hle a ha b ((List.mem_insertionSort _).1 hb)
  have h3 : List.Perm (en ++ rest.insertionSort (· ≤ ·)) (U.insertionSort (· ≤ ·)) :=
    (List.Perm.append_left en (List.perm_insertionSort _ rest)).trans
      (hperm.symm.trans (List.perm_insertionSort _ U).symm)
  have h4 := List.eq_of_perm_of_sorted h3 h1 (List.sorted_insertionSort _ _)
  rw [← h4, List.take_left']
  rfl

/-- The energies a conforming partial sort keeps do not depend on the library. -/
theorem partial_sort_energies {l r : List (SubState E)} {k : Nat} (h : IsPartialSort l k r) :
    r.map (fun ss => ss.energy) =
      ((l.map (fun ss => ss.energy)).insertionSort (· ≤ ·)).take k := by
  obtain ⟨l', hperm, hsorted, rfl⟩ := h
  have h1 : (l'.map (fun ss => ss.energy)).Sorted (· ≤ ·) := by
    unfold List.Sorted
    rw [List.pairwise_map]
    exact hsorted
  have h2 : List.Perm (l'.map (fun ss => ss.energy))
      ((l.map (fun ss => ss.energy)).insertionSort (· ≤ ·)) :=
    (hperm.map _).trans (List.perm_insertionSort _ _).symm
  rw [← List.eq_of_perm_of_sorted h2 h1 (List.sorted_insertionSort _ _), List.map_take]

theorem fixPaths_map_path (n : Nat) : ∀ (l : List (SubState E)) (i : Nat),
    (fixPaths n i l).map (fun ss => ss.path) = List.range' i l.length := by
  intro l
  induction l with
  | nil => intro i; rfl
  | cons a l ih => intro i; simp [fixPaths, ih, List.range'_succ]

theorem partial_sort_length {l r : List (SubState E)} {k : Nat} (h : IsPartialSort l k r)
    (hk : k ≤ l.length) : r.length = k := by
  obtain ⟨l', hperm, _, rfl⟩ := h
  rw [List.length_take, hperm.length_eq]
  omega

end Ties

/-- C17, refuted as stated: two states with equal priors feed one state, `K = 2`, and the
two paths into it tie at energy 0.  With a conforming partial sort that puts the later of two
equal elements first, `solve(0)` ranks the path through predecessor state 1 before the path
through predecessor state 0. -/
theorem c17_tie_counterexample :
    Consistent tiePriors tieConditionals ∧
    energiesOf (solve lastFirstSort halfMaxInt 2 tiePriors tieConditionals 0) = some [0, 0] ∧
    sequencesOf (solve lastFirstSort halfMaxInt 2 tiePriors tieConditionals 0) =
      some [[1, 0], [0, 0]] :=
  ⟨consistent_of_shapesOk (by decide) (by decide) (by decide) (by decide), by decide,
    by decide⟩

/-- C17, amended: when several candidate sub-paths into a state have equal cumulative
energy, the energies of the `K` sub-paths kept are the `K` smallest in ascending order
whatever the standard library, and the path tags `0 .. K-1` are given by position after the
sort; likewise the energies of the solutions of `solve` do not depend on the library.  Which
of the tied sub-paths are kept, and in which order, is not decided by the solver:
`SubState::operator<` compares the energy only and the order is the one
`std::partial_sort_copy` and `std::partial_sort` produce, so two conforming libraries rank
the two tied paths of the example in opposite orders. -/
theorem ties_are_left_to_the_partial_sort :
    (∀ (E : Type) [LinearOrderedAddCommMonoid E] (S : StdSort E) (prevVar : Variable E)
      (cond : TMatrix E) (n : Nat) (s : State E) (statePriorEnergy : E),
      s.substates.length ≤ (allPathsFrom cond statePriorEnergy n 0 prevVar.states).length →
      ((State.calculate S prevVar cond n s statePriorEnergy).substates.map
          (fun ss => ss.energy) =
        (((allPathsFrom cond statePriorEnergy n 0 prevVar.states).map
          (fun ss => ss.energy)).insertionSort (· ≤ ·)).take s.substates.length) ∧
      (State.calculate S prevVar cond n s statePriorEnergy).substates.map (fun ss => ss.path) =
        List.range' 0 s.substates.length) ∧
    (∀ (E : Type) [LinearOrderedAddCommMonoid E] (S : StdSort E) (halfMax : E) (K : Nat)
      (priors : List (List E)) (conditionals : List (TMatrix E)) (finalState : Int),
      Consistent priors conditionals → 1 ≤ K →
      (finalState = -1 ∨ (0 ≤ finalState ∧ 2 ≤ priors.length ∧
        ∃ last, priors.getLast? = some last ∧ finalState < Int.ofNat (List.length last))) →
      ∃ sols : List (Solution E),
        solve S halfMax K priors conditionals finalState = Except.ok sols ∧
        sols.map (fun sol => sol.energy) =
          (((candidates priors finalState).map (totalEnergy priors conditionals) ++
            (candidates priors finalState).flatMap (fun s =>
              List.replicate (K - 1) (fillerEnergy halfMax priors conditionals s))).insertionSort
            (· ≤ ·)).take K) ∧
    (sequencesOf (solve stableSort halfMaxInt 2 tiePriors tieConditionals 0) =
        some [[0, 0], [1, 0]] ∧
      sequencesOf (solve lastFirstSort halfMaxInt 2 tiePriors tieConditionals 0) =
        some [[1, 0], [0, 0]]) := by
  refine ⟨?_, ?_, by decide, by decide⟩
  · intro E _ S prevVar cond n s p hK
    have hspec := S.partial_sort_copy_spec
      (allPathsFrom cond p n 0 prevVar.states) s.substates.length
    have hlen := partial_sort_length hspec hK
    have hsub : (State.calculate S prevVar cond n s p).substates =
        fixPaths n 0 (S.partial_sort_copy (allPathsFrom cond p n 0 prevVar.states)
          s.substates.length) := by
      unfold State.calculate
      simp only [hlen, List.drop_length, List.append_nil]
    rw [hsub, fixPaths_map_energy, fixPaths_map_path, hlen]
    exact ⟨partial_sort_energies hspec, rfl⟩
  · intro E _ S halfMax K priors cs f hcons hK hf
    have hf' : f = -1 ∨ (0 ≤ f ∧ ∃ last, priors.getLast? = some last ∧
        f < Int.ofNat (List.length last)) := hf.imp id (fun h => ⟨h.1, h.2.2⟩)
    have hsorted : f = -1 ∨ 2 ≤ priors.length := hf.imp id (fun h => h.2.1)
    obtain ⟨sols, hsolve, hlen, _, hs, _, hsplit⟩ :=
      solve_structure S halfMax K hK priors cs hcons f hf'
    refine ⟨sols, hsolve, ?_⟩
    have := eq_take_sort_of_split (hs hsorted) hsplit
    rw [List.length_map, hlen] at this
    exact this

/-- C17, witness: the energies kept are those of the stable order for the tie example under
either library. -/
theorem ties_are_left_to_the_partial_sort_witness :
    ∃ sols : List (Solution Int),
      solve lastFirstSort halfMaxInt 2 tiePriors tieConditionals 0 = Except.ok sols ∧
      sols.map (fun sol => sol.energy) =
        (((candidates tiePriors 0).map (totalEnergy tiePriors tieConditionals) ++
          (candidates tiePriors 0).flatMap (fun s =>
            List.replicate (2 - 1) (fillerEnergy halfMaxInt tiePriors tieConditionals s))).insertionSort
          (· ≤ ·)).take 2 :=
  ties_are_left_to_the_partial_sort.2.1 Int lastFirstSort halfMaxInt 2 tiePriors
    tieConditionals 0 (consistent_of_shapesOk (by decide) (by decide) (by decide) (by decide))
    (by decide) (Or.inr ⟨by decide, by decide, [0], by decide, by decide⟩)

end Viterbi


/-! ## The locator: claims C12 to C14 -/

namespace BarcodeLocator

theorem foldl_fixed {σ ι : Type} (f : σ → ι → σ) (s : σ) :
    ∀ (l : List ι), (∀ x ∈ l, f s x = s) → l.foldl f s = s := by
  intro l
  induction l with
  | nil => intro _; rfl
  | cons a l ih =>
    intro h
    rw [List.foldl_cons, h a (List.mem_cons_self _ _)]
    exact ih (fun x hx => h x (List.mem_cons_of_mem _ hx))

/-- A loop over `0 .. n-1` establishes `I n` when every turn takes `I k` to `I (k + 1)`. -/
theorem foldl_range_inv {σ : Type} (I : Nat → σ → Prop) (f : σ → Nat → σ) :
    ∀ (n : Nat) (s0 : σ), I 0 s0 → (∀ k, k < n → ∀ s, I k s → I (k + 1) (f s k)) →
    I n ((List.range n).foldl f s0) := by
  intro n
  induction n with
  | zero => intro s0 h0 _; exact h0
  | succ n ih =>
    intro s0 h0 hstep
    rw [List.range_succ, List.foldl_append]
    exact hstep n (Nat.lt_succ_self n) _
      (ih s0 h0 (fun k hk s hs => hstep k (Nat.lt_succ_of_lt hk) s hs))

theorem zeroGrad_zero : ZeroGrad Gradients.zero := fun _ => ⟨rfl, rfl, rfl⟩

theorem scharrBorderRows_zero (M N : Nat) (g : Gradients) (hz : ZeroGrad g)
    (h2 : ∀ p, g.tmp2 p = 0) :
    ZeroGrad (scharrBorderRows M N g) ∧ ∀ p, (scharrBorderRows M N g).tmp2 p = 0 := by
  unfold scharrBorderRows
  refine foldl_range_inv (fun _ g => ZeroGrad g ∧ ∀ p, g.tmp2 p = 0) _ N g ⟨hz, h2⟩ ?_
  intro k _ s hs
  obtain ⟨hs1, hs2⟩ := hs
  refine ⟨fun p => ⟨?_, ?_, ?_⟩, fun p => ?_⟩ <;>
    simp only [Function.update_apply] <;> split_ifs <;>
    first | rfl | exact (hs1 p).1 | exact (hs1 p).2.1 | exact (hs1 p).2.2 | exact hs2 p

theorem scharrBorderCols_zero (M N : Nat) (g : Gradients) (hz : ZeroGrad g)
    (h2 : ∀ p, g.tmp2 p = 0) :
    ZeroGrad (scharrBorderCols M N g) ∧ ∀ p, (scharrBorderCols M N g).tmp2 p = 0 := by
  unfold scharrBorderCols
  refine foldl_range_inv (fun _ g => ZeroGrad g ∧ ∀ p, g.tmp2 p = 0) _ M g ⟨hz, h2⟩ ?_
  intro k _ s hs
  obtain ⟨hs1, hs2⟩ := hs
  refine ⟨fun p => ⟨?_, ?_, ?_⟩, fun p => ?_⟩ <;>
    simp only [Function.update_apply] <;> split_ifs <;>
    first | rfl | exact (hs1 p).1 | exact (hs1 p).2.1 | exact (hs1 p).2.2 | exact hs2 p

theorem pixel_in_bounds {M N i j : Nat} (hi : i < M) (hj : j < N) : i * N + j < M * N := by
  have h1 : (i + 1) * N ≤ M * N := Nat.mul_le_mul_right N hi
  have h2 : (i + 1) * N = i * N + N := by ring
  omega

/-- The horizontal pass on a uniform image: the scratch rows `1 .. N-2` of `tmp2` hold
`16 v`, its rows `0` and `N-1` stay zero, and everything else stays zero. -/
theorem scharrHorizontal_uniform (img : Nat → Nat) (M N v : Nat)
    (hu : ∀ k, k < M * N → img k = v) (g : Gradients) (hz : ZeroGrad g)
    (h2 : ∀ p, g.tmp2 p = 0) :
    ZeroGrad (scharrHorizontal img M N g) ∧
    (∀ p, (p < M ∨ (N - 1) * M ≤ p) → (scharrHorizontal img M N g).tmp2 p = 0) ∧
    (∀ i, i < M → ∀ j, j + 2 < N →
      (scharrHorizontal img M N g).tmp2 (M + i + j * M) = 16 * Int.ofNat v) := by
  unfold scharrHorizontal
  refine foldl_range_inv (fun i g => ZeroGrad g ∧
      (∀ p, (p < M ∨ (N - 1) * M ≤ p) → g.tmp2 p = 0) ∧
      (∀ i', i' < i → ∀ j, j + 2 < N → g.tmp2 (M + i' + j * M) = 16 * Int.ofNat v))
    _ M g ⟨hz, fun p _ => h2 p, fun i' hi' => absurd hi' (Nat.not_lt_zero _)⟩ ?_
  intro i hi s hs
  have hinner := foldl_range_inv (fun j g => ZeroGrad g ∧
      (∀ p, (p < M ∨ (N - 1) * M ≤ p) → g.tmp2 p = 0) ∧
      (∀ i', i' < i → ∀ j, j + 2 < N → g.tmp2 (M + i' + j * M) = 16 * Int.ofNat v) ∧
      (∀ j', j' < j → g.tmp2 (M + i + j' * M) = 16 * Int.ofNat v))
    (fun g j =>
      { g with
        tmp1 := Function.update g.tmp1 (M + i + j * M)
          (Int.ofNat (img (i * N + j)) - Int.ofNat (img (i * N + j + 2))),
        tmp2 := Function.update g.tmp2 (M + i + j * M)
          (3 * Int.ofNat (img (i * N + j)) + 10 * Int.ofNat (img (i * N + j + 1)) +
            3 * Int.ofNat (img (i * N + j + 2))) })
    (N - 2) s ⟨hs.1, hs.2.1, hs.2.2, fun j' hj' => absurd hj' (Nat.not_lt_zero _)⟩ ?_
  · obtain ⟨h1, h2', h3, h4⟩ := hinner
    refine ⟨h1, h2', ?_⟩
    intro i' hi' j hj
    rcases Nat.lt_succ_iff_lt_or_eq.1 hi' with h | h
    · exact h3 i' h j hj
    · rw [h]; exact h4 j (by omega)
  · intro j hj t ht
    obtain ⟨t1, t2, t3, t4⟩ := ht
    have hj2 : j + 2 < N := by omega
    have e0 : img (i * N + j) = v := hu _ (pixel_in_bounds hi (by omega))
    have e1 : img (i * N + j + 1) = v := by
      have := hu (i * N + (j + 1)) (pixel_in_bounds hi (by omega))
      rwa [← Nat.add_assoc] at this
    have e2 : img (i * N + j + 2) = v := by
      have := hu (i * N + (j + 2)) (pixel_in_bounds hi hj2)
      rwa [← Nat.add_assoc] at this
    have hval : 3 * Int.ofNat (img (i * N + j)) + 10 * Int.ofNat (img (i * N + j + 1)) +
        3 * Int.ofNat (img (i * N + j + 2)) = 16 * Int.ofNat v := by
      rw [e0, e1, e2]; ring
    have hdiff : Int.ofNat (img (i * N + j)) - Int.ofNat (img (i * N + j + 2)) = 0 := by
      rw [e0, e2]; ring
    -- the position written lies in the scratch rows 1 .. N-2
    have hw1 : M ≤ M + i + j * M := by omega
    have hw2 : M + i + j * M < (N - 1) * M := by
      have h1 : (j + 2) * M ≤ (N - 1) * M := Nat.mul_le_mul_right M (by omega)
      have h2 : (j + 2) * M = j * M + M + M := by ring
      omega
    refine ⟨fun p => ⟨(t1 p).1, (t1 p).2.1, ?_⟩, ?_, ?_, ?_⟩
    · show Function.update t.tmp1 _ _ p = 0
      rw [Function.update_apply, hdiff]
      split_ifs
      · rfl
      · exact (t1 p).2.2
    · intro p hp
      show Function.update t.tmp2 _ _ p = 0
      rw [Function.update_apply, if_neg (by omega)]
      exact t2 p hp
    · intro i' hi' j' hj'
      show Function.update t.tmp2 _ _ _ = _
      rw [Function.update_apply, hval]
      split_ifs
      · rfl
      · exact t3 i' hi' j' hj'
    · intro j' hj'
      show Function.update t.tmp2 _ _ _ = _
      rw [Function.update_apply, hval]
      split_ifs with h
      · rfl
      · rcases Nat.lt_succ_iff_lt_or_eq.1 hj' with h' | h'
        · exact t4 j' h'
        · exact absurd (by rw [h']) h

end BarcodeLocator


namespace BarcodeLocator

/-- The vertical pass when `tmp1` is zero and every scratch row of `tmp2` is constant: both
gradients stay zero. -/
theorem scharrVertical_zero (M N : Nat) (g : Gradients) (hz : ZeroGrad g)
    (hrow : ∀ r, r < N → ∀ k, k + 2 < M → g.tmp2 (r * M + k) = g.tmp2 (r * M + k + 2)) :
    ZeroGrad (scharrVertical M N g) := by
  unfold scharrVertical
  have hall := foldl_range_inv (fun _ s => ZeroGrad s ∧ s.tmp2 = g.tmp2)
    (fun g r =>
      let g1 := (List.range (M - 2)).foldl (fun g k =>
        { g with jGrad := Function.update g.jGrad (1 + r + k * N)
                   (smoothedDifference g.tmp1 (r * M + k)) }) g
      (List.range (M - 2)).foldl (fun g k =>
        { g with iGrad := Function.update g.iGrad (1 + r + k * N)
                   (differenceOfSmoothed g.tmp2 (r * M + k)) }) g1)
    N g ⟨hz, rfl⟩ ?_
  · exact hall.1
  · intro r hr s hs
    simp only []
    have h1 := foldl_range_inv (fun _ t => ZeroGrad t ∧ t.tmp2 = g.tmp2)
      (fun g k =>
        { g with jGrad := Function.update g.jGrad (1 + r + k * N)
                   (smoothedDifference g.tmp1 (r * M + k)) })
      (M - 2) s hs ?_
    · refine foldl_range_inv (fun _ t => ZeroGrad t ∧ t.tmp2 = g.tmp2)
        (fun g k =>
          { g with iGrad := Function.update g.iGrad (1 + r + k * N)
                     (differenceOfSmoothed g.tmp2 (r * M + k)) })
        (M - 2) _ h1 ?_
      intro k hk t ht
      obtain ⟨t1, t2⟩ := ht
      refine ⟨fun p => ⟨?_, (t1 p).2.1, (t1 p).2.2⟩, t2⟩
      show Function.update t.iGrad _ _ p = 0
      rw [Function.update_apply]
      split_ifs
      · unfold differenceOfSmoothed
        rw [t2, hrow r hr k (by omega)]
        simp
      · exact (t1 p).1
    · intro k _ t ht
      obtain ⟨t1, t2⟩ := ht
      refine ⟨fun p => ⟨(t1 p).1, ?_, (t1 p).2.2⟩, t2⟩
      show Function.update t.jGrad _ _ p = 0
      rw [Function.update_apply]
      split_ifs
      · unfold smoothedDifference
        rw [(t1 _).2.2, (t1 _).2.2, (t1 _).2.2]
        rfl
      · exact (t1 p).2.1

/-- The Scharr gradients of a uniform image are all zero. -/
theorem calculateScharrGradients_uniform (img : Image) (v : Nat) (hu : img.Uniform v) :
    ZeroGrad (calculateScharrGradients img Gradients.zero) := by
  unfold calculateScharrGradients
  obtain ⟨hz1, h21⟩ := scharrBorderRows_zero img.rows img.cols Gradients.zero zeroGrad_zero
    (fun _ => rfl)
  obtain ⟨hz2, h22⟩ := scharrBorderCols_zero img.rows img.cols _ hz1 h21
  obtain ⟨hz3, hb, hin⟩ := scharrHorizontal_uniform img.data img.rows img.cols v hu _ hz2 h22
  refine scharrVertical_zero img.rows img.cols _ hz3 ?_
  intro r hr k hk
  rcases Nat.eq_zero_or_pos r with h0 | h0
  · subst h0
    rw [hb _ (Or.inl (by omega)), hb _ (Or.inl (by omega))]
  · by_cases hlast : r + 1 = img.cols
    · have hge : (img.cols - 1) * img.rows ≤ r * img.rows := by
        have : img.cols - 1 = r := by omega
        rw [this]
      rw [hb _ (Or.inr (by omega)), hb _ (Or.inr (by omega))]
    · obtain ⟨j, rfl⟩ : ∃ j, r = j + 1 := ⟨r - 1, by omega⟩
      have e1 : (j + 1) * img.rows + k = img.rows + k + j * img.rows := by ring
      have e2 : (j + 1) * img.rows + k + 2 = img.rows + (k + 2) + j * img.rows := by ring
      rw [e2, e1, hin k (by omega) j (by omega), hin (k + 2) hk j (by omega)]

theorem gradientMagnitudeMap_zero (thresh : Nat) : gradientMagnitudeMap thresh 0 0 = 0 := by
  simp [gradientMagnitudeMap]

/-- The magnitudes of a uniform image are all zero. -/
theorem polarGradients_uniform (opts : Options) (angleBin : Nat → Int → Int → Nat)
    (img : Image) (v : Nat) (hu : img.Uniform v) :
    ∀ p, (polarGradients opts angleBin img).absGrad p = 0 := by
  have hz := calculateScharrGradients_uniform img v hu
  unfold polarGradients calculatePolarGradients
  refine foldl_range_inv (fun _ pol => ∀ p, pol.absGrad p = 0) _ (img.rows - 1) Polar.zero
    (fun _ => rfl) ?_
  intro i _ s hs
  refine foldl_range_inv (fun _ pol => ∀ p, pol.absGrad p = 0) _ (img.cols - 1) s hs ?_
  intro j _ t ht p
  show Function.update t.absGrad _ _ p = 0
  rw [Function.update_apply]
  split_ifs
  · rw [(hz _).1, (hz _).2.1]
    exact gradientMagnitudeMap_zero _
  · exact ht p

end BarcodeLocator


namespace BarcodeLocator

/-- Without a non-zero magnitude no pixel votes: the cells are the reset cells. -/
theorem calculateCellHistograms_no_edge (opts : Options) (M N : Nat) (pol : Polar)
    (cells : List (List Cell)) (h : ∀ p, pol.absGrad p = 0) :
    calculateCellHistograms opts M N pol cells =
      cells.map (fun row => row.map (Cell.reset opts.nOrientations)) := by
  unfold calculateCellHistograms
  apply foldl_fixed
  intro i _
  apply foldl_fixed
  intro j _
  rw [if_neg (by rw [h]; simp)]

/-- When the static matrices hold no magnitude, no cell receives a voter. -/
theorem votedCells_no_edge (opts : Options) (angleBin : Nat → Int → Int → Nat)
    (statics : Option CellStatics) (img : Image)
    (h : ∀ p, (statics.getD (CellStatics.init opts angleBin img)).polar.absGrad p = 0) :
    ∀ row ∈ votedCells opts angleBin statics img, ∀ cell ∈ row, cell.nVoters = 0 := by
  intro row hrow cell hcell
  unfold votedCells at hrow
  simp only [] at hrow
  rw [calculateCellHistograms_no_edge opts _ _ _ _ h] at hrow
  obtain ⟨row0, _, rfl⟩ := List.mem_map.1 hrow
  obtain ⟨cell0, _, rfl⟩ := List.mem_map.1 hcell
  rfl

/-- The first locator of a process on a uniform image: no cell receives a voter. -/
theorem votedCells_uniform (opts : Options) (angleBin : Nat → Int → Int → Nat) (img : Image)
    (v : Nat) (hu : img.Uniform v) :
    ∀ row ∈ votedCells opts angleBin none img, ∀ cell ∈ row, cell.nVoters = 0 :=
  votedCells_no_edge opts angleBin none img (polarGradients_uniform opts angleBin img v hu)

theorem shouldBeConsidered_no_voter (entropy : List Nat → ℚ) (maxEntropy : ℚ) (c : Cell)
    (h : c.nVoters = 0) : c.shouldBeConsidered entropy maxEntropy = false := by
  simp [Cell.shouldBeConsidered, Cell.hasEnoughVoters, h]

/-- When no cell has a voter the orientation histogram stays all zero. -/
theorem calculateOrientationHistogram_no_voter (opts : Options) (entropy : List Nat → ℚ)
    (cells : List (List Cell)) (h : ∀ row ∈ cells, ∀ cell ∈ row, cell.nVoters = 0) :
    calculateOrientationHistogram opts entropy cells =
      List.replicate (2 * opts.nOrientations) 0 := by
  unfold calculateOrientationHistogram
  apply foldl_fixed
  intro row hrow
  apply foldl_fixed
  intro cell hcell
  rw [shouldBeConsidered_no_voter entropy opts.maxEntropy cell (h row hrow cell hcell)]
  simp

theorem getD_replicate_zero (n i : Nat) : (List.replicate n 0).getD i 0 = 0 := by
  rw [List.getD_eq_getElem?_getD, List.getElem?_replicate]
  split_ifs <;> rfl

/-- An all-zero histogram yields no orientation seed. -/
theorem orientationVotes_zero (opts : Options) :
    orientationVotes opts (List.replicate (2 * opts.nOrientations) 0) = [] := by
  unfold orientationVotes
  rw [List.filterMap_eq_nil_iff]
  intro o _
  simp only [getD_replicate_zero, min_self]
  rw [if_neg (Nat.not_lt_zero _)]

theorem findClusterCenters_nil (radius : ℚ) : findClusterCenters [] radius = [] := rfl

theorem locate_of_no_seed (opts : Options) (T : Stages) (statics : Option CellStatics)
    (img : Image)
    (h : orientationVotes opts
      (calculateOrientationHistogram opts T.entropy
        (votedCells opts T.angleBin statics img)) = []) :
    acceptedCandidates opts T statics img = [] ∧ locate opts T statics img = [] := by
  have hacc : acceptedCandidates opts T statics img = [] := by
    unfold acceptedCandidates findOrientationHistogramModes
    rw [h]
    rfl
  refine ⟨hacc, ?_⟩
  unfold locate
  simp [hacc]

end BarcodeLocator


namespace BarcodeLocator

open BarcodeDecoder (TPointInt Barcode)

/-- The integer square root of the embedding is the one of the library. -/
theorem floorSqrt_eq (n : Nat) : floorSqrt n = Nat.sqrt n := by
  have hspec : floorSqrt n * floorSqrt n ≤ n :=
    Nat.findGreatest_spec (P := fun k => k * k ≤ n) (Nat.zero_le n) (Nat.zero_le n)
  refine Nat.eq_sqrt.2 ⟨hspec, ?_⟩
  by_contra hlt
  have hle : (floorSqrt n + 1) * (floorSqrt n + 1) ≤ n := Nat.le_of_not_lt hlt
  have hb : floorSqrt n + 1 ≤ n :=
    Nat.le_trans (Nat.le_mul_of_pos_right _ (Nat.succ_pos _)) hle
  exact Nat.findGreatest_is_greatest (P := fun k => k * k ≤ n) (Nat.lt_succ_self _) hb hle

/-- The squared width is the sum of the squares of the coordinate differences. -/
theorem squaredWidth_cast (c : BarcodeCandidate) :
    (c.squaredWidth : ℝ) = ((c.lastEdge.x - c.firstEdge.x : ℤ) : ℝ) ^ 2 +
      ((c.lastEdge.y - c.firstEdge.y : ℤ) : ℝ) ^ 2 := by
  unfold BarcodeCandidate.squaredWidth
  have h : 0 ≤ (c.lastEdge.x - c.firstEdge.x) * (c.lastEdge.x - c.firstEdge.x) +
      (c.lastEdge.y - c.firstEdge.y) * (c.lastEdge.y - c.firstEdge.y) :=
    add_nonneg (mul_self_nonneg _) (mul_self_nonneg _)
  have h2 : (((((c.lastEdge.x - c.firstEdge.x) * (c.lastEdge.x - c.firstEdge.x) +
      (c.lastEdge.y - c.firstEdge.y) * (c.lastEdge.y - c.firstEdge.y)).toNat : ℕ) : ℤ) : ℝ) =
      (((c.lastEdge.x - c.firstEdge.x) * (c.lastEdge.x - c.firstEdge.x) +
      (c.lastEdge.y - c.firstEdge.y) * (c.lastEdge.y - c.firstEdge.y) : ℤ) : ℝ) := by
    rw [Int.toNat_of_nonneg h]
  rw [← Int.cast_natCast, h2]
  push_cast
  ring

/-- A candidate that `scanSegment` accepts passes the test of its last line. -/
theorem scanSegment_accepts (opts : Options) (t : Trace) (aBC : BarcodeCandidate)
    (h : (scanSegment opts t aBC).1 = true) :
    max opts.minEdgesInBarcode
      (densityBound (scanSegment opts t aBC).2 opts.minEdgeDensityInBarcode) <
        (scanSegment opts t aBC).2.nEdges := by
  unfold scanSegment at h ⊢
  simpa using h

/-- Every candidate `getBarcodeCandidates` saves was accepted by `scanSegment`. -/
theorem getBarcodeCandidates_accepted (opts : Options) (T : Stages) (img : Image) (pol : Polar)
    (cells : List (List Cell)) (modes : List Vote) (c : BarcodeCandidate)
    (hc : c ∈ getBarcodeCandidates opts T img pol cells modes) :
    max opts.minEdgesInBarcode (densityBound c opts.minEdgeDensityInBarcode) < c.nEdges := by
  unfold getBarcodeCandidates at hc
  obtain ⟨m, _, hm⟩ := List.mem_flatMap.1 hc
  obtain ⟨p, _, hp⟩ := List.mem_filterMap.1 hm
  simp only at hp
  split_ifs at hp with hacc
  cases hp
  exact scanSegment_accepts opts _ _ hacc

theorem sortedCandidates_perm (l : List BarcodeCandidate) : (sortedCandidates l).Perm l :=
  (List.reverse_perm _).trans (List.perm_insertionSort _ l)

theorem mem_sortedCandidates {l : List BarcodeCandidate} {c : BarcodeCandidate} :
    c ∈ sortedCandidates l ↔ c ∈ l := (sortedCandidates_perm l).mem_iff

/-- After the sort and the reversal no candidate comes before one with more edges. -/
theorem sortedCandidates_pairwise (l : List BarcodeCandidate) :
    (sortedCandidates l).Pairwise (fun a b => b.nEdges ≤ a.nEdges) := by
  unfold sortedCandidates
  rw [List.pairwise_reverse]
  haveI : IsTotal BarcodeCandidate (fun a b => a.nEdges ≤ b.nEdges) :=
    ⟨fun a b => le_total a.nEdges b.nEdges⟩
  haveI : IsTrans BarcodeCandidate (fun a b => a.nEdges ≤ b.nEdges) :=
    ⟨fun _ _ _ h1 h2 => le_trans h1 h2⟩
  exact List.sorted_insertionSort (fun a b : BarcodeCandidate => a.nEdges ≤ b.nEdges) l

theorem locate_eq (opts : Options) (T : Stages) (statics : Option CellStatics) (img : Image) :
    locate opts T statics img =
      (sortedCandidates (acceptedCandidates opts T statics img)).map
        (fun c => c.promote opts.scale) := by
  unfold locate
  by_cases h : (acceptedCandidates opts T statics img).length ≠ 0
  · simp only [if_pos h]
  · have hnil : acceptedCandidates opts T statics img = [] :=
      List.length_eq_zero.1 (not_not.1 h)
    simp only [if_neg h, hnil]
    rfl

/-- C12: for every working image and option set, and whatever an earlier locator of the
process left in the statics of `calculateCellHistograms`, `locate` returns the accepted
candidates after the sort and the reversal, each promoted: the candidates behind the output
are a permutation of the accepted ones, every adjacent pair has the larger edge count first
(and so has every pair, adjacent or not), and promotion multiplies the four endpoint
coordinates by `2 ^ scale`. -/
theorem locate_orders_candidates_by_edge_count (opts : Options) (T : Stages)
    (statics : Option CellStatics) (img : Image) :
    locate opts T statics img =
      (sortedCandidates (acceptedCandidates opts T statics img)).map
        (fun c => c.promote opts.scale) ∧
    (sortedCandidates (acceptedCandidates opts T statics img)).Perm
      (acceptedCandidates opts T statics img) ∧
    (sortedCandidates (acceptedCandidates opts T statics img)).Chain'
      (fun a b => a.nEdges ≥ b.nEdges) ∧
    (sortedCandidates (acceptedCandidates opts T statics img)).Pairwise
      (fun a b => a.nEdges ≥ b.nEdges) ∧
    (locate opts T statics img).length = (acceptedCandidates opts T statics img).length ∧
    ∀ c : BarcodeCandidate,
      (c.promote opts.scale).firstEdge.x = c.firstEdge.x * 2 ^ opts.scale ∧
      (c.promote opts.scale).firstEdge.y = c.firstEdge.y * 2 ^ opts.scale ∧
      (c.promote opts.scale).lastEdge.x = c.lastEdge.x * 2 ^ opts.scale ∧
      (c.promote opts.scale).lastEdge.y = c.lastEdge.y * 2 ^ opts.scale :=
  ⟨locate_eq opts T statics img, sortedCandidates_perm _, (sortedCandidates_pairwise _).chain',
    sortedCandidates_pairwise _,
    by rw [locate_eq, List.length_map]; exact (sortedCandidates_perm _).length_eq,
    fun _ => ⟨rfl, rfl, rfl, rfl⟩⟩

/-- The exact product of the distance `sqrt 292` between the endpoints of `roundingCandidate`
and the density of `roundingOptions` lies between 8 and 9. -/
theorem rounding_exact_floor :
    ⌊Real.sqrt ((((9 : ℤ) - 3 : ℤ) : ℝ) ^ 2 + (((28 : ℤ) - 12 : ℤ) : ℝ) ^ 2) *
      ((527106466899509 / 1125899906842624 : ℚ) : ℝ)⌋ = 8 := by
  have h292 : ((((9 : ℤ) - 3 : ℤ) : ℝ) ^ 2 + (((28 : ℤ) - 12 : ℤ) : ℝ) ^ 2) = 292 := by
    norm_num
  rw [h292, Int.floor_eq_iff]
  have hlo : (17 : ℝ) + 88 / 1000 ≤ Real.sqrt 292 := by
    apply Real.le_sqrt_of_sq_le
    norm_num
  have hlo2 : (8 : ℝ) * (1125899906842624 / 527106466899509) ≤ Real.sqrt 292 := by
    apply Real.le_sqrt_of_sq_le
    norm_num
  have hhi : Real.sqrt 292 ≤ 18 := by
    apply Real.sqrt_le_iff.2
    constructor <;> norm_num
  push_cast
  constructor
  · have h := mul_le_mul_of_nonneg_right hlo2
      (by norm_num : (0 : ℝ) ≤ 527106466899509 / 1125899906842624)
    norm_num at h ⊢
    linarith
  · have h := mul_le_mul_of_nonneg_right hhi
      (by norm_num : (0 : ℝ) ≤ 527106466899509 / 1125899906842624)
    norm_num at h ⊢
    linarith

set_option maxRecDepth 100000 in
/-- The double product for `roundingCandidate` truncates to 7. -/
theorem rounding_densityBound :
    densityBound roundingCandidate roundingOptions.minEdgeDensityInBarcode = 7 := by
  decide!

set_option maxRecDepth 100000 in
/-- The two sweeps over `roundingPolar` from the point `(6, 20)` count eight edges between
`(3, 12)` and `(9, 28)`. -/
theorem rounding_scanTrace :
    scanTrace roundingOptions 40 16 roundingPolar (isAcceptable 18 7) roundingStep 64
      { x := 6, y := 20 } = some roundingTrace := by
  decide!

set_option maxRecDepth 100000 in
/-- The candidate of `roundingTrace` is accepted. -/
theorem rounding_scanSegment :
    scanSegment roundingOptions roundingTrace (BarcodeCandidate.init 7) =
      (true, roundingCandidate) := by
  decide!

/-- For the locator that makes the first call of `calculateCellHistograms` in the process,
every image whose pixels all have the same value gives zero gradients, zero magnitudes, no
voter, an orientation histogram that is all zero, no orientation seed, no candidate and an
empty list from `locate`. -/
theorem first_locator_uniform_image (opts : Options) (T : Stages) (img : Image) (v : Nat)
    (hu : img.Uniform v) :
    (∀ p, (calculateScharrGradients img Gradients.zero).iGrad p = 0 ∧
      (calculateScharrGradients img Gradients.zero).jGrad p = 0) ∧
    (∀ p, (polarGradients opts T.angleBin img).absGrad p = 0) ∧
    (∀ row ∈ votedCells opts T.angleBin none img, ∀ cell ∈ row, cell.nVoters = 0) ∧
    calculateOrientationHistogram opts T.entropy (votedCells opts T.angleBin none img) =
      List.replicate (2 * opts.nOrientations) 0 ∧
    orientationVotes opts
      (calculateOrientationHistogram opts T.entropy (votedCells opts T.angleBin none img)) =
        [] ∧
    acceptedCandidates opts T none img = [] ∧
    locate opts T none img = [] := by
  have hv := votedCells_uniform opts T.angleBin img v hu
  have hh := calculateOrientationHistogram_no_voter opts T.entropy _ hv
  have hs : orientationVotes opts
      (calculateOrientationHistogram opts T.entropy (votedCells opts T.angleBin none img)) =
        [] := by
    rw [hh]
    exact orientationVotes_zero opts
  have hl := locate_of_no_seed opts T none img hs
  exact ⟨fun p => ⟨(calculateScharrGradients_uniform img v hu p).1,
      (calculateScharrGradients_uniform img v hu p).2.1⟩,
    polarGradients_uniform opts T.angleBin img v hu, hv, hh, hs, hl.1, hl.2⟩

set_option maxRecDepth 100000 in
/-- C14, at the failing input: a locator with the default options for the uniform 4 x 8 image
of value 128, made after a locator with the default options for the striped 4 x 8 image.  The
statics of `calculateCellHistograms` still hold the magnitudes of the striped image, and the
one cell of the uniform image receives ten voters; for the first locator of a process the same
image gives the cell no voter. -/
theorem c14_stale_statics_evaluation :
    (3 ≤ flatImage.rows ∧ 3 ≤ flatImage.cols ∧ flatImage.Uniform 128) ∧
    (votedCells defaultOptions axisBin
      (some (CellStatics.init defaultOptions axisBin stripeImage)) flatImage).map
        (fun row => row.map (fun c => c.nVoters)) = [[10]] ∧
    (votedCells defaultOptions axisBin none flatImage).map
        (fun row => row.map (fun c => c.nVoters)) = [[0]] :=
  ⟨⟨by decide, by decide, fun _ _ => rfl⟩, by decide!, by decide!⟩

end BarcodeLocator


/-! ## The convolution pattern: claim C21 -/

namespace UpcaSymbology

theorem toTUInt_eq (w : ℚ) : toTUInt w = ⌊w⌋₊ := by
  unfold toTUInt
  rw [← Int.floor_toNat]
  rfl

/-- Every row of `digitPatterns_`, read in either direction, has four bars that add up to
seven modules. -/
theorem digitPatterns_rows (digit : Nat) (hd : digit < 10) (isFlipped : Bool) :
    ∃ m1 m2 m3 m4 : Nat,
      (if isFlipped then (digitPatterns.getD digit []).reverse else digitPatterns.getD digit []) =
        [m1, m2, m3, m4] ∧ m1 + m2 + m3 + m4 = 7 := by
  interval_cases digit <;> cases isFlipped <;> exact ⟨_, _, _, _, rfl, rfl⟩

theorem getConvolutionPattern_eq (digit : Nat) (x : ℚ) (isFlipped : Bool) (m1 m2 m3 m4 : Nat)
    (hrow : (if isFlipped then (digitPatterns.getD digit []).reverse
      else digitPatterns.getD digit []) = [m1, m2, m3, m4]) :
    getConvolutionPattern digit x isFlipped =
      [⌊x⌋₊, ⌊x * (1 + m1)⌋₊, ⌊x * (1 + m1 + m2)⌋₊, ⌊x * (1 + m1 + m2 + m3)⌋₊,
        ⌊x * (1 + m1 + m2 + m3 + m4)⌋₊, ⌊x * (1 + m1 + m2 + m3 + m4 + 1)⌋₊] := by
  unfold getConvolutionPattern
  simp only [hrow, patternEntries, toTUInt_eq, List.cons_append, List.nil_append]
  have e1 : x + (m1 : ℚ) * x = x * (1 + m1) := by ring
  have e2 : x + (m1 : ℚ) * x + (m2 : ℚ) * x = x * (1 + m1 + m2) := by ring
  have e3 : x + (m1 : ℚ) * x + (m2 : ℚ) * x + (m3 : ℚ) * x = x * (1 + m1 + m2 + m3) := by ring
  have e4 : x + (m1 : ℚ) * x + (m2 : ℚ) * x + (m3 : ℚ) * x + (m4 : ℚ) * x =
      x * (1 + m1 + m2 + m3 + m4) := by ring
  have e5 : x + (m1 : ℚ) * x + (m2 : ℚ) * x + (m3 : ℚ) * x + (m4 : ℚ) * x + x =
      x * (1 + m1 + m2 + m3 + m4 + 1) := by ring
  rw [e5, e4, e3, e2, e1]

/-- C21: for every digit `d` in `0..9`, every module width `x ≥ 0` in exact arithmetic and
either sweep direction, `getConvolutionPattern` emits the six entries `p[0] = ⌊x⌋`,
`p[k] = ⌊x (1 + m_1 + ... + m_k)⌋` for `k = 1..4`, where `m` is the row of `d` in
`digitPatterns_`, read in reverse when flipped, and `p[5] = ⌊9 x⌋`; `p` is non-decreasing and
`p[4] = ⌊8 x⌋`.  As long as `9 x < 2^32` every entry is in the range of `TUInt`. -/
theorem convolution_pattern_entries (digit : Nat) (x : ℚ) (isFlipped : Bool)
    (hd : digit < 10) (hx : 0 ≤ x) :
    ∃ m1 m2 m3 m4 : Nat,
      (if isFlipped then (digitPatterns.getD digit []).reverse else digitPatterns.getD digit []) =
        [m1, m2, m3, m4] ∧
      getConvolutionPattern digit x isFlipped =
        [⌊x⌋₊, ⌊x * (1 + m1)⌋₊, ⌊x * (1 + m1 + m2)⌋₊, ⌊x * (1 + m1 + m2 + m3)⌋₊,
          ⌊x * (1 + m1 + m2 + m3 + m4)⌋₊, ⌊9 * x⌋₊] ∧
      (getConvolutionPattern digit x isFlipped).get? 4 = some ⌊8 * x⌋₊ ∧
      (getConvolutionPattern digit x isFlipped).Chain' (· ≤ ·) ∧
      (9 * x < 2 ^ 32 → ∀ p ∈ getConvolutionPattern digit x isFlipped, p < 2 ^ 32) := by
  obtain ⟨m1, m2, m3, m4, hrow, hsum⟩ := digitPatterns_rows digit hd isFlipped
  have hsumq : (m1 : ℚ) + m2 + m3 + m4 = 7 := by exact_mod_cast hsum
  have h8 : x * (1 + m1 + m2 + m3 + m4) = 8 * x := by linear_combination x * hsumq
  have h9 : x * (1 + m1 + m2 + m3 + m4 + 1) = 9 * x := by linear_combination x * hsumq
  have heq := getConvolutionPattern_eq digit x isFlipped m1 m2 m3 m4 hrow
  have n1 : (0 : ℚ) ≤ m1 := Nat.cast_nonneg m1
  have n2 : (0 : ℚ) ≤ m2 := Nat.cast_nonneg m2
  have n3 : (0 : ℚ) ≤ m3 := Nat.cast_nonneg m3
  have n4 : (0 : ℚ) ≤ m4 := Nat.cast_nonneg m4
  have hmono : ∀ a b : ℚ, a ≤ b → ⌊x * a⌋₊ ≤ ⌊x * b⌋₊ := fun a b hab =>
    Nat.floor_mono (mul_le_mul_of_nonneg_left hab hx)
  have hchain : [⌊x⌋₊, ⌊x * (1 + m1)⌋₊, ⌊x * (1 + m1 + m2)⌋₊, ⌊x * (1 + m1 + m2 + m3)⌋₊,
      ⌊x * (1 + m1 + m2 + m3 + m4)⌋₊, ⌊x * (1 + m1 + m2 + m3 + m4 + 1)⌋₊].Chain' (· ≤ ·) := by
    refine List.Chain'.cons ?_ (List.Chain'.cons ?_ (List.Chain'.cons ?_
      (List.Chain'.cons ?_ (List.Chain'.cons ?_ (List.chain'_singleton _)))))
    · have := hmono 1 (1 + m1) (by linarith)
      rwa [mul_one] at this
    · exact hmono _ _ (by linarith)
    · exact hmono _ _ (by linarith)
    · exact hmono _ _ (by linarith)
    · exact hmono _ _ (by linarith)
  refine ⟨m1, m2, m3, m4, hrow, ?_, ?_, ?_, ?_⟩
  · rw [heq, h9]
  · rw [heq, ← h8]
    rfl
  · rw [heq]
    exact hchain
  · intro hbound p hp
    have hlast : ⌊x * (1 + m1 + m2 + m3 + m4 + 1)⌋₊ < 2 ^ 32 := by
      rw [h9]
      have h0 : (0 : ℚ) ≤ 9 * x := by linarith
      have : ((⌊9 * x⌋₊ : ℕ) : ℚ) < ((2 ^ 32 : ℕ) : ℚ) := by
        push_cast
        exact lt_of_le_of_lt (Nat.floor_le h0) hbound
      exact_mod_cast this
    have hpw : List.Pairwise (· ≤ ·) [⌊x⌋₊, ⌊x * (1 + m1)⌋₊, ⌊x * (1 + m1 + m2)⌋₊,
        ⌊x * (1 + m1 + m2 + m3)⌋₊, ⌊x * (1 + m1 + m2 + m3 + m4)⌋₊,
        ⌊x * (1 + m1 + m2 + m3 + m4 + 1)⌋₊] := List.chain'_iff_pairwise.1 hchain
    rw [heq] at hp
    simp only [List.pairwise_cons, List.mem_cons, List.mem_singleton, forall_eq_or_imp,
      forall_eq] at hpw
    simp only [List.mem_cons, List.mem_singleton] at hp
    rcases hp with rfl | rfl | rfl | rfl | rfl | rfl | hp
    · exact lt_of_le_of_lt hpw.1.2.2.2.2.1 hlast
    · exact lt_of_le_of_lt hpw.2.1.2.2.2.1 hlast
    · exact lt_of_le_of_lt hpw.2.2.1.2.2.1 hlast
    · exact lt_of_le_of_lt hpw.2.2.2.1.2.1 hlast
    · exact lt_of_le_of_lt hpw.2.2.2.2.1.1 hlast
    · exact hlast
    · simp at hp

/-- C21, witness: digit 3 at module width `5/2`, flipped; the row `1 4 1 1` is read as
`1 1 4 1` and the entries are `2 5 7 17 20 22`. -/
theorem convolution_pattern_entries_witness :
    getConvolutionPattern 3 (5 / 2) true = [2, 5, 7, 17, 20, 22] ∧
    ∃ m1 m2 m3 m4 : Nat,
      (if true then (digitPatterns.getD 3 []).reverse else digitPatterns.getD 3 []) =
        [m1, m2, m3, m4] ∧
      getConvolutionPattern 3 (5 / 2) true =
        [⌊(5 / 2 : ℚ)⌋₊, ⌊(5 / 2 : ℚ) * (1 + m1)⌋₊, ⌊(5 / 2 : ℚ) * (1 + m1 + m2)⌋₊,
          ⌊(5 / 2 : ℚ) * (1 + m1 + m2 + m3)⌋₊, ⌊(5 / 2 : ℚ) * (1 + m1 + m2 + m3 + m4)⌋₊,
          ⌊9 * (5 / 2 : ℚ)⌋₊] ∧
      (getConvolutionPattern 3 (5 / 2) true).get? 4 = some ⌊8 * (5 / 2 : ℚ)⌋₊ ∧
      (getConvolutionPattern 3 (5 / 2) true).Chain' (· ≤ ·) ∧
      (9 * (5 / 2 : ℚ) < 2 ^ 32 → ∀ p ∈ getConvolutionPattern 3 (5 / 2) true, p < 2 ^ 32) :=
  ⟨by decide!, convolution_pattern_entries 3 (5 / 2) true (by decide) (by norm_num)⟩

end UpcaSymbology


/-! ## Registration of symbologies: claim C23 -/

namespace BLaDE

open Viterbi (Err)

theorem isRegistered_iff (name : String) : ∀ decoders : List Decoder,
    isRegistered name decoders = true ↔ ∃ d ∈ decoders, d.symbology = name := by
  intro decoders
  induction decoders with
  | nil => simp [isRegistered]
  | cons d rest ih =>
    unfold isRegistered
    by_cases h : d.symbology = name
    · simp [h]
    · simp [h, ih]

/-- C23: `addSymbology(s)` fails if and only if a decoder whose symbology has the name of `s`
is registered already, and then with `std::logic_error`; on failure the list of decoders is
unchanged; on success it is the old list followed by one decoder for `s`, so decoders keep
the order of their registration; the overload for a predefined symbology does the same for
the `UpcaSymbology`, whose name is `UPC-A`. -/
theorem addSymbology_fails_iff_name_registered (decoders : List Decoder) (s : Symbology) :
    ((∃ e, (addSymbology decoders s).1 = Except.error e) ↔
      ∃ d ∈ decoders, d.symbology = s.name) ∧
    ((∃ d ∈ decoders, d.symbology = s.name) →
      addSymbology decoders s = (Except.error Err.logic_error, decoders)) ∧
    ((¬ ∃ d ∈ decoders, d.symbology = s.name) →
      addSymbology decoders s = (Except.ok (), decoders ++ [{ symbology_ := s }])) ∧
    decoders <+: (addSymbology decoders s).2 ∧
    addPredefinedSymbology decoders PredefinedSymbology.UPCA =
      addSymbology decoders upcaSymbology ∧
    upcaSymbology.name = "UPC-A" := by
  have hyes : (∃ d ∈ decoders, d.symbology = s.name) →
      addSymbology decoders s = (Except.error Err.logic_error, decoders) := by
    intro h
    unfold addSymbology
    rw [if_pos ((isRegistered_iff s.name decoders).2 h)]
  have hno : (¬ ∃ d ∈ decoders, d.symbology = s.name) →
      addSymbology decoders s = (Except.ok (), decoders ++ [{ symbology_ := s }]) := by
    intro h
    unfold addSymbology
    rw [if_neg (fun hr => h ((isRegistered_iff s.name decoders).1 hr))]
  refine ⟨⟨?_, ?_⟩, hyes, hno, ?_, rfl, rfl⟩
  · rintro ⟨e, he⟩
    by_contra h
    rw [hno h] at he
    exact nomatch he
  · intro h
    rw [hyes h]
    exact ⟨_, rfl⟩
  · by_cases h : ∃ d ∈ decoders, d.symbology = s.name
    · rw [hyes h]
    · rw [hno h]
      exact ⟨_, rfl⟩

end BLaDE


/-! ## The check digit of the estimate: claim C24 -/

namespace UpcaSymbology

open Viterbi

/-- A list of twelve entries, entry by entry. -/
theorem twelve_entries (l : List Nat) (h : l.length = 12) :
    ∃ d0 d1 d2 d3 d4 d5 d6 d7 d8 d9 d10 d11 : Nat,
      l = [d0, d1, d2, d3, d4, d5, d6, d7, d8, d9, d10, d11] := by
  rcases l with _ | ⟨d0, _ | ⟨d1, _ | ⟨d2, _ | ⟨d3, _ | ⟨d4, _ | ⟨d5, _ | ⟨d6, _ | ⟨d7, _ |
    ⟨d8, _ | ⟨d9, _ | ⟨d10, _ | ⟨d11, _ | ⟨d12, l⟩⟩⟩⟩⟩⟩⟩⟩⟩⟩⟩⟩⟩ <;>
    simp only [List.length_cons, List.length_nil] at h <;> try omega
  exact ⟨d0, d1, d2, d3, d4, d5, d6, d7, d8, d9, d10, d11, rfl⟩

/-- C24: for every energy matrix for which `estimate` returns a non-empty string, the string
spells twelve digits `d_0 .. d_11` that satisfy the check equation of UPC-A,
`3 (d_0 + d_2 + d_4 + d_6 + d_8 + d_10) + (d_1 + d_3 + d_5 + d_7 + d_9 + d_11) = 0 (mod 10)`. -/
theorem estimate_satisfies_check_equation (S : StdSort TEnergy) (minMargin : ℚ)
    (energies : TMatrix ℚ) (str : String)
    (hstr : estimate S minMargin energies = Except.ok str) (hne : str ≠ "") :
    ∃ d0 d1 d2 d3 d4 d5 d6 d7 d8 d9 d10 d11 : Nat,
      str = convertEstimateToString [d0, d1, d2, d3, d4, d5, d6, d7, d8, d9, d10, d11] ∧
      (∀ d ∈ [d0, d1, d2, d3, d4, d5, d6, d7, d8, d9, d10, d11], d < 10) ∧
      (3 * (d0 + d2 + d4 + d6 + d8 + d10) + (d1 + d3 + d5 + d7 + d9 + d11)) % 10 = 0 := by
  obtain ⟨sol0, sol1, hsolve, ⟨s, hs, hseq, _⟩, _, _⟩ := solver_result S energies
  obtain ⟨_, _, hconv⟩ := estimate_nonempty S minMargin energies sol0 sol1 hsolve str hstr hne
  rw [hseq, digitsFrom_ofNat] at hconv
  obtain ⟨⟨hlen, hlt⟩, hlast⟩ := (mem_candidates_input energies s).1 hs
  have hcheck : weightedSum 0 (digitsOf 0 0 s) % 10 = 0 := by
    have := weightedSum_digitsOf s 0 0 (by decide) hlt
    rw [hlast] at this
    simpa using this
  have hdlt := digitsOf_lt s 0 0 (by decide) hlt
  obtain ⟨d0, d1, d2, d3, d4, d5, d6, d7, d8, d9, d10, d11, hds⟩ :=
    twelve_entries (digitsOf 0 0 s) (by rw [digitsOf_length, hlen])
  rw [hds] at hconv hcheck hdlt
  refine ⟨d0, d1, d2, d3, d4, d5, d6, d7, d8, d9, d10, d11, hconv, hdlt, ?_⟩
  simp only [weightedSum] at hcheck
  norm_num at hcheck
  omega

/-- C24, witness: the energies that favour `000000000001`, for which `estimate` returns
`000000000000`. -/
theorem estimate_satisfies_check_equation_witness :
    ∃ d0 d1 d2 d3 d4 d5 d6 d7 d8 d9 d10 d11 : Nat,
      "000000000000" =
        convertEstimateToString [d0, d1, d2, d3, d4, d5, d6, d7, d8, d9, d10, d11] ∧
      (∀ d ∈ [d0, d1, d2, d3, d4, d5, d6, d7, d8, d9, d10, d11], d < 10) ∧
      (3 * (d0 + d2 + d4 + d6 + d8 + d10) + (d1 + d3 + d5 + d7 + d9 + d11)) % 10 = 0 :=
  estimate_satisfies_check_equation stableSort (1 / 50) unconstrainedMatrix "000000000000"
    estimate_unconstrainedMatrix (by decide)

end UpcaSymbology


/-! ## Detected edges with consistent prefix counts -/

namespace BarcodeDecoder

theorem consistentFrom_cons (pos neg : Int) (e : DetectedEdge) (rest : List DetectedEdge) :
    consistentFrom pos neg (e :: rest) = true ↔
      (e.polarity = 1 ∨ e.polarity = -1) ∧ e.nPreviousPositiveEdges = pos ∧
        e.nPreviousNegativeEdges = neg ∧
        consistentFrom (if e.polarity = 1 then pos + 1 else pos)
          (if e.polarity = -1 then neg + 1 else neg) rest = true := by
  simp only [consistentFrom, Bool.and_eq_true, Bool.or_eq_true, decide_eq_true_eq]
  tauto

theorem consistentFrom_ge : ∀ (es : List DetectedEdge) (pos neg : Int),
    consistentFrom pos neg es = true →
      ∀ e ∈ es, pos ≤ e.nPreviousPositiveEdges ∧ neg ≤ e.nPreviousNegativeEdges := by
  intro es
  induction es with
  | nil => intro pos neg _ e he; simp at he
  | cons a rest ih =>
    intro pos neg h e he
    obtain ⟨_, hp, hn, hrest⟩ := (consistentFrom_cons pos neg a rest).1 h
    rcases List.mem_cons.1 he with rfl | he
    · exact ⟨le_of_eq hp.symm, le_of_eq hn.symm⟩
    · have := ih _ _ hrest e he
      constructor
      · refine le_trans ?_ this.1
        split_ifs <;> omega
      · refine le_trans ?_ this.2
        split_ifs <;> omega

theorem consistentFrom_pairwise : ∀ (es : List DetectedEdge) (pos neg : Int),
    consistentFrom pos neg es = true → es.Pairwise StepLe := by
  intro es
  induction es with
  | nil => intro _ _ _; exact List.Pairwise.nil
  | cons a rest ih =>
    intro pos neg h
    obtain ⟨_, hp, hn, hrest⟩ := (consistentFrom_cons pos neg a rest).1 h
    refine List.Pairwise.cons ?_ (ih _ _ hrest)
    intro b hb
    have := consistentFrom_ge rest _ _ hrest b hb
    unfold StepLe
    rw [hp, hn]
    constructor
    · refine le_trans ?_ this.2
      split_ifs <;> omega
    · refine le_trans ?_ this.1
      split_ifs <;> omega

theorem consistentFrom_append : ∀ (l1 l2 : List DetectedEdge) (pos neg : Int),
    consistentFrom pos neg (l1 ++ l2) = true ↔
      consistentFrom pos neg l1 = true ∧
        consistentFrom (pos + Int.ofNat (countPolarity 1 l1))
          (neg + Int.ofNat (countPolarity (-1) l1)) l2 = true := by
  intro l1
  induction l1 with
  | nil => intro l2 pos neg; simp [consistentFrom, countPolarity]
  | cons a rest ih =>
    intro l2 pos neg
    rw [List.cons_append, consistentFrom_cons, consistentFrom_cons, ih]
    have hc1 : Int.ofNat (countPolarity 1 (a :: rest)) =
        (if a.polarity = 1 then 1 else 0) + Int.ofNat (countPolarity 1 rest) := by
      unfold countPolarity
      rw [List.countP_cons]
      by_cases h1 : a.polarity = 1
      · simp [h1]; omega
      · simp [h1]
    have hc2 : Int.ofNat (countPolarity (-1) (a :: rest)) =
        (if a.polarity = -1 then 1 else 0) + Int.ofNat (countPolarity (-1) rest) := by
      unfold countPolarity
      rw [List.countP_cons]
      by_cases h1 : a.polarity = -1
      · simp [h1]; omega
      · simp [h1]
    have e1 : (if a.polarity = 1 then pos + 1 else pos) + Int.ofNat (countPolarity 1 rest) =
        pos + Int.ofNat (countPolarity 1 (a :: rest)) := by
      rw [hc1]; split_ifs <;> omega
    have e2 : (if a.polarity = -1 then neg + 1 else neg) +
        Int.ofNat (countPolarity (-1) rest) =
        neg + Int.ofNat (countPolarity (-1) (a :: rest)) := by
      rw [hc2]; split_ifs <;> omega
    rw [e1, e2]
    tauto

/-- In a consistent list every edge is positive or negative, so the two counts add up to the
length. -/
theorem consistentFrom_length : ∀ (es : List DetectedEdge) (pos neg : Int),
    consistentFrom pos neg es = true →
      countPolarity 1 es + countPolarity (-1) es = es.length := by
  intro es
  induction es with
  | nil => intro _ _ _; rfl
  | cons a rest ih =>
    intro pos neg h
    obtain ⟨hpol, _, _, hrest⟩ := (consistentFrom_cons pos neg a rest).1 h
    have := ih _ _ hrest
    unfold countPolarity at this ⊢
    rw [List.countP_cons, List.countP_cons, List.length_cons]
    rcases hpol with h1 | h1 <;> simp [h1] <;> omega

/-- The counts an edge of a consistent list records are the numbers of positive and of
negative edges before it. -/
theorem consistentFrom_get (es : List DetectedEdge) (pos neg : Int)
    (h : consistentFrom pos neg es = true) (k : Nat) (e : DetectedEdge)
    (hk : es.get? k = some e) :
    (e.polarity = 1 ∨ e.polarity = -1) ∧
    e.nPreviousPositiveEdges = pos + Int.ofNat (countPolarity 1 (es.take k)) ∧
    e.nPreviousNegativeEdges = neg + Int.ofNat (countPolarity (-1) (es.take k)) ∧
    countPolarity 1 (es.take k) + countPolarity (-1) (es.take k) = k := by
  have hklt : k < es.length := by
    rw [List.get?_eq_getElem?] at hk
    exact (List.getElem?_eq_some_iff.1 hk).1
  have hsplit : es = es.take k ++ e :: es.drop (k + 1) := by
    rw [List.get?_eq_getElem?] at hk
    obtain ⟨hlt, hget⟩ := List.getElem?_eq_some_iff.1 hk
    rw [← hget, ← List.drop_eq_getElem_cons hlt, List.take_append_drop]
  rw [hsplit] at h
  obtain ⟨h1, h2⟩ := (consistentFrom_append _ _ pos neg).1 h
  obtain ⟨hpol, hp, hn, _⟩ := (consistentFrom_cons _ _ e _).1 h2
  refine ⟨hpol, hp, hn, ?_⟩
  rw [consistentFrom_length _ _ _ h1, List.length_take, min_eq_left (le_of_lt hklt)]

end BarcodeDecoder


/-! ## Edge extraction: claims C29 and C30 -/

namespace BarcodeDecoder

theorem countPolarity_append (p : Int) (l1 l2 : List DetectedEdge) :
    countPolarity p (l1 ++ l2) = countPolarity p l1 + countPolarity p l2 := by
  unfold countPolarity
  exact List.countP_append _ _ _

theorem scanInv_step (edgeThresh : Int) (W : Nat) (slice : List Int) (n : Nat) (st : EdgeScan)
    (h : ScanInv edgeThresh W slice n st) :
    ScanInv edgeThresh W slice (n + 1) (scanStep edgeThresh W slice st (W + 1 + n)) := by
  obtain ⟨he, hePrev, hshape, hcons, hpos, hneg, hloc, hbound⟩ := h
  have hnext : edgeFilter W slice (W + 1 + n) = edgeFilter W slice (W + n + 1) := by
    rw [Nat.add_right_comm]
  have hbefore : (if W + n = W then (0 : Int) else edgeFilter W slice (W + n - 1)) =
      st.ePrev := by
    rw [hePrev]
    by_cases h0 : n = 0
    · simp [h0]
    · rw [if_neg h0, if_neg (by omega)]
  have hlocn : Int.ofNat (W + 1 + n) - 1 = Int.ofNat (W + n) := by
    simp only [Int.ofNat_eq_coe, Nat.cast_add, Nat.cast_one]
    ring
  have hrange : (List.range (n + 1)).filterMap (expectedAt edgeThresh W slice) =
      (List.range n).filterMap (expectedAt edgeThresh W slice) ++
        (expectedAt edgeThresh W slice n).toList := by
    rw [List.range_succ, List.filterMap_append]
    congr 1
  have hstep : ∀ b ∈ st.edges, b.location < Int.ofNat (W + (n + 1)) := by
    intro b hb
    have := hbound b hb
    simp only [Int.ofNat_eq_coe, Nat.cast_add, Nat.cast_one] at this ⊢
    omega
  have hePrev2 : st.e = if n + 1 = 0 then 0 else edgeFilter W slice (W + (n + 1) - 1) := by
    rw [if_neg (Nat.succ_ne_zero n), he]
    rfl
  unfold scanStep
  by_cases hmax : st.e > edgeThresh ∧ st.e > st.ePrev ∧ st.e ≥ edgeFilter W slice (W + 1 + n)
  · have hcl : expectedAt edgeThresh W slice n = some (1, Int.ofNat (W + n), st.e) := by
      unfold expectedAt classify
      simp only [hbefore, ← he, ← hnext]
      rw [if_pos hmax]
      rfl
    simp only [if_pos hmax]
    refine ⟨hnext, hePrev2, ?_, ?_, ?_, ?_, ?_, ?_⟩
    · rw [hrange, hcl, List.map_append, hshape]
      simp [DetectedEdge.shape]
      omega
    · rw [consistentFrom_append]
      refine ⟨hcons, ?_⟩
      simp [consistentFrom, hpos, hneg]
    · rw [countPolarity_append, hpos]
      simp [countPolarity]
    · rw [countPolarity_append, hneg]
      simp [countPolarity]
    · rw [List.pairwise_append]
      refine ⟨hloc, List.pairwise_singleton _ _, ?_⟩
      intro a ha b hb
      rw [List.mem_singleton.1 hb]
      show a.location < Int.ofNat (W + 1 + n) - 1
      rw [hlocn]
      exact hbound a ha
    · intro b hb
      rcases List.mem_append.1 hb with hb | hb
      · exact hstep b hb
      · rw [List.mem_singleton.1 hb]
        show Int.ofNat (W + 1 + n) - 1 < Int.ofNat (W + (n + 1))
        simp only [Int.ofNat_eq_coe, Nat.cast_add, Nat.cast_one]
        omega
  · simp only [if_neg hmax]
    by_cases hmin : st.e < -edgeThresh ∧ st.e < st.ePrev ∧ st.e ≤ edgeFilter W slice (W + 1 + n)
    · have hcl : expectedAt edgeThresh W slice n = some (-1, Int.ofNat (W + n), -st.e) := by
        unfold expectedAt classify
        simp only [hbefore, ← he, ← hnext]
        rw [if_neg hmax, if_pos hmin]
        rfl
      simp only [if_pos hmin]
      refine ⟨hnext, hePrev2, ?_, ?_, ?_, ?_, ?_, ?_⟩
      · rw [hrange, hcl, List.map_append, hshape]
        simp [DetectedEdge.shape]
        omega
      · rw [consistentFrom_append]
        refine ⟨hcons, ?_⟩
        simp [consistentFrom, hpos, hneg]
      · rw [countPolarity_append, hpos]
        simp [countPolarity]
      · rw [countPolarity_append, hneg]
        simp [countPolarity]
      · rw [List.pairwise_append]
        refine ⟨hloc, List.pairwise_singleton _ _, ?_⟩
        intro a ha b hb
        rw [List.mem_singleton.1 hb]
        show a.location < Int.ofNat (W + 1 + n) - 1
        rw [hlocn]
        exact hbound a ha
      · intro b hb
        rcases List.mem_append.1 hb with hb | hb
        · exact hstep b hb
        · rw [List.mem_singleton.1 hb]
          show Int.ofNat (W + 1 + n) - 1 < Int.ofNat (W + (n + 1))
          simp only [Int.ofNat_eq_coe, Nat.cast_add, Nat.cast_one]
          omega
    · have hcl : expectedAt edgeThresh W slice n = none := by
        unfold expectedAt classify
        simp only [hbefore, ← he, ← hnext]
        rw [if_neg hmax, if_neg hmin]
        rfl
      simp only [if_neg hmin]
      refine ⟨hnext, hePrev2, ?_, hcons, hpos, hneg, hloc, hstep⟩
      rw [hrange, hcl, hshape]
      simp

theorem scanInv_scanEdges (edgeThresh : Int) (W : Nat) (slice : List Int) (n : Nat) :
    ScanInv edgeThresh W slice n (scanEdges edgeThresh W slice n) := by
  unfold scanEdges
  refine BarcodeLocator.foldl_range_inv (fun k st => ScanInv edgeThresh W slice k st) _ n _ ?_ ?_
  · exact ⟨rfl, rfl, rfl, rfl, rfl, rfl, List.Pairwise.nil, fun _ h => absurd h (List.not_mem_nil _)⟩
  · intro k _ st hst
    exact scanInv_step edgeThresh W slice k st hst

end BarcodeDecoder


namespace BarcodeDecoder

theorem extractEdges_eq (staticWidth : Option Nat) (opts : Options) (slice : List Int)
    (hL : 2 * (staticWidth.getD (opts.fundamentalWidth / 2)) + 2 ≤ slice.length) :
    extractEdges staticWidth opts slice =
      some (scanEdges opts.edgeThresh (staticWidth.getD (opts.fundamentalWidth / 2)) slice
        (slice.length - 2 * (staticWidth.getD (opts.fundamentalWidth / 2)) - 2)).edges := by
  unfold extractEdges
  simp only []
  rw [if_neg (by omega)]

/-- The condition of `classify`, written out. -/
theorem classify_eq_some (edgeThresh : Int) (W : Nat) (slice : List Int) (p : Nat)
    (pol mag : Int) :
    classify edgeThresh W slice p = some (pol, mag) ↔
      (pol = 1 ∧ mag = edgeFilter W slice p ∧ edgeFilter W slice p > edgeThresh ∧
        edgeFilter W slice p > (if p = W then 0 else edgeFilter W slice (p - 1)) ∧
        edgeFilter W slice p ≥ edgeFilter W slice (p + 1)) ∨
      (pol = -1 ∧ mag = -edgeFilter W slice p ∧ edgeFilter W slice p < -edgeThresh ∧
        edgeFilter W slice p < (if p = W then 0 else edgeFilter W slice (p - 1)) ∧
        edgeFilter W slice p ≤ edgeFilter W slice (p + 1)) := by
  unfold classify
  simp only []
  by_cases hmax : edgeFilter W slice p > edgeThresh ∧
      edgeFilter W slice p > (if p = W then 0 else edgeFilter W slice (p - 1)) ∧
      edgeFilter W slice p ≥ edgeFilter W slice (p + 1)
  · rw [if_pos hmax]
    simp only [Option.some.injEq, Prod.mk.injEq]
    constructor
    · rintro ⟨rfl, rfl⟩
      exact Or.inl ⟨rfl, rfl, hmax⟩
    · rintro (⟨rfl, rfl, _⟩ | ⟨_, _, _, h2, _⟩)
      · exact ⟨rfl, rfl⟩
      · exact absurd h2 (not_lt.2 (le_of_lt hmax.2.1))
  · rw [if_neg hmax]
    by_cases hmin : edgeFilter W slice p < -edgeThresh ∧
        edgeFilter W slice p < (if p = W then 0 else edgeFilter W slice (p - 1)) ∧
        edgeFilter W slice p ≤ edgeFilter W slice (p + 1)
    · rw [if_pos hmin]
      simp only [Option.some.injEq, Prod.mk.injEq]
      constructor
      · rintro ⟨rfl, rfl⟩
        exact Or.inr ⟨rfl, rfl, hmin⟩
      · rintro (⟨_, _, h⟩ | ⟨rfl, rfl, _⟩)
        · exact absurd h hmax
        · exact ⟨rfl, rfl⟩
    · rw [if_neg hmin]
      constructor
      · intro h
        cases h
      · rintro (⟨_, _, h⟩ | ⟨_, _, h⟩)
        · exact absurd h hmax
        · exact absurd h hmin

/-- With `W` the half-width `extractEdges` filters with, which is the value of its static
(`fundamentalWidth / 2` of the decoder that made the first call of the process), and `e(p)`
the response of the edge filter of half-width `W` at `p`: for every slice of length
`L ≥ 2 W + 2`, `extractEdges` returns, and the edges it emits are, in slice order, those the
positions `p = W .. L - W - 3` call for: an edge of polarity `+1` and magnitude `e(p)` where
`e(p) > edgeThresh`, `e(p) > e(p-1)` and `e(p) ≥ e(p+1)`, an edge of polarity `-1` and
magnitude `-e(p)` where `e(p) < -edgeThresh`, `e(p) < e(p-1)` and `e(p) ≤ e(p+1)`, with
`e(W-1)` taken as `0`, and no edge elsewhere.  Every magnitude emitted exceeds `edgeThresh`. -/
theorem extractEdges_extrema_of_width (staticWidth : Option Nat) (opts : Options)
    (slice : List Int)
    (hL : 2 * (staticWidth.getD (opts.fundamentalWidth / 2)) + 2 ≤ slice.length) :
    ∃ edges, extractEdges staticWidth opts slice = some edges ∧
      edges.map DetectedEdge.shape =
        (List.range (slice.length - 2 * (staticWidth.getD (opts.fundamentalWidth / 2)) - 2)).filterMap
          (expectedAt opts.edgeThresh (staticWidth.getD (opts.fundamentalWidth / 2)) slice) ∧
      (∀ pol loc mag : Int,
        (∃ e ∈ edges, e.polarity = pol ∧ e.location = loc ∧ e.magnitude = mag) ↔
          ∃ p : Nat, (staticWidth.getD (opts.fundamentalWidth / 2)) ≤ p ∧
            p + (staticWidth.getD (opts.fundamentalWidth / 2)) + 3 ≤ slice.length ∧ loc = Int.ofNat p ∧
            ((pol = 1 ∧ mag = edgeFilter (staticWidth.getD (opts.fundamentalWidth / 2)) slice p ∧
                edgeFilter (staticWidth.getD (opts.fundamentalWidth / 2)) slice p > opts.edgeThresh ∧
                edgeFilter (staticWidth.getD (opts.fundamentalWidth / 2)) slice p >
                  (if p = (staticWidth.getD (opts.fundamentalWidth / 2)) then 0
                    else edgeFilter (staticWidth.getD (opts.fundamentalWidth / 2)) slice (p - 1)) ∧
                edgeFilter (staticWidth.getD (opts.fundamentalWidth / 2)) slice p ≥
                  edgeFilter (staticWidth.getD (opts.fundamentalWidth / 2)) slice (p + 1)) ∨
              (pol = -1 ∧ mag = -edgeFilter (staticWidth.getD (opts.fundamentalWidth / 2)) slice p ∧
                edgeFilter (staticWidth.getD (opts.fundamentalWidth / 2)) slice p < -opts.edgeThresh ∧
                edgeFilter (staticWidth.getD (opts.fundamentalWidth / 2)) slice p <
                  (if p = (staticWidth.getD (opts.fundamentalWidth / 2)) then 0
                    else edgeFilter (staticWidth.getD (opts.fundamentalWidth / 2)) slice (p - 1)) ∧
                edgeFilter (staticWidth.getD (opts.fundamentalWidth / 2)) slice p ≤
                  edgeFilter (staticWidth.getD (opts.fundamentalWidth / 2)) slice (p + 1)))) ∧
      ∀ e ∈ edges, opts.edgeThresh < e.magnitude := by
  have hinv := scanInv_scanEdges opts.edgeThresh (staticWidth.getD (opts.fundamentalWidth / 2)) slice
    (slice.length - 2 * (staticWidth.getD (opts.fundamentalWidth / 2)) - 2)
  have hchar : ∀ pol loc mag : Int,
      (∃ e ∈ (scanEdges opts.edgeThresh (staticWidth.getD (opts.fundamentalWidth / 2)) slice
          (slice.length - 2 * (staticWidth.getD (opts.fundamentalWidth / 2)) - 2)).edges,
        e.polarity = pol ∧ e.location = loc ∧ e.magnitude = mag) ↔
      ∃ j, j < slice.length - 2 * (staticWidth.getD (opts.fundamentalWidth / 2)) - 2 ∧
        expectedAt opts.edgeThresh (staticWidth.getD (opts.fundamentalWidth / 2)) slice j = some (pol, loc, mag) := by
    intro pol loc mag
    have h1 : (∃ e ∈ (scanEdges opts.edgeThresh (staticWidth.getD (opts.fundamentalWidth / 2)) slice
          (slice.length - 2 * (staticWidth.getD (opts.fundamentalWidth / 2)) - 2)).edges,
        e.polarity = pol ∧ e.location = loc ∧ e.magnitude = mag) ↔
        (pol, loc, mag) ∈ (scanEdges opts.edgeThresh (staticWidth.getD (opts.fundamentalWidth / 2)) slice
          (slice.length - 2 * (staticWidth.getD (opts.fundamentalWidth / 2)) - 2)).edges.map DetectedEdge.shape := by
      rw [List.mem_map]
      constructor
      · rintro ⟨e, he, rfl, rfl, rfl⟩
        exact ⟨e, he, rfl⟩
      · rintro ⟨e, he, hs⟩
        simp only [DetectedEdge.shape, Prod.mk.injEq] at hs
        exact ⟨e, he, hs.1, hs.2.1, hs.2.2⟩
    rw [h1, hinv.hshape, List.mem_filterMap]
    simp only [List.mem_range]
  refine ⟨_, extractEdges_eq staticWidth opts slice hL, hinv.hshape, ?_, ?_⟩
  · intro pol loc mag
    rw [hchar]
    constructor
    · rintro ⟨j, hj, hex⟩
      unfold expectedAt at hex
      cases hcl : classify opts.edgeThresh (staticWidth.getD (opts.fundamentalWidth / 2)) slice
          ((staticWidth.getD (opts.fundamentalWidth / 2)) + j) with
      | none => rw [hcl] at hex; cases hex
      | some pm =>
        rw [hcl] at hex
        simp only [Option.map_some', Option.some.injEq, Prod.mk.injEq] at hex
        obtain ⟨hp, hl, hm⟩ := hex
        have hcl2 : classify opts.edgeThresh (staticWidth.getD (opts.fundamentalWidth / 2)) slice
            ((staticWidth.getD (opts.fundamentalWidth / 2)) + j) = some (pol, mag) := by
          rw [hcl, ← hp, ← hm]
        exact ⟨(staticWidth.getD (opts.fundamentalWidth / 2)) + j, Nat.le_add_right _ _, by omega, hl.symm,
          (classify_eq_some _ _ _ _ _ _).1 hcl2⟩
    · rintro ⟨p, hp1, hp2, rfl, hcond⟩
      refine ⟨p - (staticWidth.getD (opts.fundamentalWidth / 2)), by omega, ?_⟩
      unfold expectedAt
      have hpe : (staticWidth.getD (opts.fundamentalWidth / 2)) + (p - (staticWidth.getD (opts.fundamentalWidth / 2))) = p := by omega
      rw [hpe, (classify_eq_some _ _ _ _ _ _).2 hcond]
      rfl
  · intro e he
    obtain ⟨j, _, hex⟩ := (hchar e.polarity e.location e.magnitude).1 ⟨e, he, rfl, rfl, rfl⟩
    unfold expectedAt at hex
    cases hcl : classify opts.edgeThresh (staticWidth.getD (opts.fundamentalWidth / 2)) slice
        ((staticWidth.getD (opts.fundamentalWidth / 2)) + j) with
    | none => rw [hcl] at hex; cases hex
    | some pm =>
      rw [hcl] at hex
      simp only [Option.map_some', Option.some.injEq, Prod.mk.injEq] at hex
      obtain ⟨hp, _, hm⟩ := hex
      have hcl2 : classify opts.edgeThresh (staticWidth.getD (opts.fundamentalWidth / 2)) slice
          ((staticWidth.getD (opts.fundamentalWidth / 2)) + j) = some (e.polarity, e.magnitude) := by
        rw [hcl, ← hp, ← hm]
      rcases (classify_eq_some _ _ _ _ _ _).1 hcl2 with ⟨_, hmag, hthr, _⟩ | ⟨_, hmag, hthr, _⟩
      · rw [hmag]; exact hthr
      · rw [hmag]; omega

/-- C30: for every integral slice (of length `L ≥ 2 W + 2`, for which `extractEdges`
returns), whatever half-width `W` the static of `extractEdges` holds (`fundamentalWidth / 2`
on the first call of a process), the edges emitted have strictly increasing locations; the `k`-th edge emitted
records as `nPreviousPositiveEdges` the number of edges of polarity `+1` emitted before it
and as `nPreviousNegativeEdges` the number of those of polarity `-1`, so that its `index()`
is `k`; and both counts are non-decreasing along the list. -/
theorem extractEdges_records_prefix_counts (staticWidth : Option Nat) (opts : Options)
    (slice : List Int)
    (hL : 2 * (staticWidth.getD (opts.fundamentalWidth / 2)) + 2 ≤ slice.length) :
    ∃ edges, extractEdges staticWidth opts slice = some edges ∧
      edges.Pairwise (fun a b => a.location < b.location) ∧
      ConsistentCounts edges ∧
      (∀ (k : Nat) (e : DetectedEdge), edges.get? k = some e →
        (e.polarity = 1 ∨ e.polarity = -1) ∧
        e.nPreviousPositiveEdges = Int.ofNat (countPolarity 1 (edges.take k)) ∧
        e.nPreviousNegativeEdges = Int.ofNat (countPolarity (-1) (edges.take k)) ∧
        e.index = Int.ofNat k) ∧
      edges.Pairwise (fun a b => a.nPreviousPositiveEdges ≤ b.nPreviousPositiveEdges ∧
        a.nPreviousNegativeEdges ≤ b.nPreviousNegativeEdges) := by
  have hinv := scanInv_scanEdges opts.edgeThresh
    (staticWidth.getD (opts.fundamentalWidth / 2)) slice
    (slice.length - 2 * (staticWidth.getD (opts.fundamentalWidth / 2)) - 2)
  refine ⟨_, extractEdges_eq staticWidth opts slice hL, hinv.hloc, hinv.hcons, ?_, ?_⟩
  · intro k e hk
    obtain ⟨hpol, hp, hn, hsum⟩ := consistentFrom_get _ 0 0 hinv.hcons k e hk
    refine ⟨hpol, by rw [hp, zero_add], by rw [hn, zero_add], ?_⟩
    unfold DetectedEdge.index
    rw [hp, hn]
    simp only [Int.ofNat_eq_coe, zero_add]
    omega
  · refine (consistentFrom_pairwise _ 0 0 hinv.hcons).imp ?_
    intro a b hab
    unfold StepLe at hab
    constructor
    · refine le_trans ?_ hab.2
      split_ifs <;> omega
    · refine le_trans ?_ hab.1
      split_ifs <;> omega

/-- C30, witness: the two edges of the slice with one bright bar. -/
theorem extractEdges_records_prefix_counts_witness :
    ∃ edges, extractEdges none smallOptions barSlice = some edges ∧
      edges.Pairwise (fun a b => a.location < b.location) ∧
      ConsistentCounts edges ∧
      (∀ (k : Nat) (e : DetectedEdge), edges.get? k = some e →
        (e.polarity = 1 ∨ e.polarity = -1) ∧
        e.nPreviousPositiveEdges = Int.ofNat (countPolarity 1 (edges.take k)) ∧
        e.nPreviousNegativeEdges = Int.ofNat (countPolarity (-1) (edges.take k)) ∧
        e.index = Int.ofNat k) ∧
      edges.Pairwise (fun a b => a.nPreviousPositiveEdges ≤ b.nPreviousPositiveEdges ∧
        a.nPreviousNegativeEdges ≤ b.nPreviousNegativeEdges) :=
  extractEdges_records_prefix_counts none smallOptions barSlice (by decide)

end BarcodeDecoder


/-! ## Fixed-edge candidates: claims C25 to C28 -/

namespace BarcodeDecoder

open BarcodeSymbology (Edge)

theorem skipTooFew_eq (a b : Int) : ∀ l : List DetectedEdge,
    skipTooFew a b l = if l.dropWhile (tooFew a b) = [] then none
      else some (l.dropWhile (tooFew a b)) := by
  intro l
  induction l with
  | nil => rfl
  | cons e rest ih =>
    unfold skipTooFew
    by_cases h : e.nPreviousNegativeEdges < a ∨ e.nPreviousPositiveEdges < b
    · rw [if_pos h, ih, List.dropWhile_cons_of_pos (by simp [tooFew, h])]
    · rw [if_neg h, List.dropWhile_cons_of_neg (by simp [tooFew, h])]
      simp

theorem collectCandidates_eq (mN mP pol : Int) : ∀ l : List DetectedEdge,
    collectCandidates mN mP pol l =
      (l.takeWhile (fun e => !tooMany mN mP e)).filter (fun e => decide (e.polarity = pol)) := by
  intro l
  induction l with
  | nil => rfl
  | cons e rest ih =>
    unfold collectCandidates
    by_cases h : e.nPreviousNegativeEdges > mN ∨ e.nPreviousPositiveEdges > mP
    · rw [if_pos h, List.takeWhile_cons_of_neg (by simp [tooMany, h])]
      rfl
    · rw [if_neg h, List.takeWhile_cons_of_pos (by simp [tooMany, h])]
      by_cases hp : e.polarity = pol
      · rw [if_pos hp, List.filter_cons_of_pos (by simp [hp]), ih]
      · rw [if_neg hp, List.filter_cons_of_neg (by simp [hp]), ih]

/-- On a list along which `p` stays false once it is false, dropping while `p` holds keeps
the elements at which `p` is false. -/
theorem dropWhile_eq_filter {α : Type} (p : α → Bool) : ∀ l : List α,
    l.Pairwise (fun x y => p x = false → p y = false) →
      l.dropWhile p = l.filter (fun x => !p x) := by
  intro l
  induction l with
  | nil => intro _; rfl
  | cons x xs ih =>
    intro h
    obtain ⟨hx, hxs⟩ := List.pairwise_cons.1 h
    cases hpx : p x with
    | true =>
      rw [List.dropWhile_cons_of_pos hpx, List.filter_cons_of_neg (by simp [hpx]), ih hxs]
    | false =>
      rw [List.dropWhile_cons_of_neg (by simp [hpx]), List.filter_cons_of_pos (by simp [hpx])]
      congr 1
      symm
      rw [List.filter_eq_self]
      intro y hy
      simp [hx y hy hpx]

/-- On a list along which `q` stays false once it is false, taking while `q` holds keeps the
elements at which `q` is true. -/
theorem takeWhile_eq_filter {α : Type} (q : α → Bool) : ∀ l : List α,
    l.Pairwise (fun x y => q x = false → q y = false) → l.takeWhile q = l.filter q := by
  intro l
  induction l with
  | nil => intro _; rfl
  | cons x xs ih =>
    intro h
    obtain ⟨hx, hxs⟩ := List.pairwise_cons.1 h
    cases hqx : q x with
    | true =>
      rw [List.takeWhile_cons_of_pos hqx, List.filter_cons_of_pos hqx, ih hxs]
    | false =>
      rw [List.takeWhile_cons_of_neg (by simp [hqx]), List.filter_cons_of_neg (by simp [hqx])]
      symm
      rw [List.filter_eq_nil_iff]
      intro y hy
      simp [hx y hy hqx]

theorem stepLe_tooFew (a b : Int) (x y : DetectedEdge) (h : StepLe x y)
    (hx : tooFew a b x = false) : tooFew a b y = false := by
  unfold StepLe at h
  unfold tooFew at hx ⊢
  simp only [decide_eq_false_iff_not, not_or, not_lt] at hx ⊢
  obtain ⟨h1, h2⟩ := h
  constructor
  · refine le_trans hx.1 (le_trans ?_ h1)
    split_ifs <;> omega
  · refine le_trans hx.2 (le_trans ?_ h2)
    split_ifs <;> omega

theorem stepLe_tooMany (a b : Int) (x y : DetectedEdge) (h : StepLe x y)
    (hx : (!tooMany a b x) = false) : (!tooMany a b y) = false := by
  unfold StepLe at h
  unfold tooMany at hx ⊢
  simp only [Bool.not_eq_false', decide_eq_true_eq] at hx ⊢
  obtain ⟨h1, h2⟩ := h
  rcases hx with hx | hx
  · left
    have : x.nPreviousNegativeEdges ≤ y.nPreviousNegativeEdges := by
      refine le_trans ?_ h1
      split_ifs <;> omega
    omega
  · right
    have : x.nPreviousPositiveEdges ≤ y.nPreviousPositiveEdges := by
      refine le_trans ?_ h2
      split_ifs <;> omega
    omega

/-- On a list with consistent counts the first loop stops at the first edge of those with
enough previous edges. -/
theorem skipTooFew_filter (a b : Int) (l : List DetectedEdge) (hl : l.Pairwise StepLe) :
    skipTooFew a b l = if l.filter (fun e => !tooFew a b e) = [] then none
      else some (l.filter (fun e => !tooFew a b e)) := by
  rw [skipTooFew_eq, dropWhile_eq_filter _ l (hl.imp (fun h => stepLe_tooFew a b _ _ h))]

/-- On a list with consistent counts the second loop keeps the edges of the right polarity
that do not have too many previous edges. -/
theorem collectCandidates_filter (mN mP pol : Int) (l : List DetectedEdge)
    (hl : l.Pairwise StepLe) :
    collectCandidates mN mP pol l =
      l.filter (fun e => !tooMany mN mP e && decide (e.polarity = pol)) := by
  rw [collectCandidates_eq, takeWhile_eq_filter _ l (hl.imp (fun h => stepLe_tooMany mN mP _ _ h)),
    List.filter_filter]
  congr 1
  funext e
  rw [Bool.and_comm]

end BarcodeDecoder


namespace BarcodeDecoder

open BarcodeSymbology (Edge)

theorem edge_minNeg (n : Edge) : n.nPreviousNegativeEdges = (n.index + 1) / 2 := by
  unfold Edge.nPreviousNegativeEdges
  split_ifs <;> omega

theorem edge_min_mono (a b : Edge) (h : a.index ≤ b.index) :
    a.nPreviousNegativeEdges ≤ b.nPreviousNegativeEdges ∧
      a.nPreviousPositiveEdges ≤ b.nPreviousPositiveEdges := by
  rw [edge_minNeg, edge_minNeg]
  unfold Edge.nPreviousPositiveEdges
  constructor <;> omega

/-- The edges with enough previous edges for `n`, not too many for the slacks and of the
polarity of `n` are those in the window of `n`. -/
theorem window_filter (sN sP : Int) (n : Edge) (es : List DetectedEdge) :
    (es.filter (fun e => !tooFew n.nPreviousNegativeEdges n.nPreviousPositiveEdges e)).filter
        (fun e => !tooMany (n.nPreviousNegativeEdges + sN) (n.nPreviousPositiveEdges + sP) e &&
          decide (e.polarity = n.polarity)) =
      es.filter (inWindow sN sP n) := by
  rw [List.filter_filter]
  apply List.filter_congr
  intro e _
  rw [edge_minNeg]
  unfold tooFew tooMany inWindow Edge.nPreviousPositiveEdges
  rw [Bool.eq_iff_iff]
  simp only [Bool.and_eq_true, Bool.not_eq_true', decide_eq_false_iff_not, decide_eq_true_eq,
    not_or, not_lt, gt_iff_lt]
  tauto

/-- The loop over the fixed edges on a list with consistent counts, started with
`pFirstCandidate` at the first edge that has at least `bN` negative and `bP` positive edges
before it, bounds that no fixed edge still to come undercuts.  If it ends, then with `true`
and the window of every fixed edge, none of them empty, or with `false` at a fixed edge
whose window is empty. -/
theorem candidateLoop_windows (sN sP : Int) (es : List DetectedEdge)
    (hes : es.Pairwise StepLe) :
    ∀ (fixed : List Edge) (bN bP : Int),
      fixed.Pairwise (fun a b => a.index < b.index) →
      (∀ n ∈ fixed, bN ≤ n.nPreviousNegativeEdges ∧ bP ≤ n.nPreviousPositiveEdges) →
      ∀ r, candidateLoop sN sP fixed (es.filter (fun e => !tooFew bN bP e)) = some r →
        (r.1 = true → List.Forall₂
          (fun n c => c ≠ [] ∧ c = es.filter (inWindow sN sP n)) fixed r.2) ∧
        (r.1 = false → ∃ n ∈ fixed, es.filter (inWindow sN sP n) = []) := by
  intro fixed
  induction fixed with
  | nil =>
    intro bN bP _ _ r hr
    simp only [candidateLoop, Option.some.injEq] at hr
    subst hr
    exact ⟨fun _ => List.Forall₂.nil, fun h => (by cases h)⟩
  | cons n rest ih =>
    intro bN bP hpw hb r hr
    obtain ⟨hn, hrest⟩ := List.pairwise_cons.1 hpw
    have hbn := hb n (List.mem_cons_self _ _)
    have hfirst : (es.filter (fun e => !tooFew bN bP e)).filter
        (fun e => !tooFew n.nPreviousNegativeEdges n.nPreviousPositiveEdges e) =
        es.filter (fun e => !tooFew n.nPreviousNegativeEdges n.nPreviousPositiveEdges e) := by
      rw [List.filter_filter]
      apply List.filter_congr
      intro e _
      rw [Bool.eq_iff_iff]
      unfold tooFew
      simp only [Bool.and_eq_true, Bool.not_eq_true', decide_eq_false_iff_not, not_or, not_lt]
      constructor
      · exact fun h => h.1
      · exact fun h => ⟨h, ⟨le_trans hbn.1 h.1, le_trans hbn.2 h.2⟩⟩
    unfold candidateLoop at hr
    rw [skipTooFew_filter _ _ _ (hes.sublist (List.filter_sublist _)), hfirst] at hr
    by_cases hempty : es.filter
        (fun e => !tooFew n.nPreviousNegativeEdges n.nPreviousPositiveEdges e) = []
    · rw [if_pos hempty] at hr
      cases hr
    · rw [if_neg hempty] at hr
      simp only [] at hr
      rw [collectCandidates_filter _ _ _ _ (hes.sublist (List.filter_sublist _)),
        window_filter] at hr
      by_cases hc : (es.filter (inWindow sN sP n)).isEmpty = true
      · rw [if_pos hc] at hr
        simp only [Option.some.injEq] at hr
        subst hr
        exact ⟨fun h => (by cases h), fun _ => ⟨n, List.mem_cons_self _ _, List.isEmpty_iff.1 hc⟩⟩
      · rw [if_neg hc] at hr
        have hne : es.filter (inWindow sN sP n) ≠ [] := fun h => hc (List.isEmpty_iff.2 h)
        cases hrec : candidateLoop sN sP rest
            (es.filter (fun e => !tooFew n.nPreviousNegativeEdges n.nPreviousPositiveEdges e)) with
        | none =>
          rw [hrec] at hr
          cases hr
        | some r2 =>
          rw [hrec] at hr
          simp only [Option.some.injEq] at hr
          subst hr
          obtain ⟨h1, h2⟩ := ih n.nPreviousNegativeEdges n.nPreviousPositiveEdges hrest
            (fun m hm => edge_min_mono n m (le_of_lt (hn m hm))) r2 hrec
          refine ⟨fun h => List.Forall₂.cons ⟨hne, rfl⟩ (h1 h), fun h => ?_⟩
          obtain ⟨m, hm, hmw⟩ := h2 h
          exact ⟨m, List.mem_cons_of_mem _ hm, hmw⟩

/-- For a list with consistent counts the numbers `getFixedEdgeCandidates` computes from the
last edge are the numbers of positive and of negative edges detected. -/
theorem nDetected_eq_count (es : List DetectedEdge) (hc : ConsistentCounts es)
    (lastEdge : DetectedEdge) (hlast : es.getLast? = some lastEdge) :
    nDetectedPositiveEdges lastEdge = Int.ofNat (countPolarity 1 es) ∧
      nDetectedNegativeEdges lastEdge = Int.ofNat (countPolarity (-1) es) := by
  obtain ⟨init, rfl⟩ := List.getLast?_eq_some_iff.1 hlast
  unfold ConsistentCounts at hc
  obtain ⟨_, h2⟩ := (consistentFrom_append _ _ 0 0).1 hc
  obtain ⟨hpol, hp, hn, _⟩ := (consistentFrom_cons _ _ _ _).1 h2
  unfold nDetectedPositiveEdges nDetectedNegativeEdges
  rw [hp, hn, countPolarity_append, countPolarity_append]
  simp only [countPolarity, List.countP_cons, List.countP_nil, Int.ofNat_eq_coe, Nat.cast_add,
    zero_add, Nat.zero_add]
  rcases hpol with h1 | h1 <;> simp [h1]

end BarcodeDecoder


/-! ## The fixed edges of a symbology built by `addSymbol` -/

namespace BarcodeSymbology

theorem layout_empty : Layout empty :=
  ⟨fun _ => rfl, fun _ => rfl, fun _ h => absurd h (List.not_mem_nil _), fun h => absurd rfl h⟩

theorem addEdge_bars (s : BarcodeSymbology) (loc : Int) : (addEdge s loc).1.bars_ = s.bars_ := by
  unfold addEdge
  split_ifs <;> rfl

theorem addEdge_symbols (s : BarcodeSymbology) (loc : Int) :
    (addEdge s loc).1.symbols_ = s.symbols_ ∧ (addEdge s loc).1.dataSymbols_ = s.dataSymbols_ := by
  unfold addEdge
  split_ifs <;> exact ⟨rfl, rfl⟩

theorem addEdge_edges (s : BarcodeSymbology) (loc : Int) :
    (addEdge s loc).1.edges_ =
      s.edges_ ++ [{ index := Int.ofNat s.edges_.length, location := loc }] := by
  unfold addEdge
  split_ifs <;> rfl

theorem addEdge_fixedEdges (s : BarcodeSymbology) (loc : Int) :
    (addEdge s loc).1.fixedEdges_ = s.fixedEdges_ ++
      (if loc ≠ -1 then [{ index := Int.ofNat s.edges_.length, location := loc }] else []) := by
  unfold addEdge
  split_ifs
  · rfl
  · exact (List.append_nil _).symm

theorem fixedFromFirst_addEdge (s : BarcodeSymbology) (loc : Int) (h : FixedFromFirst s) :
    FixedFromFirst (addEdge s loc).1 := by
  obtain ⟨_, h3, n, hn, hn0⟩ := h
  refine ⟨?_, ?_, n, ?_, hn0⟩
  · rw [addEdge_edges]
    simp
  · intro m hm
    rw [addEdge_fixedEdges] at hm
    rcases List.mem_append.1 hm with hm | hm
    · exact h3 m hm
    · split_ifs at hm
      · rw [List.mem_singleton.1 hm]
        exact Int.ofNat_nonneg _
      · cases hm
  · rw [addEdge_fixedEdges]
    cases hf : s.fixedEdges_ with
    | nil => rw [hf] at hn; cases hn
    | cons x xs => rw [hf] at hn; simpa using hn

theorem fixedFromFirst_first (s : BarcodeSymbology) (he : s.edges_ = [])
    (hf : s.fixedEdges_ = []) : FixedFromFirst (addEdge s 0).1 := by
  refine ⟨?_, ?_, ?_⟩
  · rw [addEdge_edges]
    simp
  · intro m hm
    rw [addEdge_fixedEdges, hf, if_pos (by decide)] at hm
    simp only [List.nil_append, List.mem_singleton] at hm
    rw [hm]
    exact Int.ofNat_nonneg _
  · rw [addEdge_fixedEdges, hf, he, if_pos (by decide)]
    exact ⟨_, rfl, rfl⟩

theorem layout_of_fixedFromFirst (s : BarcodeSymbology) (hb : s.bars_ ≠ [])
    (h : FixedFromFirst s) : Layout s :=
  ⟨fun h0 => absurd h0 hb, fun h0 => absurd h0 h.1, h.2.1, fun _ => h.2.2⟩

theorem layout_addBar (s : BarcodeSymbology) (l : Int) (hs : Layout s) (s1 : BarcodeSymbology)
    (b : Bar) (h : addBar s l = some (s1, b)) : Layout s1 := by
  unfold addBar at h
  by_cases hb : s.bars_.length ≠ 0
  · simp only [if_pos hb] at h
    cases hlast : s.edges_.getLast? with
    | none => rw [hlast] at h; simp at h
    | some e =>
      rw [hlast] at h
      simp only [Option.map_some', Option.some.injEq, Prod.mk.injEq] at h
      have hne : s.edges_ ≠ [] := by
        intro h0
        rw [h0] at hlast
        cases hlast
      have hff := fixedFromFirst_addEdge s l ⟨hne, hs.2.2.1, hs.2.2.2 hne⟩
      obtain ⟨rfl, _⟩ := h
      exact layout_of_fixedFromFirst _ (by simp) hff
  · simp only [if_neg hb, Option.some.injEq, Prod.mk.injEq] at h
    have hb0 : s.bars_ = [] := List.length_eq_zero.1 (not_not.1 hb)
    have hff := fixedFromFirst_addEdge _ l (fixedFromFirst_first s (hs.1 hb0) (hs.2.1 (hs.1 hb0)))
    obtain ⟨rfl, _⟩ := h
    exact layout_of_fixedFromFirst _ (by simp) hff

theorem layout_addBars : ∀ (ls : List Int) (s : BarcodeSymbology), Layout s →
    ∀ (s1 : BarcodeSymbology) (bs : List Bar), addBars s ls = some (s1, bs) → Layout s1 := by
  intro ls
  induction ls with
  | nil =>
    intro s hs s1 bs h
    simp only [addBars, Option.some.injEq, Prod.mk.injEq] at h
    rw [← h.1]
    exact hs
  | cons l ls ih =>
    intro s hs s1 bs h
    unfold addBars at h
    cases h1 : addBar s l with
    | none => rw [h1] at h; cases h
    | some r1 =>
      obtain ⟨sa, b⟩ := r1
      rw [h1] at h
      simp only [] at h
      cases h2 : addBars sa ls with
      | none => rw [h2] at h; cases h
      | some r2 =>
        obtain ⟨sb, bs2⟩ := r2
        rw [h2] at h
        simp only [Option.some.injEq, Prod.mk.injEq] at h
        rw [← h.1]
        exact ih sa (layout_addBar s l hs sa b h1) sb bs2 h2

theorem layout_congr (s s2 : BarcodeSymbology) (hs : Layout s) (he : s2.edges_ = s.edges_)
    (hb : s2.bars_ = s.bars_) (hf : s2.fixedEdges_ = s.fixedEdges_) : Layout s2 := by
  unfold Layout
  rw [he, hb, hf]
  exact hs

theorem layout_addSymbol (s : BarcodeSymbology) (width nBars : Nat)
    (pattern : Option (List Nat)) (hs : Layout s) (s2 : BarcodeSymbology)
    (h : addSymbol s width nBars pattern = some s2) : Layout s2 := by
  unfold addSymbol at h
  cases hloc : (if s.symbols_.length > 0 then s.edges_.getLast?.map (fun e => e.location)
      else some 0) with
  | none => rw [hloc] at h; cases h
  | some loc =>
    rw [hloc] at h
    simp only [] at h
    cases pattern with
    | none =>
      simp only [] at h
      cases hadd : addBars s
          (List.replicate (leadingBars nBars) (-1) ++ [asInt32 (loc + Int.ofNat width)]) with
      | none => rw [hadd] at h; cases h
      | some r =>
        obtain ⟨s1, bars⟩ := r
        rw [hadd] at h
        simp only [Option.some.injEq] at h
        have hs1 := layout_addBars _ s hs s1 bars hadd
        rw [← h]
        split_ifs
        · exact layout_congr s1 _ hs1 rfl rfl rfl
        · exact layout_congr s1 _ hs1 rfl rfl rfl
    | some pat =>
      simp only [] at h
      by_cases hlen : pat.length < nBars
      · rw [if_pos hlen] at h
        cases h
      · rw [if_neg hlen] at h
        cases hadd : addBars s (patternLocations loc (pat.take nBars)) with
        | none => rw [hadd] at h; cases h
        | some r =>
          obtain ⟨s1, bars⟩ := r
          rw [hadd] at h
          simp only [Option.some.injEq] at h
          have hs1 := layout_addBars _ s hs s1 bars hadd
          rw [← h]
          split_ifs
          · exact layout_congr s1 _ hs1 rfl rfl rfl
          · exact layout_congr s1 _ hs1 rfl rfl rfl

theorem layout_build : ∀ (calls : List SymbolCall) (s : BarcodeSymbology), Layout s →
    ∀ s2, build s calls = some s2 → Layout s2 := by
  intro calls
  induction calls with
  | nil =>
    intro s hs s2 h
    simp only [build, Option.some.injEq] at h
    rw [← h]
    exact hs
  | cons c cs ih =>
    intro s hs s2 h
    unfold build at h
    cases h1 : addSymbol s c.width c.nBars c.pattern with
    | none => rw [h1] at h; cases h
    | some s1 =>
      rw [h1] at h
      exact ih s1 (layout_addSymbol s _ _ _ hs s1 h1) s2 h

/-- The fixed edges of a symbology built by valid `addSymbol` calls that stay inside the
range of `int`: their indices increase
and are not negative, and when a symbol was added the first of them is the edge of
index 0. -/
theorem build_fixedEdges (calls : List SymbolCall) (hv : ∀ c ∈ calls, c.Valid)
    (hfit : FitsInt calls) (s : BarcodeSymbology) (hs : build empty calls = some s) :
    s.fixedEdges_.Pairwise (fun a b => a.index < b.index) ∧
    (∀ n ∈ s.fixedEdges_, 0 ≤ n.index) ∧
    (calls ≠ [] → ∃ n rest, s.fixedEdges_ = n :: rest ∧ n.index = 0) := by
  have hfit' : (width empty).getD 0 + Int.ofNat (calls.map SymbolCall.advance).sum <
      2147483648 := by
    have hw0 : (width empty).getD 0 = 0 := rfl
    have h := Int.ofNat_lt.2 hfit
    rw [hw0, zero_add]
    exact h
  obtain ⟨s', hs', hinv, hsym, _⟩ := build_inv calls empty inv_empty hv hfit'
  rw [hs] at hs'
  obtain rfl := Option.some.inj hs'
  have hlay := layout_build calls empty layout_empty s hs
  refine ⟨hinv.2.2.2.1, hlay.2.2.1, ?_⟩
  intro hne
  have hsne : s.symbols_ ≠ [] := by
    intro h0
    rw [h0] at hsym
    obtain ⟨c, cs, rfl⟩ := List.exists_cons_of_ne_nil hne
    simp [empty] at hsym
  obtain ⟨_, e, he, _⟩ := hinv.2.1 hsne
  have hene : s.edges_ ≠ [] := by
    intro h0
    rw [h0] at he
    cases he
  obtain ⟨n, hn, hn0⟩ := hlay.2.2.2 hene
  cases hf : s.fixedEdges_ with
  | nil => rw [hf] at hn; cases hn
  | cons x xs =>
    rw [hf] at hn
    simp only [List.head?_cons, Option.some.injEq] at hn
    exact ⟨x, xs, rfl, by rw [hn]; exact hn0⟩

end BarcodeSymbology


namespace BarcodeDecoder

open BarcodeSymbology (Edge)

theorem candidateLoop_negative_slack (sN sP : Int) (n0 : Edge) (rest : List Edge)
    (e0 : DetectedEdge) (tl : List DetectedEdge) (hn0 : n0.index = 0)
    (he0 : 0 ≤ e0.nPreviousNegativeEdges ∧ 0 ≤ e0.nPreviousPositiveEdges)
    (hslack : sN < 0 ∨ sP < 0) :
    candidateLoop sN sP (n0 :: rest) (e0 :: tl) = some (false, [[]]) := by
  have hmN : n0.nPreviousNegativeEdges = 0 := by
    rw [edge_minNeg, hn0]
    rfl
  have hmP : n0.nPreviousPositiveEdges = 0 := by
    unfold Edge.nPreviousPositiveEdges
    rw [hn0]
    rfl
  unfold candidateLoop
  rw [hmN, hmP]
  have hskip : skipTooFew 0 0 (e0 :: tl) = some (e0 :: tl) := by
    unfold skipTooFew
    rw [if_neg (by omega)]
  rw [hskip]
  simp only []
  have hcollect : collectCandidates (0 + sN) (0 + sP) n0.polarity (e0 :: tl) = [] := by
    unfold collectCandidates
    rw [if_pos (by omega)]
  rw [hcollect]
  rfl

/-- Dropping a prefix on which `p` holds from a list whose last element fails `p` leaves a
list with the same last element. -/
theorem dropWhile_getLast? {α : Type} (p : α → Bool) (L : α) (hL : p L = false) :
    ∀ l : List α, l.getLast? = some L → (l.dropWhile p).getLast? = some L := by
  intro l
  induction l with
  | nil => intro h; cases h
  | cons x xs ih =>
    intro h
    cases hpx : p x with
    | false => rw [List.dropWhile_cons_of_neg (by simp [hpx])]; exact h
    | true =>
      rw [List.dropWhile_cons_of_pos hpx]
      cases xs with
      | nil =>
        simp only [List.getLast?_singleton, Option.some.injEq] at h
        rw [h, hL] at hpx
        cases hpx
      | cons y ys =>
        rw [List.getLast?_cons_cons] at h
        exact ih h

theorem mem_collectCandidates (mN mP pol : Int) (l : List DetectedEdge) (e : DetectedEdge)
    (h : e ∈ collectCandidates mN mP pol l) :
    e ∈ l ∧ e.polarity = pol ∧ e.nPreviousNegativeEdges ≤ mN ∧ e.nPreviousPositiveEdges ≤ mP := by
  rw [collectCandidates_eq, List.mem_filter] at h
  obtain ⟨h1, h2⟩ := h
  have h3 := List.mem_takeWhile_imp h1
  refine ⟨(List.takeWhile_sublist _).subset h1, by simpa using h2, ?_⟩
  unfold tooMany at h3
  simp only [Bool.not_eq_true', decide_eq_false_iff_not, not_or, not_lt, gt_iff_lt] at h3
  exact h3

/-- With slacks that are not negative, and a layout of the fixed edges as `safeFrom` asks
for, the loop over the fixed edges ends without leaving the list of detected edges. -/
theorem candidateLoop_defined (sN sP half : Int) (L : DetectedEdge)
    (hsP : sP = nDetectedPositiveEdges L - half) :
    ∀ (fixed : List Edge) (l : List DetectedEdge) (b : Int),
      l.Pairwise StepLe → l.getLast? = some L → b ≤ L.nPreviousNegativeEdges →
      half - 1 ≤ L.nPreviousPositiveEdges → safeFrom half b fixed = true →
      ∃ r, candidateLoop sN sP fixed l = some r := by
  intro fixed
  induction fixed with
  | nil => intro l b _ _ _ _ _; exact ⟨_, rfl⟩
  | cons n rest ih =>
    intro l b hl hlast hb hhalf hsafe
    simp only [safeFrom, Bool.and_eq_true, decide_eq_true_eq] at hsafe
    obtain ⟨⟨h1, h2⟩, h3⟩ := hsafe
    have hLok : tooFew n.nPreviousNegativeEdges n.nPreviousPositiveEdges L = false := by
      unfold tooFew
      simp only [decide_eq_false_iff_not, not_or, not_lt]
      exact ⟨le_trans h1 hb, le_trans h2 hhalf⟩
    have hfirstLast := dropWhile_getLast? _ L hLok l hlast
    have hfirstNe : l.dropWhile (tooFew n.nPreviousNegativeEdges n.nPreviousPositiveEdges) ≠ [] := by
      intro h0
      rw [h0] at hfirstLast
      cases hfirstLast
    have hfirstPw : (l.dropWhile
        (tooFew n.nPreviousNegativeEdges n.nPreviousPositiveEdges)).Pairwise StepLe :=
      hl.sublist (List.dropWhile_sublist _)
    unfold candidateLoop
    rw [skipTooFew_eq, if_neg hfirstNe]
    simp only []
    by_cases hc : (collectCandidates (n.nPreviousNegativeEdges + sN)
        (n.nPreviousPositiveEdges + sP) n.polarity
        (l.dropWhile (tooFew n.nPreviousNegativeEdges n.nPreviousPositiveEdges))).isEmpty = true
    · rw [if_pos hc]
      exact ⟨_, rfl⟩
    · rw [if_neg hc]
      have hb2 : (if n.polarity = -1 then max b (n.nPreviousNegativeEdges + 1) else b) ≤
          L.nPreviousNegativeEdges := by
        by_cases hpol : n.polarity = -1
        · rw [if_pos hpol]
          refine max_le hb ?_
          obtain ⟨e, he⟩ := List.exists_mem_of_ne_nil _ (fun h0 => hc (List.isEmpty_iff.2 h0))
          obtain ⟨hmem, hepol, _, hePos⟩ := mem_collectCandidates _ _ _ _ e he
          have heOk : tooFew n.nPreviousNegativeEdges n.nPreviousPositiveEdges e = false := by
            rw [dropWhile_eq_filter _ l (hl.imp (fun h => stepLe_tooFew _ _ _ _ h)),
              List.mem_filter] at hmem
            simpa using hmem.2
          unfold tooFew at heOk
          simp only [decide_eq_false_iff_not, not_or, not_lt] at heOk
          obtain ⟨pre, hpre⟩ := List.getLast?_eq_some_iff.1 hfirstLast
          rw [hpre] at hmem hfirstPw
          rcases List.mem_append.1 hmem with hin | hin
          · have hstep := (List.pairwise_append.1 hfirstPw).2.2 e hin L (List.mem_singleton_self _)
            unfold StepLe at hstep
            rw [hepol, hpol, if_pos rfl] at hstep
            omega
          · rw [List.mem_singleton.1 hin, hsP] at hePos
            rw [List.mem_singleton.1 hin, hpol] at hepol
            unfold nDetectedPositiveEdges at hePos
            rw [hepol, if_neg (by decide)] at hePos
            omega
        · rw [if_neg hpol]
          exact hb
      obtain ⟨r2, hr2⟩ := ih _ _ hfirstPw hfirstLast hb2 hhalf h3
      rw [hr2]
      exact ⟨_, rfl⟩

/-- On the call that initialises the statics, `getFixedEdgeCandidates` runs the loop over all
the fixed edges of its symbology with the slacks taken from that symbology. -/
theorem getFixedEdgeCandidates_first (s : BarcodeSymbology) (es : List DetectedEdge)
    (L : DetectedEdge) (hlast : es.getLast? = some L) :
    getFixedEdgeCandidates none s es =
      candidateLoop (nDetectedNegativeEdges L - Int.ofNat (s.nTotalEdges / 2))
        (nDetectedPositiveEdges L - Int.ofNat (s.nTotalEdges / 2)) s.fixedEdges_ es := by
  unfold getFixedEdgeCandidates
  simp only [Option.getD_none, CandidateStatics.init, BarcodeSymbology.nFixedEdges,
    List.take_length, hlast, le_refl, if_true]
  cases candidateLoop (nDetectedNegativeEdges L - Int.ofNat (s.nTotalEdges / 2))
      (nDetectedPositiveEdges L - Int.ofNat (s.nTotalEdges / 2)) s.fixedEdges_ es with
  | none => rfl
  | some r =>
    obtain ⟨b, sets⟩ := r
    cases b <;> rfl

/-- Whatever the statics hold, `getFixedEdgeCandidates` reads `detectedEdges.back()` of an
empty vector when no edge was detected. -/
theorem getFixedEdgeCandidates_nil (statics : Option CandidateStatics) (s : BarcodeSymbology) :
    getFixedEdgeCandidates statics s [] = none := rfl

/-- A symbology whose first fixed edge is its first edge and whose fixed edges are laid out
as `safeFrom` asks for: on the call that initialises the statics, `getFixedEdgeCandidates`
ends without reading outside a non-empty list of detected edges with consistent counts. -/
theorem getFixedEdgeCandidates_defined (s : BarcodeSymbology) (es : List DetectedEdge)
    (hne : es ≠ []) (hc : ConsistentCounts es)
    (hhead : ∀ n rest, s.fixedEdges_ = n :: rest → n.index = 0)
    (hsafe : safeFrom (Int.ofNat (s.nTotalEdges / 2)) (Int.ofNat (s.nTotalEdges / 2) - 1)
      s.fixedEdges_ = true) :
    ∃ r, getFixedEdgeCandidates none s es = some r := by
  obtain ⟨e0, tl, rfl⟩ := List.exists_cons_of_ne_nil hne
  obtain ⟨_, hp0, hn0, _⟩ := (consistentFrom_cons 0 0 e0 tl).1 hc
  cases hlast : (e0 :: tl).getLast? with
  | none => simp at hlast
  | some L =>
    rw [getFixedEdgeCandidates_first s _ L hlast]
    by_cases hslack : nDetectedNegativeEdges L - Int.ofNat (s.nTotalEdges / 2) < 0 ∨
        nDetectedPositiveEdges L - Int.ofNat (s.nTotalEdges / 2) < 0
    · cases hf : s.fixedEdges_ with
      | nil => exact ⟨_, rfl⟩
      | cons n rest =>
        rw [candidateLoop_negative_slack _ _ n rest e0 tl (hhead n rest hf)
          ⟨le_of_eq hn0.symm, le_of_eq hp0.symm⟩ hslack]
        exact ⟨_, rfl⟩
    · have hs1 : 0 ≤ nDetectedNegativeEdges L - Int.ofNat (s.nTotalEdges / 2) := by omega
      have hs2 : 0 ≤ nDetectedPositiveEdges L - Int.ofNat (s.nTotalEdges / 2) := by omega
      refine candidateLoop_defined _ _ (Int.ofNat (s.nTotalEdges / 2)) L rfl s.fixedEdges_
        (e0 :: tl) _ (consistentFrom_pairwise _ 0 0 hc) hlast ?_ ?_ hsafe
      · unfold nDetectedNegativeEdges at hs1
        split_ifs at hs1 <;> omega
      · unfold nDetectedPositiveEdges at hs2
        split_ifs at hs2 <;> omega

end BarcodeDecoder


namespace BarcodeDecoder

open BarcodeSymbology (Edge SymbolCall build)

/-- For the decoder that makes the first call of `getFixedEdgeCandidates` in the process, for
every symbology built by `addSymbol` calls and every detected-edge list with consistent prefix
counts: if the call returns `true` then it has filled one candidate set for every fixed edge,
none of them empty, and the set of the fixed edge `n` with index `k` is, in slice order,
exactly the detected edges `e` with the polarity of `n`, `⌈k/2⌉ ≤ e.prevNeg ≤ ⌈k/2⌉ + slackNeg`
and `⌊k/2⌋ ≤ e.prevPos ≤ ⌊k/2⌋ + slackPos`, where `slackNeg` and `slackPos` are the numbers
of detected negative and positive edges in excess of `nTotalEdges / 2`. -/
theorem first_call_candidates_are_windows (calls : List SymbolCall)
    (hv : ∀ c ∈ calls, c.Valid) (hfit : BarcodeSymbology.FitsInt calls) (s : BarcodeSymbology)
    (hs : build BarcodeSymbology.empty calls = some s) (es : List DetectedEdge)
    (hc : ConsistentCounts es) (cands : List (List DetectedEdge))
    (h : getFixedEdgeCandidates none s es = some (true, cands)) :
    es ≠ [] ∧
    List.Forall₂
      (fun n c => c ≠ [] ∧ c = es.filter
        (inWindow (Int.ofNat (countPolarity (-1) es) - Int.ofNat (s.nTotalEdges / 2))
          (Int.ofNat (countPolarity 1 es) - Int.ofNat (s.nTotalEdges / 2)) n))
      s.fixedEdges_ cands := by
  obtain ⟨hpw, hidx, _⟩ := BarcodeSymbology.build_fixedEdges calls hv hfit s hs
  cases hlast : es.getLast? with
  | none =>
    have h0 : es = [] := List.getLast?_eq_none_iff.1 hlast
    rw [h0, getFixedEdgeCandidates_nil] at h
    cases h
  | some L =>
    rw [getFixedEdgeCandidates_first s es L hlast] at h
    obtain ⟨hP, hN⟩ := nDetected_eq_count es hc L hlast
    rw [hP, hN] at h
    have hfil : es.filter (fun e => !tooFew 0 0 e) = es := by
      rw [List.filter_eq_self]
      intro e he
      have := consistentFrom_ge es 0 0 hc e he
      unfold tooFew
      simp only [Bool.not_eq_true', decide_eq_false_iff_not, not_or, not_lt]
      exact ⟨this.2, this.1⟩
    refine ⟨fun h0 => (by rw [h0] at hlast; cases hlast), ?_⟩
    refine (candidateLoop_windows _ _ es (consistentFrom_pairwise es 0 0 hc) s.fixedEdges_ 0 0
      hpw ?_ (true, cands) (by rw [hfil]; exact h)).1 rfl
    intro n hn
    have h0 := hidx n hn
    rw [edge_minNeg]
    unfold Edge.nPreviousPositiveEdges
    constructor <;> omega

/-- The UPC-A symbology and sixty detected edges of alternating polarity, on the first call
of a process: every fixed edge has exactly one candidate. -/
theorem first_call_candidates_example :
    ∃ s cands, build BarcodeSymbology.empty UpcaSymbology.symbolCalls = some s ∧
      getFixedEdgeCandidates none s (alternatingEdges 60) = some (true, cands) ∧
      cands.map List.length = List.replicate 24 1 ∧
      alternatingEdges 60 ≠ [] ∧
      List.Forall₂
        (fun n c => c ≠ [] ∧ c = (alternatingEdges 60).filter
          (inWindow (Int.ofNat (countPolarity (-1) (alternatingEdges 60)) -
              Int.ofNat (s.nTotalEdges / 2))
            (Int.ofNat (countPolarity 1 (alternatingEdges 60)) -
              Int.ofNat (s.nTotalEdges / 2)) n))
        s.fixedEdges_ cands :=
  ⟨(build BarcodeSymbology.empty UpcaSymbology.symbolCalls).getD BarcodeSymbology.empty,
    ((getFixedEdgeCandidates none
      ((build BarcodeSymbology.empty UpcaSymbology.symbolCalls).getD BarcodeSymbology.empty)
      (alternatingEdges 60)).getD (false, [])).2,
    by decide, by decide, by decide,
    first_call_candidates_are_windows UpcaSymbology.symbolCalls
      (by unfold SymbolCall.Valid; decide) (by unfold BarcodeSymbology.FitsInt; decide) _
      (by decide) (alternatingEdges 60) (by decide) _ (by decide)⟩

/-- No edge lies in a window whose slack is negative. -/
theorem inWindow_negative_slack (sN sP : Int) (n : Edge) (e : DetectedEdge)
    (h : sN < 0 ∨ sP < 0) : inWindow sN sP n e = false := by
  unfold inWindow
  rw [Bool.eq_false_iff]
  simp only [ne_eq, Bool.and_eq_true, decide_eq_true_eq, not_and]
  rintro ⟨⟨⟨_, h1⟩, h2⟩, h3⟩ h4
  omega

/-- C25, at the failing input: a decoder for UPC-A reading four detected edges of alternating
polarity after a decoder for a symbology of one guard symbol (four edges, all fixed) has run
in the process.  The statics of `getFixedEdgeCandidates` still hold the expected counts 2 and
2 and the number 4 of fixed edges: the call returns `true` with four candidate sets, one
detected edge each, for the 24 fixed edges of UPC-A.  The windows of the claim, whose slacks
are the detected counts 2 and 2 in excess of `nTotalEdges / 2 = 30`, are all empty, and the
candidate sets are not those windows. -/
theorem c25_stale_statics_evaluation :
    ∃ s, UpcaSymbology.symbology = some s ∧
      CandidateStatics.init guardSymbology =
        { nPositiveEdges := 2, nNegativeEdges := 2, nFixedEdges := 4 } ∧
      alternatingEdges 4 ≠ [] ∧ ConsistentCounts (alternatingEdges 4) ∧
      s.nTotalEdges / 2 = 30 ∧ s.fixedEdges_.length = 24 ∧
      ∃ cands, getFixedEdgeCandidates (some (CandidateStatics.init guardSymbology)) s
          (alternatingEdges 4) = some (true, cands) ∧
        cands.map (fun c => c.map (fun e => e.location)) = [[0], [10], [20], [30]] ∧
        (∀ n : Edge, (alternatingEdges 4).filter
          (inWindow (Int.ofNat (countPolarity (-1) (alternatingEdges 4)) -
              Int.ofNat (s.nTotalEdges / 2))
            (Int.ofNat (countPolarity 1 (alternatingEdges 4)) -
              Int.ofNat (s.nTotalEdges / 2)) n) = []) ∧
        ¬ List.Forall₂
          (fun n c => c ≠ [] ∧ c = (alternatingEdges 4).filter
            (inWindow (Int.ofNat (countPolarity (-1) (alternatingEdges 4)) -
                Int.ofNat (s.nTotalEdges / 2))
              (Int.ofNat (countPolarity 1 (alternatingEdges 4)) -
                Int.ofNat (s.nTotalEdges / 2)) n))
          s.fixedEdges_ cands := by
  refine ⟨UpcaSymbology.symbology.getD BarcodeSymbology.empty, by decide, by decide, by decide,
    by decide, by decide, by decide,
    ((getFixedEdgeCandidates (some (CandidateStatics.init guardSymbology))
      (UpcaSymbology.symbology.getD BarcodeSymbology.empty) (alternatingEdges 4)).getD
        (false, [])).2, by decide, by decide, ?_, ?_⟩
  · intro n
    rw [List.filter_eq_nil_iff]
    intro e _
    rw [inWindow_negative_slack _ _ n e (Or.inl (by decide))]
    exact Bool.false_ne_true
  · intro h
    have hlen := h.length_eq
    revert hlen
    decide

/-- For the decoder that makes the first call of `getFixedEdgeCandidates` in the process, for
every symbology built by `addSymbol` calls and every non-empty detected-edge list (with
consistent prefix counts) in which the number of detected positive edges or the number of
detected negative edges is smaller than `nTotalEdges / 2`: the corresponding slack is
negative, the call returns `false`, at the first fixed edge and without reading outside the
list, so that `read` returns `DECODING_FAILED`; and the negative slack widens no window: the
window of every fixed edge is empty. -/
theorem first_call_negative_slack_fails (calls : List SymbolCall)
    (hv : ∀ c ∈ calls, c.Valid) (hfit : BarcodeSymbology.FitsInt calls) (s : BarcodeSymbology)
    (hs : build BarcodeSymbology.empty calls = some s) (es : List DetectedEdge)
    (hne : es ≠ []) (hc : ConsistentCounts es)
    (hfew : countPolarity 1 es < s.nTotalEdges / 2 ∨ countPolarity (-1) es < s.nTotalEdges / 2) :
    (∃ lastEdge, es.getLast? = some lastEdge ∧
      nDetectedPositiveEdges lastEdge = Int.ofNat (countPolarity 1 es) ∧
      nDetectedNegativeEdges lastEdge = Int.ofNat (countPolarity (-1) es) ∧
      (nDetectedNegativeEdges lastEdge - Int.ofNat (s.nTotalEdges / 2) < 0 ∨
        nDetectedPositiveEdges lastEdge - Int.ofNat (s.nTotalEdges / 2) < 0)) ∧
    getFixedEdgeCandidates none s es = some (false, [[]]) ∧
    (∀ n : Edge, es.filter
      (inWindow (Int.ofNat (countPolarity (-1) es) - Int.ofNat (s.nTotalEdges / 2))
        (Int.ofNat (countPolarity 1 es) - Int.ofNat (s.nTotalEdges / 2)) n) = []) ∧
    (∀ (M N : Nat) (name : String) (estimateOf : Nat → String) (bc : Barcode),
      shouldAttemptDecoding M N bc = true →
        read M N name false estimateOf bc = (Result.DECODING_FAILED, bc)) := by
  obtain ⟨_, _, hhead⟩ := BarcodeSymbology.build_fixedEdges calls hv hfit s hs
  have hcalls : calls ≠ [] := by
    intro h0
    rw [h0] at hs
    simp only [build, Option.some.injEq] at hs
    rw [← hs] at hfew
    simp [BarcodeSymbology.nTotalEdges, BarcodeSymbology.empty] at hfew
  obtain ⟨n0, rest, hfixed, hn0⟩ := hhead hcalls
  obtain ⟨e0, tl, rfl⟩ := List.exists_cons_of_ne_nil hne
  obtain ⟨_, hp0, hneg0, _⟩ := (consistentFrom_cons 0 0 e0 tl).1 hc
  cases hlast : (e0 :: tl).getLast? with
  | none => simp at hlast
  | some L =>
    obtain ⟨hP, hN⟩ := nDetected_eq_count _ hc L hlast
    have hslack : nDetectedNegativeEdges L - Int.ofNat (s.nTotalEdges / 2) < 0 ∨
        nDetectedPositiveEdges L - Int.ofNat (s.nTotalEdges / 2) < 0 := by
      rw [hP, hN]
      simp only [Int.ofNat_eq_coe]
      omega
    refine ⟨⟨L, rfl, hP, hN, hslack⟩, ?_, ?_, ?_⟩
    · rw [getFixedEdgeCandidates_first s _ L hlast, hfixed]
      exact candidateLoop_negative_slack _ _ n0 rest e0 tl hn0
        ⟨le_of_eq hneg0.symm, le_of_eq hp0.symm⟩ hslack
    · intro n
      rw [List.filter_eq_nil_iff]
      intro e _
      rw [hP, hN] at hslack
      rw [inWindow_negative_slack _ _ n e hslack]
      exact Bool.false_ne_true
    · intro M N name estimateOf bc hgate
      unfold read
      rw [hgate]
      rfl

/-- C27, at the failing input: a decoder for UPC-A reading 58 detected edges of alternating
polarity, 29 positive and 29 negative, after a decoder for a symbology of one guard symbol
(four edges, all fixed) has run in the process.  Both detected counts are smaller than
`nTotalEdges / 2 = 30`, but the statics of `getFixedEdgeCandidates` still hold the expected
counts 2 and 2 and the number 4 of fixed edges: the slacks are 27 and the call returns `true`
after four fixed edges, with windows of 28 edges each.  On the first call of a process the
same input returns `false`. -/
theorem c27_stale_statics_evaluation :
    ∃ s, UpcaSymbology.symbology = some s ∧
      CandidateStatics.init guardSymbology =
        { nPositiveEdges := 2, nNegativeEdges := 2, nFixedEdges := 4 } ∧
      alternatingEdges 58 ≠ [] ∧ ConsistentCounts (alternatingEdges 58) ∧
      countPolarity 1 (alternatingEdges 58) = 29 ∧
      countPolarity (-1) (alternatingEdges 58) = 29 ∧ s.nTotalEdges / 2 = 30 ∧
      (∃ cands, getFixedEdgeCandidates (some (CandidateStatics.init guardSymbology)) s
          (alternatingEdges 58) = some (true, cands) ∧
        cands.map List.length = [28, 28, 28, 28]) ∧
      getFixedEdgeCandidates none s (alternatingEdges 58) = some (false, [[]]) :=
  ⟨UpcaSymbology.symbology.getD BarcodeSymbology.empty, by decide, by decide, by decide,
    by decide, by decide, by decide, by decide,
    ⟨((getFixedEdgeCandidates (some (CandidateStatics.init guardSymbology))
      (UpcaSymbology.symbology.getD BarcodeSymbology.empty) (alternatingEdges 58)).getD
        (false, [])).2, by decide, by decide⟩,
    by decide⟩

/-- For the decoder that makes the first call of `getFixedEdgeCandidates` in the process, for
the UPC-A symbology and every non-empty detected-edge list with consistent prefix counts:
the call ends, returning `true` or `false`, without reading outside the list: the pointer
`pFirstCandidate` is never moved past the last detected edge.  (The fixed edge of index 59
asks for 30 negative edges before its candidates; when the last detected edge is the 30th
negative one, the fixed edge of index 58 before it has no candidate and the call has
returned `false`.) -/
theorem first_call_pointer_stays_inside (es : List DetectedEdge) (hne : es ≠ [])
    (hc : ConsistentCounts es) :
    ∃ s, UpcaSymbology.symbology = some s ∧
      ∃ (r : Bool) (sets : List (List DetectedEdge)),
        getFixedEdgeCandidates none s es = some (r, sets) := by
  refine ⟨UpcaSymbology.symbology.getD BarcodeSymbology.empty, by decide, ?_⟩
  have hhead : ∀ n rest,
      (UpcaSymbology.symbology.getD BarcodeSymbology.empty).fixedEdges_ = n :: rest →
        n.index = 0 := by
    intro n rest h
    have h0 : ((UpcaSymbology.symbology.getD BarcodeSymbology.empty).fixedEdges_.head?.map
        (fun e => e.index)) = some 0 := by decide
    rw [h] at h0
    simpa using h0
  obtain ⟨r, hr⟩ := getFixedEdgeCandidates_defined _ es hne hc hhead (by decide)
  exact ⟨r.1, r.2, hr⟩

/-- C28, at the failing input: a decoder for UPC-A reading twelve detected edges of
alternating polarity after a decoder for a symbology of one special symbol of eleven bars
(twelve edges, all fixed) has run in the process.  The statics of `getFixedEdgeCandidates`
still hold the expected counts 6 and 6 and the number 12 of fixed edges: the slacks are 0,
the fixed edges of index 0, 1, 2, 3, 7 and 11 find a candidate, and for the seventh fixed
edge, of index 15, which asks for 8 negative edges before its candidates, the loop that
skips the edges with too few previous edges steps past the last detected edge.  On the first
call of a process the same input returns `false`. -/
theorem c28_stale_statics_evaluation :
    ∃ s, UpcaSymbology.symbology = some s ∧
      CandidateStatics.init ladderSymbology =
        { nPositiveEdges := 6, nNegativeEdges := 6, nFixedEdges := 12 } ∧
      alternatingEdges 12 ≠ [] ∧ ConsistentCounts (alternatingEdges 12) ∧
      (s.fixedEdges_.take 7).map (fun n => n.index) = [0, 1, 2, 3, 7, 11, 15] ∧
      (s.fixedEdges_.get? 6).map (fun n => n.nPreviousNegativeEdges) = some 8 ∧
      (∀ e ∈ alternatingEdges 12, e.nPreviousNegativeEdges < 8) ∧
      skipTooFew 8 7 (alternatingEdges 12) = none ∧
      getFixedEdgeCandidates (some (CandidateStatics.init ladderSymbology)) s
        (alternatingEdges 12) = none ∧
      getFixedEdgeCandidates none s (alternatingEdges 12) = some (false, [[]]) :=
  ⟨UpcaSymbology.symbology.getD BarcodeSymbology.empty, by decide, by decide, by decide,
    by decide, by decide, by decide, by decide, by decide, by decide, by decide⟩

theorem getD_uniformSlice (v : Int) (n i : Nat) (hi : i < n) :
    (uniformSlice v n).getD i 0 = v * (Int.ofNat i + 1) := by
  unfold uniformSlice
  rw [List.getD_eq_getElem?_getD, List.getElem?_map, List.getElem?_range hi]
  rfl

theorem edgeFilter_uniformSlice (v : Int) (n W p : Nat) (hW : W ≤ p) (hp : p + W < n) :
    edgeFilter W (uniformSlice v n) p = 0 := by
  unfold edgeFilter
  rw [getD_uniformSlice v n _ hp, getD_uniformSlice v n _ (by omega),
    getD_uniformSlice v n _ (by omega)]
  have : Int.ofNat (p - W) = Int.ofNat p - Int.ofNat W := by
    simp only [Int.ofNat_eq_coe]
    omega
  rw [this]
  simp only [Int.ofNat_eq_coe, Nat.cast_add]
  ring

/-- The integral slice of a uniform row has no edge, whatever half-width the filter has. -/
theorem extractEdges_uniformSlice (staticWidth : Option Nat) (opts : Options) (v : Int)
    (n : Nat) (hthr : 0 ≤ opts.edgeThresh)
    (hn : 2 * (staticWidth.getD (opts.fundamentalWidth / 2)) + 2 ≤ n) :
    extractEdges staticWidth opts (uniformSlice v n) = some [] := by
  have hlen : (uniformSlice v n).length = n := by simp [uniformSlice]
  rw [extractEdges_eq staticWidth opts _ (by rw [hlen]; exact hn)]
  have hinv := scanInv_scanEdges opts.edgeThresh (staticWidth.getD (opts.fundamentalWidth / 2))
    (uniformSlice v n)
    ((uniformSlice v n).length - 2 * (staticWidth.getD (opts.fundamentalWidth / 2)) - 2)
  have hnil : (List.range
      ((uniformSlice v n).length - 2 * (staticWidth.getD (opts.fundamentalWidth / 2)) - 2)).filterMap
      (expectedAt opts.edgeThresh (staticWidth.getD (opts.fundamentalWidth / 2))
        (uniformSlice v n)) = [] := by
    rw [List.filterMap_eq_nil_iff]
    intro j hj
    rw [List.mem_range, hlen] at hj
    unfold expectedAt classify
    simp only []
    rw [edgeFilter_uniformSlice v n _ _ (Nat.le_add_right _ _) (by omega)]
    rw [if_neg (by omega), if_neg (by omega)]
    rfl
  have hmap := hinv.hshape
  rw [hnil] at hmap
  rw [List.map_eq_nil_iff.1 hmap]

/-- C26, the failing input: a candidate across the middle of a uniform 240 x 320 image passes
the resolution gate; the integral slice of 990 samples is linear and `extractEdges` emits no
edge; `getFixedEdgeCandidates` then takes `detectedEdges.back()` of the empty vector, a read
outside the vector, instead of returning `false`.  This is so on the first call of a process
and whatever the statics of the two functions hold afterwards. -/
theorem localize_without_edges_reads_outside :
    shouldAttemptDecoding 240 320 middleCandidate = true ∧
    extractEdges none defaultOptions (uniformSlice 128 990) = some [] ∧
    ∃ s, UpcaSymbology.symbology = some s ∧
      (∀ statics : Option CandidateStatics, getFixedEdgeCandidates statics s [] = none) ∧
      fixedEdgeCandidatesOfSlice none none s defaultOptions (uniformSlice 128 990) = none ∧
      ∀ (staticWidth : Option Nat) (statics : Option CandidateStatics),
        fixedEdgeCandidatesOfSlice staticWidth statics s defaultOptions
          (uniformSlice 128 990) = none := by
  have h1 : extractEdges none defaultOptions (uniformSlice 128 990) = some [] :=
    extractEdges_uniformSlice none defaultOptions 128 990 (by decide) (by decide)
  have hall : ∀ (staticWidth : Option Nat) (statics : Option CandidateStatics),
      fixedEdgeCandidatesOfSlice staticWidth statics
        (UpcaSymbology.symbology.getD BarcodeSymbology.empty) defaultOptions
        (uniformSlice 128 990) = none := by
    intro staticWidth statics
    unfold fixedEdgeCandidatesOfSlice
    by_cases hn : 2 * (staticWidth.getD (defaultOptions.fundamentalWidth / 2)) + 2 ≤ 990
    · rw [extractEdges_uniformSlice staticWidth defaultOptions 128 990 (by decide) hn]
      rfl
    · have hlen : (uniformSlice 128 990).length = 990 := by simp [uniformSlice]
      have hnone : extractEdges staticWidth defaultOptions (uniformSlice 128 990) = none := by
        unfold extractEdges
        simp only []
        rw [if_pos (by rw [hlen]; omega)]
      rw [hnone]
  exact ⟨by decide!, h1, UpcaSymbology.symbology.getD BarcodeSymbology.empty, by decide,
    fun _ => rfl, hall none none, hall⟩

end BarcodeDecoder

/-! ## The order of the candidates: claim C22 -/

namespace BarcodeLocator

open BarcodeDecoder (TPointInt Barcode)

/-- The loops of `calculatePolarGradients` write inside the matrices only. -/
theorem polarGradients_outside (opts : Options) (angleBin : Nat → Int → Int → Nat)
    (img : Image) (p : Nat) (hp : img.rows * img.cols ≤ p) :
    (polarGradients opts angleBin img).absGrad p = 0 ∧
      (polarGradients opts angleBin img).angGrad p = 0 := by
  unfold polarGradients calculatePolarGradients
  refine foldl_range_inv
    (fun _ pol => pol.absGrad p = 0 ∧ pol.angGrad p = 0) _ (img.rows - 1) Polar.zero
    ⟨rfl, rfl⟩ ?_
  intro i hi s hs
  refine foldl_range_inv
    (fun _ pol => pol.absGrad p = 0 ∧ pol.angGrad p = 0) _ (img.cols - 1) s hs ?_
  intro j hj t ht
  have hlt : i * img.cols + j < img.rows * img.cols := by
    have h1 : (i + 1) * img.cols ≤ img.rows * img.cols :=
      Nat.mul_le_mul_right _ (by omega)
    have h2 : (i + 1) * img.cols = i * img.cols + img.cols := by ring
    omega
  have hne : p ≠ i * img.cols + j := by omega
  exact ⟨by show Function.update t.absGrad _ _ p = 0
            rw [Function.update_noteq hne]; exact ht.1,
    by show Function.update t.angGrad _ _ p = 0
       rw [Function.update_noteq hne]; exact ht.2⟩

set_option maxRecDepth 1000000 in
theorem tie_absGrad : ∀ p, p < 240 →
    (polarGradients tieOptions axisBin tieImage).absGrad p = tiePolar.absGrad p := by
  decide!

set_option maxRecDepth 1000000 in
theorem tie_angGrad : ∀ p, p < 240 →
    (polarGradients tieOptions axisBin tieImage).angGrad p = tiePolar.angGrad p := by
  decide!

/-- The matrices `dMag` and `dAng` of the image with two blocks are those written out in
`tiePolar`. -/
theorem tie_polarGradients : polarGradients tieOptions axisBin tieImage = tiePolar := by
  have h1 : (polarGradients tieOptions axisBin tieImage).absGrad = tiePolar.absGrad := by
    funext p
    by_cases hp : p < 240
    · exact tie_absGrad p hp
    · rw [(polarGradients_outside tieOptions axisBin tieImage p
        (by show 12 * 20 ≤ p; omega)).1]
      show 0 = if _ then 28 else 0
      rw [if_neg (fun h => hp h.2.2.2)]
  have h2 : (polarGradients tieOptions axisBin tieImage).angGrad = tiePolar.angGrad := by
    funext p
    by_cases hp : p < 240
    · exact tie_angGrad p hp
    · rw [(polarGradients_outside tieOptions axisBin tieImage p
        (by show 12 * 20 ≤ p; omega)).2]
      show 0 = if _ then _ else 0
      rw [if_neg (fun h => hp (by omega))]
  cases hpol : polarGradients tieOptions axisBin tieImage with
  | mk f g =>
    rw [hpol] at h1 h2
    simp only [] at h1 h2
    subst h1 h2
    rfl

/-- The cells of a first locator for the image with two blocks. -/
theorem tie_votedCells : votedCells tieOptions axisBin none tieImage = tieCells := by
  unfold votedCells
  simp only [Option.getD_none, CellStatics.init]
  rw [tie_polarGradients]
  rfl

set_option maxRecDepth 1000000 in
/-- The histogram of the image with two blocks gives the seeds 0 and 9, of weight 8. -/
theorem tie_seeds :
    orientationVotes tieOptions
      (calculateOrientationHistogram tieOptions singleBinEntropy tieCells) =
        [{ loc := 0, weight := 8 }, { loc := 9, weight := 8 }] := by
  decide!

set_option maxRecDepth 1000000 in
/-- One cell votes for each of the two orientations: the cell `(1, 1)`, with center `(6, 6)`,
for the bins 0 and 1, the cell `(1, 3)`, with center `(14, 6)`, for the bins 9 and 10. -/
theorem tie_votingCells :
    (votingCells singleBinEntropy tieOptions tieCells 0).map Cell.center =
      [{ x := 6, y := 6 }] ∧
    (votingCells singleBinEntropy tieOptions tieCells 9).map Cell.center =
      [{ x := 14, y := 6 }] := by
  decide!

set_option maxRecDepth 1000000 in
/-- The scan of the first block: three edges on row 6, and the candidate is accepted. -/
theorem tie_scan_vertical :
    scanTrace tieOptions 12 20 tiePolar (isAcceptable 18 0) (1, 0) 64 { x := 6, y := 6 } =
      some { nEdges := 3, lastEdge := some { x := 7, y := 6 },
             firstEdge := some { x := 4, y := 6 } } ∧
    scanSegment tieOptions (axisTrace tieOptions tieImage tiePolar 0 { x := 6, y := 6 })
      (BarcodeCandidate.init 0) = (true, verticalCandidate) := by
  decide!

set_option maxRecDepth 1000000 in
/-- The scan of the second block: three edges on column 14, and the candidate is accepted. -/
theorem tie_scan_horizontal :
    scanTrace tieOptions 12 20 tiePolar (isAcceptable 18 9) (0, 1) 64 { x := 14, y := 6 } =
      some { nEdges := 3, lastEdge := some { x := 14, y := 7 },
             firstEdge := some { x := 14, y := 4 } } ∧
    scanSegment tieOptions (axisTrace tieOptions tieImage tiePolar 9 { x := 14, y := 6 })
      (BarcodeCandidate.init 9) = (true, horizontalCandidate) := by
  decide!

set_option maxRecDepth 1000000 in
/-- Every gradient of the image with two blocks that the threshold lets through lies along an
axis, where `axisBin` is the bin of the orientation table. -/
theorem tie_gradients_axis : ∀ p, p < 240 →
    gradientMagnitudeMap tieOptions.gradThresh
        ((calculateScharrGradients tieImage Gradients.zero).iGrad p)
        ((calculateScharrGradients tieImage Gradients.zero).jGrad p) ≠ 0 →
      (calculateScharrGradients tieImage Gradients.zero).iGrad p = 0 ∨
        (calculateScharrGradients tieImage Gradients.zero).jGrad p = 0 := by
  decide!

set_option maxRecDepth 1000000 in
/-- Every cell of the image with two blocks has at most one weighted bin that is not zero,
where `singleBinEntropy` is the entropy of the cell. -/
theorem tie_cells_single_bin : ∀ c ∈ tieCells.flatten,
    (c.weightedOrientationHistogram.filter (fun x => decide (x ≠ 0))).length ≤ 1 := by
  decide!

/-- Two votes at least the radius apart stay two centers in `findClusterCenters`. -/
theorem findClusterCenters_pair (v w : Vote) (r : ℚ) (h : r ≤ |w.loc - v.loc|) :
    findClusterCenters [v, w] r = [v, w] := by
  simp [findClusterCenters, absorb, not_lt.mpr h]

/-- The modes of the image with two blocks: the two modes the steepest ascent leaves are more
than the radius 1/2 apart, so neither absorbs the other. -/
theorem tie_modes (a b wa wb : ℚ) (ha : a < 1 / 2) (hb : 9 ≤ b) :
    findOrientationHistogramModes tieOptions (tieStagesWith a b wa wb)
      (calculateOrientationHistogram tieOptions singleBinEntropy tieCells) =
        [{ loc := a, weight := wa }, { loc := b, weight := wb }] := by
  unfold findOrientationHistogramModes
  rw [tie_seeds]
  have h : ascendModes ((tieStagesWith a b wa wb).ascend tieOptions)
      [{ loc := 0, weight := 8 }, { loc := 9, weight := 8 }] =
        [{ loc := a, weight := wa }, { loc := b, weight := wb }] := rfl
  rw [h]
  apply findClusterCenters_pair
  show (1 / 2 : ℚ) ≤ |b - a|
  rw [abs_of_nonneg (by linarith)]
  linarith

/-- The cluster centers for a mode in `[0, 1)`: the center of the one voting cell. -/
theorem tie_clusters_vertical (a : ℚ) (h0 : 0 ≤ a) (h1 : a < 1) :
    singleCellClusters singleBinEntropy tieOptions tieCells a = [{ x := 6, y := 6 }] := by
  have hf : Int.floor a = 0 := Int.floor_eq_iff.mpr ⟨by simpa using h0, by simpa using h1⟩
  have hv := tie_votingCells.1
  have hl := congrArg List.length hv
  simp only [List.length_map, List.length_singleton] at hl
  unfold singleCellClusters
  rw [hf]
  show (if (votingCells singleBinEntropy tieOptions tieCells 0).length < 2 then _ else _) = _
  rw [hl, if_pos (by decide)]
  exact hv

/-- The cluster centers for a mode in `[9, 10)`: the center of the one voting cell. -/
theorem tie_clusters_horizontal (b : ℚ) (h0 : 9 ≤ b) (h1 : b < 10) :
    singleCellClusters singleBinEntropy tieOptions tieCells b = [{ x := 14, y := 6 }] := by
  have hf : Int.floor b = 9 :=
    Int.floor_eq_iff.mpr ⟨by push_cast; linarith, by push_cast; linarith⟩
  have hv := tie_votingCells.2
  have hl := congrArg List.length hv
  simp only [List.length_map, List.length_singleton] at hl
  unfold singleCellClusters
  rw [hf]
  show (if (votingCells singleBinEntropy tieOptions tieCells 9).length < 2 then _ else _) = _
  rw [hl, if_pos (by decide)]
  exact hv

/-- A mode in `[0, 1/2)` is scanned at the orientation 0. -/
theorem tie_modeOrientation_vertical (a : ℚ) (h0 : 0 ≤ a) (h1 : a < 1 / 2) :
    modeOrientation tieOptions a = 0 := by
  have hf : Int.floor a = 0 :=
    Int.floor_eq_iff.mpr ⟨by simpa using h0, by push_cast; linarith⟩
  unfold modeOrientation
  rw [hf]
  simp only [Int.toNat_zero, Nat.zero_mod, Nat.cast_zero, zero_add, ge_iff_le]
  rw [if_neg (not_le.mpr h1)]
  rfl

/-- A mode in `[9, 19/2)` is scanned at the orientation 9. -/
theorem tie_modeOrientation_horizontal (b : ℚ) (h0 : 9 ≤ b) (h1 : b < 19 / 2) :
    modeOrientation tieOptions b = 9 := by
  have hf : Int.floor b = 9 :=
    Int.floor_eq_iff.mpr ⟨by push_cast; linarith, by push_cast; linarith⟩
  unfold modeOrientation
  rw [hf]
  have h9 : (Int.toNat 9) % 256 = 9 := by decide
  simp only [h9, ge_iff_le]
  rw [if_neg (not_le.mpr (by push_cast; linarith))]
  rfl

/-- The candidates a first locator accepts in the image with two blocks, whatever modes in
`[0, 1/2)` and `[9, 19/2)` the steepest ascent leaves. -/
theorem tie_accepted (a b wa wb : ℚ) (ha0 : 0 ≤ a) (ha1 : a < 1 / 2) (hb0 : 9 ≤ b)
    (hb1 : b < 19 / 2) :
    acceptedCandidates tieOptions (tieStagesWith a b wa wb) none tieImage =
      [verticalCandidate, horizontalCandidate] := by
  unfold acceptedCandidates
  have hbin : (tieStagesWith a b wa wb).angleBin = axisBin := rfl
  have hent : (tieStagesWith a b wa wb).entropy = singleBinEntropy := rfl
  rw [hbin, hent, tie_polarGradients, tie_votedCells, tie_modes a b wa wb ha1 hb0]
  unfold getBarcodeCandidates
  have hcl : (tieStagesWith a b wa wb).clusters = singleCellClusters singleBinEntropy := rfl
  have htr : (tieStagesWith a b wa wb).trace = axisTrace := rfl
  simp only [List.flatMap_cons, List.flatMap_nil, hcl, htr,
    tie_clusters_vertical a ha0 (by linarith), tie_clusters_horizontal b hb0 (by linarith),
    tie_modeOrientation_vertical a ha0 ha1, tie_modeOrientation_horizontal b hb0 hb1,
    List.filterMap_cons, List.filterMap_nil]
  have hv : (BarcodeCandidate.init 0).orientation = 0 := rfl
  have hh : (BarcodeCandidate.init 9).orientation = 9 := rfl
  rw [hv, hh, tie_scan_vertical.2, tie_scan_horizontal.2]
  rfl

/-- C22, refuted as stated: in the image with two blocks of stripes, with the options
`tieOptions`, a first locator computes the polar matrices `tiePolar`; the histogram gives the
seeds 0 and 9; one cell votes for each; the scan from `(6, 6)` along row 6 and the scan from
`(14, 6)` along column 14 count three edges each and both candidates are accepted.  `locate`
returns two barcodes whose candidates have the same edge count.  This holds for the modes of
`tieStages` and for all modes in `[0, 1/2)` and `[9, 19/2)`.  The stage outcomes are used
where they are exact: every gradient above the threshold lies along an axis, every cell has
at most one weighted bin that is not zero, and one cell votes for each mode. -/
theorem c22_tie_counterexample :
    polarGradients tieOptions axisBin tieImage = tiePolar ∧
    (∀ p, p < 240 →
      gradientMagnitudeMap tieOptions.gradThresh
          ((calculateScharrGradients tieImage Gradients.zero).iGrad p)
          ((calculateScharrGradients tieImage Gradients.zero).jGrad p) ≠ 0 →
        (calculateScharrGradients tieImage Gradients.zero).iGrad p = 0 ∨
          (calculateScharrGradients tieImage Gradients.zero).jGrad p = 0) ∧
    (∀ c ∈ (votedCells tieOptions axisBin none tieImage).flatten,
      (c.weightedOrientationHistogram.filter (fun x => decide (x ≠ 0))).length ≤ 1) ∧
    (votingCells singleBinEntropy tieOptions (votedCells tieOptions axisBin none tieImage)
        0).map Cell.center = [{ x := 6, y := 6 }] ∧
    (votingCells singleBinEntropy tieOptions (votedCells tieOptions axisBin none tieImage)
        9).map Cell.center = [{ x := 14, y := 6 }] ∧
    orientationVotes tieOptions
      (calculateOrientationHistogram tieOptions singleBinEntropy
        (votedCells tieOptions axisBin none tieImage)) =
        [{ loc := 0, weight := 8 }, { loc := 9, weight := 8 }] ∧
    acceptedCandidates tieOptions tieStages none tieImage =
      [verticalCandidate, horizontalCandidate] ∧
    sortedCandidates (acceptedCandidates tieOptions tieStages none tieImage) =
      [horizontalCandidate, verticalCandidate] ∧
    (locate tieOptions tieStages none tieImage).map
        (fun b => (b.firstEdge.x, b.firstEdge.y, b.lastEdge.x, b.lastEdge.y)) =
      [(14, 4, 14, 7), (4, 6, 7, 6)] ∧
    horizontalCandidate.nEdges = 3 ∧ verticalCandidate.nEdges = 3 ∧
    ¬ (sortedCandidates (acceptedCandidates tieOptions tieStages none tieImage)).Chain'
      (fun a b => a.nEdges > b.nEdges) ∧
    (∀ a b wa wb : ℚ, 0 ≤ a → a < 1 / 2 → 9 ≤ b → b < 19 / 2 →
      ¬ (sortedCandidates
          (acceptedCandidates tieOptions (tieStagesWith a b wa wb) none tieImage)).Chain'
        (fun c d => c.nEdges > d.nEdges)) := by
  have hsort : sortedCandidates [verticalCandidate, horizontalCandidate] =
      [horizontalCandidate, verticalCandidate] := by decide
  have hacc : acceptedCandidates tieOptions tieStages none tieImage =
      [verticalCandidate, horizontalCandidate] :=
    tie_accepted _ _ _ _ (by norm_num) (by norm_num) (by norm_num) (by norm_num)
  have hno : ¬ ([horizontalCandidate, verticalCandidate]).Chain'
      (fun a b => a.nEdges > b.nEdges) := by
    intro hch
    exact absurd (List.chain'_cons.1 hch).1 (by decide)
  refine ⟨tie_polarGradients, tie_gradients_axis, ?_, ?_, ?_, ?_, hacc, ?_, ?_, rfl, rfl,
    ?_, ?_⟩
  · rw [tie_votedCells]
    exact tie_cells_single_bin
  · rw [tie_votedCells]
    exact tie_votingCells.1
  · rw [tie_votedCells]
    exact tie_votingCells.2
  · rw [tie_votedCells]
    exact tie_seeds
  · rw [hacc, hsort]
  · rw [locate_eq, hacc, hsort]
    rfl
  · rw [hacc, hsort]
    exact hno
  · intro a b wa wb ha0 ha1 hb0 hb1
    rw [tie_accepted a b wa wb ha0 ha1 hb0 hb1, hsort]
    exact hno

/-- C22, amended: for every working image and option set, whatever the statics of
`calculateCellHistograms` hold, the candidates behind the barcodes `locate` returns are in
non-increasing order of edge count: `c_i.nEdges ≥ c_{i+1}.nEdges` for every adjacent pair;
the order is strictly decreasing exactly when no two accepted candidates have the same edge
count. -/
theorem locate_edge_counts_never_increase (opts : Options) (T : Stages)
    (statics : Option CellStatics) (img : Image) :
    locate opts T statics img =
      (sortedCandidates (acceptedCandidates opts T statics img)).map
        (fun c => c.promote opts.scale) ∧
    (sortedCandidates (acceptedCandidates opts T statics img)).Chain'
      (fun a b => a.nEdges ≥ b.nEdges) ∧
    ((sortedCandidates (acceptedCandidates opts T statics img)).Chain'
        (fun a b => a.nEdges > b.nEdges) ↔
      ((acceptedCandidates opts T statics img).map (fun c => c.nEdges)).Nodup) := by
  have hpw := sortedCandidates_pairwise (acceptedCandidates opts T statics img)
  have hperm := sortedCandidates_perm (acceptedCandidates opts T statics img)
  refine ⟨locate_eq opts T statics img, hpw.chain', ?_⟩
  haveI : IsTrans BarcodeCandidate (fun a b => a.nEdges > b.nEdges) :=
    ⟨fun _ _ _ h1 h2 => lt_trans h2 h1⟩
  rw [List.chain'_iff_pairwise, ← (hperm.map (fun c => c.nEdges)).nodup_iff, List.Nodup,
    List.pairwise_map]
  constructor
  · intro h
    exact h.imp (fun hab => ne_of_gt hab)
  · intro h
    exact (hpw.and h).imp (fun hab => lt_of_le_of_ne hab.1 (Ne.symm hab.2))

end BarcodeLocator


/-! ## Access to the catalog by position: claim C40 -/

namespace BarcodeSymbology

open Viterbi (Err)

theorem getFixedEdge_spec (s : BarcodeSymbology) (i : Nat) :
    (getFixedEdge s i = Except.error Err.invalid_argument ↔ i > s.fixedEdges_.length) ∧
    (i = s.fixedEdges_.length → getFixedEdge s i = Except.error Err.undefined_behaviour ∧
      s.fixedEdges_.get? i = none) ∧
    (i < s.fixedEdges_.length → ∃ e, s.fixedEdges_.get? i = some e ∧
      getFixedEdge s i = Except.ok e) := by
  unfold getFixedEdge
  refine ⟨⟨fun h => ?_, fun h => by rw [if_pos h]⟩, fun h => ?_, fun h => ?_⟩
  · by_contra hn
    rw [if_neg hn] at h
    cases hg : s.fixedEdges_.get? i with
    | none => rw [hg] at h; cases h
    | some e => rw [hg] at h; cases h
  · have hg : s.fixedEdges_.get? i = none := List.get?_eq_none.2 (by omega)
    rw [if_neg (by omega), hg]
    exact ⟨rfl, rfl⟩
  · obtain ⟨e, he⟩ : ∃ e, s.fixedEdges_.get? i = some e :=
      ⟨s.fixedEdges_.get ⟨i, h⟩, List.get?_eq_get h⟩
    refine ⟨e, he, ?_⟩
    rw [if_neg (by omega), he]

theorem getDataSymbol_spec (s : BarcodeSymbology) (i : Nat) :
    (getDataSymbol s i = Except.error Err.invalid_argument ↔ i > s.dataSymbols_.length) ∧
    (i = s.dataSymbols_.length → getDataSymbol s i = Except.error Err.undefined_behaviour ∧
      s.dataSymbols_.get? i = none) ∧
    (i < s.dataSymbols_.length → ∃ sym, s.dataSymbols_.get? i = some sym ∧
      getDataSymbol s i = Except.ok sym) := by
  unfold getDataSymbol
  refine ⟨⟨fun h => ?_, fun h => by rw [if_pos h]⟩, fun h => ?_, fun h => ?_⟩
  · by_contra hn
    rw [if_neg hn] at h
    cases hg : s.dataSymbols_.get? i with
    | none => rw [hg] at h; cases h
    | some e => rw [hg] at h; cases h
  · have hg : s.dataSymbols_.get? i = none := List.get?_eq_none.2 (by omega)
    rw [if_neg (by omega), hg]
    exact ⟨rfl, rfl⟩
  · obtain ⟨e, he⟩ : ∃ e, s.dataSymbols_.get? i = some e :=
      ⟨s.dataSymbols_.get ⟨i, h⟩, List.get?_eq_get h⟩
    refine ⟨e, he, ?_⟩
    rw [if_neg (by omega), he]

/-- C40: `getFixedEdge(i)` throws `invalid_argument` exactly when `i` is strictly greater
than the number of fixed edges, and `getDataSymbol(i)` exactly when `i` is strictly greater
than the number of data symbols.  For `i` equal to that number the check passes although
the vector has no element at `i`: the access is one past its end.  Below that number the
element at position `i` is returned. -/
theorem position_check_admits_one_past_the_end (s : BarcodeSymbology) (i : Nat) :
    ((getFixedEdge s i = Except.error Err.invalid_argument ↔ i > s.nFixedEdges) ∧
      (i = s.nFixedEdges → getFixedEdge s i = Except.error Err.undefined_behaviour ∧
        s.fixedEdges_.get? i = none) ∧
      (i < s.nFixedEdges → ∃ e, s.fixedEdges_.get? i = some e ∧
        getFixedEdge s i = Except.ok e)) ∧
    ((getDataSymbol s i = Except.error Err.invalid_argument ↔ i > s.nDataSymbols) ∧
      (i = s.nDataSymbols → getDataSymbol s i = Except.error Err.undefined_behaviour ∧
        s.dataSymbols_.get? i = none) ∧
      (i < s.nDataSymbols → ∃ sym, s.dataSymbols_.get? i = some sym ∧
        getDataSymbol s i = Except.ok sym)) :=
  ⟨getFixedEdge_spec s i, getDataSymbol_spec s i⟩

end BarcodeSymbology


/-! ## Clustering of votes: claim C38 -/

namespace BarcodeLocator

/-- A point that is absorbed leaves the number of centers unchanged and adds its weight to
the total. -/
theorem absorb_some (radius : ℚ) (v : Vote) : ∀ (centers merged : List Vote),
    absorb radius v centers = some merged →
    merged.length = centers.length ∧
      (merged.map Vote.weight).sum = (centers.map Vote.weight).sum + v.weight := by
  intro centers
  induction centers with
  | nil => intro merged h; cases h
  | cons v2 rest ih =>
    intro merged h
    unfold absorb at h
    by_cases hc : |v.loc - v2.loc| < radius
    · rw [if_pos hc] at h
      cases h
      refine ⟨rfl, ?_⟩
      simp only [List.map_cons, List.sum_cons]
      ring
    · rw [if_neg hc] at h
      cases hr : absorb radius v rest with
      | none => rw [hr] at h; cases h
      | some r =>
        rw [hr] at h
        cases h
        obtain ⟨h1, h2⟩ := ih r hr
        refine ⟨by simp [h1], ?_⟩
        simp only [List.map_cons, List.sum_cons, h2]
        ring

/-- One turn of the outer loop of `findClusterCenters`: the weight of the point is added to
the total, and the number of centers grows by at most one and does not drop to zero. -/
theorem cluster_step (radius : ℚ) (v : Vote) (centers : List Vote) :
    ∃ next, (match absorb radius v centers with
        | some merged => merged
        | none => centers ++ [v]) = next ∧
      (next.map Vote.weight).sum = (centers.map Vote.weight).sum + v.weight ∧
      next.length ≤ centers.length + 1 ∧ centers.length ≤ next.length ∧ next ≠ [] ∧
      (centers ≠ [] → next.length = centers.length ∨ absorb radius v centers = none) := by
  cases h : absorb radius v centers with
  | none =>
    refine ⟨centers ++ [v], rfl, by simp, by simp, by simp, by simp, fun _ => Or.inr rfl⟩
  | some merged =>
    obtain ⟨h1, h2⟩ := absorb_some radius v centers merged h
    refine ⟨merged, rfl, h2, by omega, by omega, ?_, fun _ => Or.inl h1⟩
    intro hm
    rw [hm] at h1
    cases centers with
    | nil => cases h
    | cons _ _ => simp at h1

/-- The outer loop of `findClusterCenters` from any list of centers. -/
theorem cluster_fold (radius : ℚ) : ∀ (data centers : List Vote),
    ((data.foldl (fun centers v =>
        match absorb radius v centers with
        | some merged => merged
        | none => centers ++ [v]) centers).map Vote.weight).sum =
      (centers.map Vote.weight).sum + (data.map Vote.weight).sum ∧
    (data.foldl (fun centers v =>
        match absorb radius v centers with
        | some merged => merged
        | none => centers ++ [v]) centers).length ≤ centers.length + data.length ∧
    centers.length ≤ (data.foldl (fun centers v =>
        match absorb radius v centers with
        | some merged => merged
        | none => centers ++ [v]) centers).length ∧
    (data ≠ [] → data.foldl (fun centers v =>
        match absorb radius v centers with
        | some merged => merged
        | none => centers ++ [v]) centers ≠ []) := by
  intro data
  induction data with
  | nil => intro centers; simp
  | cons v rest ih =>
    intro centers
    obtain ⟨next, hn, hw, hl, hl2, hne, _⟩ := cluster_step radius v centers
    rw [List.foldl_cons, hn]
    obtain ⟨i1, i2, i3, _⟩ := ih next
    refine ⟨?_, ?_, ?_, ?_⟩
    · rw [i1, hw, List.map_cons, List.sum_cons]; ring
    · simp only [List.length_cons]; omega
    · omega
    · intro _ hempty
      rw [hempty] at i3
      cases next with
      | nil => exact hne rfl
      | cons _ _ => simp at i3

/-- C38: `findClusterCenters` conserves weight.  For every list of votes and every radius, in
exact arithmetic, the weights of the centers add up to the weights of the input points,
there are at most as many centers as points, and there is no center exactly when there is
no point.  The weights need not be positive for that. -/
theorem findClusterCenters_conserves_weight (data : List Vote) (radius : ℚ) :
    ((findClusterCenters data radius).map Vote.weight).sum = (data.map Vote.weight).sum ∧
    (findClusterCenters data radius).length ≤ data.length ∧
    (findClusterCenters data radius = [] ↔ data = []) := by
  obtain ⟨h1, h2, _, h4⟩ := cluster_fold radius data []
  unfold findClusterCenters
  refine ⟨by simpa using h1, by simpa using h2, ⟨fun h => ?_, fun h => by rw [h]; rfl⟩⟩
  by_contra hne
  exact h4 hne h

end BarcodeLocator


/-! ## The matched filter: claim C31 -/

namespace BarcodeDecoder

theorem integrate_length : ∀ (a : List Int) (acc : Int), (integrate acc a).length = a.length := by
  intro a
  induction a with
  | nil => intro _; rfl
  | cons x rest ih => intro acc; simp [integrate, ih]

/-- Adding `c` to every sample adds `c * (k + 1)` to entry `k` of the integral. -/
theorem integrate_offset (c : Int) : ∀ (a : List Int) (acc acc2 : Int) (k : Nat) (v : Int),
    (integrate acc a).get? k = some v →
    (integrate (acc + acc2) (a.map (fun x => x + c))).get? k = some (v + acc2 + c * (k + 1)) := by
  intro a
  induction a with
  | nil => intro acc acc2 k v h; simp [integrate] at h
  | cons x rest ih =>
    intro acc acc2 k v h
    cases k with
    | zero =>
      simp only [integrate, List.get?_cons_zero, Option.some.injEq] at h
      simp only [List.map_cons, integrate, List.get?_cons_zero, Option.some.injEq]
      rw [← h]; push_cast; ring
    | succ k =>
      simp only [integrate, List.get?_cons_succ] at h
      simp only [List.map_cons, integrate, List.get?_cons_succ]
      have := ih (acc + x) (acc2 + c) k v h
      rw [show acc + acc2 + (x + c) = acc + x + (acc2 + c) by ring, this]
      congr 1; push_cast; ring

/-- The entries of the integral of non-negative samples do not decrease. -/
theorem integrate_mono : ∀ (a : List Int) (acc : Int), (∀ x ∈ a, 0 ≤ x) →
    ∀ (i j : Nat) (vi vj : Int), i ≤ j → (integrate acc a).get? i = some vi →
      (integrate acc a).get? j = some vj → acc ≤ vi ∧ vi ≤ vj := by
  intro a
  induction a with
  | nil => intro acc _ i j vi vj _ h; simp [integrate] at h
  | cons x rest ih =>
    intro acc ha i j vi vj hij hi hj
    have hx : 0 ≤ x := ha x (List.mem_cons_self _ _)
    have hrest : ∀ y ∈ rest, 0 ≤ y := fun y hy => ha y (List.mem_cons_of_mem _ hy)
    cases j with
    | zero =>
      have : i = 0 := by omega
      subst this
      simp only [integrate, List.get?_cons_zero, Option.some.injEq] at hi hj
      omega
    | succ j =>
      simp only [integrate, List.get?_cons_succ] at hj
      cases i with
      | zero =>
        simp only [integrate, List.get?_cons_zero, Option.some.injEq] at hi
        have := (ih (acc + x) hrest j j vj vj (le_refl _) hj hj).1
        omega
      | succ i =>
        simp only [integrate, List.get?_cons_succ] at hi
        have := ih (acc + x) hrest i j vi vj (by omega) hi hj
        omega

/-- The entry `k` of the data seen from position `off` of the integral of the samples
raised by `c` is the entry of the integral of the samples plus `c * (off + k + 1)`. -/
theorem drop_offset (c : Int) (a : List Int) (off k : Nat) (v : Int)
    (h : ((runningIntegral a).drop off).get? k = some v) :
    ((runningIntegral (a.map (fun x => x + c))).drop off).get? k =
      some (v + c * (Int.ofNat off + Int.ofNat k + 1)) := by
  rw [List.get?_eq_getElem?, List.getElem?_drop, ← List.get?_eq_getElem?] at h ⊢
  have := integrate_offset c a 0 0 (off + k) v h
  unfold runningIntegral
  rw [show (0 : Int) = 0 + 0 by rfl, this]
  congr 1
  simp only [Int.ofNat_eq_coe]
  push_cast
  ring

/-- The loop of `dotProduct` on the raised samples: `c` gains the offset times the value
`patternSum` gains. -/
theorem dotProductLoop_offset (c : Int) (a : List Int) (off : Nat) :
    ∀ (rest : List Nat) (sgn : Int) (prev : Nat) (acc ps acc2 ps2 : Int),
    dotProductLoop ((runningIntegral a).drop off) sgn prev rest acc ps = some (acc2, ps2) →
    ∀ acc3 : Int,
    dotProductLoop ((runningIntegral (a.map (fun x => x + c))).drop off) sgn prev rest
      acc3 ps = some (acc2 + (acc3 - acc) + c * (ps2 - ps), ps2) := by
  intro rest
  induction rest with
  | nil =>
    intro sgn prev acc ps acc2 ps2 h acc3
    simp only [dotProductLoop, Option.some.injEq, Prod.mk.injEq] at h
    simp only [dotProductLoop, Option.some.injEq, Prod.mk.injEq]
    obtain ⟨h1, h2⟩ := h
    subst h1; subst h2
    exact ⟨by ring, rfl⟩
  | cons j rest ih =>
    intro sgn prev acc ps acc2 ps2 h acc3
    unfold dotProductLoop at h ⊢
    cases hj : ((runningIntegral a).drop off).get? j with
    | none => rw [hj] at h; cases h
    | some dj =>
      cases hp : ((runningIntegral a).drop off).get? prev with
      | none => rw [hj, hp] at h; cases h
      | some dp =>
        rw [hj, hp] at h
        rw [drop_offset c a off j dj hj, drop_offset c a off prev dp hp]
        simp only at h ⊢
        rw [ih _ _ _ _ _ _ h]
        simp only [Option.some.injEq, Prod.mk.injEq, and_true]
        ring

/-- The truncating quotient of a non-negative number raised by a multiple of the divisor. -/
theorem tdiv_add_mul (x c : Int) (w : Nat) (hx : 0 ≤ x) (hc : 0 ≤ c) (hw : 0 < w) :
    (x + c * Int.ofNat w).tdiv (Int.ofNat w) = x.tdiv (Int.ofNat w) + c := by
  have hw0 : (0 : Int) ≤ Int.ofNat w := Int.ofNat_nonneg w
  have hw1 : Int.ofNat w ≠ 0 := by simp only [Int.ofNat_eq_coe]; omega
  have hcw : 0 ≤ c * Int.ofNat w := Int.mul_nonneg hc hw0
  rw [Int.tdiv_eq_ediv (by omega) hw0, Int.tdiv_eq_ediv hx hw0, Int.add_mul_ediv_right _ _ hw1]

end BarcodeDecoder

namespace BarcodeDecoder

/-- The loop of `dotProduct` reads only at the boundaries: it returns when they all lie inside
the data. -/
theorem dotProductLoop_defined (data : List Int) : ∀ (rest : List Nat) (sgn : Int) (prev : Nat)
    (acc ps : Int), prev < data.length → (∀ j ∈ rest, j < data.length) →
    ∃ r, dotProductLoop data sgn prev rest acc ps = some r := by
  intro rest
  induction rest with
  | nil => intro sgn prev acc ps _ _; exact ⟨_, rfl⟩
  | cons j rest ih =>
    intro sgn prev acc ps hp hr
    have hj : j < data.length := hr j (List.mem_cons_self _ _)
    unfold dotProductLoop
    rw [List.get?_eq_get hj, List.get?_eq_get hp]
    exact ih _ _ _ _ hj (fun k hk => hr k (List.mem_cons_of_mem _ hk))

/-- On data that is zero throughout the loop leaves `c` as it is. -/
theorem dotProductLoop_zero (data : List Int) (hz : ∀ k v, data.get? k = some v → v = 0) :
    ∀ (rest : List Nat) (sgn : Int) (prev : Nat) (acc ps acc2 ps2 : Int),
    dotProductLoop data sgn prev rest acc ps = some (acc2, ps2) → acc2 = acc := by
  intro rest
  induction rest with
  | nil =>
    intro sgn prev acc ps acc2 ps2 h
    simp only [dotProductLoop, Option.some.injEq, Prod.mk.injEq] at h
    exact h.1.symm
  | cons j rest ih =>
    intro sgn prev acc ps acc2 ps2 h
    unfold dotProductLoop at h
    cases hj : data.get? j with
    | none => rw [hj] at h; cases h
    | some dj =>
      cases hp : data.get? prev with
      | none => rw [hj, hp] at h; cases h
      | some dp =>
        rw [hj, hp] at h
        simp only at h
        rw [ih _ _ _ _ _ _ h, hz j dj hj, hz prev dp hp]
        ring

/-- Every boundary of an increasing pattern is at most the last one. -/
theorem le_last_of_increasing : ∀ (pattern : List Nat) (w : Nat),
    pattern.Chain' (fun x y => x < y) → pattern.getLast? = some w → ∀ j ∈ pattern, j ≤ w := by
  intro pattern
  induction pattern with
  | nil => intro w _ h; cases h
  | cons x rest ih =>
    intro w hch hl j hj
    cases rest with
    | nil =>
      simp only [List.getLast?_singleton, Option.some.injEq] at hl
      simp only [List.mem_singleton] at hj
      omega
    | cons y rest2 =>
      rw [List.getLast?_cons_cons] at hl
      have hch2 := List.chain'_cons.1 hch
      have hy := ih w hch2.2 hl
      rcases List.mem_cons.1 hj with h | h
      · have := hy y (List.mem_cons_self _ _)
        omega
      · exact hy j h

theorem integral_zero : ∀ (a : List Int) (k : Nat) (v : Int), (∀ x ∈ a, x = 0) →
    (integrate 0 a).get? k = some v → v = 0 := by
  intro a
  induction a with
  | nil => intro k v _ h; simp [integrate] at h
  | cons x rest ih =>
    intro k v ha h
    have hx : x = 0 := ha x (List.mem_cons_self _ _)
    subst hx
    cases k with
    | zero =>
      simp only [integrate, List.get?_cons_zero, Option.some.injEq] at h
      omega
    | succ k =>
      simp only [integrate, List.get?_cons_succ] at h
      rw [show (0 : Int) + 0 = 0 by rfl] at h
      exact ih k v (fun y hy => ha y (List.mem_cons_of_mem _ hy)) h

end BarcodeDecoder

namespace BarcodeDecoder

/-- Unfolding of `dotProduct` once every read is known. -/
theorem dotProduct_eq (sgn : Int) (data : List Int) (first : Nat) (rest : List Nat) (w : Nat)
    (dw d0 df c2 ps2 : Int) (hlast : (first :: rest).getLast? = some w) (hw : 0 < w)
    (hdw : data.get? w = some dw) (hd0 : data.get? 0 = some d0)
    (hdf : data.get? first = some df)
    (hloop : dotProductLoop data sgn first rest (sgn * (df - d0)) (sgn * Int.ofNat first) =
      some (c2, ps2)) :
    dotProduct sgn data (first :: rest) =
      some ((c2 - ps2 * (dw - d0).tdiv (Int.ofNat w)).tdiv (Int.ofNat w)) := by
  unfold dotProduct
  simp only [hlast, hdw, hd0, hdf, hloop]
  rw [if_neg (by omega)]

theorem dotProduct_offset (sgn : Int) (pattern : List Nat) (a : List Int) (c : Int)
    (off w : Nat) (hinc : pattern.Chain' (fun x y => x < y))
    (hlast : pattern.getLast? = some w) (hw : 0 < w) (hlen : off + w < a.length)
    (ha : ∀ x ∈ a, 0 ≤ x) (hc : 0 ≤ c) :
    ∃ v, dotProduct sgn ((runningIntegral a).drop off) pattern = some v ∧
      dotProduct sgn ((runningIntegral (a.map (fun x => x + c))).drop off) pattern = some v ∧
      ((∀ x ∈ a, x = 0) → v = 0) := by
  cases pattern with
  | nil => cases hlast
  | cons first rest =>
    have hle := le_last_of_increasing (first :: rest) w hinc hlast
    have hdlen : ((runningIntegral a).drop off).length = a.length - off := by
      rw [List.length_drop]; unfold runningIntegral; rw [integrate_length]
    have hrd : ∀ k, k ≤ w → ∃ v, ((runningIntegral a).drop off).get? k = some v := fun k hk =>
      ⟨_, List.get?_eq_get (by rw [hdlen]; omega)⟩
    obtain ⟨dw, hdw⟩ := hrd w (le_refl _)
    obtain ⟨d0, hd0⟩ := hrd 0 (Nat.zero_le _)
    obtain ⟨df, hdf⟩ := hrd first (hle first (List.mem_cons_self _ _))
    obtain ⟨⟨c2, ps2⟩, hloop⟩ := dotProductLoop_defined ((runningIntegral a).drop off) rest sgn
      first (sgn * (df - d0)) (sgn * Int.ofNat first)
      (by rw [hdlen]; have := hle first (List.mem_cons_self _ _); omega)
      (fun j hj => by rw [hdlen]; have := hle j (List.mem_cons_of_mem _ hj); omega)
    have hmono : 0 ≤ dw - d0 := by
      rw [List.get?_eq_getElem?, List.getElem?_drop, ← List.get?_eq_getElem?] at hdw hd0
      have := integrate_mono a 0 ha (off + 0) (off + w) d0 dw (by omega) hd0 hdw
      omega
    refine ⟨_, dotProduct_eq sgn _ first rest w dw d0 df c2 ps2 hlast hw hdw hd0 hdf hloop, ?_, ?_⟩
    · have hloop2 := dotProductLoop_offset c a off rest sgn first _ _ _ _ hloop
        (sgn * ((df + c * (Int.ofNat off + Int.ofNat first + 1)) -
          (d0 + c * (Int.ofNat off + Int.ofNat 0 + 1))))
      rw [dotProduct_eq sgn _ first rest w _ _ _ _ _ hlast hw (drop_offset c a off w dw hdw)
        (drop_offset c a off 0 d0 hd0) (drop_offset c a off first df hdf) hloop2]
      congr 2
      have e1 : dw + c * (Int.ofNat off + Int.ofNat w + 1) -
          (d0 + c * (Int.ofNat off + Int.ofNat 0 + 1)) = (dw - d0) + c * Int.ofNat w := by
        simp only [Int.ofNat_eq_coe, Nat.cast_zero]; ring
      rw [e1, tdiv_add_mul (dw - d0) c w hmono hc hw]
      simp only [Int.ofNat_eq_coe, Nat.cast_zero]
      ring
    · intro hz
      have hzero : ∀ k v, ((runningIntegral a).drop off).get? k = some v → v = 0 := by
        intro k v hk
        rw [List.get?_eq_getElem?, List.getElem?_drop, ← List.get?_eq_getElem?] at hk
        exact integral_zero a (off + k) v hz hk
      have h2 := dotProductLoop_zero _ hzero rest sgn first _ _ _ _ hloop
      rw [h2, hzero w dw hdw, hzero 0 d0 hd0, hzero first df hdf]
      simp

end BarcodeDecoder


namespace BarcodeDecoder

/-- C31: the matched filter cancels a uniform brightness offset.  For every increasing
pattern of boundaries whose last boundary `w` is positive, every sign, every sequence `a` of
non-negative samples that reaches beyond position `off + w` and every constant `c ≥ 0`,
`dotProduct` at position `off` of the running integral of `a + c` returns the value it
returns on the running integral of `a`; and on the running integral of a constant signal
`c` it returns 0. -/
theorem dotProduct_cancels_uniform_offset (sgn : Int) (pattern : List Nat) (a : List Int)
    (c : Int) (off w : Nat) (hinc : pattern.Chain' (fun x y => x < y))
    (hlast : pattern.getLast? = some w) (hw : 0 < w) (hlen : off + w < a.length)
    (ha : ∀ x ∈ a, 0 ≤ x) (hc : 0 ≤ c) :
    (∃ v, dotProduct sgn ((runningIntegral (a.map (fun x => x + c))).drop off) pattern = some v ∧
      dotProduct sgn ((runningIntegral a).drop off) pattern = some v) ∧
    dotProduct sgn ((runningIntegral (List.replicate a.length c)).drop off) pattern =
      some 0 := by
  constructor
  · obtain ⟨v, h1, h2, _⟩ := dotProduct_offset sgn pattern a c off w hinc hlast hw hlen ha hc
    exact ⟨v, h2, h1⟩
  · obtain ⟨v, _, h2, h3⟩ := dotProduct_offset sgn pattern (List.replicate a.length 0) c off w
      hinc hlast hw (by rw [List.length_replicate]; exact hlen)
      (fun x hx => by rw [List.eq_of_mem_replicate hx]) hc
    rw [List.map_replicate, Int.zero_add] at h2
    rw [h2, h3 (fun x hx => List.eq_of_mem_replicate hx)]

/-- C31, witness: seven samples with a dark bar, the boundaries 1, 3, 5 and the offset 55:
the filter returns 72 with and without the offset, and 0 on the constant signal 55. -/
theorem dotProduct_cancels_uniform_offset_witness :
    dotProduct 1 ((runningIntegral barSamples).drop 0) [1, 3, 5] = some 72 ∧
    (∃ v, dotProduct 1 ((runningIntegral (barSamples.map (fun x => x + 55))).drop 0) [1, 3, 5] =
        some v ∧
      dotProduct 1 ((runningIntegral barSamples).drop 0) [1, 3, 5] = some v) ∧
    dotProduct 1 ((runningIntegral (List.replicate barSamples.length 55)).drop 0) [1, 3, 5] =
      some 0 :=
  ⟨by decide,
    dotProduct_cancels_uniform_offset 1 [1, 3, 5] barSamples 55 0 5 (by simp) (by decide)
      (by decide) (by decide) (by decide) (by decide)⟩

end BarcodeDecoder


/-! ## Uninformative evidence: claim C39 -/

namespace UpcaSymbology

open Viterbi

/-- With every entry equal to `e`, the summed energy of a digit string is its length times
`e`. -/
theorem sumEnergies_uniform (energies : TMatrix ℚ) (e : ℚ)
    (hu : ∀ d t, d < 10 → t < 12 → energies.get d t = e) :
    ∀ (ds : List Nat) (t : Nat), (∀ d ∈ ds, d < 10) → t + ds.length ≤ 12 →
      sumEnergies energies t ds = (ds.length : ℚ) * e := by
  intro ds
  induction ds with
  | nil => intro t _ _; simp [sumEnergies]
  | cons d rest ih =>
    intro t hd hl
    simp only [List.length_cons] at hl
    rw [sumEnergies, hu d t (hd d (List.mem_cons_self _ _)) (by omega),
      ih (t + 1) (fun x hx => hd x (List.mem_cons_of_mem _ hx)) (by omega)]
    simp only [List.length_cons]
    push_cast
    ring

/-- With every entry equal to `e`, every joint decode has the energy `12 e`. -/
theorem jointEnergies_uniform (energies : TMatrix ℚ) (e : ℚ)
    (hu : ∀ d t, d < 10 → t < 12 → energies.get d t = e) :
    ∀ x ∈ jointEnergies energies, x = 12 * e := by
  intro x hx
  unfold jointEnergies at hx
  rw [(List.perm_insertionSort _ _).mem_iff, List.mem_map] at hx
  obtain ⟨ds, hds, rfl⟩ := hx
  rw [mem_checkValidStrings] at hds
  rw [sumEnergies_uniform energies e hu ds 0 hds.1.2 (by rw [hds.1.1]), hds.1.1]
  norm_num

set_option maxRecDepth 1000000 in
/-- In `double` arithmetic the decoder returns a string of twelve digits for the matrix all of
whose entries are `2^1023`. -/
theorem estimate_hugeMatrix :
    Ieee.estimate stableSort (1 / 64) Ieee.hugeMatrix = Except.ok "000000000000" := by
  decide!

set_option maxRecDepth 1000000 in
/-- In `double` arithmetic both solutions for the matrix all of whose entries are `2^1023`
have the energy `+inf`. -/
theorem solve_hugeMatrix :
    energiesOf (solve stableSort (⟨⊤⟩ : Ieee.TEnergy) 2 (Ieee.priorsOf Ieee.hugeMatrix)
      (Ieee.conditionalsOf Ieee.hugeMatrix) 0) = some [⟨⊤⟩, ⟨⊤⟩] := by
  decide!

set_option maxRecDepth 1000000 in
/-- In `double` arithmetic the decoder returns the empty string for the matrix all of whose
entries are 1. -/
theorem estimate_unitMatrix :
    Ieee.estimate stableSort (1 / 64) Ieee.unitMatrix = Except.ok "" := by
  decide!

end UpcaSymbology


/-! ## The gradient tables: claim C34 -/

namespace BarcodeLocator

theorem sq_le_of_abs_le (d : Int) (h1 : -255 ≤ d) (h2 : d ≤ 255) : d * d ≤ 65025 := by
  nlinarith

theorem floorSqrt_le_of_le (n : Nat) (h : n ≤ 65025) : floorSqrt n ≤ 255 := by
  rw [floorSqrt_eq]
  have h1 : Nat.sqrt n ≤ Nat.sqrt 65025 := Nat.sqrt_le_sqrt h
  have h2 : Nat.sqrt 65025 = 255 := by
    rw [show 65025 = 255 * 255 by rfl, Nat.sqrt_eq]
  omega

/-- C34: for every threshold, every positive number of bins `n` (the constructor passes
`2 * nOrientations`) and every gradient pair in `[-255, 255]²`, the magnitude table entry is
the integer square root of half the squared magnitude, rounded down, when the squared
magnitude exceeds the squared threshold, and 0 otherwise; it is at most 255; and the
orientation table entry is the sentinel `n` exactly when the magnitude entry is 0, and a
bin below `n` otherwise. -/
theorem gradient_tables_saturate (angleBin : Nat → Int → Int → Nat) (thresh n : Nat)
    (di dj : Int) (hn : 0 < n) (hdi : -255 ≤ di ∧ di ≤ 255) (hdj : -255 ≤ dj ∧ dj ≤ 255) :
    (∃ mag : Nat, (mag : Int) = di * di + dj * dj ∧
      gradientMagnitudeMap thresh di dj =
        (if mag > thresh * thresh then Nat.sqrt (mag / 2) else 0) ∧
      (mag > thresh * thresh →
        gradientMagnitudeMap thresh di dj * gradientMagnitudeMap thresh di dj ≤ mag / 2 ∧
        mag / 2 < (gradientMagnitudeMap thresh di dj + 1) *
          (gradientMagnitudeMap thresh di dj + 1))) ∧
    gradientMagnitudeMap thresh di dj ≤ 255 ∧
    (gradientOrientationMap angleBin thresh n di dj = n ↔
      gradientMagnitudeMap thresh di dj = 0) ∧
    (gradientMagnitudeMap thresh di dj ≠ 0 →
      gradientOrientationMap angleBin thresh n di dj < n) := by
  have hnn : 0 ≤ di * di + dj * dj := by nlinarith [mul_self_nonneg di, mul_self_nonneg dj]
  have hmag : ((di * di + dj * dj).toNat : Int) = di * di + dj * dj := Int.toNat_of_nonneg hnn
  have hle : (di * di + dj * dj).toNat ≤ 130050 := by
    have := sq_le_of_abs_le di hdi.1 hdi.2
    have := sq_le_of_abs_le dj hdj.1 hdj.2
    omega
  refine ⟨⟨(di * di + dj * dj).toNat, hmag, ?_, ?_⟩, ?_, ?_, ?_⟩
  · unfold gradientMagnitudeMap
    simp only [floorSqrt_eq]
  · intro h
    unfold gradientMagnitudeMap
    simp only [floorSqrt_eq, if_pos h]
    exact ⟨Nat.sqrt_le _, Nat.lt_succ_sqrt _⟩
  · unfold gradientMagnitudeMap
    simp only
    split_ifs
    · exact floorSqrt_le_of_le _ (by omega)
    · omega
  · unfold gradientOrientationMap
    by_cases h : gradientMagnitudeMap thresh di dj = 0
    · simp [h]
    · simp only [h, ne_eq, not_false_eq_true, if_true, iff_false]
      exact Nat.ne_of_lt (Nat.mod_lt _ hn)
  · intro h
    unfold gradientOrientationMap
    rw [if_pos h]
    exact Nat.mod_lt _ hn

set_option maxRecDepth 1000000 in
theorem gradientMagnitudeMap_examples :
    gradientMagnitudeMap 20 30 (-40) = 35 ∧ gradientMagnitudeMap 20 3 (-4) = 0 := by
  decide

/-- C34, witness: threshold 20 and 36 bins.  At the gradient pair `(30, -40)`, whose squared
magnitude is 2500, the magnitude entry is 35, the integer square root of 1250; at `(3, -4)`,
below the threshold, it is 0 and the orientation entry is the sentinel 36. -/
theorem gradient_tables_saturate_witness :
    gradientMagnitudeMap 20 30 (-40) = 35 ∧
    gradientMagnitudeMap 20 3 (-4) = 0 ∧
    gradientMagnitudeMap 20 255 (-255) ≤ 255 ∧
    (gradientOrientationMap axisBin 20 36 3 (-4) = 36 ↔ gradientMagnitudeMap 20 3 (-4) = 0) :=
  ⟨gradientMagnitudeMap_examples.1, gradientMagnitudeMap_examples.2,
    (gradient_tables_saturate axisBin 20 36 255 (-255) (by decide) (by decide) (by decide)).2.1,
    (gradient_tables_saturate axisBin 20 36 3 (-4) (by decide) (by decide) (by decide)).2.2.1⟩

end BarcodeLocator


/-! ## Subsampling: claim C35 -/

namespace BarcodeLocator

/-- A flat position determines the row and the column. -/
theorem flat_inj {N a b a' b' : Nat} (ha : a < N) (ha' : a' < N)
    (h : b * N + a = b' * N + a') : a = a' ∧ b = b' := by
  have hN : 0 < N := by omega
  have h1 : (b * N + a) % N = a := by
    rw [Nat.add_comm, Nat.add_mul_mod_self_right, Nat.mod_eq_of_lt ha]
  have h2 : (b' * N + a') % N = a' := by
    rw [Nat.add_comm, Nat.add_mul_mod_self_right, Nat.mod_eq_of_lt ha']
  have h3 : (b * N + a) / N = b := by
    rw [Nat.add_comm, Nat.add_mul_div_right _ _ hN, Nat.div_eq_of_lt ha, Nat.zero_add]
  have h4 : (b' * N + a') / N = b' := by
    rw [Nat.add_comm, Nat.add_mul_div_right _ _ hN, Nat.div_eq_of_lt ha', Nat.zero_add]
  rw [h] at h1 h3
  exact ⟨by rw [← h1, h2], by rw [← h3, h4]⟩

/-- The number of turns of a strided loop: the quotient when the step divides the bound, one
more otherwise. -/
theorem strideCount_eq (n step : Nat) (hs : 0 < step) :
    strideCount n step = if n % step = 0 then n / step else n / step + 1 := by
  unfold strideCount
  have hdm := Nat.div_add_mod n step
  by_cases h : n % step = 0
  · rw [if_pos h]
    rw [h, Nat.add_zero] at hdm
    have e : n + step - 1 = (step - 1) + (n / step) * step := by
      rw [Nat.mul_comm (n / step) step, hdm]; omega
    rw [e, Nat.add_mul_div_right _ _ hs, Nat.div_eq_of_lt (by omega), Nat.zero_add]
  · rw [if_neg h]
    have hlt := Nat.mod_lt n hs
    have e : n + step - 1 = (n % step - 1) + (n / step + 1) * step := by
      have : (n / step + 1) * step = step * (n / step) + step := by ring
      rw [this]; omega
    rw [e, Nat.add_mul_div_right _ _ hs, Nat.div_eq_of_lt (by omega), Nat.zero_add]

theorem mem_subsampleWrites (input : Image) (scale outCols step : Nat)
    (hstep : 2 ^ scale = step) (w : Nat × Nat) :
    w ∈ subsampleWrites input scale outCols ↔
      ∃ ii jj, ii < strideCount input.rows step ∧ jj < strideCount input.cols step ∧
        w = (ii * outCols + jj, input.data (ii * step * input.cols + jj * step)) := by
  subst hstep
  unfold subsampleWrites
  simp only [List.mem_flatMap, List.mem_map, List.mem_range]
  constructor
  · rintro ⟨ii, hii, jj, hjj, rfl⟩
    exact ⟨ii, jj, hii, hjj, rfl⟩
  · rintro ⟨ii, jj, hii, hjj, rfl⟩
    exact ⟨ii, hii, jj, hjj, rfl⟩

theorem strideCount_pos (n step : Nat) (hs : 0 < step) (hn : n ≠ 0) :
    0 < strideCount n step := by
  rw [strideCount_eq n step hs]
  split_ifs with hm
  · exact Nat.div_pos (Nat.le_of_dvd (Nat.pos_of_ne_zero hn) (Nat.dvd_of_mod_eq_zero hm)) hs
  · exact Nat.succ_pos _

theorem strideCount_zero (step : Nat) (hs : 0 < step) : strideCount 0 step = 0 := by
  rw [strideCount_eq 0 step hs]
  simp

/-- Every write of `subsample` falls inside the output exactly when the input is empty or
the step divides both of its dimensions. -/
theorem writes_inside_iff (input : Image) (scale : Nat) :
    (∀ w ∈ subsampleWrites input scale (input.cols / 2 ^ scale),
      w.1 < input.rows / 2 ^ scale * (input.cols / 2 ^ scale)) ↔
    (input.rows = 0 ∨ input.cols = 0 ∨
      (input.rows % 2 ^ scale = 0 ∧ input.cols % 2 ^ scale = 0)) := by
  have hs : 0 < 2 ^ scale := Nat.two_pow_pos scale
  obtain ⟨step, hstep⟩ : ∃ step, 2 ^ scale = step := ⟨_, rfl⟩
  rw [hstep] at hs ⊢
  constructor
  · intro h
    by_contra hcon
    push_neg at hcon
    obtain ⟨hM, hN, hdiv⟩ := hcon
    have hcM := strideCount_eq input.rows step hs
    have hcN := strideCount_eq input.cols step hs
    have hposM := strideCount_pos input.rows step hs hM
    have hposN := strideCount_pos input.cols step hs hN
    have hw := h ((strideCount input.rows step - 1) * (input.cols / step) +
        (strideCount input.cols step - 1),
        input.data ((strideCount input.rows step - 1) * step * input.cols +
          (strideCount input.cols step - 1) * step))
      ((mem_subsampleWrites input _ _ step hstep _).2
        ⟨_, _, Nat.sub_lt hposM Nat.one_pos, Nat.sub_lt hposN Nat.one_pos, rfl⟩)
    simp only at hw
    by_cases hm : input.rows % step = 0
    · have hn : input.cols % step ≠ 0 := hdiv hm
      rw [if_pos hm] at hcM
      rw [if_neg hn] at hcN
      rw [hcM] at hposM
      rw [hcM, hcN] at hw
      obtain ⟨r, hr⟩ : ∃ r, input.rows / step = r + 1 :=
        ⟨input.rows / step - 1, (Nat.sub_add_cancel hposM).symm⟩
      rw [hr] at hw
      simp only [Nat.add_sub_cancel] at hw
      have e : r * (input.cols / step) + input.cols / step =
          (r + 1) * (input.cols / step) := by ring
      rw [e] at hw
      exact Nat.lt_irrefl _ hw
    · rw [if_neg hm] at hcM
      rw [hcM] at hw
      simp only [Nat.add_sub_cancel] at hw
      exact Nat.not_lt.2 (Nat.le_add_right _ _) hw
  · intro h w hw
    obtain ⟨ii, jj, hii, hjj, rfl⟩ := (mem_subsampleWrites input _ _ step hstep _).1 hw
    simp only
    rcases h with h | h | ⟨h1, h2⟩
    · rw [h, strideCount_zero step hs] at hii
      exact absurd hii (Nat.not_lt_zero _)
    · rw [h, strideCount_zero step hs] at hjj
      exact absurd hjj (Nat.not_lt_zero _)
    · rw [strideCount_eq _ step hs, if_pos h1] at hii
      rw [strideCount_eq _ step hs, if_pos h2] at hjj
      exact pixel_in_bounds hii hjj

end BarcodeLocator


namespace BarcodeLocator

/-- A sequence of writes leaves a position alone that none of them addresses. -/
theorem foldl_update_of_not_mem {α : Type} (p : Nat) : ∀ (ws : List (Nat × α)) (d0 : Nat → α),
    (∀ w ∈ ws, w.1 ≠ p) → (ws.foldl (fun d w => Function.update d w.1 w.2) d0) p = d0 p := by
  intro ws
  induction ws with
  | nil => intro d0 _; rfl
  | cons w rest ih =>
    intro d0 h
    rw [List.foldl_cons, ih _ (fun x hx => h x (List.mem_cons_of_mem _ hx)),
      Function.update_noteq (Ne.symm (h w (List.mem_cons_self _ _)))]

/-- A position that is written, and only ever with the value `v`, holds `v` in the end. -/
theorem foldl_update_of_mem {α : Type} (p : Nat) (v : α) : ∀ (ws : List (Nat × α))
    (d0 : Nat → α), (∃ w ∈ ws, w.1 = p) → (∀ w ∈ ws, w.1 = p → w.2 = v) →
    (ws.foldl (fun d w => Function.update d w.1 w.2) d0) p = v := by
  intro ws
  induction ws with
  | nil => intro d0 h; obtain ⟨w, hw, _⟩ := h; cases hw
  | cons w rest ih =>
    intro d0 hex hall
    rw [List.foldl_cons]
    by_cases hr : ∃ x ∈ rest, x.1 = p
    · exact ih _ hr (fun x hx => hall x (List.mem_cons_of_mem _ hx))
    · push_neg at hr
      rw [foldl_update_of_not_mem p rest _ hr]
      obtain ⟨x, hx, hxp⟩ := hex
      rcases List.mem_cons.1 hx with rfl | hx'
      · rw [← hxp, Function.update_same]
        exact hall x (List.mem_cons_self _ _) hxp
      · exact absurd hxp (hr x hx')

/-- When `subsample` returns, the step divides both dimensions of a non-empty input, and the
output is the strided decimation of the input. -/
theorem subsample_some (input : Image) (scale : Nat) (out : Image)
    (h : subsample input scale = some out) :
    (input.rows = 0 ∨ input.cols = 0 ∨
      (input.rows % 2 ^ scale = 0 ∧ input.cols % 2 ^ scale = 0)) ∧
    out.rows = input.rows / 2 ^ scale ∧ out.cols = input.cols / 2 ^ scale ∧
    ∀ i j, i < out.rows → j < out.cols →
      out.data (i * out.cols + j) = input.data (i * 2 ^ scale * input.cols + j * 2 ^ scale) := by
  unfold subsample at h
  simp only at h
  split_ifs at h with hall
  rw [List.all_eq_true] at hall
  have hin : ∀ w ∈ subsampleWrites input scale (input.cols / 2 ^ scale),
      w.1 < input.rows / 2 ^ scale * (input.cols / 2 ^ scale) :=
    fun w hw => by simpa using hall w hw
  have hdiv := (writes_inside_iff input scale).1 hin
  cases h
  refine ⟨hdiv, rfl, rfl, ?_⟩
  intro i j hi hj
  simp only at hi hj ⊢
  have hs : 0 < 2 ^ scale := Nat.two_pow_pos scale
  have hrows : input.rows ≠ 0 := by
    intro h0; rw [h0, Nat.zero_div] at hi; exact absurd hi (Nat.not_lt_zero _)
  have hcols : input.cols ≠ 0 := by
    intro h0; rw [h0, Nat.zero_div] at hj; exact absurd hj (Nat.not_lt_zero _)
  have hd : input.rows % 2 ^ scale = 0 ∧ input.cols % 2 ^ scale = 0 := by
    rcases hdiv with h0 | h0 | h0
    · exact absurd h0 hrows
    · exact absurd h0 hcols
    · exact h0
  refine foldl_update_of_mem _ _ _ _ ?_ ?_
  · refine ⟨_, (mem_subsampleWrites input scale _ _ rfl _).2 ⟨i, j, ?_, ?_, rfl⟩, rfl⟩
    · rw [strideCount_eq _ _ hs, if_pos hd.1]; exact hi
    · rw [strideCount_eq _ _ hs, if_pos hd.2]; exact hj
  · intro w hw hp
    obtain ⟨ii, jj, _, hjj, rfl⟩ := (mem_subsampleWrites input scale _ _ rfl _).1 hw
    rw [strideCount_eq _ _ hs, if_pos hd.2] at hjj
    simp only at hp ⊢
    obtain ⟨e1, e2⟩ := flat_inj hjj hj hp
    rw [e1, e2]

/-- The method `subsample` returns exactly when the input is empty or the step divides both
of its dimensions. -/
theorem subsample_isSome_iff (input : Image) (scale : Nat) :
    (subsample input scale).isSome = true ↔
      (input.rows = 0 ∨ input.cols = 0 ∨
        (input.rows % 2 ^ scale = 0 ∧ input.cols % 2 ^ scale = 0)) := by
  constructor
  · intro h
    obtain ⟨out, hout⟩ := Option.isSome_iff_exists.1 h
    exact (subsample_some input scale out hout).1
  · intro h
    have hin := (writes_inside_iff input scale).2 h
    unfold subsample
    simp only
    rw [if_pos (List.all_eq_true.2 (fun w hw => by simpa using hin w hw))]
    rfl

/-- C35, the code at the failing input: for a 3 x 3 input and `scale = 1` the output has
`1 x 1` pixels, one element at flat position 0, and `subsample` makes four writes, of which
three fall on the positions 1 and 2, outside the output (the loops run over the input
dimensions, so that a dimension which is not a multiple of the step yields one more row or
column than the output has).  In general the writes stay inside the output exactly when the
input is empty or the step divides both dimensions, and the output is then the strided
decimation of the input. -/
theorem subsample_writes_outside_the_output :
    subsampleWrites countingImage 1 (countingImage.cols / 2 ^ 1) =
      [(0, 1), (1, 3), (1, 7), (2, 9)] ∧
    countingImage.rows / 2 ^ 1 * (countingImage.cols / 2 ^ 1) = 1 ∧
    (subsample countingImage 1).isSome = false ∧
    (∀ (input : Image) (scale : Nat), (subsample input scale).isSome = true ↔
      (input.rows = 0 ∨ input.cols = 0 ∨
        (input.rows % 2 ^ scale = 0 ∧ input.cols % 2 ^ scale = 0))) ∧
    (∀ (input : Image) (scale : Nat) (out : Image), subsample input scale = some out →
      out.rows = input.rows / 2 ^ scale ∧ out.cols = input.cols / 2 ^ scale ∧
      ∀ i j, i < out.rows → j < out.cols →
        out.data (i * out.cols + j) =
          input.data (i * 2 ^ scale * input.cols + j * 2 ^ scale)) :=
  ⟨by decide, by decide, by decide, subsample_isSome_iff,
    fun input scale out h => (subsample_some input scale out h).2⟩

end BarcodeLocator


/-! ## The Scharr gradients: claims C32 and C33 -/

namespace BarcodeLocator

/-- A loop over `0 .. n-1` whose turn `k` writes the value `val k` at position `pos k` of a
table, the positions being distinct: in the end every position written holds its value and
every other position is as before. -/
theorem loop_writes {σ α : Type} (get : σ → Nat → α) (f : σ → Nat → σ) (pos : Nat → Nat)
    (val : Nat → α) (Keep : σ → Prop) (n : Nat)
    (hf : ∀ s k, k < n → Keep s →
      Keep (f s k) ∧ get (f s k) = Function.update (get s) (pos k) (val k))
    (hinj : ∀ k k', k < n → k' < n → pos k = pos k' → k = k') (s0 : σ) (h0 : Keep s0) :
    Keep ((List.range n).foldl f s0) ∧
    (∀ k, k < n → get ((List.range n).foldl f s0) (pos k) = val k) ∧
    (∀ p, (∀ k, k < n → pos k ≠ p) → get ((List.range n).foldl f s0) p = get s0 p) := by
  have h := foldl_range_inv (fun m s => m ≤ n → (Keep s ∧
      (∀ k, k < m → get s (pos k) = val k) ∧
      (∀ p, (∀ k, k < m → pos k ≠ p) → get s p = get s0 p))) f n s0
    (fun _ => ⟨h0, fun k hk => absurd hk (Nat.not_lt_zero _), fun _ _ => rfl⟩) ?_
  · exact h (le_refl _)
  · intro k hk s hs _
    obtain ⟨hK, hv, hu⟩ := hs (by omega)
    obtain ⟨hK', hg⟩ := hf s k hk hK
    refine ⟨hK', ?_, ?_⟩
    · intro k' hk'
      rw [hg]
      rcases Nat.lt_succ_iff_lt_or_eq.1 hk' with h | h
      · rw [Function.update_noteq (fun e => by have := hinj k' k (by omega) hk e; omega)]
        exact hv k' h
      · rw [h, Function.update_same]
    · intro p hp
      rw [hg, Function.update_noteq (fun e => hp k (Nat.lt_succ_self k) e.symm)]
      exact hu p (fun k' hk' => hp k' (by omega))

/-- Two nested loops whose inner turn `(a, b)` writes the value `val a b` at position
`pos a b` of a table, the positions being distinct; before and after the inner loop the
table may be handed through steps `pre` and `post` that do not change it. -/
theorem nested_writes {σ α : Type} (get : σ → Nat → α) (f : σ → Nat → Nat → σ)
    (pre post : σ → Nat → σ) (pos : Nat → Nat → Nat) (val : Nat → Nat → α) (Keep : σ → Prop)
    (n m : Nat)
    (hf : ∀ s a b, a < n → b < m → Keep s →
      Keep (f s a b) ∧ get (f s a b) = Function.update (get s) (pos a b) (val a b))
    (hpre : ∀ s a, a < n → Keep s → Keep (pre s a) ∧ get (pre s a) = get s)
    (hpost : ∀ s a, a < n → Keep s → Keep (post s a) ∧ get (post s a) = get s)
    (hinj : ∀ a b a' b', a < n → b < m → a' < n → b' < m → pos a b = pos a' b' →
      a = a' ∧ b = b') (s0 : σ) (h0 : Keep s0) :
    Keep ((List.range n).foldl
      (fun s a => post ((List.range m).foldl (fun s b => f s a b) (pre s a)) a) s0) ∧
    (∀ a b, a < n → b < m → get ((List.range n).foldl
      (fun s a => post ((List.range m).foldl (fun s b => f s a b) (pre s a)) a) s0) (pos a b) =
        val a b) ∧
    (∀ p, (∀ a b, a < n → b < m → pos a b ≠ p) → get ((List.range n).foldl
      (fun s a => post ((List.range m).foldl (fun s b => f s a b) (pre s a)) a) s0) p =
        get s0 p) := by
  have h := foldl_range_inv (fun c s => c ≤ n → (Keep s ∧
      (∀ a b, a < c → b < m → get s (pos a b) = val a b) ∧
      (∀ p, (∀ a b, a < c → b < m → pos a b ≠ p) → get s p = get s0 p)))
    (fun s a => post ((List.range m).foldl (fun s b => f s a b) (pre s a)) a) n s0
    (fun _ => ⟨h0, fun a b ha => absurd ha (Nat.not_lt_zero _), fun _ _ => rfl⟩) ?_
  · exact h (le_refl _)
  · intro a ha s hs _
    obtain ⟨hK, hv, hu⟩ := hs (by omega)
    obtain ⟨hK1, hg1⟩ := hpre s a ha hK
    obtain ⟨hK2, hv2, hu2⟩ := loop_writes get (fun s b => f s a b) (pos a) (val a) Keep m
      (fun s b hb hs => hf s a b ha hb hs)
      (fun b b' hb hb' e => (hinj a b a b' ha hb ha hb' e).2) (pre s a) hK1
    obtain ⟨hK3, hg3⟩ := hpost _ a ha hK2
    refine ⟨hK3, ?_, ?_⟩
    · intro a' b ha' hb
      rw [hg3]
      rcases Nat.lt_succ_iff_lt_or_eq.1 ha' with h | h
      · rw [hu2 _ (fun b' hb' e => by
          have := (hinj a b' a' b ha hb' (by omega) hb e).1; omega), hg1]
        exact hv a' b h hb
      · rw [h]; exact hv2 b hb
    · intro p hp
      rw [hg3, hu2 p (fun b hb => hp a b (Nat.lt_succ_self a) hb), hg1]
      exact hu p (fun a' b ha' hb => hp a' b (by omega) hb)

end BarcodeLocator

namespace BarcodeLocator

/-- The border loops: the scratch rows `0` and `N-1` end up zero, and every gradient entry is
zero or as before. -/
theorem scharrBorders_spec (M N : Nat) (g : Gradients) :
    (∀ q, q < M →
      (scharrBorderCols M N (scharrBorderRows M N g)).tmp1 q = 0 ∧
      (scharrBorderCols M N (scharrBorderRows M N g)).tmp1 ((N - 1) * M + q) = 0 ∧
      (scharrBorderCols M N (scharrBorderRows M N g)).tmp2 q = 0 ∧
      (scharrBorderCols M N (scharrBorderRows M N g)).tmp2 ((N - 1) * M + q) = 0) ∧
    (∀ p,
      ((scharrBorderCols M N (scharrBorderRows M N g)).iGrad p = 0 ∨
        (scharrBorderCols M N (scharrBorderRows M N g)).iGrad p = g.iGrad p) ∧
      ((scharrBorderCols M N (scharrBorderRows M N g)).jGrad p = 0 ∨
        (scharrBorderCols M N (scharrBorderRows M N g)).jGrad p = g.jGrad p)) := by
  have hrows : ∀ p, ((scharrBorderRows M N g).iGrad p = 0 ∨
      (scharrBorderRows M N g).iGrad p = g.iGrad p) ∧
      ((scharrBorderRows M N g).jGrad p = 0 ∨ (scharrBorderRows M N g).jGrad p = g.jGrad p) := by
    unfold scharrBorderRows
    refine foldl_range_inv (fun _ s => ∀ p, (s.iGrad p = 0 ∨ s.iGrad p = g.iGrad p) ∧
      (s.jGrad p = 0 ∨ s.jGrad p = g.jGrad p)) _ N g (fun p => ⟨Or.inr rfl, Or.inr rfl⟩) ?_
    intro k _ s hs p
    refine ⟨?_, ?_⟩ <;> simp only [Function.update_apply] <;> split_ifs <;>
      first | exact Or.inl rfl | exact (hs p).1 | exact (hs p).2
  unfold scharrBorderCols
  have h := foldl_range_inv (fun k s =>
      (∀ q, q < k → s.tmp1 q = 0 ∧ s.tmp1 ((N - 1) * M + q) = 0 ∧
        s.tmp2 q = 0 ∧ s.tmp2 ((N - 1) * M + q) = 0) ∧
      (∀ p, (s.iGrad p = 0 ∨ s.iGrad p = g.iGrad p) ∧
        (s.jGrad p = 0 ∨ s.jGrad p = g.jGrad p)))
    (fun g q =>
      { iGrad := Function.update (Function.update g.iGrad (q * N) 0) (N - 1 + q * N) 0,
        jGrad := Function.update (Function.update g.jGrad (q * N) 0) (N - 1 + q * N) 0,
        tmp1 := Function.update (Function.update g.tmp1 q 0) ((N - 1) * M + q) 0,
        tmp2 := Function.update (Function.update g.tmp2 q 0) ((N - 1) * M + q) 0 })
    M (scharrBorderRows M N g) ⟨fun q hq => absurd hq (Nat.not_lt_zero _), hrows⟩ ?_
  · exact h
  · intro k _ s hs
    obtain ⟨h1, h2⟩ := hs
    refine ⟨?_, ?_⟩
    · intro q hq
      rcases Nat.lt_succ_iff_lt_or_eq.1 hq with h | h
      · obtain ⟨a1, a2, a3, a4⟩ := h1 q h
        refine ⟨?_, ?_, ?_, ?_⟩ <;> simp only [Function.update_apply] <;> split_ifs <;>
          first | rfl | assumption
      · subst h
        refine ⟨?_, ?_, ?_, ?_⟩ <;> simp only [Function.update_apply] <;> split_ifs <;> rfl
    · intro p
      refine ⟨?_, ?_⟩ <;> simp only [Function.update_apply] <;> split_ifs <;>
        first | exact Or.inl rfl | exact (h2 p).1 | exact (h2 p).2

/-- The position the horizontal pass writes for image row `i` and column `j` lies in the
scratch rows `1 .. N-2`. -/
theorem scratch_position {M N i j : Nat} (hi : i < M) (hj : j < N - 2) :
    M ≤ M + i + j * M ∧ M + i + j * M < (N - 1) * M := by
  have h1 : (j + 2) * M ≤ (N - 1) * M := Nat.mul_le_mul_right M (by omega)
  have h2 : (j + 2) * M = j * M + M + M := by ring
  omega

/-- The horizontal pass: the gradients are not touched, the scratch rows `1 .. N-2` receive
the differences and the smoothed sums of the image rows, transposed, and the scratch rows
`0` and `N-1` are not touched. -/
theorem scharrHorizontal_spec (img : Nat → Nat) (M N : Nat) (g : Gradients) :
    (scharrHorizontal img M N g).iGrad = g.iGrad ∧
    (scharrHorizontal img M N g).jGrad = g.jGrad ∧
    (∀ i j, i < M → j < N - 2 →
      (scharrHorizontal img M N g).tmp1 (M + i + j * M) =
        Int.ofNat (img (i * N + j)) - Int.ofNat (img (i * N + j + 2)) ∧
      (scharrHorizontal img M N g).tmp2 (M + i + j * M) =
        3 * Int.ofNat (img (i * N + j)) + 10 * Int.ofNat (img (i * N + j + 1)) +
          3 * Int.ofNat (img (i * N + j + 2))) ∧
    (∀ p, (p < M ∨ (N - 1) * M ≤ p) →
      (scharrHorizontal img M N g).tmp1 p = g.tmp1 p ∧
      (scharrHorizontal img M N g).tmp2 p = g.tmp2 p) := by
  have hinj : ∀ a b a' b', a < M → b < N - 2 → a' < M → b' < N - 2 →
      M + a + b * M = M + a' + b' * M → a = a' ∧ b = b' := by
    intro a b a' b' ha _ ha' _ e
    exact flat_inj ha ha' (by omega)
  have h1 := nested_writes (fun s : Gradients => s.tmp1)
    (fun g i j =>
      { g with
        tmp1 := Function.update g.tmp1 (M + i + j * M)
          (Int.ofNat (img (i * N + j)) - Int.ofNat (img (i * N + j + 2))),
        tmp2 := Function.update g.tmp2 (M + i + j * M)
          (3 * Int.ofNat (img (i * N + j)) + 10 * Int.ofNat (img (i * N + j + 1)) +
            3 * Int.ofNat (img (i * N + j + 2))) })
    (fun s _ => s) (fun s _ => s) (fun i j => M + i + j * M)
    (fun i j => Int.ofNat (img (i * N + j)) - Int.ofNat (img (i * N + j + 2)))
    (fun s => s.iGrad = g.iGrad ∧ s.jGrad = g.jGrad) M (N - 2)
    (fun s a b _ _ hs => ⟨hs, rfl⟩) (fun s a _ hs => ⟨hs, rfl⟩) (fun s a _ hs => ⟨hs, rfl⟩)
    hinj g ⟨rfl, rfl⟩
  have h2 := nested_writes (fun s : Gradients => s.tmp2)
    (fun g i j =>
      { g with
        tmp1 := Function.update g.tmp1 (M + i + j * M)
          (Int.ofNat (img (i * N + j)) - Int.ofNat (img (i * N + j + 2))),
        tmp2 := Function.update g.tmp2 (M + i + j * M)
          (3 * Int.ofNat (img (i * N + j)) + 10 * Int.ofNat (img (i * N + j + 1)) +
            3 * Int.ofNat (img (i * N + j + 2))) })
    (fun s _ => s) (fun s _ => s) (fun i j => M + i + j * M)
    (fun i j => 3 * Int.ofNat (img (i * N + j)) + 10 * Int.ofNat (img (i * N + j + 1)) +
            3 * Int.ofNat (img (i * N + j + 2)))
    (fun _ => True) M (N - 2)
    (fun s a b _ _ hs => ⟨hs, rfl⟩) (fun s a _ hs => ⟨hs, rfl⟩) (fun s a _ hs => ⟨hs, rfl⟩)
    hinj g trivial
  obtain ⟨⟨k1, k2⟩, v1, u1⟩ := h1
  obtain ⟨_, v2, u2⟩ := h2
  have hout : ∀ p, (p < M ∨ (N - 1) * M ≤ p) → ∀ a b, a < M → b < N - 2 →
      M + a + b * M ≠ p := by
    intro p hp a b ha hb
    have := scratch_position ha hb
    omega
  exact ⟨k1, k2, fun i j hi hj => ⟨v1 i j hi hj, v2 i j hi hj⟩,
    fun p hp => ⟨u1 p (hout p hp), u2 p (hout p hp)⟩⟩

end BarcodeLocator

namespace BarcodeLocator

/-- The loop of the vertical pass that writes `jGrad` leaves the other matrices alone. -/
theorem jLoop_keeps (M N r n : Nat) (s : Gradients) :
    ((List.range n).foldl (fun g k =>
      { g with jGrad := Function.update g.jGrad (1 + r + k * N)
                 (smoothedDifference g.tmp1 (r * M + k)) }) s).tmp1 = s.tmp1 ∧
    ((List.range n).foldl (fun g k =>
      { g with jGrad := Function.update g.jGrad (1 + r + k * N)
                 (smoothedDifference g.tmp1 (r * M + k)) }) s).tmp2 = s.tmp2 ∧
    ((List.range n).foldl (fun g k =>
      { g with jGrad := Function.update g.jGrad (1 + r + k * N)
                 (smoothedDifference g.tmp1 (r * M + k)) }) s).iGrad = s.iGrad := by
  refine foldl_range_inv
    (fun _ (t : Gradients) => t.tmp1 = s.tmp1 ∧ t.tmp2 = s.tmp2 ∧ t.iGrad = s.iGrad) _ n s
    ⟨rfl, rfl, rfl⟩ ?_
  intro _ _ _ ht
  exact ht

/-- The loop of the vertical pass that writes `iGrad` leaves the other matrices alone. -/
theorem iLoop_keeps (M N r n : Nat) (s : Gradients) :
    ((List.range n).foldl (fun g k =>
      { g with iGrad := Function.update g.iGrad (1 + r + k * N)
                 (differenceOfSmoothed g.tmp2 (r * M + k)) }) s).tmp1 = s.tmp1 ∧
    ((List.range n).foldl (fun g k =>
      { g with iGrad := Function.update g.iGrad (1 + r + k * N)
                 (differenceOfSmoothed g.tmp2 (r * M + k)) }) s).tmp2 = s.tmp2 ∧
    ((List.range n).foldl (fun g k =>
      { g with iGrad := Function.update g.iGrad (1 + r + k * N)
                 (differenceOfSmoothed g.tmp2 (r * M + k)) }) s).jGrad = s.jGrad := by
  refine foldl_range_inv
    (fun _ (t : Gradients) => t.tmp1 = s.tmp1 ∧ t.tmp2 = s.tmp2 ∧ t.jGrad = s.jGrad) _ n s
    ⟨rfl, rfl, rfl⟩ ?_
  intro _ _ _ ht
  exact ht

/-- The vertical pass: the scratch matrices are not touched; for every scratch row `r` and
every `k = 0 .. M-3` the gradients at flat position `1 + r + k N` receive the smoothed
difference and the difference of the smoothed sums of the scratch entries `k, k+1, k+2` of
the row; every other gradient entry is as before. -/
theorem scharrVertical_spec (M N : Nat) (g : Gradients) :
    (scharrVertical M N g).tmp1 = g.tmp1 ∧ (scharrVertical M N g).tmp2 = g.tmp2 ∧
    (∀ r k, r < N → k < M - 2 →
      (scharrVertical M N g).jGrad (1 + r + k * N) = smoothedDifference g.tmp1 (r * M + k) ∧
      (scharrVertical M N g).iGrad (1 + r + k * N) =
        differenceOfSmoothed g.tmp2 (r * M + k)) ∧
    (∀ p, (∀ r k, r < N → k < M - 2 → 1 + r + k * N ≠ p) →
      (scharrVertical M N g).jGrad p = g.jGrad p ∧
      (scharrVertical M N g).iGrad p = g.iGrad p) := by
  have hinj : ∀ a b a' b', a < N → b < M - 2 → a' < N → b' < M - 2 →
      1 + a + b * N = 1 + a' + b' * N → a = a' ∧ b = b' := by
    intro a b a' b' ha _ ha' _ e
    exact flat_inj ha ha' (by omega)
  have hJ := nested_writes (fun s : Gradients => s.jGrad)
    (fun g r k =>
      { g with jGrad := Function.update g.jGrad (1 + r + k * N)
                 (smoothedDifference g.tmp1 (r * M + k)) })
    (fun s _ => s)
    (fun s r => (List.range (M - 2)).foldl (fun g k =>
      { g with iGrad := Function.update g.iGrad (1 + r + k * N)
                 (differenceOfSmoothed g.tmp2 (r * M + k)) }) s)
    (fun r k => 1 + r + k * N) (fun r k => smoothedDifference g.tmp1 (r * M + k))
    (fun s => s.tmp1 = g.tmp1 ∧ s.tmp2 = g.tmp2) N (M - 2)
    (fun s a b _ _ hs => ⟨hs, by simp only [hs.1]⟩) (fun s a _ hs => ⟨hs, rfl⟩)
    (fun s a _ hs => by
      obtain ⟨e1, e2, e3⟩ := iLoop_keeps M N a (M - 2) s
      exact ⟨⟨e1.trans hs.1, e2.trans hs.2⟩, e3⟩)
    hinj g ⟨rfl, rfl⟩
  have hI := nested_writes (fun s : Gradients => s.iGrad)
    (fun g r k =>
      { g with iGrad := Function.update g.iGrad (1 + r + k * N)
                 (differenceOfSmoothed g.tmp2 (r * M + k)) })
    (fun s r => (List.range (M - 2)).foldl (fun g k =>
      { g with jGrad := Function.update g.jGrad (1 + r + k * N)
                 (smoothedDifference g.tmp1 (r * M + k)) }) s)
    (fun s _ => s)
    (fun r k => 1 + r + k * N) (fun r k => differenceOfSmoothed g.tmp2 (r * M + k))
    (fun s => s.tmp1 = g.tmp1 ∧ s.tmp2 = g.tmp2) N (M - 2)
    (fun s a b _ _ hs => ⟨hs, by simp only [hs.2]⟩)
    (fun s a _ hs => by
      obtain ⟨e1, e2, e3⟩ := jLoop_keeps M N a (M - 2) s
      exact ⟨⟨e1.trans hs.1, e2.trans hs.2⟩, e3⟩)
    (fun s a _ hs => ⟨hs, rfl⟩)
    hinj g ⟨rfl, rfl⟩
  obtain ⟨⟨k1, k2⟩, vJ, uJ⟩ := hJ
  obtain ⟨_, vI, uI⟩ := hI
  exact ⟨k1, k2, fun r k hr hk => ⟨vJ r k hr hk, vI r k hr hk⟩,
    fun p hp => ⟨uJ p hp, uI p hp⟩⟩

end BarcodeLocator

namespace BarcodeLocator

/-- The scratch matrices after the horizontal pass of `calculateScharrGradients`: the scratch
row `r` is zero for `r = 0` and `r = N-1`, and otherwise holds, at column `c`, the difference
and the smoothed sum of the pixels around column `r` of the image row `c`. -/
theorem scratch_entries (img : Image) (g : Gradients) (r c : Nat) (hr : r < img.cols)
    (hc : c < img.rows) :
    (scharrHorizontal img.data img.rows img.cols
        (scharrBorderCols img.rows img.cols (scharrBorderRows img.rows img.cols g))).tmp1
        (r * img.rows + c) =
      (if r = 0 ∨ r + 1 = img.cols then 0
        else img.pixel c (r - 1) - img.pixel c (r + 1)) ∧
    (scharrHorizontal img.data img.rows img.cols
        (scharrBorderCols img.rows img.cols (scharrBorderRows img.rows img.cols g))).tmp2
        (r * img.rows + c) =
      (if r = 0 ∨ r + 1 = img.cols then 0
        else 3 * img.pixel c (r - 1) + 10 * img.pixel c r + 3 * img.pixel c (r + 1)) := by
  obtain ⟨hb, _⟩ := scharrBorders_spec img.rows img.cols g
  obtain ⟨_, _, hv, hu⟩ := scharrHorizontal_spec img.data img.rows img.cols
    (scharrBorderCols img.rows img.cols (scharrBorderRows img.rows img.cols g))
  by_cases h0 : r = 0
  · subst h0
    rw [if_pos (Or.inl rfl), if_pos (Or.inl rfl), Nat.zero_mul, Nat.zero_add,
      (hu c (Or.inl hc)).1, (hu c (Or.inl hc)).2]
    exact ⟨(hb c hc).1, (hb c hc).2.2.1⟩
  · by_cases h1 : r + 1 = img.cols
    · have e : r = img.cols - 1 := by omega
      rw [if_pos (Or.inr h1), if_pos (Or.inr h1), e,
        (hu _ (Or.inr (Nat.le_add_right _ _))).1, (hu _ (Or.inr (Nat.le_add_right _ _))).2]
      exact ⟨(hb c hc).2.1, (hb c hc).2.2.2⟩
    · rw [if_neg (by omega), if_neg (by omega)]
      obtain ⟨j, rfl⟩ : ∃ j, r = j + 1 := ⟨r - 1, by omega⟩
      have e : (j + 1) * img.rows + c = img.rows + c + j * img.rows := by ring
      obtain ⟨v1, v2⟩ := hv c j hc (by omega)
      rw [e, v1, v2]
      simp only [Image.pixel, Nat.add_sub_cancel, Nat.add_assoc, and_self]

/-- What the code stores: the Scharr responses centred at an interior pixel `(r, c)` are
stored one row up and one column to the right, at row `r - 1` and column `c + 1`. -/
theorem scharr_stored_displaced (img : Image) (g : Gradients) (r c : Nat) (hr1 : 1 ≤ r)
    (hr2 : r + 1 < img.rows) (hc1 : 1 ≤ c) (hc2 : c + 1 < img.cols) :
    (calculateScharrGradients img g).jGrad ((r - 1) * img.cols + (c + 1)) =
      scharrResponseJ img r c ∧
    (calculateScharrGradients img g).iGrad ((r - 1) * img.cols + (c + 1)) =
      scharrResponseI img r c := by
  unfold calculateScharrGradients
  obtain ⟨_, _, hv, _⟩ := scharrVertical_spec img.rows img.cols
    (scharrHorizontal img.data img.rows img.cols
      (scharrBorderCols img.rows img.cols (scharrBorderRows img.rows img.cols g)))
  obtain ⟨k, rfl⟩ : ∃ k, r = k + 1 := ⟨r - 1, by omega⟩
  have e : (k + 1 - 1) * img.cols + (c + 1) = 1 + c + k * img.cols := by
    rw [Nat.add_sub_cancel]; ring
  obtain ⟨vJ, vI⟩ := hv c k (by omega) (by omega)
  rw [e, vJ, vI]
  unfold smoothedDifference differenceOfSmoothed scharrResponseJ scharrResponseI
  have s0 := scratch_entries img g c k (by omega) (by omega)
  have s1 := scratch_entries img g c (k + 1) (by omega) (by omega)
  have s2 := scratch_entries img g c (k + 2) (by omega) (by omega)
  rw [if_neg (by omega), if_neg (by omega)] at s0 s1 s2
  rw [← Nat.add_assoc] at s1 s2
  rw [s0.1, s1.1, s2.1, s0.2, s2.2]
  simp only [Nat.add_sub_cancel, and_self]

end BarcodeLocator


namespace BarcodeLocator

/-- C32, the code at the failing input: for the 5 x 5 image with one bright pixel, of value
160, at row 2 and column 2, the separable Scharr responses centred at the interior pixels
`(2, 1)` and `(1, 2)` are `-100`, but the gradients stored at these pixels are 0; the
responses are stored at `(1, 2)` and at `(0, 3)`.  In general the vertical pass stores the
responses centred at an interior pixel `(r, c)` one row up and one column to the right, at
row `r - 1` and column `c + 1` (it starts writing at `iGrad[0] + 1`, the second pixel of the
first row, instead of the first pixel of the second row). -/
theorem scharr_gradients_are_stored_displaced :
    (scharrResponseJ dotImage 2 1 = -100 ∧
      (calculateScharrGradients dotImage Gradients.zero).jGrad (2 * 5 + 1) = 0 ∧
      (calculateScharrGradients dotImage Gradients.zero).jGrad (1 * 5 + 2) = -100) ∧
    (scharrResponseI dotImage 1 2 = -100 ∧
      (calculateScharrGradients dotImage Gradients.zero).iGrad (1 * 5 + 2) = 0 ∧
      (calculateScharrGradients dotImage Gradients.zero).iGrad (0 * 5 + 3) = -100) ∧
    (∀ (img : Image) (g : Gradients) (r c : Nat), 1 ≤ r → r + 1 < img.rows → 1 ≤ c →
      c + 1 < img.cols →
      (calculateScharrGradients img g).jGrad ((r - 1) * img.cols + (c + 1)) =
        scharrResponseJ img r c ∧
      (calculateScharrGradients img g).iGrad ((r - 1) * img.cols + (c + 1)) =
        scharrResponseI img r c) :=
  ⟨⟨by decide, by decide, by decide⟩, ⟨by decide, by decide, by decide⟩,
    scharr_stored_displaced⟩

/-- The truncating quotient by 16 of a number between `-4080` and `4080`. -/
theorem tdiv16_bound (x : Int) (h1 : -4080 ≤ x) (h2 : x ≤ 4080) :
    -255 ≤ x.tdiv 16 ∧ x.tdiv 16 ≤ 255 := by
  rcases le_or_lt 0 x with h | h
  · rw [Int.tdiv_eq_ediv h (by norm_num)]
    omega
  · have e : x.tdiv 16 = -((-x).tdiv 16) := by rw [Int.neg_tdiv, neg_neg]
    rw [e, Int.tdiv_eq_ediv (by omega) (by norm_num)]
    omega

/-- The pixels of an 8-bit image. -/
theorem pixel_range (img : Image) (h8 : ∀ k, k < img.rows * img.cols → img.data k ≤ 255)
    (r c : Nat) (hr : r < img.rows) (hc : c < img.cols) :
    0 ≤ img.pixel r c ∧ img.pixel r c ≤ 255 := by
  have := h8 (r * img.cols + c) (pixel_in_bounds hr hc)
  unfold Image.pixel
  simp only [Int.ofNat_eq_coe]
  omega

/-- The scratch entries of an 8-bit image: differences between `-255` and `255`, smoothed
sums between `0` and `4080`. -/
theorem scratch_range (img : Image) (g : Gradients)
    (h8 : ∀ k, k < img.rows * img.cols → img.data k ≤ 255) (r c : Nat) (hr : r < img.cols)
    (hc : c < img.rows) :
    (-255 ≤ (scharrHorizontal img.data img.rows img.cols
        (scharrBorderCols img.rows img.cols (scharrBorderRows img.rows img.cols g))).tmp1
        (r * img.rows + c) ∧
      (scharrHorizontal img.data img.rows img.cols
        (scharrBorderCols img.rows img.cols (scharrBorderRows img.rows img.cols g))).tmp1
        (r * img.rows + c) ≤ 255) ∧
    (0 ≤ (scharrHorizontal img.data img.rows img.cols
        (scharrBorderCols img.rows img.cols (scharrBorderRows img.rows img.cols g))).tmp2
        (r * img.rows + c) ∧
      (scharrHorizontal img.data img.rows img.cols
        (scharrBorderCols img.rows img.cols (scharrBorderRows img.rows img.cols g))).tmp2
        (r * img.rows + c) ≤ 4080) := by
  obtain ⟨e1, e2⟩ := scratch_entries img g r c hr hc
  rw [e1, e2]
  by_cases h : r = 0 ∨ r + 1 = img.cols
  · rw [if_pos h, if_pos h]
    omega
  · rw [if_neg h, if_neg h]
    have p0 := pixel_range img h8 c (r - 1) hc (by omega)
    have p1 := pixel_range img h8 c r hc hr
    have p2 := pixel_range img h8 c (r + 1) hc (by omega)
    omega

end BarcodeLocator

namespace BarcodeLocator

/-- Every gradient entry after `calculateScharrGradients` on an 8-bit image is an entry that
was not written or lies between `-255` and `255`. -/
theorem scharr_entry_range (img : Image) (g : Gradients)
    (h8 : ∀ k, k < img.rows * img.cols → img.data k ≤ 255) (p : Nat) :
    ((calculateScharrGradients img g).iGrad p = g.iGrad p ∨
      (-255 ≤ (calculateScharrGradients img g).iGrad p ∧
        (calculateScharrGradients img g).iGrad p ≤ 255)) ∧
    ((calculateScharrGradients img g).jGrad p = g.jGrad p ∨
      (-255 ≤ (calculateScharrGradients img g).jGrad p ∧
        (calculateScharrGradients img g).jGrad p ≤ 255)) := by
  unfold calculateScharrGradients
  obtain ⟨_, _, hv, hu⟩ := scharrVertical_spec img.rows img.cols
    (scharrHorizontal img.data img.rows img.cols
      (scharrBorderCols img.rows img.cols (scharrBorderRows img.rows img.cols g)))
  by_cases hp : ∃ r k, r < img.cols ∧ k < img.rows - 2 ∧ 1 + r + k * img.cols = p
  · obtain ⟨r, k, hr, hk, rfl⟩ := hp
    obtain ⟨vJ, vI⟩ := hv r k hr hk
    have s0 := scratch_range img g h8 r k hr (by omega)
    have s1 := scratch_range img g h8 r (k + 1) hr (by omega)
    have s2 := scratch_range img g h8 r (k + 2) hr (by omega)
    rw [← Nat.add_assoc] at s1 s2
    rw [vJ, vI]
    unfold smoothedDifference differenceOfSmoothed
    exact ⟨Or.inr (tdiv16_bound _ (by omega) (by omega)),
      Or.inr (tdiv16_bound _ (by omega) (by omega))⟩
  · obtain ⟨uJ, uI⟩ := hu p (fun r k hr hk e => hp ⟨r, k, hr, hk, e⟩)
    obtain ⟨eI, eJ, _, _⟩ := scharrHorizontal_spec img.data img.rows img.cols
      (scharrBorderCols img.rows img.cols (scharrBorderRows img.rows img.cols g))
    obtain ⟨_, hb⟩ := scharrBorders_spec img.rows img.cols g
    rw [uJ, uI, eI, eJ]
    refine ⟨?_, ?_⟩
    · rcases (hb p).1 with h | h
      · rw [h]; exact Or.inr (by omega)
      · exact Or.inl h
    · rcases (hb p).2 with h | h
      · rw [h]; exact Or.inr (by omega)
      · exact Or.inl h

/-- C33: for every 8-bit image (of at least 3 x 3 pixels, for which the gradient loops are
defined), every entry that `calculateScharrGradients` stores in `dI` and `dJ` lies in
`[-255, 255]`.  So when the matrices start out in that range, as the zero matrices of the
constructor do and as an earlier call leaves them, the indices `(d_i + 255, d_j + 255)`
with which `calculatePolarGradients` looks up the magnitude and orientation tables lie in
`0 .. 510`, inside the 511 x 511 tables. -/
theorem scharr_gradients_index_the_tables (img : Image) (g : Gradients)
    (_hM : 3 ≤ img.rows) (_hN : 3 ≤ img.cols)
    (h8 : ∀ k, k < img.rows * img.cols → img.data k ≤ 255) :
    (∀ p,
      ((calculateScharrGradients img g).iGrad p = g.iGrad p ∨
        (-255 ≤ (calculateScharrGradients img g).iGrad p ∧
          (calculateScharrGradients img g).iGrad p ≤ 255)) ∧
      ((calculateScharrGradients img g).jGrad p = g.jGrad p ∨
        (-255 ≤ (calculateScharrGradients img g).jGrad p ∧
          (calculateScharrGradients img g).jGrad p ≤ 255))) ∧
    ((∀ p, -255 ≤ g.iGrad p ∧ g.iGrad p ≤ 255 ∧ -255 ≤ g.jGrad p ∧ g.jGrad p ≤ 255) →
      ∀ p, 0 ≤ (calculateScharrGradients img g).iGrad p + 255 ∧
        (calculateScharrGradients img g).iGrad p + 255 ≤ 510 ∧
        0 ≤ (calculateScharrGradients img g).jGrad p + 255 ∧
        (calculateScharrGradients img g).jGrad p + 255 ≤ 510) ∧
    (∀ p, 0 ≤ (calculateScharrGradients img Gradients.zero).iGrad p + 255 ∧
      (calculateScharrGradients img Gradients.zero).iGrad p + 255 ≤ 510 ∧
      0 ≤ (calculateScharrGradients img Gradients.zero).jGrad p + 255 ∧
      (calculateScharrGradients img Gradients.zero).jGrad p + 255 ≤ 510) := by
  have key : ∀ g0 : Gradients,
      (∀ p, -255 ≤ g0.iGrad p ∧ g0.iGrad p ≤ 255 ∧ -255 ≤ g0.jGrad p ∧ g0.jGrad p ≤ 255) →
      ∀ p, 0 ≤ (calculateScharrGradients img g0).iGrad p + 255 ∧
        (calculateScharrGradients img g0).iGrad p + 255 ≤ 510 ∧
        0 ≤ (calculateScharrGradients img g0).jGrad p + 255 ∧
        (calculateScharrGradients img g0).jGrad p + 255 ≤ 510 := by
    intro g0 hg p
    obtain ⟨hI, hJ⟩ := scharr_entry_range img g0 h8 p
    obtain ⟨g1, g2, g3, g4⟩ := hg p
    refine ⟨?_, ?_, ?_, ?_⟩
    · rcases hI with h | h <;> omega
    · rcases hI with h | h <;> omega
    · rcases hJ with h | h <;> omega
    · rcases hJ with h | h <;> omega
  refine ⟨fun p => scharr_entry_range img g h8 p, key g, key Gradients.zero ?_⟩
  intro p
  simp [Gradients.zero]

/-- C33, witness: the 5 x 5 image with one bright pixel, at the flat position 3, where the
stored gradient is `-100`. -/
theorem scharr_gradients_index_the_tables_witness :
    (calculateScharrGradients dotImage Gradients.zero).iGrad 3 = -100 ∧
    (0 ≤ (calculateScharrGradients dotImage Gradients.zero).iGrad 3 + 255 ∧
      (calculateScharrGradients dotImage Gradients.zero).iGrad 3 + 255 ≤ 510 ∧
      0 ≤ (calculateScharrGradients dotImage Gradients.zero).jGrad 3 + 255 ∧
      (calculateScharrGradients dotImage Gradients.zero).jGrad 3 + 255 ≤ 510) :=
  ⟨by decide,
    (scharr_gradients_index_the_tables dotImage Gradients.zero (by decide) (by decide)
      (by decide)).2.2 3⟩

end BarcodeLocator


/-! ## The scan lines: claims C36 and C37 -/

namespace BarcodeLocator

open BarcodeDecoder (TPointInt Barcode)

theorem lastGoodEdge_append_good (N : Nat) (pol : Polar) (acceptable : Nat → Bool)
    (reads : List TPointInt) (p : TPointInt) (h : goodEdge N pol acceptable p = true) :
    lastGoodEdge N pol acceptable (reads ++ [p]) = p := by
  unfold lastGoodEdge
  rw [List.filter_append, List.filter_singleton, h]
  simp

theorem lastGoodEdge_append_bad (N : Nat) (pol : Polar) (acceptable : Nat → Bool)
    (reads : List TPointInt) (p : TPointInt) (h : goodEdge N pol acceptable p = false) :
    lastGoodEdge N pol acceptable (reads ++ [p]) = lastGoodEdge N pol acceptable reads := by
  unfold lastGoodEdge
  rw [List.filter_append, List.filter_singleton, h]
  simp

/-- One turn of the loop keeps `lastEdge` the last pixel read at which a non-zero gradient of
acceptable orientation was found. -/
theorem sweepStep_lastEdge (N : Nat) (pol : Polar) (acceptable : Nat → Bool) (s : Sweep)
    (curPt : ℚ × ℚ) (x y : Int) (hs : s.lastEdge = lastGoodEdge N pol acceptable s.reads) :
    (sweepStep N pol acceptable s curPt x y).lastEdge =
      lastGoodEdge N pol acceptable (sweepStep N pol acceptable s curPt x y).reads := by
  unfold sweepStep
  simp only
  by_cases h1 : pol.absGrad (y.toNat * N + x.toNat) ≠ 0
  · rw [if_pos h1]
    by_cases h2 : acceptable (pol.angGrad (y.toNat * N + x.toNat)) = true
    · rw [if_pos h2]
      simp only
      rw [lastGoodEdge_append_good]
      simp [goodEdge, h1, h2]
    · have hbad : goodEdge N pol acceptable { x := x, y := y } = false := by
        simp [goodEdge, h2]
      rw [if_neg h2]
      split_ifs <;> simp only <;> rw [lastGoodEdge_append_bad _ _ _ _ _ hbad] <;> exact hs
  · have hbad : goodEdge N pol acceptable { x := x, y := y } = false := by
      simp only [goodEdge, ne_eq] at h1 ⊢
      simp [h1]
    rw [if_neg h1]
    split_ifs <;> simp only <;> rw [lastGoodEdge_append_bad _ _ _ _ _ hbad] <;> exact hs

/-- Throughout a direction of `scanSegment` the variable `lastEdge` is the last pixel read at
which a non-zero gradient of acceptable orientation was found. -/
theorem sweep_lastEdge (opts : Options) (M N : Nat) (pol : Polar) (acceptable : Nat → Bool)
    (step : ℚ × ℚ) : ∀ (fuel : Nat) (s : Sweep),
    s.lastEdge = lastGoodEdge N pol acceptable s.reads →
    (sweep opts M N pol acceptable step fuel s).2.lastEdge =
      lastGoodEdge N pol acceptable (sweep opts M N pol acceptable step fuel s).2.reads := by
  intro fuel
  induction fuel with
  | zero => intro s hs; exact hs
  | succ fuel ih =>
    intro s hs
    unfold sweep
    by_cases hc : imageContains M N s.curPt = true
    · rw [if_pos hc]
      simp only
      by_cases hneg : truncate (s.curPt.1 + step.1) < 0 ∨ truncate (s.curPt.2 + step.2) < 0
      · rw [if_pos hneg]
        exact hs
      · rw [if_neg hneg]
        have h1 := sweepStep_lastEdge N pol acceptable s
          (s.curPt.1 + step.1, s.curPt.2 + step.2) (truncate (s.curPt.1 + step.1))
          (truncate (s.curPt.2 + step.2)) hs
        split_ifs
        · exact h1
        · exact ih _ h1
    · rw [if_neg hc]
      exact hs

/-- A direction that ends because the point leaves the image assigns no endpoint; one that
ends by the `break` assigns `lastEdge`. -/
theorem assignedEndpoint_eq (r : SweepEnd × Sweep) :
    (r.1 = SweepEnd.leftImage → assignedEndpoint r = none) ∧
    (r.1 = SweepEnd.tooFar → assignedEndpoint r = some r.2.lastEdge) := by
  unfold assignedEndpoint
  refine ⟨fun h => ?_, fun h => ?_⟩
  · rw [h]; rfl
  · rw [h]; rfl

end BarcodeLocator

namespace BarcodeLocator

open BarcodeDecoder (TPointInt Barcode)

/-- One turn of the loop records the pixel read and the point moved to. -/
theorem sweepStep_reads (N : Nat) (pol : Polar) (acceptable : Nat → Bool) (s : Sweep)
    (curPt : ℚ × ℚ) (x y : Int) :
    (sweepStep N pol acceptable s curPt x y).reads = s.reads ++ [{ x := x, y := y }] ∧
    (sweepStep N pol acceptable s curPt x y).curPt = curPt := by
  unfold sweepStep
  simp only
  split_ifs <;> exact ⟨rfl, rfl⟩

/-- A direction that ends because the point has left the image has read the maps last at the
pixel of that point, which lies outside the image rectangle. -/
theorem sweep_leaves_after_reading (opts : Options) (M N : Nat) (pol : Polar)
    (acceptable : Nat → Bool) (step : ℚ × ℚ) : ∀ (fuel : Nat) (s : Sweep),
    (s.reads ≠ [] ∨ imageContains M N s.curPt = true) →
    (∀ p, s.reads.getLast? = some p →
      p = { x := truncate s.curPt.1, y := truncate s.curPt.2 }) →
    (sweep opts M N pol acceptable step fuel s).1 = SweepEnd.leftImage →
    imageContains M N (sweep opts M N pol acceptable step fuel s).2.curPt = false ∧
    (sweep opts M N pol acceptable step fuel s).2.reads.getLast? =
      some { x := truncate (sweep opts M N pol acceptable step fuel s).2.curPt.1,
             y := truncate (sweep opts M N pol acceptable step fuel s).2.curPt.2 } := by
  intro fuel
  induction fuel with
  | zero => intro s _ _ h; cases h
  | succ fuel ih =>
    intro s hne hinv
    unfold sweep
    by_cases hc : imageContains M N s.curPt = true
    · rw [if_pos hc]
      simp only
      by_cases hneg : truncate (s.curPt.1 + step.1) < 0 ∨ truncate (s.curPt.2 + step.2) < 0
      · rw [if_pos hneg]
        intro h; cases h
      · rw [if_neg hneg]
        obtain ⟨hr, hp⟩ := sweepStep_reads N pol acceptable s
          (s.curPt.1 + step.1, s.curPt.2 + step.2) (truncate (s.curPt.1 + step.1))
          (truncate (s.curPt.2 + step.2))
        split_ifs
        · intro h; cases h
        · refine ih _ (Or.inl ?_) ?_
          · rw [hr]; simp
          · intro p hlast
            rw [hr] at hlast
            simp only [List.getLast?_append, List.getLast?_singleton, Option.or_some,
              Option.some.injEq, List.getLast?_concat] at hlast
            rw [hp, ← hlast]
    · rw [if_neg hc]
      intro _
      simp only
      refine ⟨by simpa using hc, ?_⟩
      rcases hne with h | h
      · cases hl : s.reads.getLast? with
        | none => exact absurd (List.getLast?_eq_none_iff.1 hl) h
        | some p => rw [hinv p hl]
      · exact absurd h hc

end BarcodeLocator


namespace BarcodeLocator

open BarcodeDecoder (TPointInt Barcode)

theorem truncate_ge (d : ℚ) (n : Nat) (h : (n : ℚ) ≤ d) : Int.ofNat n ≤ truncate d := by
  unfold truncate
  have h0 : (0 : ℚ) ≤ d := le_trans (Nat.cast_nonneg n) h
  rw [if_pos h0]
  exact Rat.le_floor.2 (by simpa using h)

/-- Whenever the first direction of a scan that starts inside the image ends because the
point has left the image, the maps have been read at the pixel of that point; unless the
point has a negative coordinate, the pixel lies outside the image rectangle. -/
theorem first_sweep_reads_outside (opts : Options) (M N : Nat) (pol : Polar)
    (acceptable : Nat → Bool) (step : ℚ × ℚ) (fuel : Nat) (pt : TPointInt)
    (hin : imageContains M N ((pt.x : ℚ), (pt.y : ℚ)) = true)
    (hend : (firstSweep opts M N pol acceptable step fuel pt).1 = SweepEnd.leftImage) :
    ∃ p, (firstSweep opts M N pol acceptable step fuel pt).2.reads.getLast? = some p ∧
      (0 ≤ (firstSweep opts M N pol acceptable step fuel pt).2.curPt.1 →
        0 ≤ (firstSweep opts M N pol acceptable step fuel pt).2.curPt.2 →
        ¬ insideImage M N p) := by
  obtain ⟨hout, hlast⟩ := sweep_leaves_after_reading opts M N pol acceptable step fuel
    (Sweep.start 0 pt) (Or.inr hin) (fun p hp => by simp [Sweep.start] at hp) hend
  refine ⟨_, hlast, ?_⟩
  intro h1 h2 hins
  unfold insideImage at hins
  simp only at hins
  unfold imageContains at hout
  simp only [Nat.zero_add, gt_iff_lt, Bool.and_eq_false_iff, decide_eq_false_iff_not,
    not_le, not_lt] at hout
  unfold firstSweep at h1 h2
  rcases hout with ((h | h) | h) | h
  · exact absurd h1 (not_le.2 h)
  · have := truncate_ge _ N h
    omega
  · exact absurd h2 (not_le.2 h)
  · have := truncate_ge _ M h
    omega

/-- C37, the code at the failing input: in an image of 3 rows and 12 columns without any
edge, the scan at orientation 0 from the pixel `(8, 1)`, which lies inside the image, moves
the point before it reads, and reads the maps at `(9, 1)`, `(10, 1)`, `(11, 1)` and at
`(12, 1)`, a pixel outside the image rectangle; the opposite direction ends at the point
`(-1, 1)`, whose conversion to an unsigned pixel index is undefined.  In general, whenever
the first direction of a scan that starts inside the image ends because the point has left
the image, the last pixel read is the pixel of that point, and it lies outside the image
rectangle unless the point has a negative coordinate. -/
theorem scan_reads_outside_the_image :
    (insideImage 3 12 { x := 8, y := 1 } ∧
      firstSweep defaultOptions 3 12 noEdgePolar (isAcceptable 18 0) (1, 0) 100
          { x := 8, y := 1 } =
        (SweepEnd.leftImage,
          { nEdges := 0, dist := 0, curPt := (12, 1), lastEdge := { x := 0, y := 0 },
            reads := [{ x := 9, y := 1 }, { x := 10, y := 1 }, { x := 11, y := 1 },
              { x := 12, y := 1 }] }) ∧
      ¬ insideImage 3 12 { x := 12, y := 1 } ∧
      (secondSweep defaultOptions 3 12 noEdgePolar (isAcceptable 18 0) (1, 0) 100
          { x := 8, y := 1 }).1 = SweepEnd.negativeIndex ∧
      (secondSweep defaultOptions 3 12 noEdgePolar (isAcceptable 18 0) (1, 0) 100
          { x := 8, y := 1 }).2.curPt = (-1, 1)) ∧
    (∀ (opts : Options) (M N : Nat) (pol : Polar) (acceptable : Nat → Bool) (step : ℚ × ℚ)
      (fuel : Nat) (pt : TPointInt), imageContains M N ((pt.x : ℚ), (pt.y : ℚ)) = true →
      (firstSweep opts M N pol acceptable step fuel pt).1 = SweepEnd.leftImage →
      ∃ p, (firstSweep opts M N pol acceptable step fuel pt).2.reads.getLast? = some p ∧
        (0 ≤ (firstSweep opts M N pol acceptable step fuel pt).2.curPt.1 →
          0 ≤ (firstSweep opts M N pol acceptable step fuel pt).2.curPt.2 →
          ¬ insideImage M N p)) :=
  ⟨⟨by decide, by decide!, by decide, by decide!, by decide!⟩, first_sweep_reads_outside⟩

end BarcodeLocator

